import Mathlib

/-! aria2 storage core.

A shallow embedding of `MultiDiskAdaptor` (src/MultiDiskAdaptor.cc): the logical
byte space of a multi-file download mapped onto per-file disk writers, with a
bounded cache of open handles.

Conventions of the embedding.

* Integer types follow the LP64 data model: `off_t` is a signed 64-bit integer,
  `uint64_t` and `size_t` are unsigned 64-bit integers.  Values are kept in
  `Int`/`Nat`; where the C++ expression converts or can wrap, the result is
  passed through `u64` or `i64`.
* A `SharedHandle<DiskWriterEntry>` is the index of the entry in
  `diskWriterEntries`; `_openedDiskWriterEntries` is a list of such indices.
* A C++ exception is the `Except.error` component of the result; the adaptor
  state reached when the exception left the function is returned with it.
* Dereferencing an invalid iterator or a null handle is `DlAbort.undefinedBehaviour`.
-/

namespace aria2

/-! ## Machine integers -/

/-- One byte of file data. -/
abbrev Byte := Nat

/-- Conversion of a mathematical integer to `uint64_t` (reduction modulo 2^64). -/
def u64 (x : Int) : Nat := (x % 18446744073709551616).toNat

/-- Conversion of a mathematical integer to `off_t` (two's complement, 64 bit). -/
def i64 (x : Int) : Int :=
  (x + 9223372036854775808) % 18446744073709551616 - 9223372036854775808

/-! ## Data model -/

/-- The fields of `FileEntry` (src/FileEntry.h) used by the disk adaptor. -/
structure FileEntry where
  path : String
  length : Nat
  offset : Int
  requested : Bool
deriving DecidableEq, Repr

/-- Modelled from the spec: `DiskWriter`/`DefaultDiskWriter` are not among the
sources.  A physical file is the byte array `content`; `openable` tells whether
a physical open of the file succeeds (it throws otherwise). -/
structure DiskWriter where
  content : List Byte
  openable : Bool
deriving DecidableEq, Repr

/-- Class `DiskWriterEntry`: a file entry, its lazily created disk writer
(`none` is the null handle) and the flags `_open`, `_directIO`,
`_needsFileAllocation`. -/
structure DiskWriterEntry where
  fileEntry : FileEntry
  isOpen : Bool
  directIO : Bool
  needsFileAllocation : Bool
  diskWriter : Option DiskWriter
deriving DecidableEq, Repr

/-- The exceptions `DL_ABORT_EX` raised by the adaptor, the failure of a
physical open, and undefined behaviour. -/
inductive DlAbort where
  | fileOffsetOutOfRange (offset : Int)
  | diskWriterNotOpened (offset : Int) (entry : Nat)
  | openFailed (entry : Nat)
  | undefinedBehaviour
deriving DecidableEq, Repr

/-- The calls made on physical disk writers, in the order they are made. -/
inductive IoEvent where
  | opened (entry : Nat)
  | closed (entry : Nat)
  | wrote (entry : Nat) (data : List Byte) (offset : Int)
  | read (entry : Nat) (len : Nat) (offset : Int)
deriving DecidableEq, Repr

/-- The member function pointer `void (DiskWriterEntry::*open)()`. -/
inductive OpenMethod where
  | initAndOpenFile
  | openFile
  | openExistingFile
deriving DecidableEq, Repr

/-- Class `MultiDiskAdaptor`.  `randomizer` is the sequence of raw values the
process-wide `SimpleRandomizer` yields and `randomCalls` the number of values
drawn so far; `ioLog` records the physical calls. -/
structure MultiDiskAdaptor where
  fileEntries : List FileEntry
  diskWriterEntries : List DiskWriterEntry
  openedDiskWriterEntries : List Nat
  pieceLength : Nat
  maxOpenFiles : Nat
  directIOAllowed : Bool
  readOnly : Bool
  randomizer : Nat → Nat
  randomCalls : Nat
  ioLog : List IoEvent

instance instDecidableEqExcept {ε α : Type} [DecidableEq ε] [DecidableEq α] :
    DecidableEq (Except ε α) := fun a b =>
  match a, b with
  | .ok x, .ok y =>
    if h : x = y then isTrue (by rw [h]) else isFalse (by intro c; cases c; exact h rfl)
  | .error x, .error y =>
    if h : x = y then isTrue (by rw [h]) else isFalse (by intro c; cases c; exact h rfl)
  | .ok _, .error _ => isFalse (by intro c; cases c)
  | .error _, .ok _ => isFalse (by intro c; cases c)

/-! ## Physical disk writer -/

/-- Modelled from the spec: `DiskWriter::writeData(data, len, offset)` stores
`data` at position `offset` of the file, extending the file with zero bytes
when it is shorter than `offset`. -/
def DiskWriter.writeData (w : DiskWriter) (data : List Byte) (offset : Nat) : DiskWriter :=
  { w with content :=
      w.content.take offset ++ List.replicate (offset - w.content.length) 0 ++ data ++
        w.content.drop (offset + data.length) }

/-- Modelled from the spec: `DiskWriter::readData(data, len, offset)` yields the
bytes of the file from position `offset` on, at most `len` of them; the value
returned by the C++ function is the length of this list. -/
def DiskWriter.readData (w : DiskWriter) (len : Nat) (offset : Nat) : List Byte :=
  (w.content.drop offset).take len

/-! ## DiskWriterEntry -/

/-- The common body of `DiskWriterEntry::initAndOpenFile`, `openFile` and
`openExistingFile`: with a null writer nothing happens, otherwise the physical
open is performed (it may throw) and `_open` is set. -/
def DiskWriterEntry.open (e : DiskWriterEntry) (_m : OpenMethod) (self : Nat) :
    Except DlAbort DiskWriterEntry :=
  match e.diskWriter with
  | none => .ok e
  | some w => if w.openable then .ok { e with isOpen := true } else .error (.openFailed self)

/-- Method `DiskWriterEntry::closeFile`. -/
def DiskWriterEntry.closeFile (e : DiskWriterEntry) : DiskWriterEntry :=
  if e.isOpen then { e with isOpen := false } else e

/-! ## Offset resolution -/

/-- Function `isInRange`. -/
def isInRange (entry : DiskWriterEntry) (offset : Int) : Bool :=
  decide (entry.fileEntry.offset ≤ offset) &&
    decide (u64 offset < u64 (entry.fileEntry.offset + entry.fileEntry.length))

/-- Function `calculateLength`. -/
def calculateLength (entry : DiskWriterEntry) (fileOffset : Int) (rem : Nat) : Nat :=
  if entry.fileEntry.length < u64 (fileOffset + rem) then
    u64 (entry.fileEntry.length - fileOffset)
  else
    rem

/-- The loop of `std::upper_bound` with `OffsetCompare`: `first` and `len`
delimit the range still searched; the first argument bounds the number of
halvings. -/
def upperBoundLoop (entries : List DiskWriterEntry) (offset : Int) : Nat → Nat → Nat → Nat
  | 0, first, _ => first
  | fuel + 1, first, len =>
    if len = 0 then first
    else
      let half := len / 2
      let middle := first + half
      match entries[middle]? with
      | none => first
      | some dwe =>
        if offset < dwe.fileEntry.offset then upperBoundLoop entries offset fuel first half
        else upperBoundLoop entries offset fuel (middle + 1) (len - half - 1)

/-- The call `std::upper_bound(diskWriterEntries.begin(), diskWriterEntries.end(),
offset, OffsetCompare())`, as an index. -/
def upperBound (entries : List DiskWriterEntry) (offset : Int) : Nat :=
  upperBoundLoop entries offset entries.length 0 entries.length

/-- Function `findFirstDiskWriterEntry`.  Decrementing the iterator `begin()`
is undefined behaviour. -/
def findFirstDiskWriterEntry (entries : List DiskWriterEntry) (offset : Int) :
    Except DlAbort Nat :=
  let first := upperBound entries offset
  if first = 0 then .error .undefinedBehaviour
  else
    let first := first - 1
    match entries[first]? with
    | none => .error .undefinedBehaviour
    | some entry =>
      if !isInRange entry offset then .error (.fileOffsetOutOfRange offset)
      else .ok first

/-! ## The cache of open handles -/

/-- Modelled from the spec: `SimpleRandomizer::getRandomNumber(to)` is not among
the sources; it yields a number below its argument, here the raw value reduced
modulo the argument. -/
def getRandomNumber (raw : Nat) (bound : Nat) : Nat := raw % bound

/-- The call `(*i)->closeFile()` on the entry held at index `i`. -/
def closeEntry (s : MultiDiskAdaptor) (i : Nat) : MultiDiskAdaptor :=
  match s.diskWriterEntries[i]? with
  | none => s
  | some e =>
    { s with
      diskWriterEntries := s.diskWriterEntries.set i e.closeFile
      ioLog := if e.isOpen then s.ioLog ++ [.closed i] else s.ioLog }

/-- First half of the miss branch of `MultiDiskAdaptor::openIfNot`: the call
`(entry.get()->*open)()`. -/
def openIfNotOpen (s : MultiDiskAdaptor) (entry : Nat) (e : DiskWriterEntry) (m : OpenMethod) :
    Except DlAbort Unit × MultiDiskAdaptor :=
  match e.open m entry with
  | .error err => (.error err, s)
  | .ok e1 =>
    (.ok (),
      { s with
        diskWriterEntries := s.diskWriterEntries.set entry e1
        ioLog := if e.diskWriter.isSome then s.ioLog ++ [.opened entry] else s.ioLog })

/-- Second half of the miss branch of `MultiDiskAdaptor::openIfNot`: with a full
cache a random slot is closed and given to `entry`, otherwise `entry` is
appended.  `numOpened` was read before the open. -/
def openIfNotCache (s : MultiDiskAdaptor) (entry : Nat) (numOpened : Nat) :
    Except DlAbort Unit × MultiDiskAdaptor :=
  if numOpened ≥ s.maxOpenFiles then
    let index := getRandomNumber (s.randomizer s.randomCalls) numOpened
    let s1 := { s with randomCalls := s.randomCalls + 1 }
    match s1.openedDiskWriterEntries[index]? with
    | none => (.error .undefinedBehaviour, s1)
    | some victim =>
      let s2 := closeEntry s1 victim
      (.ok (), { s2 with openedDiskWriterEntries := s2.openedDiskWriterEntries.set index entry })
  else
    (.ok (), { s with openedDiskWriterEntries := s.openedDiskWriterEntries ++ [entry] })

/-- Method `MultiDiskAdaptor::openIfNot`. -/
def openIfNot (s : MultiDiskAdaptor) (entry : Nat) (m : OpenMethod) :
    Except DlAbort Unit × MultiDiskAdaptor :=
  match s.diskWriterEntries[entry]? with
  | none => (.error .undefinedBehaviour, s)
  | some e =>
    if !e.isOpen then
      let numOpened := s.openedDiskWriterEntries.length
      match openIfNotOpen s entry e m with
      | (.error err, s1) => (.error err, s1)
      | (.ok (), s1) => openIfNotCache s1 entry numOpened
    else
      (.ok (), s)

/-- The loop of `MultiDiskAdaptor::closeFile` over the entries from index `i`. -/
def closeFileLoop : Nat → Nat → MultiDiskAdaptor → MultiDiskAdaptor
  | 0, _, s => s
  | k + 1, i, s => closeFileLoop k (i + 1) (closeEntry s i)

/-- Method `MultiDiskAdaptor::closeFile`. -/
def closeFile (s : MultiDiskAdaptor) : MultiDiskAdaptor :=
  closeFileLoop s.diskWriterEntries.length 0 s

/-! ## Reading and writing the logical space -/

/-- The call `(*i)->getDiskWriter()->writeData(data, writeLength, fileOffset)` on
entry `i`. -/
def entryWriteData (s : MultiDiskAdaptor) (i : Nat) (chunk : List Byte) (fileOffset : Int) :
    Except DlAbort Unit × MultiDiskAdaptor :=
  match s.diskWriterEntries[i]? with
  | none => (.error .undefinedBehaviour, s)
  | some e =>
    match e.diskWriter with
    | none => (.error .undefinedBehaviour, s)
    | some w =>
      (.ok (),
        { s with
          diskWriterEntries :=
            s.diskWriterEntries.set i
              { e with diskWriter := some (w.writeData chunk fileOffset.toNat) }
          ioLog := s.ioLog ++ [.wrote i chunk fileOffset] })

/-- The loop of `MultiDiskAdaptor::writeData`: `k` entries remain from index `i`
to the end of `diskWriterEntries`. -/
def writeDataLoop (data : List Byte) (len : Nat) (offset : Int) :
    Nat → Nat → MultiDiskAdaptor → Nat → Int → Except DlAbort Unit × MultiDiskAdaptor
  | 0, _, s, _, _ => (.ok (), s)
  | k + 1, i, s, rem, fileOffset =>
    match s.diskWriterEntries[i]? with
    | none => (.error .undefinedBehaviour, s)
    | some e =>
      let writeLength := calculateLength e fileOffset rem
      match openIfNot s i .openFile with
      | (.error err, s1) => (.error err, s1)
      | (.ok (), s1) =>
        match s1.diskWriterEntries[i]? with
        | none => (.error .undefinedBehaviour, s1)
        | some e1 =>
          if !e1.isOpen then
            (.error (.diskWriterNotOpened (i64 (offset + u64 (len - rem))) i), s1)
          else
            match entryWriteData s1 i ((data.drop (u64 (len - rem))).take writeLength)
                fileOffset with
            | (.error err, s2) => (.error err, s2)
            | (.ok (), s2) =>
              let rem1 := u64 (rem - writeLength)
              if rem1 = 0 then (.ok (), s2)
              else writeDataLoop data len offset k (i + 1) s2 rem1 0

/-- Method `MultiDiskAdaptor::writeData`. -/
def writeData (s : MultiDiskAdaptor) (data : List Byte) (len : Nat) (offset : Int) :
    Except DlAbort Unit × MultiDiskAdaptor :=
  match findFirstDiskWriterEntry s.diskWriterEntries offset with
  | .error err => (.error err, s)
  | .ok first =>
    match s.diskWriterEntries[first]? with
    | none => (.error .undefinedBehaviour, s)
    | some e =>
      writeDataLoop data len offset (s.diskWriterEntries.length - first) first s len
        (i64 (offset - e.fileEntry.offset))

/-- The call `(*i)->getDiskWriter()->readData(data, readLength, fileOffset)` on
entry `i`: the bytes read. -/
def entryReadData (s : MultiDiskAdaptor) (i : Nat) (readLength : Nat) (fileOffset : Int) :
    Except DlAbort (List Byte) × MultiDiskAdaptor :=
  match s.diskWriterEntries[i]? with
  | none => (.error .undefinedBehaviour, s)
  | some e =>
    match e.diskWriter with
    | none => (.error .undefinedBehaviour, s)
    | some w =>
      (.ok (w.readData readLength fileOffset.toNat),
        { s with ioLog := s.ioLog ++ [.read i readLength fileOffset] })

/-- Storing the bytes `bytes` into the buffer `buf` from position `pos` on. -/
def storeAt (buf : List Byte) (pos : Nat) (bytes : List Byte) : List Byte :=
  buf.take pos ++ bytes ++ buf.drop (pos + bytes.length)

/-- The loop of `MultiDiskAdaptor::readData`; the result is `totalReadLength`
and the buffer `data`. -/
def readDataLoop (len : Nat) (offset : Int) :
    Nat → Nat → MultiDiskAdaptor → List Byte → Nat → Nat → Int →
      Except DlAbort (Nat × List Byte) × MultiDiskAdaptor
  | 0, _, s, buf, total, _, _ => (.ok (total, buf), s)
  | k + 1, i, s, buf, total, rem, fileOffset =>
    match s.diskWriterEntries[i]? with
    | none => (.error .undefinedBehaviour, s)
    | some e =>
      let readLength := calculateLength e fileOffset rem
      match openIfNot s i .openFile with
      | (.error err, s1) => (.error err, s1)
      | (.ok (), s1) =>
        match s1.diskWriterEntries[i]? with
        | none => (.error .undefinedBehaviour, s1)
        | some e1 =>
          if !e1.isOpen then
            (.error (.diskWriterNotOpened (i64 (offset + u64 (len - rem))) i), s1)
          else
            match entryReadData s1 i readLength fileOffset with
            | (.error err, s2) => (.error err, s2)
            | (.ok bytes, s2) =>
              let buf1 := storeAt buf (u64 (len - rem)) bytes
              let total1 := u64 (total + bytes.length)
              let rem1 := u64 (rem - readLength)
              if rem1 = 0 then (.ok (total1, buf1), s2)
              else readDataLoop len offset k (i + 1) s2 buf1 total1 rem1 0

/-- Method `MultiDiskAdaptor::readData`: the value returned and the buffer. -/
def readData (s : MultiDiskAdaptor) (buf : List Byte) (len : Nat) (offset : Int) :
    Except DlAbort (Nat × List Byte) × MultiDiskAdaptor :=
  match findFirstDiskWriterEntry s.diskWriterEntries offset with
  | .error err => (.error err, s)
  | .ok first =>
    match s.diskWriterEntries[first]? with
    | none => (.error .undefinedBehaviour, s)
    | some e =>
      readDataLoop len offset (s.diskWriterEntries.length - first) first s buf 0 len
        (i64 (offset - e.fileEntry.offset))


/-! ## Well-formed entry lists -/

/-- The end `offset + length` of the byte range of an entry, as a mathematical integer. -/
def DiskWriterEntry.lastOffset (e : DiskWriterEntry) : Int :=
  e.fileEntry.offset + e.fileEntry.length

/-- The entries are contiguous: each one ends where the next one starts. -/
def Contiguous : List DiskWriterEntry → Prop
  | [] => True
  | [_] => True
  | a :: b :: rest => a.lastOffset = b.fileEntry.offset ∧ Contiguous (b :: rest)

/-- The entries are ordered by offset. -/
def OffsetOrdered (entries : List DiskWriterEntry) : Prop :=
  List.Pairwise (fun a b => a.fileEntry.offset ≤ b.fileEntry.offset) entries

/-- Every range lies in the non-negative part of `off_t`. -/
def Representable (entries : List DiskWriterEntry) : Prop :=
  ∀ e ∈ entries, 0 ≤ e.fileEntry.offset ∧ e.lastOffset < 9223372036854775808

/-- The byte range of `e` contains `offset`. -/
def Contains (e : DiskWriterEntry) (offset : Int) : Prop :=
  e.fileEntry.offset ≤ offset ∧ offset < e.lastOffset

instance instDecidableContains (e : DiskWriterEntry) (offset : Int) :
    Decidable (Contains e offset) :=
  inferInstanceAs (Decidable (e.fileEntry.offset ≤ offset ∧ offset < e.lastOffset))

instance instDecidableContiguous : (entries : List DiskWriterEntry) →
    Decidable (Contiguous entries)
  | [] => isTrue trivial
  | [_] => isTrue trivial
  | a :: b :: rest =>
    have : Decidable (Contiguous (b :: rest)) := instDecidableContiguous (b :: rest)
    inferInstanceAs (Decidable (a.lastOffset = b.fileEntry.offset ∧ Contiguous (b :: rest)))

instance instDecidableRepresentable (entries : List DiskWriterEntry) :
    Decidable (Representable entries) :=
  inferInstanceAs
    (Decidable (∀ e ∈ entries, 0 ≤ e.fileEntry.offset ∧ e.lastOffset < 9223372036854775808))

/-! ## Views of the adaptor state -/

/-- The bytes of the physical file behind an entry (empty without a disk writer). -/
def contentOf (e : DiskWriterEntry) : List Byte :=
  match e.diskWriter with
  | some w => w.content
  | none => []

/-- The entry has a disk writer whose physical open succeeds. -/
def canOpen (e : DiskWriterEntry) : Bool :=
  match e.diskWriter with
  | some w => w.openable
  | none => false

/-- The physical files of all entries, in entry order. -/
def contents (s : MultiDiskAdaptor) : List (List Byte) :=
  s.diskWriterEntries.map contentOf

/-- The logical byte space: the physical files one after the other. -/
def logicalSpace (s : MultiDiskAdaptor) : List Byte :=
  (contents s).flatten

/-- The part of an entry that no adaptor operation changes except a physical
write: its file entry and its disk writer. -/
def diskPart (e : DiskWriterEntry) : FileEntry × Option DiskWriter :=
  (e.fileEntry, e.diskWriter)

/-- Entry `i` exists and its `_open` flag is set. -/
def isOpenAt (s : MultiDiskAdaptor) (i : Nat) : Bool :=
  match s.diskWriterEntries[i]? with
  | some e => e.isOpen
  | none => false

/-- The number of handle entries whose `isOpen()` is true. -/
def openCount (s : MultiDiskAdaptor) : Nat :=
  (s.diskWriterEntries.filter (fun e => e.isOpen)).length

/-- Every entry can be opened. -/
def Openable (s : MultiDiskAdaptor) : Prop :=
  ∀ e ∈ s.diskWriterEntries, canOpen e = true

/-- The cache holds each open entry once and nothing else, and the cap is
positive. -/
def CacheConsistent (s : MultiDiskAdaptor) : Prop :=
  1 ≤ s.maxOpenFiles ∧ s.openedDiskWriterEntries.Nodup ∧
    ∀ j ∈ s.openedDiskWriterEntries, isOpenAt s j = true

/-- Every physical file has exactly its declared length. -/
def FullFiles (s : MultiDiskAdaptor) : Prop :=
  ∀ e ∈ s.diskWriterEntries, (contentOf e).length = e.fileEntry.length

/-- The physical write calls of a log. -/
def wroteEvents (log : List IoEvent) : List IoEvent :=
  log.filter (fun ev => match ev with
    | .wrote _ _ _ => true
    | _ => false)

/-- The physical read calls of a log. -/
def readEvents (log : List IoEvent) : List IoEvent :=
  log.filter (fun ev => match ev with
    | .read _ _ _ => true
    | _ => false)

instance instDecidableOpenable (s : MultiDiskAdaptor) : Decidable (Openable s) :=
  inferInstanceAs (Decidable (∀ e ∈ s.diskWriterEntries, canOpen e = true))

instance instDecidableCacheConsistent (s : MultiDiskAdaptor) :
    Decidable (CacheConsistent s) :=
  inferInstanceAs
    (Decidable (1 ≤ s.maxOpenFiles ∧ s.openedDiskWriterEntries.Nodup ∧
      ∀ j ∈ s.openedDiskWriterEntries, isOpenAt s j = true))

instance instDecidableFullFiles (s : MultiDiskAdaptor) : Decidable (FullFiles s) :=
  inferInstanceAs
    (Decidable (∀ e ∈ s.diskWriterEntries, (contentOf e).length = e.fileEntry.length))

/-- What the cache operations leave alone: file entries, disk writers, the cap
and the physical transfers logged. -/
def CacheFrame (s s1 : MultiDiskAdaptor) : Prop :=
  s1.diskWriterEntries.map diskPart = s.diskWriterEntries.map diskPart ∧
    s1.maxOpenFiles = s.maxOpenFiles ∧
    wroteEvents s1.ioLog = wroteEvents s.ioLog ∧
    readEvents s1.ioLog = readEvents s.ioLog

/-! ## What a write is expected to do -/

/-- The physical writes expected of a write of `d` that starts at local offset
`localOffset` of entry `i`, the head of `parts`: each entry receives the next
`min(remaining, fileLength - localOffset)` bytes, later entries from local
offset 0, until nothing remains or the entries are exhausted. -/
def expectedWrites :
    List (FileEntry × Option DiskWriter) → Nat → Nat → List Byte → List IoEvent
  | [], _, _, _ => []
  | p :: rest, i, localOffset, d =>
    .wrote i (d.take (min d.length (p.1.length - localOffset))) localOffset ::
      (if d.length ≤ p.1.length - localOffset then []
        else expectedWrites rest (i + 1) 0 (d.drop (p.1.length - localOffset)))

/-- The disk parts after the writes of `expectedWrites` have been performed. -/
def spreadParts : List (FileEntry × Option DiskWriter) → Nat → List Byte →
    List (FileEntry × Option DiskWriter)
  | [], _, _ => []
  | p :: rest, localOffset, d =>
    (p.1, p.2.map (fun w =>
        w.writeData (d.take (min d.length (p.1.length - localOffset))) localOffset)) ::
      (if d.length ≤ p.1.length - localOffset then rest
        else spreadParts rest 0 (d.drop (p.1.length - localOffset)))

/-- The data carried by a physical write call. -/
def IoEvent.chunk : IoEvent → List Byte
  | .wrote _ data _ => data
  | _ => []

/-- Every declared file length fits the non-negative part of `off_t`. -/
def Bounded (s : MultiDiskAdaptor) : Prop :=
  ∀ e ∈ s.diskWriterEntries, (e.fileEntry.length : Int) < 9223372036854775808

instance instDecidableBounded (s : MultiDiskAdaptor) : Decidable (Bounded s) :=
  inferInstanceAs
    (Decidable (∀ e ∈ s.diskWriterEntries, (e.fileEntry.length : Int) < 9223372036854775808))

/-- The sum of the declared lengths of a list of disk parts. -/
def totalLength (parts : List (FileEntry × Option DiskWriter)) : Nat :=
  (parts.map (fun p => p.1.length)).sum

/-- The bytes of the physical file of a disk part (empty without a disk writer). -/
def partContent (p : FileEntry × Option DiskWriter) : List Byte :=
  match p.2 with
  | some w => w.content
  | none => []

/-- Every physical file is at least as long as declared, so that a physical read
inside the declared length returns the full length asked. -/
def FullReads (s : MultiDiskAdaptor) : Prop :=
  ∀ e ∈ s.diskWriterEntries, e.fileEntry.length ≤ (contentOf e).length

instance instDecidableFullReads (s : MultiDiskAdaptor) : Decidable (FullReads s) :=
  inferInstanceAs
    (Decidable (∀ e ∈ s.diskWriterEntries, e.fileEntry.length ≤ (contentOf e).length))

/-- The bytes expected of a read of `n` bytes that starts at local offset
`localOffset` of the head of `parts`: from each entry the next
`min(remaining, fileLength - localOffset)` bytes, later entries from local
offset 0, until nothing remains or the entries are exhausted. -/
def gatherParts : List (FileEntry × Option DiskWriter) → Nat → Nat → List Byte
  | [], _, _ => []
  | p :: rest, localOffset, n =>
    ((partContent p).drop localOffset).take (min n (p.1.length - localOffset)) ++
      (if n ≤ p.1.length - localOffset then []
        else gatherParts rest 0 (n - (p.1.length - localOffset)))

/-- The first offset of the logical space: the offset of the first entry. -/
def logicalStart (s : MultiDiskAdaptor) : Int :=
  match s.diskWriterEntries.head? with
  | some e => e.fileEntry.offset
  | none => 0

/-- The end of the logical space: the end of the last entry. -/
def logicalEnd (s : MultiDiskAdaptor) : Int :=
  match s.diskWriterEntries.getLast? with
  | some e => e.lastOffset
  | none => 0

/-- The model disk: a non-empty, contiguous, representable entry list in which
every entry can be opened and every physical file has exactly its declared
length, with a consistent cache. -/
def ModelDisk (s : MultiDiskAdaptor) : Prop :=
  Openable s ∧ CacheConsistent s ∧ Contiguous s.diskWriterEntries ∧
    Representable s.diskWriterEntries ∧ FullFiles s ∧ s.diskWriterEntries ≠ []

instance instDecidableModelDisk (s : MultiDiskAdaptor) : Decidable (ModelDisk s) :=
  inferInstanceAs
    (Decidable (Openable s ∧ CacheConsistent s ∧ Contiguous s.diskWriterEntries ∧
      Representable s.diskWriterEntries ∧ FullFiles s ∧ s.diskWriterEntries ≠ []))

/-- A disk part with an openable writer over a file of exactly the declared length. -/
def GoodPart (p : FileEntry × Option DiskWriter) : Prop :=
  ∃ w, p.2 = some w ∧ w.openable = true ∧ w.content.length = p.1.length

/-! ## Sequences of writes -/

/-- The arguments of one `writeData` call; `len` is the length of `data`. -/
structure WriteCall where
  data : List Byte
  offset : Int
deriving DecidableEq, Repr

/-- The logical position `p` is one of the bytes written by the call. -/
def WriteCall.Covers (w : WriteCall) (p : Int) : Prop :=
  w.offset ≤ p ∧ p < w.offset + w.data.length

/-- The ranges of two calls do not overlap. -/
def WriteCall.Disjoint (a b : WriteCall) : Prop :=
  a.offset + a.data.length ≤ b.offset ∨ b.offset + b.data.length ≤ a.offset

instance instDecidableCovers (w : WriteCall) (p : Int) : Decidable (w.Covers p) :=
  inferInstanceAs (Decidable (w.offset ≤ p ∧ p < w.offset + w.data.length))

instance instDecidableDisjoint (a b : WriteCall) : Decidable (a.Disjoint b) :=
  inferInstanceAs (Decidable (a.offset + a.data.length ≤ b.offset ∨
    b.offset + b.data.length ≤ a.offset))

/-- The calls are issued one after the other; the first exception ends the run. -/
def runWrites (s : MultiDiskAdaptor) : List WriteCall → Except DlAbort Unit × MultiDiskAdaptor
  | [] => (.ok (), s)
  | w :: rest =>
    match writeData s w.data w.data.length w.offset with
    | (.error err, s1) => (.error err, s1)
    | (.ok (), s1) => runWrites s1 rest

/-! ## Bytes consumed -/

/-- The number of bytes handed to physical write calls in a log. -/
def bytesWritten (log : List IoEvent) : Nat :=
  ((wroteEvents log).map (fun ev => ev.chunk.length)).sum

/-- The length asked of a physical read call. -/
def IoEvent.readLength : IoEvent → Nat
  | .read _ len _ => len
  | _ => 0

/-- The number of bytes asked of physical read calls in a log. -/
def bytesAsked (log : List IoEvent) : Nat :=
  ((readEvents log).map IoEvent.readLength).sum

/-! ## Sequences of calls -/

/-- One call on the adaptor. -/
inductive AdaptorCall where
  | openIfNot (entry : Nat) (method : OpenMethod)
  | writeData (data : List Byte) (len : Nat) (offset : Int)
  | readData (buf : List Byte) (len : Nat) (offset : Int)
  | closeFile
deriving DecidableEq, Repr

/-- The adaptor after a call, whether the call returned or threw. -/
def performCall (s : MultiDiskAdaptor) : AdaptorCall → MultiDiskAdaptor
  | .openIfNot entry method => (openIfNot s entry method).2
  | .writeData data len offset => (writeData s data len offset).2
  | .readData buf len offset => (readData s buf len offset).2
  | .closeFile => closeFile s

/-- The adaptor after a sequence of calls. -/
def performCalls (s : MultiDiskAdaptor) (calls : List AdaptorCall) : MultiDiskAdaptor :=
  calls.foldl performCall s

/-- The cap is `cap`, it is positive, the cache is within it and holds every
open entry. -/
def WithinCap (cap : Nat) (s : MultiDiskAdaptor) : Prop :=
  s.maxOpenFiles = cap ∧ 1 ≤ cap ∧ s.openedDiskWriterEntries.length ≤ cap ∧
    ∀ j, isOpenAt s j = true → j ∈ s.openedDiskWriterEntries

/-! ## Example adaptors -/

/-- A requested, closed entry over an openable file of `length` zero bytes. -/
def exampleEntry (path : String) (offset : Int) (length : Nat) : DiskWriterEntry :=
  { fileEntry := { path := path, length := length, offset := offset, requested := true }
    isOpen := false
    directIO := false
    needsFileAllocation := true
    diskWriter := some { content := List.replicate length 0, openable := true } }

/-- An adaptor over `entries` with nothing open and cap `maxOpenFiles`; the
randomizer yields 0, 1, 2, ... -/
def exampleAdaptor (entries : List DiskWriterEntry) (maxOpenFiles : Nat) : MultiDiskAdaptor :=
  { fileEntries := entries.map (fun e => e.fileEntry)
    diskWriterEntries := entries
    openedDiskWriterEntries := []
    pieceLength := 0
    maxOpenFiles := maxOpenFiles
    directIOAllowed := false
    readOnly := false
    randomizer := fun n => n
    randomCalls := 0
    ioLog := [] }

/-- Two files `[0,10)` and `[10,25)`. -/
def twoFiles : MultiDiskAdaptor :=
  exampleAdaptor [exampleEntry "a" 0 10, exampleEntry "b" 10 15] 100

/-- Three files `[0,10)`, `[10,10)` (empty) and `[10,25)`. -/
def threeWithEmpty : MultiDiskAdaptor :=
  exampleAdaptor [exampleEntry "a" 0 10, exampleEntry "z" 10 0, exampleEntry "b" 10 15] 100

/-- A single empty file `[0,0)`. -/
def oneEmptyFile : MultiDiskAdaptor :=
  exampleAdaptor [exampleEntry "e" 0 0] 100

/-- Three writes that cover the 25 bytes of `twoFiles`, out of order and across the
file boundary. -/
def coveringWrites : List WriteCall :=
  [{ data := [16, 17, 18, 19, 20, 21, 22, 23, 24, 25], offset := 15 },
   { data := [1, 2, 3, 4, 5, 6], offset := 0 },
   { data := [7, 8, 9, 10, 11, 12, 13, 14, 15], offset := 6 }]

/-- The two files `[0,10)` and `[10,25)`, the second without a disk writer. -/
def secondWithoutWriter : MultiDiskAdaptor :=
  exampleAdaptor
    [exampleEntry "a" 0 10, { exampleEntry "b" 10 15 with diskWriter := none }] 100

/-- Three files `[0,10)`, `[10,25)` and `[25,30)` with at most two open handles. -/
def threeFiles : MultiDiskAdaptor :=
  exampleAdaptor [exampleEntry "a" 0 10, exampleEntry "b" 10 15, exampleEntry "c" 25 5] 2

/-- The three files after the first two have been opened: the cache is full. -/
def threeFilesTwoOpen : MultiDiskAdaptor :=
  performCalls threeFiles [.openIfNot 0 .openFile, .openIfNot 1 .openFile]

/-! ## Rebuilding the handle entries -/

/-- Modelled from the spec: `File::exists` and `DefaultDiskWriterFactory` are not
among the sources.  `fileExists path` tells whether the file exists on disk and
`newDiskWriter path` is the disk writer the factory creates for that path.  The
calls `allowDirectIO` and `enableReadOnly` on the new writer set flags that the
model of `DiskWriter` does not carry. -/
structure FileSystem where
  fileExists : String → Bool
  newDiskWriter : String → DiskWriter

/-- Function `createDiskWriterEntry` together with the constructor of
`DiskWriterEntry`. -/
def createDiskWriterEntry (fileEntry : FileEntry) (needsFileAllocation : Bool) :
    DiskWriterEntry :=
  { fileEntry := fileEntry
    isOpen := false
    directIO := false
    needsFileAllocation := needsFileAllocation
    diskWriter := none }

/-- The value `(offset/pieceLength)*pieceLength` of `off_t pieceStartOffset`: the
division and the product are unsigned 64-bit, the result is converted to `off_t`. -/
def pieceStartOffset (fileEntry : FileEntry) (pieceLength : Nat) : Int :=
  i64 ((u64 (((u64 fileEntry.offset / pieceLength : Nat) : Int) * pieceLength) : Nat) : Int)

/-- The value `(offset+length-1)/pieceLength*pieceLength` of
`off_t lastPieceStartOffset`. -/
def lastPieceStartOffset (fileEntry : FileEntry) (pieceLength : Nat) : Int :=
  i64 ((u64
    (((u64 (fileEntry.offset + fileEntry.length - 1) / pieceLength : Nat) : Int) *
      pieceLength) : Nat) : Int)

/-- The value `static_cast<off_t>(lastPieceStartOffset+pieceLength)` below which
the files after a requested file are entered in `dwreq`. -/
def lastPieceEnd (fileEntry : FileEntry) (pieceLength : Nat) : Int :=
  i64 (lastPieceStartOffset fileEntry pieceLength + pieceLength)

/-- The condition of the backward loop of `resetDiskWriterEntries`:
`pieceStartOffset <= offset || (uint64_t)pieceStartOffset < offset+length`. -/
def reachesPieceStart (pieceStartOffset : Int) (fileEntry : FileEntry) : Bool :=
  decide (pieceStartOffset ≤ fileEntry.offset) ||
    decide (u64 pieceStartOffset < u64 (fileEntry.offset + fileEntry.length))

/-- The loop `for(i = itr-1; true; --i)` of `resetDiskWriterEntries`, entered
with iterator `i`: entries are marked as needing allocation while the condition
holds, down to and including `done`.  Decrementing `begin()` is undefined
behaviour. -/
def backwardLoop (pieceStartOffset : Int) (done : Nat) :
    Nat → List DiskWriterEntry → Except DlAbort (List DiskWriterEntry)
  | 0, entries =>
    match entries[0]? with
    | none => .error .undefinedBehaviour
    | some e =>
      if reachesPieceStart pieceStartOffset e.fileEntry then
        if 0 = done then .ok (entries.set 0 { e with needsFileAllocation := true })
        else .error .undefinedBehaviour
      else .ok entries
  | i + 1, entries =>
    match entries[i + 1]? with
    | none => .error .undefinedBehaviour
    | some e =>
      if reachesPieceStart pieceStartOffset e.fileEntry then
        if i + 1 = done then .ok (entries.set (i + 1) { e with needsFileAllocation := true })
        else
          backwardLoop pieceStartOffset done i
            (entries.set (i + 1) { e with needsFileAllocation := true })
      else .ok entries

/-- The loop over the files after a requested file of non-zero length:
`rest` is the range from `itr` to `end()`; files that are not requested or have
length zero are entered in `dwreq` while their offset is below `limit`.  The
result is the iterator at which the loop ends and the map `dwreq` (its keys). -/
def forwardLoop (limit : Int) : List DiskWriterEntry → Nat → List String → Nat × List String
  | [], itr, dwreq => (itr, dwreq)
  | e :: rest, itr, dwreq =>
    if !e.fileEntry.requested || e.fileEntry.length == 0 then
      if e.fileEntry.offset < limit then
        forwardLoop limit rest (itr + 1) (e.fileEntry.path :: dwreq)
      else (itr, dwreq)
    else (itr, dwreq)

/-- The variables of the main loop of `resetDiskWriterEntries`. -/
structure ResetScan where
  entries : List DiskWriterEntry
  dwreq : List String
  done : Nat
  itr : Nat
deriving DecidableEq, Repr

/-- The main loop of `resetDiskWriterEntries` (the branch `pieceLength > 0`).
Every iteration advances `itr`; the first argument bounds the number of
iterations. -/
def resetLoop (pieceLength : Nat) : Nat → ResetScan → Except DlAbort ResetScan
  | 0, st => .ok st
  | fuel + 1, st =>
    match st.entries[st.itr]? with
    | none => .ok st
    | some e =>
      let fileEntry := e.fileEntry
      if !fileEntry.requested then resetLoop pieceLength fuel { st with itr := st.itr + 1 }
      else
        match (if st.itr ≠ 0 then
            backwardLoop (pieceStartOffset fileEntry pieceLength) st.done (st.itr - 1) st.entries
          else .ok st.entries) with
        | .error err => .error err
        | .ok entries =>
          if fileEntry.length > 0 then
            let r := forwardLoop (lastPieceEnd fileEntry pieceLength)
              (entries.drop (st.itr + 1)) (st.itr + 1) st.dwreq
            resetLoop pieceLength fuel
              { entries := entries, dwreq := r.2, done := r.1 - 1, itr := r.1 }
          else
            resetLoop pieceLength fuel
              { entries := entries, dwreq := st.dwreq, done := st.itr, itr := st.itr + 1 }

/-- The first part of `resetDiskWriterEntries`: one entry per file, flagged
with `isRequested()`, then, for `pieceLength > 0`, the main loop. -/
def resetScan (fileEntries : List FileEntry) (pieceLength : Nat) : Except DlAbort ResetScan :=
  let entries := fileEntries.map (fun f => createDiskWriterEntry f f.requested)
  if pieceLength > 0 then
    resetLoop pieceLength entries.length { entries := entries, dwreq := [], done := 0, itr := 0 }
  else .ok { entries := entries, dwreq := [], done := 0, itr := 0 }

/-- The last loop of `resetDiskWriterEntries`: an entry gets a disk writer when
it needs allocation, its path is a key of `dwreq`, or its file exists. -/
def setDiskWriters (fs : FileSystem) (dwreq : List String) (entries : List DiskWriterEntry) :
    List DiskWriterEntry :=
  entries.map (fun e =>
    if e.needsFileAllocation || dwreq.contains e.fileEntry.path ||
        fs.fileExists e.fileEntry.path then
      { e with diskWriter := some (fs.newDiskWriter e.fileEntry.path) }
    else e)

/-- Method `MultiDiskAdaptor::resetDiskWriterEntries`.  The method does not touch
`_openedDiskWriterEntries`: in the code the handles held there keep the entry
objects of before the call, which are no longer in `diskWriterEntries`.  Handles
are indices here, so after the call the indices in the cache denote the new
entries; the definition stands for the code on `diskWriterEntries`, and on the
whole adaptor when the cache is empty at the call. -/
def resetDiskWriterEntries (fs : FileSystem) (s : MultiDiskAdaptor) :
    Except DlAbort Unit × MultiDiskAdaptor :=
  if s.fileEntries.isEmpty then (.ok (), { s with diskWriterEntries := [] })
  else
    match resetScan s.fileEntries s.pieceLength with
    | .error err => (.error err, { s with diskWriterEntries := [] })
    | .ok st => (.ok (), { s with diskWriterEntries := setDiskWriters fs st.dwreq st.entries })

/-- The flag `needsFileAllocation()` of entry `j` (false when there is no such entry). -/
def needsAt (entries : List DiskWriterEntry) (j : Nat) : Bool :=
  match entries[j]? with
  | some e => e.needsFileAllocation
  | none => false

/-- The files the forward loop passes over: not requested, or of length zero. -/
def Skippable (f : FileEntry) : Prop :=
  f.requested = false ∨ f.length = 0

/-- The files are contiguous: each one ends where the next one starts. -/
def FilesContiguous : List FileEntry → Prop
  | [] => True
  | [_] => True
  | a :: b :: rest => a.offset + a.length = b.offset ∧ FilesContiguous (b :: rest)

instance instDecidableFilesContiguous : (files : List FileEntry) →
    Decidable (FilesContiguous files)
  | [] => isTrue trivial
  | [_] => isTrue trivial
  | a :: b :: rest =>
    have : Decidable (FilesContiguous (b :: rest)) := instDecidableFilesContiguous (b :: rest)
    inferInstanceAs (Decidable (a.offset + a.length = b.offset ∧ FilesContiguous (b :: rest)))

/-- Every range, extended by one piece, lies in the non-negative part of `off_t`. -/
def FilesRepresentable (files : List FileEntry) (pieceLength : Nat) : Prop :=
  ∀ f ∈ files, 0 ≤ f.offset ∧ f.offset + f.length + pieceLength < 9223372036854775808

instance instDecidableFilesRepresentable (files : List FileEntry) (pieceLength : Nat) :
    Decidable (FilesRepresentable files pieceLength) :=
  inferInstanceAs (Decidable
    (∀ f ∈ files, 0 ≤ f.offset ∧ f.offset + f.length + pieceLength < 9223372036854775808))

/-- What holds of the variables of the main loop of `resetDiskWriterEntries`
over the file list `files` before every iteration. -/
structure ResetInv (files : List FileEntry) (pieceLength : Nat) (st : ResetScan) : Prop where
  shape : st.entries.map (fun e => e.fileEntry) = files
  itr_le : st.itr ≤ files.length
  done_lt : st.done < st.itr ∨ (st.itr = 0 ∧ st.done = 0)
  sel : ∀ j f, files[j]? = some f → f.requested = true → needsAt st.entries j = true
  nsound : ∀ j f, files[j]? = some f → needsAt st.entries j = true →
    f.requested = true ∨ ∃ s g, j < s ∧ s < st.itr ∧ files[s]? = some g ∧ g.requested = true ∧
      reachesPieceStart (pieceStartOffset g pieceLength) f = true
  dsound : ∀ p ∈ st.dwreq, ∃ s j g f, s < j ∧ j < st.itr ∧ files[s]? = some g ∧
    files[j]? = some f ∧ g.requested = true ∧ 0 < g.length ∧ f.path = p ∧
    f.offset < lastPieceEnd g pieceLength ∧
    ∀ i h, s < i → i ≤ j → files[i]? = some h → Skippable h
  doneRun : st.done = 0 ∨ ∃ s0 g, s0 ≤ st.done ∧ files[s0]? = some g ∧ g.requested = true ∧
    ∀ i h, s0 < i → i ≤ st.done → files[i]? = some h →
      0 < g.length ∧ h.path ∈ st.dwreq ∧ h.offset < lastPieceEnd g pieceLength
  reach : FilesContiguous files → FilesRepresentable files pieceLength → 0 < pieceLength →
    ∀ s j g f, s < st.itr → j < s → files[s]? = some g → files[j]? = some f →
      g.requested = true → reachesPieceStart (pieceStartOffset g pieceLength) f = true →
      needsAt st.entries j = true ∨
        (f.path ∈ st.dwreq ∧ ∃ s0 g0 f1, s0 < j ∧ files[s0]? = some g0 ∧ g0.requested = true ∧
          0 < g0.length ∧ files[j + 1]? = some f1 ∧ f1.offset < lastPieceEnd g0 pieceLength)

/-- The files passed by the forward loop of a requested file of non-zero length
that the main loop has handled are keys of `dwreq`. -/
def DwreqComplete (files : List FileEntry) (pieceLength : Nat) (st : ResetScan) : Prop :=
  ∀ s j g f, s < j → s < st.itr → files[s]? = some g → files[j]? = some f →
    g.requested = true → 0 < g.length →
    (∀ i h, s < i → i ≤ j → files[i]? = some h →
      Skippable h ∧ h.offset < lastPieceEnd g pieceLength) →
    f.path ∈ st.dwreq

/-- Entries as the constructor leaves them, apart from the allocation flag:
closed, without direct I/O and without a disk writer. -/
def Unopened (entries : List DiskWriterEntry) : Prop :=
  ∀ e ∈ entries, e.isOpen = false ∧ e.directIO = false ∧ e.diskWriter = none

/-- No byte of `f` lies in a piece that holds a byte of a requested file. -/
def SharesNoPiece (files : List FileEntry) (pieceLength : Nat) (f : FileEntry) : Prop :=
  ∀ (i : Nat) (g : FileEntry) (b c : Int), files[i]? = some g → g.requested = true →
    g.offset ≤ b → b < g.offset + g.length → f.offset ≤ c → c < f.offset + f.length →
    b / (pieceLength : Int) ≠ c / (pieceLength : Int)

/-! ## Example file lists -/

/-- A disk on which no file exists; the factory makes writers of empty files
that can be opened. -/
def emptyDisk : FileSystem :=
  { fileExists := fun _ => false
    newDiskWriter := fun _ => { content := [], openable := true } }

/-- An adaptor over `files` with piece length `pieceLength`, before the handle
entries are built. -/
def adaptorOver (files : List FileEntry) (pieceLength : Nat) : MultiDiskAdaptor :=
  { fileEntries := files
    diskWriterEntries := []
    openedDiskWriterEntries := []
    pieceLength := pieceLength
    maxOpenFiles := 100
    directIOAllowed := false
    readOnly := false
    randomizer := fun n => n
    randomCalls := 0
    ioLog := [] }

/-- Requested `a` at `[0,100)` and unrequested `b` at `[100,150)`, one piece of 150. -/
def sharedPiece : MultiDiskAdaptor :=
  adaptorOver
    [{ path := "a", length := 100, offset := 0, requested := true },
     { path := "b", length := 50, offset := 100, requested := false }] 150

/-- Unrequested `p` at `[0,10)` and `x` at `[10,15)`, requested `y` at `[15,20)` and
`s` at `[20,30)`, all in the first piece of 100. -/
def fourInOnePiece : MultiDiskAdaptor :=
  adaptorOver
    [{ path := "p", length := 10, offset := 0, requested := false },
     { path := "x", length := 5, offset := 10, requested := false },
     { path := "y", length := 5, offset := 15, requested := true },
     { path := "s", length := 10, offset := 20, requested := true }] 100

/-- Requested `a` at `[0,10)`, unrequested `b` at `[10,20)` and `c` at `[20,30)` and
requested `d` at `[30,40)`, all in the first piece of 100. -/
def twoBetween : MultiDiskAdaptor :=
  adaptorOver
    [{ path := "a", length := 10, offset := 0, requested := true },
     { path := "b", length := 10, offset := 10, requested := false },
     { path := "c", length := 10, offset := 20, requested := false },
     { path := "d", length := 10, offset := 30, requested := true }] 100

/-- Requested `a` at `[0,5)` and two unrequested files of the same path `x` at
`[5,20)` and `[20,30)`, pieces of 10. -/
def samePath : MultiDiskAdaptor :=
  adaptorOver
    [{ path := "a", length := 5, offset := 0, requested := true },
     { path := "x", length := 15, offset := 5, requested := false },
     { path := "x", length := 10, offset := 20, requested := false }] 10

/-- Unrequested `u` at `[0,10)` followed by requested `s` at `[10,20)`, pieces of 10:
`u` ends where the first piece of `s` starts. -/
def endsAtPieceStart : MultiDiskAdaptor :=
  adaptorOver
    [{ path := "u", length := 10, offset := 0, requested := false },
     { path := "s", length := 10, offset := 10, requested := true }] 10

/-! ## Pieces and segments

`PiecedSegment` (src/PiecedSegment.cc) is a cursor over one `Piece`. -/

/-- Modelled from the spec: class `Piece` is not among the sources.  A piece has
an index, a byte length, a block length, the set `completedBlocks` of the
indices of the blocks written so far, and an incremental hash state:
`hashContext` is `none` when there is no hash context and otherwise holds the
bytes fed to the streaming digest since the context was created. -/
structure Piece where
  index : Nat
  length : Nat
  blockLength : Nat
  completedBlocks : List Nat
  hashContext : Option (List Byte) := none
deriving DecidableEq, Repr

/-- Modelled from the spec: `blockCount = ceil(length / blockLength)`. -/
def Piece.countBlock (p : Piece) : Nat :=
  (p.length + p.blockLength - 1) / p.blockLength

/-- Modelled from the spec: `Piece::completeBlock` adds a block index to the set
of completed blocks. -/
def Piece.completeBlock (p : Piece) (blockIndex : Nat) : Piece :=
  { p with completedBlocks := blockIndex :: p.completedBlocks }

/-- Block `i` is in the set of completed blocks. -/
def Piece.hasBlock (p : Piece) (i : Nat) : Bool :=
  p.completedBlocks.contains i

/-- Modelled from the spec: a piece is complete iff every block index in
`[0, blockCount)` is present. -/
def Piece.pieceComplete (p : Piece) : Bool :=
  (List.range p.countBlock).all (fun i => p.hasBlock i)

/-- Modelled from the spec: `Piece::getFirstMissingBlockIndexWithoutLock` yields
the first block index in `[0, blockCount)` that is not present (`none` when the
function returns false). -/
def Piece.getFirstMissingBlockIndexWithoutLock (p : Piece) : Option Nat :=
  (List.range p.countBlock).find? (fun i => !p.hasBlock i)

/-- Modelled from the spec: `Piece::clearAllBlock` empties the set of completed
blocks. -/
def Piece.clearAllBlock (p : Piece) : Piece :=
  { p with completedBlocks := [] }

/-- Class `PiecedSegment`: `pieceLength_`, the piece behind `piece_` and
`writtenLength_`. -/
structure PiecedSegment where
  pieceLength : Nat
  piece : Piece
  writtenLength : Nat
deriving DecidableEq, Repr

/-- The ways a call on a segment ends other than by returning: a failed
`assert`, or undefined behaviour (a division by zero). -/
inductive SegmentAbort where
  | assertionFailed
  | undefinedBehaviour
deriving DecidableEq, Repr

/-- The constructor `PiecedSegment::PiecedSegment`: `writtenLength_` is the start
of the first missing block; the assertion fails when no block is missing. -/
def PiecedSegment.construct (pieceLength : Nat) (piece : Piece) :
    Except SegmentAbort PiecedSegment :=
  match piece.getFirstMissingBlockIndexWithoutLock with
  | none => .error .assertionFailed
  | some index =>
    .ok { pieceLength := pieceLength
          piece := piece
          writtenLength := (index * piece.blockLength) % 18446744073709551616 }

/-- Method `PiecedSegment::complete`. -/
def PiecedSegment.complete (seg : PiecedSegment) : Bool :=
  seg.piece.pieceComplete

/-- Method `PiecedSegment::getLength`. -/
def PiecedSegment.getLength (seg : PiecedSegment) : Nat :=
  seg.piece.length

/-- Method `PiecedSegment::updateWrittenLength`.  The sum and `countBlock()-1`
are computed in `size_t`; the state reached when the call ends is returned with
its outcome. -/
def PiecedSegment.updateWrittenLength (seg : PiecedSegment) (bytes : Nat) :
    Except SegmentAbort Unit × PiecedSegment :=
  let newWrittenLength := (seg.writtenLength + bytes) % 18446744073709551616
  if newWrittenLength ≤ seg.piece.length then
    if seg.piece.blockLength = 0 then (.error .undefinedBehaviour, seg)
    else
      let first := seg.writtenLength / seg.piece.blockLength
      let last := newWrittenLength / seg.piece.blockLength
      let piece1 := (List.range' first (last - first)).foldl
        (fun p i => p.completeBlock i) seg.piece
      let piece2 :=
        if newWrittenLength = seg.piece.length then
          piece1.completeBlock
            ((piece1.countBlock + 18446744073709551615) % 18446744073709551616)
        else piece1
      (.ok (), { seg with piece := piece2, writtenLength := newWrittenLength })
  else (.error .assertionFailed, seg)

/-- A sequence of `updateWrittenLength` calls, ended by the first one that does
not return. -/
def PiecedSegment.updateAll (seg : PiecedSegment) :
    List Nat → Except SegmentAbort Unit × PiecedSegment
  | [] => (.ok (), seg)
  | n :: rest =>
    match seg.updateWrittenLength n with
    | (.ok _, seg1) => PiecedSegment.updateAll seg1 rest
    | (.error err, seg1) => (.error err, seg1)

/-- What the completed blocks are while a piece is written from its start
through a segment: the blocks wholly below `writtenLength`, and the last block
once the piece is written to its end. -/
def PiecedSegment.InStep (seg : PiecedSegment) : Prop :=
  seg.writtenLength ≤ seg.piece.length ∧
    ∀ i, i ∈ seg.piece.completedBlocks ↔
      (i < seg.writtenLength / seg.piece.blockLength ∨
        (seg.writtenLength = seg.piece.length ∧ i = seg.piece.countBlock - 1))

/-- A piece of 10 bytes in blocks of 4 with no block written. -/
def shortPiece : Piece :=
  { index := 3, length := 10, blockLength := 4, completedBlocks := [] }

/-! ## Positions, hashing and reset of a segment -/

/-- Modelled from the spec: `Piece::destroyHashContext` discards the hash state. -/
def Piece.destroyHashContext (p : Piece) : Piece :=
  { p with hashContext := none }

/-- Modelled from the spec: `Piece::updateHash(begin, data, dataLength)` feeds the
bytes into the streaming digest of the piece, creating the hash context when
there is none. -/
def Piece.updateHash (p : Piece) (_begin : Nat) (data : List Byte) : Bool × Piece :=
  (true, { p with hashContext := some (p.hashContext.getD [] ++ data) })

/-- Modelled from the spec: `Piece::getDigest` finalizes the streaming digest and
returns it; `digest` is the hash function, applied to the bytes fed since the
context was created.  Without a hash context the result is the empty string. -/
def Piece.getDigest (digest : List Byte → String) (p : Piece) : String :=
  match p.hashContext with
  | some fed => digest fed
  | none => ""

/-- Modelled from the spec: `Piece::isHashCalculated` tells whether the digest
covers the full piece. -/
def Piece.isHashCalculated (p : Piece) : Bool :=
  match p.hashContext with
  | some fed => fed.length == p.length
  | none => false

/-- Method `PiecedSegment::getIndex`. -/
def PiecedSegment.getIndex (seg : PiecedSegment) : Nat :=
  seg.piece.index

/-- Method `PiecedSegment::getPosition`: `((off_t)piece_->getIndex())*pieceLength_`,
the product taken in unsigned 64-bit arithmetic and returned as `off_t`. -/
def PiecedSegment.getPosition (seg : PiecedSegment) : Int :=
  i64 ((u64 (i64 seg.piece.index) * seg.pieceLength : Nat) : Int)

/-- Method `PiecedSegment::getPositionToWrite`: `getPosition()+writtenLength_`,
returned as `off_t`. -/
def PiecedSegment.getPositionToWrite (seg : PiecedSegment) : Int :=
  i64 (seg.getPosition + seg.writtenLength)

/-- Method `PiecedSegment::updateHash`. -/
def PiecedSegment.updateHash (seg : PiecedSegment) (begin_ : Nat) (data : List Byte) :
    Bool × PiecedSegment :=
  ((seg.piece.updateHash begin_ data).1, { seg with piece := (seg.piece.updateHash begin_ data).2 })

/-- Method `PiecedSegment::isHashCalculated`. -/
def PiecedSegment.isHashCalculated (seg : PiecedSegment) : Bool :=
  seg.piece.isHashCalculated

/-- Method `PiecedSegment::getDigest`. -/
def PiecedSegment.getDigest (digest : List Byte → String) (seg : PiecedSegment) : String :=
  seg.piece.getDigest digest

/-- Method `PiecedSegment::clear`. -/
def PiecedSegment.clear (seg : PiecedSegment) : PiecedSegment :=
  { seg with writtenLength := 0, piece := seg.piece.clearAllBlock.destroyHashContext }

/-- Chunks of bytes fed one after the other through `updateHash`, each at the
offset the bytes before it end at. -/
def PiecedSegment.feedAll (seg : PiecedSegment) : Nat → List (List Byte) → PiecedSegment
  | _, [] => seg
  | begin_, chunk :: rest =>
    PiecedSegment.feedAll (seg.updateHash begin_ chunk).2 (begin_ + chunk.length) rest

/-- The segments reached from the constructor by `updateWrittenLength` calls
that return and by `clear` calls. -/
inductive PiecedSegment.Reachable : PiecedSegment → Prop where
  | construct (pieceLength : Nat) (piece : Piece) (seg : PiecedSegment) :
      PiecedSegment.construct pieceLength piece = .ok seg → PiecedSegment.Reachable seg
  | update (seg seg1 : PiecedSegment) (bytes : Nat) :
      PiecedSegment.Reachable seg → seg.updateWrittenLength bytes = (.ok (), seg1) →
      PiecedSegment.Reachable seg1
  | clear (seg : PiecedSegment) :
      PiecedSegment.Reachable seg → PiecedSegment.Reachable seg.clear

/-- The blocks wholly below `writtenLength` are complete, and so is the last
block once `writtenLength` has reached the length of the piece. -/
def PiecedSegment.PrefixDone (seg : PiecedSegment) : Prop :=
  seg.writtenLength ≤ seg.piece.length ∧
    (∀ i, i < seg.writtenLength / seg.piece.blockLength → i ∈ seg.piece.completedBlocks) ∧
    (seg.writtenLength = seg.piece.length →
      seg.piece.countBlock - 1 ∈ seg.piece.completedBlocks)

/-- The 10-byte piece with its first block written. -/
def resumedPiece : Piece :=
  { index := 3, length := 10, blockLength := 4, completedBlocks := [0] }

/-- The 10-byte piece with its second and third block written and its first
block missing. -/
def holedPiece : Piece :=
  { index := 3, length := 10, blockLength := 4, completedBlocks := [1, 2] }

/-! ## Writing the file path of a range of file entries -/

/-- Function `getFirstRequestedFileEntry`: the first entry of the range whose
`isRequested()` is true, `none` for the null handle. -/
def getFirstRequestedFileEntry : List FileEntry → Option FileEntry
  | [] => none
  | e :: rest => if e.requested then some e else getFirstRequestedFileEntry rest

/-- Function `countRequestedFileEntry`: the loop counting the entries of the
range whose `isRequested()` is true. -/
def countRequestedFileEntry (files : List FileEntry) : Nat :=
  files.foldl (fun (count : Nat) (e : FileEntry) => if e.requested then count + 1 else count) 0

/-- Function `writeFilePath`, as the text it writes to the stream `o`.
`getBasename` is `File(path).getBasename()`, of a class that is not among the
sources. -/
def writeFilePath (getBasename : String → String) (files : List FileEntry) (memory : Bool) :
    String :=
  match getFirstRequestedFileEntry files with
  | none => "n/a"
  | some e =>
    (if e.path = "" then "n/a"
      else if memory then "[MEMORY]" ++ getBasename e.path
      else e.path) ++
    (if countRequestedFileEntry files > 1 then
        " (" ++ toString (countRequestedFileEntry files - 1) ++ "more)"
      else "")

/-- What the doc comment of `writeFilePath` says is written: `n/a` for a range
without file entry, else the first file name, as `[MEMORY]` and its basename
when `memory` is true, followed by `(Nmore)` with `N` the number of files of the
range minus 1 when the range holds more than one file entry. -/
def writeFilePathDoc (getBasename : String → String) (files : List FileEntry) (memory : Bool) :
    String :=
  match files with
  | [] => "n/a"
  | e :: _ =>
    (if memory then "[MEMORY]" ++ getBasename e.path else e.path) ++
    (if files.length > 1 then "(" ++ toString (files.length - 1) ++ "more)" else "")

/-- The part of a path after its last slash. -/
def basenameOf (path : String) : String :=
  String.mk (path.data.reverse.takeWhile (fun c => c != '/')).reverse

/-! ## Reuse of spent URIs in `RequestGroup::createNextCommand` -/

/-- The comparison `operator<` of `std::string` on the characters of two
strings: the first difference decides, and a proper beginning of a string is
less than the string. -/
def charsLess : List Char → List Char → Bool
  | _, [] => false
  | [], _ :: _ => true
  | a :: as, b :: bs => if a.toNat < b.toNat then true else if b.toNat < a.toNat then false
    else charsLess as bs

/-- The comparison `operator<` of `std::string`. -/
def stringLess (a b : String) : Bool :=
  charsLess a.data b.data

/-- Inserting a string into an ascending list. -/
def sortInsert (u : String) : List String → List String
  | [] => [u]
  | v :: rest => if stringLess u v then u :: v :: rest else v :: sortInsert u rest

/-- The call `std::sort(uris.begin(), uris.end())`: the strings in ascending
order. -/
def sort (uris : List String) : List String :=
  uris.foldr sortInsert []

/-- The call `uris.erase(std::unique(uris.begin(), uris.end()), uris.end())`: of
each run of equal neighbours the first is kept. -/
def unique : List String → List String
  | [] => []
  | a :: rest =>
    match rest with
    | [] => [a]
    | b :: _ => if a = b then unique rest else a :: unique rest

/-- The loop of `std::set_difference` over two ascending ranges; the first
argument bounds the number of steps. -/
def setDifferenceLoop : Nat → List String → List String → List String
  | 0, _, _ => []
  | _ + 1, [], _ => []
  | _ + 1, a :: as, [] => a :: as
  | fuel + 1, a :: as, b :: bs =>
    if stringLess a b then a :: setDifferenceLoop fuel as (b :: bs)
    else if stringLess b a then setDifferenceLoop fuel (a :: as) bs
    else setDifferenceLoop fuel as bs

/-- The call `std::set_difference(uris.begin(), uris.end(), errorUris.begin(),
errorUris.end(), std::back_inserter(reusableURIs))`. -/
def set_difference (uris errorUris : List String) : List String :=
  setDifferenceLoop (uris.length + errorUris.length + 1) uris errorUris

/-- The list `reusableURIs` of `createNextCommand`: the distinct spent URIs
without the URIs of the recorded results; `resultUris` is what
`URIResult::getURI` yields over `_uriResults`. -/
def reusableURIs (spentUris resultUris : List String) : List String :=
  set_difference (unique (sort spentUris)) (unique (sort resultUris))

/-- The loop `for(size_t i = 0; i < _numConcurrentCommand/ininum; ++i)` that
appends the reusable URIs to `_uris`. -/
def reuseLoop : Nat → List String → List String → List String
  | 0, uris, _ => uris
  | n + 1, uris, reusable => reuseLoop n (uris ++ reusable) reusable

/-- The URI reuse block of `RequestGroup::createNextCommand`: the list `_uris`
it leaves; `reuseUri` is the option `PREF_REUSE_URI`. -/
def reuseUris (reuseUri : Bool) (uris spentUris resultUris : List String)
    (numConcurrentCommand : Nat) : List String :=
  if reuseUri && uris.isEmpty then
    let reusable := reusableURIs spentUris resultUris
    let ininum := reusable.length
    if ininum > 0 && ininum < numConcurrentCommand then
      let uris1 := reuseLoop (numConcurrentCommand / ininum) uris reusable
      uris1 ++ reusable.take (numConcurrentCommand % ininum)
    else uris
  else uris

/-! ## A single file under a cap of one open handle -/

/-- One file `[0,10)` with at most one open handle. -/
def oneFileCapOne : MultiDiskAdaptor :=
  exampleAdaptor [exampleEntry "a" 0 10] 1

/-! ## The storage of DHT peer announces -/

/-- Modelled from the spec: `DHT_ID_LENGTH` of `DHTConstants.h`, which is not
among the sources: an info hash is a 20-byte id. -/
def DHT_ID_LENGTH : Nat := 20

/-- The call `memcmp(lhs, rhs, n)` on two buffers that hold at least `n` bytes:
negative, zero or positive as the first differing byte of `lhs` is less than the
one of `rhs`, there is none, or it is greater. -/
def memcmp : List Byte → List Byte → Nat → Int
  | a :: as, b :: bs, n + 1 =>
    if a < b then -1 else if b < a then 1 else memcmp as bs n
  | _, _, _ => 0

/-- Modelled from the spec: `PeerAddrEntry` is not among the sources; an
address, a port and the time of the last update. -/
structure PeerAddrEntry where
  ipaddr : String
  port : Nat
  lastUpdated : Nat
deriving DecidableEq, Repr

/-- Modelled from the spec: `DHTPeerAnnounceEntry` is not among the sources; it
holds a copy of the 20 bytes of the info hash and the peer addresses announced
for it. -/
structure DHTPeerAnnounceEntry where
  infoHash : List Byte
  peerAddrEntries : List PeerAddrEntry
deriving DecidableEq, Repr

/-- Modelled from the spec: the constructor `DHTPeerAnnounceEntry(infoHash)`
copies `DHT_ID_LENGTH` bytes. -/
def DHTPeerAnnounceEntry.create (infoHash : List Byte) : DHTPeerAnnounceEntry :=
  { infoHash := infoHash.take DHT_ID_LENGTH, peerAddrEntries := [] }

/-- Modelled from the spec: `DHTPeerAnnounceEntry::addPeerAddrEntry` renews the
entry of the address when there is one and appends the entry otherwise. -/
def DHTPeerAnnounceEntry.addPeerAddrEntry (e : DHTPeerAnnounceEntry) (p : PeerAddrEntry) :
    DHTPeerAnnounceEntry :=
  if e.peerAddrEntries.any (fun q => q.ipaddr == p.ipaddr && q.port == p.port) then
    { e with
      peerAddrEntries := e.peerAddrEntries.map (fun q =>
        if q.ipaddr == p.ipaddr && q.port == p.port then p else q) }
  else
    { e with peerAddrEntries := e.peerAddrEntries ++ [p] }

/-- Modelled from the spec: `DHTPeerAnnounceEntry::removeStalePeerAddrEntry`
drops the addresses that are stale; `stale` tells which are, for the timeout and
the time of the call. -/
def DHTPeerAnnounceEntry.removeStalePeerAddrEntry (stale : PeerAddrEntry → Bool)
    (e : DHTPeerAnnounceEntry) : DHTPeerAnnounceEntry :=
  { e with peerAddrEntries := e.peerAddrEntries.filter (fun q => !stale q) }

/-- Modelled from the spec: `DHTPeerAnnounceEntry::empty`. -/
def DHTPeerAnnounceEntry.empty (e : DHTPeerAnnounceEntry) : Bool :=
  e.peerAddrEntries.isEmpty

/-- Class `InfoHashLess`. -/
def InfoHashLess (lhs rhs : DHTPeerAnnounceEntry) : Bool :=
  memcmp lhs.infoHash rhs.infoHash DHT_ID_LENGTH < 0

/-- The loop of `std::lower_bound` with `InfoHashLess`: `first` and `len` delimit
the range still searched; the first argument bounds the number of halvings. -/
def lowerBoundLoop (entries : List DHTPeerAnnounceEntry) (val : DHTPeerAnnounceEntry) :
    Nat → Nat → Nat → Nat
  | 0, first, _ => first
  | fuel + 1, first, len =>
    if len = 0 then first
    else
      let half := len / 2
      let middle := first + half
      match entries[middle]? with
      | none => first
      | some e =>
        if InfoHashLess e val then lowerBoundLoop entries val fuel (middle + 1) (len - half - 1)
        else lowerBoundLoop entries val fuel first half

/-- The call `std::lower_bound(entries_.begin(), entries_.end(), entry,
InfoHashLess())`, as an index. -/
def lowerBound (entries : List DHTPeerAnnounceEntry) (val : DHTPeerAnnounceEntry) : Nat :=
  lowerBoundLoop entries val entries.length 0 entries.length

/-- The call `std::binary_search(entries_.begin(), entries_.end(), entry,
InfoHashLess())`. -/
def binary_search (entries : List DHTPeerAnnounceEntry) (val : DHTPeerAnnounceEntry) : Bool :=
  match entries[lowerBound entries val]? with
  | none => false
  | some e => !InfoHashLess val e

/-- Class `DHTPeerAnnounceStorage`: the deque `entries_`. -/
structure DHTPeerAnnounceStorage where
  entries : List DHTPeerAnnounceEntry
deriving DecidableEq, Repr

/-- Method `DHTPeerAnnounceStorage::getPeerAnnounceEntry`; the handle it returns
is the index of the entry in `entries_`. -/
def DHTPeerAnnounceStorage.getPeerAnnounceEntry (s : DHTPeerAnnounceStorage)
    (infoHash : List Byte) : Nat × DHTPeerAnnounceStorage :=
  let entry := DHTPeerAnnounceEntry.create infoHash
  let i := lowerBound s.entries entry
  match s.entries[i]? with
  | some e =>
    if memcmp infoHash e.infoHash DHT_ID_LENGTH = 0 then (i, s)
    else (i, { entries := s.entries.take i ++ entry :: s.entries.drop i })
  | none => (i, { entries := s.entries.take i ++ entry :: s.entries.drop i })

/-- Method `DHTPeerAnnounceStorage::addPeerAnnounce`; `now` is the time of the
call. -/
def DHTPeerAnnounceStorage.addPeerAnnounce (s : DHTPeerAnnounceStorage)
    (infoHash : List Byte) (ipaddr : String) (port : Nat) (now : Nat) :
    DHTPeerAnnounceStorage :=
  let r := s.getPeerAnnounceEntry infoHash
  match r.2.entries[r.1]? with
  | some e =>
    { entries := r.2.entries.set r.1
        (e.addPeerAddrEntry { ipaddr := ipaddr, port := port, lastUpdated := now }) }
  | none => r.2

/-- Method `DHTPeerAnnounceStorage::contains`. -/
def DHTPeerAnnounceStorage.contains (s : DHTPeerAnnounceStorage) (infoHash : List Byte) :
    Bool :=
  binary_search s.entries (DHTPeerAnnounceEntry.create infoHash)

/-- Method `DHTPeerAnnounceStorage::handleTimeout`: the stale addresses of every
entry are removed, then the entries left empty are erased. -/
def DHTPeerAnnounceStorage.handleTimeout (s : DHTPeerAnnounceStorage)
    (stale : PeerAddrEntry → Bool) : DHTPeerAnnounceStorage :=
  { entries := (s.entries.map (DHTPeerAnnounceEntry.removeStalePeerAddrEntry stale)).filter
      (fun e => !e.empty) }

/-- The storages reached from the empty one by `getPeerAnnounceEntry`,
`addPeerAnnounce` and `handleTimeout` calls on 20-byte info hashes. -/
inductive DHTPeerAnnounceStorage.Reachable : DHTPeerAnnounceStorage → Prop where
  | empty : DHTPeerAnnounceStorage.Reachable { entries := [] }
  | getPeerAnnounceEntry (s : DHTPeerAnnounceStorage) (infoHash : List Byte) :
      DHTPeerAnnounceStorage.Reachable s → infoHash.length = DHT_ID_LENGTH →
      DHTPeerAnnounceStorage.Reachable (s.getPeerAnnounceEntry infoHash).2
  | addPeerAnnounce (s : DHTPeerAnnounceStorage) (infoHash : List Byte) (ipaddr : String)
      (port : Nat) (now : Nat) :
      DHTPeerAnnounceStorage.Reachable s → infoHash.length = DHT_ID_LENGTH →
      DHTPeerAnnounceStorage.Reachable (s.addPeerAnnounce infoHash ipaddr port now)
  | handleTimeout (s : DHTPeerAnnounceStorage) (stale : PeerAddrEntry → Bool) :
      DHTPeerAnnounceStorage.Reachable s →
      DHTPeerAnnounceStorage.Reachable (s.handleTimeout stale)

/-- The info hashes of the entries are strictly ascending by `memcmp` and hold
`DHT_ID_LENGTH` bytes each. -/
def HashesAscending (entries : List DHTPeerAnnounceEntry) : Prop :=
  List.Pairwise (fun a b => memcmp a b DHT_ID_LENGTH < 0) (entries.map (fun e => e.infoHash)) ∧
    ∀ h ∈ entries.map (fun e => e.infoHash), h.length = DHT_ID_LENGTH

/-- The info hash of 19 zero bytes followed by `b`. -/
def hashEnding (b : Byte) : List Byte :=
  List.replicate 19 0 ++ [b]

/-- The storage after announces for the hashes ending in 7, 3 and 7 again. -/
def threeAnnounces : DHTPeerAnnounceStorage :=
  ((({ entries := [] } : DHTPeerAnnounceStorage).addPeerAnnounce (hashEnding 7) "10.0.0.1" 6881 0
    ).addPeerAnnounce (hashEnding 3) "10.0.0.2" 6881 1).addPeerAnnounce (hashEnding 7)
      "10.0.0.3" 6881 2

/-! # Theorems -/

/-! ## Machine integers and offset resolution -/

theorem i64_of_range (x : Int) (h0 : -9223372036854775808 ≤ x)
    (h1 : x < 9223372036854775808) : i64 x = x := by
  unfold i64; omega

theorem isInRange_iff (e : DiskWriterEntry) (offset : Int)
    (he : 0 ≤ e.fileEntry.offset) (hl : e.lastOffset < 9223372036854775808)
    (ho : offset < 9223372036854775808) :
    isInRange e offset = true ↔ Contains e offset := by
  unfold isInRange Contains
  unfold DiskWriterEntry.lastOffset at *
  simp only [Bool.and_eq_true, decide_eq_true_eq]
  constructor
  · rintro ⟨h1, h2⟩
    refine ⟨h1, ?_⟩
    unfold u64 at h2
    omega
  · rintro ⟨h1, h2⟩
    refine ⟨h1, ?_⟩
    unfold u64
    omega

theorem contiguous_iff_chain : ∀ (entries : List DiskWriterEntry),
    Contiguous entries ↔
      List.Chain' (fun (a b : DiskWriterEntry) => a.lastOffset = b.fileEntry.offset) entries
  | [] => by simp [Contiguous]
  | [_] => by simp [Contiguous]
  | a :: b :: rest => by
    rw [List.chain'_cons, ← contiguous_iff_chain (b :: rest)]
    rfl

theorem contiguous_cons_cons (a b : DiskWriterEntry) (rest : List DiskWriterEntry) :
    Contiguous (a :: b :: rest) ↔
      a.lastOffset = b.fileEntry.offset ∧ Contiguous (b :: rest) :=
  Iff.rfl

theorem offsetOrdered_of_contiguous : ∀ (entries : List DiskWriterEntry),
    Contiguous entries → OffsetOrdered entries
  | [], _ => List.Pairwise.nil
  | [_], _ => List.pairwise_singleton _ _
  | a :: b :: rest, h => by
    rw [contiguous_cons_cons] at h
    have ih := offsetOrdered_of_contiguous (b :: rest) h.2
    unfold OffsetOrdered at ih ⊢
    have ih2 := List.pairwise_cons.1 ih
    rw [List.pairwise_cons]
    refine ⟨?_, ih⟩
    intro c hc
    have hab : a.fileEntry.offset ≤ b.fileEntry.offset := by
      have := h.1
      unfold DiskWriterEntry.lastOffset at this
      omega
    rcases List.mem_cons.1 hc with rfl | hc
    · exact hab
    · exact le_trans hab (ih2.1 c hc)

theorem offsetOrdered_getElem {entries : List DiskWriterEntry} (h : OffsetOrdered entries)
    {i j : Nat} {a b : DiskWriterEntry} (hij : i ≤ j) (ha : entries[i]? = some a)
    (hb : entries[j]? = some b) : a.fileEntry.offset ≤ b.fileEntry.offset := by
  rcases Nat.eq_or_lt_of_le hij with rfl | hlt
  · rw [ha] at hb; cases hb; exact le_refl _
  · obtain ⟨hi, rfl⟩ := List.getElem?_eq_some.1 ha
    obtain ⟨hj, rfl⟩ := List.getElem?_eq_some.1 hb
    exact List.pairwise_iff_getElem.1 h i j hi hj hlt

theorem contiguous_getElem : ∀ {entries : List DiskWriterEntry}, Contiguous entries →
    ∀ {i : Nat} {a b : DiskWriterEntry}, entries[i]? = some a → entries[i + 1]? = some b →
      a.lastOffset = b.fileEntry.offset
  | [], _, _, _, _, ha, _ => by simp at ha
  | [_], _, i, _, _, _, hb => by simp at hb
  | x :: y :: rest, h, i, a, b, ha, hb => by
    rw [contiguous_cons_cons] at h
    cases i with
    | zero =>
      simp at ha hb
      subst ha; subst hb
      exact h.1
    | succ i =>
      rw [List.getElem?_cons_succ] at ha hb
      exact contiguous_getElem (show Contiguous (y :: rest) from h.2) ha hb

theorem upperBoundLoop_spec (entries : List DiskWriterEntry) (offset : Int)
    (hs : OffsetOrdered entries) :
    ∀ (fuel first len : Nat), len ≤ fuel → first + len ≤ entries.length →
      (∀ j e, j < first → entries[j]? = some e → e.fileEntry.offset ≤ offset) →
      (∀ j e, first + len ≤ j → entries[j]? = some e → offset < e.fileEntry.offset) →
      (∀ j e, j < upperBoundLoop entries offset fuel first len → entries[j]? = some e →
          e.fileEntry.offset ≤ offset) ∧
      (∀ j e, upperBoundLoop entries offset fuel first len ≤ j → entries[j]? = some e →
          offset < e.fileEntry.offset) ∧
      upperBoundLoop entries offset fuel first len ≤ entries.length := by
  intro fuel
  induction fuel with
  | zero =>
    intro first len hl hb hlo hhi
    have : len = 0 := by omega
    subst this
    simp only [upperBoundLoop]
    exact ⟨hlo, fun j e hj => hhi j e (by omega), by omega⟩
  | succ fuel ih =>
    intro first len hl hb hlo hhi
    simp only [upperBoundLoop]
    by_cases hlen : len = 0
    · subst hlen
      simp only [if_true]
      exact ⟨hlo, fun j e hj => hhi j e (by omega), by omega⟩
    · simp only [hlen, if_false]
      have hmid : first + len / 2 < entries.length := by
        have : len / 2 < len := Nat.div_lt_self (Nat.pos_of_ne_zero hlen) (by decide)
        omega
      rw [List.getElem?_eq_getElem hmid]
      simp only
      have hm : entries[first + len / 2]? = some entries[first + len / 2] :=
        List.getElem?_eq_getElem hmid
      by_cases hc : offset < entries[first + len / 2].fileEntry.offset
      · simp only [hc, if_true]
        apply ih first (len / 2) (by omega) (by omega) hlo
        intro j e hj he
        have := offsetOrdered_getElem hs hj hm he
        omega
      · simp only [hc, if_false]
        apply ih (first + len / 2 + 1) (len - len / 2 - 1) (by omega) (by omega)
        · intro j e hj he
          have := offsetOrdered_getElem hs (show j ≤ first + len / 2 by omega) he hm
          omega
        · intro j e hj he
          exact hhi j e (by omega) he

theorem upperBound_spec (entries : List DiskWriterEntry) (offset : Int)
    (hs : OffsetOrdered entries) :
    (∀ j e, j < upperBound entries offset → entries[j]? = some e →
        e.fileEntry.offset ≤ offset) ∧
    (∀ j e, upperBound entries offset ≤ j → entries[j]? = some e →
        offset < e.fileEntry.offset) ∧
    upperBound entries offset ≤ entries.length := by
  unfold upperBound
  apply upperBoundLoop_spec entries offset hs entries.length 0 entries.length (le_refl _)
    (by omega)
  · intro j e hj; omega
  · intro j e hj he
    have := (List.getElem?_eq_some.1 he).1
    omega
theorem findFirst_cases (entries : List DiskWriterEntry) (offset : Int)
    (hs : OffsetOrdered entries) (first : DiskWriterEntry) (hf : entries.head? = some first)
    (h1 : first.fileEntry.offset ≤ offset) :
    ∃ i e, upperBound entries offset = i + 1 ∧ entries[i]? = some e ∧
      e.fileEntry.offset ≤ offset ∧
      (∀ j e1, i < j → entries[j]? = some e1 → offset < e1.fileEntry.offset) ∧
      findFirstDiskWriterEntry entries offset =
        if isInRange e offset then .ok i else .error (.fileOffsetOutOfRange offset) := by
  obtain ⟨lo, hi, hn⟩ := upperBound_spec entries offset hs
  rw [List.head?_eq_getElem?] at hf
  have hr : upperBound entries offset ≠ 0 := by
    intro h0
    have := hi 0 first (by omega) hf
    omega
  obtain ⟨i, hi1⟩ := Nat.exists_eq_succ_of_ne_zero hr
  have hlt : i < entries.length := by omega
  refine ⟨i, entries[i], hi1, List.getElem?_eq_getElem hlt, ?_, ?_, ?_⟩
  · exact lo i _ (by omega) (List.getElem?_eq_getElem hlt)
  · intro j e1 hj he1
    exact hi j e1 (by omega) he1
  · unfold findFirstDiskWriterEntry
    simp only [hi1, Nat.succ_ne_zero, if_false, Nat.succ_sub_one,
      List.getElem?_eq_getElem hlt]
    cases isInRange entries[i] offset <;> simp

theorem findFirst_contains (entries : List DiskWriterEntry) (offset : Int)
    (first last : DiskWriterEntry) (hc : Contiguous entries) (hr : Representable entries)
    (hf : entries.head? = some first) (hl : entries.getLast? = some last)
    (h1 : first.fileEntry.offset ≤ offset) (h2 : offset < last.lastOffset) :
    ∃ i e, findFirstDiskWriterEntry entries offset = .ok i ∧ entries[i]? = some e ∧
      Contains e offset ∧ 0 < e.fileEntry.length ∧
      ∀ j e1, entries[j]? = some e1 → Contains e1 offset → j = i := by
  have hs := offsetOrdered_of_contiguous entries hc
  obtain ⟨i, e, hub, hie, hle, hgt, hfind⟩ := findFirst_cases entries offset hs first hf h1
  have hn := (upperBound_spec entries offset hs).2.2
  have hlast : offset < e.lastOffset := by
    by_cases hlt : i + 1 < entries.length
    · have hb := List.getElem?_eq_getElem hlt
      have := contiguous_getElem hc hie hb
      have := hgt (i + 1) _ (by omega) hb
      omega
    · rw [List.getLast?_eq_getElem?] at hl
      have : entries.length - 1 = i := by omega
      rw [this, hie] at hl
      cases hl
      exact h2
  have hcont : Contains e offset := ⟨hle, hlast⟩
  have hmem : e ∈ entries := List.getElem?_mem hie
  have hlastmem : last ∈ entries := List.mem_of_mem_getLast? hl
  have hin : isInRange e offset = true :=
    (isInRange_iff e offset (hr e hmem).1 (hr e hmem).2
      (by have := (hr last hlastmem).2; omega)).2 hcont
  refine ⟨i, e, ?_, hie, hcont, ?_, ?_⟩
  · rw [hfind, hin]; rfl
  · unfold Contains DiskWriterEntry.lastOffset at hcont
    omega
  · intro j e1 hj hc1
    by_contra hne
    rcases Nat.lt_or_gt_of_ne hne with hlt | hgt1
    · have hj1 : j + 1 < entries.length := by
        have := (List.getElem?_eq_some.1 hie).1
        omega
      have hb := List.getElem?_eq_getElem hj1
      have h3 := contiguous_getElem hc hj hb
      have h4 := offsetOrdered_getElem hs (show j + 1 ≤ i by omega) hb hie
      have := hc1.2
      omega
    · have := hgt j e1 hgt1 hj
      have := hc1.1
      omega

theorem findFirst_outOfRange (entries : List DiskWriterEntry) (offset : Int)
    (first : DiskWriterEntry) (hs : OffsetOrdered entries) (hr : Representable entries)
    (hf : entries.head? = some first) (h1 : first.fileEntry.offset ≤ offset)
    (ho : offset < 9223372036854775808)
    (hno : ∀ e ∈ entries, ¬ Contains e offset) :
    findFirstDiskWriterEntry entries offset = .error (.fileOffsetOutOfRange offset) := by
  obtain ⟨i, e, _, hie, _, _, hfind⟩ := findFirst_cases entries offset hs first hf h1
  have hmem : e ∈ entries := List.getElem?_mem hie
  have hin : isInRange e offset = false := by
    cases h : isInRange e offset
    · rfl
    · exact absurd ((isInRange_iff e offset (hr e hmem).1 (hr e hmem).2 ho).1 h) (hno e hmem)
  rw [hfind, hin]; rfl

/-! ## Lists -/

theorem map_set_same {α β : Type} (f : α → β) (l : List α) (i : Nat) (a b : α)
    (h : l[i]? = some a) (hf : f b = f a) : (l.set i b).map f = l.map f := by
  apply List.ext_getElem?
  intro j
  rw [List.map_set, List.getElem?_set]
  by_cases hij : i = j
  · subst hij
    obtain ⟨hi, hia⟩ := List.getElem?_eq_some.1 h
    simp [hi, hf, hia]
  · simp [hij]

theorem mem_set_of_mem_ne {α : Type} (l : List α) (k : Nat) (v a j : α)
    (hv : l[k]? = some v) (hj : j ∈ l) (hne : j ≠ v) : j ∈ l.set k a := by
  obtain ⟨p, hp⟩ := List.mem_iff_getElem?.1 hj
  have hpk : k ≠ p := by
    intro h; subst h; rw [hv] at hp; cases hp; exact hne rfl
  exact List.mem_iff_getElem?.2 ⟨p, by rw [List.getElem?_set_ne hpk]; exact hp⟩

theorem nodup_set_new {α : Type} (l : List α) (k : Nat) (a : α) (hl : l.Nodup)
    (ha : a ∉ l) : (l.set k a).Nodup := by
  rw [List.set_eq_take_append_cons_drop]
  split
  · rename_i hk
    have hdec : l = l.take k ++ l[k] :: l.drop (k + 1) := by
      conv_lhs => rw [← List.take_append_drop k l]
      rw [List.drop_eq_getElem_cons hk]
    rw [hdec] at hl
    rw [List.nodup_append] at hl ⊢
    obtain ⟨h1, h2, h3⟩ := hl
    rw [List.nodup_cons] at h2 ⊢
    refine ⟨h1, ⟨fun hmem => ha (List.mem_of_mem_drop hmem), h2.2⟩, ?_⟩
    intro x hx1 hx2
    rcases List.mem_cons.1 hx2 with rfl | hx2
    · exact ha (List.mem_of_mem_take hx1)
    · exact h3 hx1 (List.mem_cons_of_mem _ hx2)
  · exact hl

theorem mem_set_nodup {α : Type} (l : List α) (k : Nat) (v a j : α) (hl : l.Nodup)
    (hv : l[k]? = some v) (hj : j ∈ l.set k a) : j = a ∨ (j ∈ l ∧ j ≠ v) := by
  have hk := (List.getElem?_eq_some.1 hv).1
  have hvv := (List.getElem?_eq_some.1 hv).2
  have hdec : l = l.take k ++ l[k] :: l.drop (k + 1) := by
    conv_lhs => rw [← List.take_append_drop k l]
    rw [List.drop_eq_getElem_cons hk]
  rw [List.set_eq_take_append_cons_drop, if_pos hk] at hj
  rw [hdec, List.nodup_append] at hl
  obtain ⟨_, h2, h3⟩ := hl
  rw [List.nodup_cons] at h2
  rcases List.mem_append.1 hj with hj | hj
  · right
    refine ⟨List.mem_of_mem_take hj, ?_⟩
    intro hjv
    exact h3 hj (by rw [hjv, ← hvv]; exact List.mem_cons_self _ _)
  · rcases List.mem_cons.1 hj with rfl | hj
    · left; rfl
    · right
      refine ⟨List.mem_of_mem_drop hj, ?_⟩
      intro hjv
      exact h2.1 (by rw [hvv, ← hjv]; exact hj)

/-! ## The cache of open handles -/

theorem cacheFrame_refl (s : MultiDiskAdaptor) : CacheFrame s s :=
  ⟨rfl, rfl, rfl, rfl⟩

theorem cacheFrame_trans {s s1 s2 : MultiDiskAdaptor} (h1 : CacheFrame s s1)
    (h2 : CacheFrame s1 s2) : CacheFrame s s2 :=
  ⟨h2.1.trans h1.1, h2.2.1.trans h1.2.1, h2.2.2.1.trans h1.2.2.1, h2.2.2.2.trans h1.2.2.2⟩

theorem closeFile_diskPart (e : DiskWriterEntry) : diskPart e.closeFile = diskPart e := by
  unfold DiskWriterEntry.closeFile diskPart
  split <;> rfl

theorem closeFile_isOpen (e : DiskWriterEntry) : e.closeFile.isOpen = false := by
  unfold DiskWriterEntry.closeFile
  split
  · rfl
  · rename_i h; simpa using h

theorem closeEntry_none (s : MultiDiskAdaptor) (i : Nat) (h : s.diskWriterEntries[i]? = none) :
    closeEntry s i = s := by
  unfold closeEntry; rw [h]

theorem closeEntry_some (s : MultiDiskAdaptor) (i : Nat) (e : DiskWriterEntry)
    (h : s.diskWriterEntries[i]? = some e) :
    closeEntry s i =
      { s with
        diskWriterEntries := s.diskWriterEntries.set i e.closeFile
        ioLog := if e.isOpen then s.ioLog ++ [.closed i] else s.ioLog } := by
  unfold closeEntry; rw [h]

theorem closeEntry_frame (s : MultiDiskAdaptor) (i : Nat) : CacheFrame s (closeEntry s i) := by
  cases h : s.diskWriterEntries[i]? with
  | none => rw [closeEntry_none s i h]; exact cacheFrame_refl s
  | some e =>
    rw [closeEntry_some s i e h]
    refine ⟨map_set_same diskPart _ i e _ h (closeFile_diskPart e), rfl, ?_, ?_⟩
    · simp only; split <;> simp [wroteEvents, List.filter_append]
    · simp only; split <;> simp [readEvents, List.filter_append]

theorem closeEntry_opened (s : MultiDiskAdaptor) (i : Nat) :
    (closeEntry s i).openedDiskWriterEntries = s.openedDiskWriterEntries := by
  cases h : s.diskWriterEntries[i]? with
  | none => rw [closeEntry_none s i h]
  | some e => rw [closeEntry_some s i e h]

theorem open_none (e : DiskWriterEntry) (m : OpenMethod) (i : Nat)
    (h : e.diskWriter = none) : e.open m i = .ok e := by
  unfold DiskWriterEntry.open; rw [h]

theorem open_some_ok (e : DiskWriterEntry) (m : OpenMethod) (i : Nat) (w : DiskWriter)
    (h : e.diskWriter = some w) (hw : w.openable = true) :
    e.open m i = .ok { e with isOpen := true } := by
  unfold DiskWriterEntry.open; rw [h]; simp [hw]

theorem open_some_fail (e : DiskWriterEntry) (m : OpenMethod) (i : Nat) (w : DiskWriter)
    (h : e.diskWriter = some w) (hw : w.openable = false) :
    e.open m i = .error (.openFailed i) := by
  unfold DiskWriterEntry.open; rw [h]; simp [hw]

theorem open_diskPart (e e1 : DiskWriterEntry) (m : OpenMethod) (i : Nat)
    (h : e.open m i = .ok e1) : diskPart e1 = diskPart e := by
  cases hw : e.diskWriter with
  | none => rw [open_none e m i hw] at h; cases h; rfl
  | some w =>
    cases ho : w.openable with
    | false => rw [open_some_fail e m i w hw ho] at h; cases h
    | true => rw [open_some_ok e m i w hw ho] at h; cases h; rfl

theorem openIfNotOpen_error (s : MultiDiskAdaptor) (i : Nat) (e : DiskWriterEntry)
    (m : OpenMethod) (err : DlAbort) (h : e.open m i = .error err) :
    openIfNotOpen s i e m = (.error err, s) := by
  unfold openIfNotOpen; rw [h]

theorem openIfNotOpen_ok (s : MultiDiskAdaptor) (i : Nat) (e e1 : DiskWriterEntry)
    (m : OpenMethod) (h : e.open m i = .ok e1) :
    openIfNotOpen s i e m =
      (.ok (),
        { s with
          diskWriterEntries := s.diskWriterEntries.set i e1
          ioLog := if e.diskWriter.isSome then s.ioLog ++ [.opened i] else s.ioLog }) := by
  unfold openIfNotOpen; rw [h]

theorem openIfNotOpen_frame (s : MultiDiskAdaptor) (i : Nat) (e : DiskWriterEntry)
    (m : OpenMethod) (h : s.diskWriterEntries[i]? = some e) :
    CacheFrame s (openIfNotOpen s i e m).2 := by
  cases ho : e.open m i with
  | error err => rw [openIfNotOpen_error s i e m err ho]; exact cacheFrame_refl s
  | ok e1 =>
    rw [openIfNotOpen_ok s i e e1 m ho]
    refine ⟨map_set_same diskPart _ i e _ h (open_diskPart e e1 m i ho), rfl, ?_, ?_⟩
    · simp only; split <;> simp [wroteEvents, List.filter_append]
    · simp only; split <;> simp [readEvents, List.filter_append]

theorem openIfNotCache_push (s : MultiDiskAdaptor) (i n : Nat) (h : n < s.maxOpenFiles) :
    openIfNotCache s i n =
      (.ok (), { s with openedDiskWriterEntries := s.openedDiskWriterEntries ++ [i] }) := by
  unfold openIfNotCache
  rw [if_neg (by omega)]

theorem openIfNotCache_evict (s : MultiDiskAdaptor) (i n victim : Nat)
    (h : s.maxOpenFiles ≤ n)
    (hv : s.openedDiskWriterEntries[getRandomNumber (s.randomizer s.randomCalls) n]? =
      some victim) :
    openIfNotCache s i n =
      (.ok (),
        { closeEntry { s with randomCalls := s.randomCalls + 1 } victim with
          openedDiskWriterEntries :=
            s.openedDiskWriterEntries.set
              (getRandomNumber (s.randomizer s.randomCalls) n) i }) := by
  unfold openIfNotCache
  rw [if_pos (by omega)]
  simp only [hv, closeEntry_opened]

theorem openIfNotCache_undefined (s : MultiDiskAdaptor) (i n : Nat)
    (h : s.maxOpenFiles ≤ n)
    (hv : s.openedDiskWriterEntries[getRandomNumber (s.randomizer s.randomCalls) n]? = none) :
    openIfNotCache s i n =
      (.error .undefinedBehaviour, { s with randomCalls := s.randomCalls + 1 }) := by
  unfold openIfNotCache
  rw [if_pos (by omega)]
  simp only [hv]

theorem openIfNotCache_frame (s : MultiDiskAdaptor) (i n : Nat) :
    CacheFrame s (openIfNotCache s i n).2 := by
  by_cases h : n < s.maxOpenFiles
  · rw [openIfNotCache_push s i n h]; exact cacheFrame_refl s
  · cases hv : s.openedDiskWriterEntries[getRandomNumber (s.randomizer s.randomCalls) n]? with
    | none => rw [openIfNotCache_undefined s i n (by omega) hv]; exact cacheFrame_refl s
    | some victim =>
      rw [openIfNotCache_evict s i n victim (by omega) hv]
      exact closeEntry_frame { s with randomCalls := s.randomCalls + 1 } victim

theorem openIfNot_none (s : MultiDiskAdaptor) (i : Nat) (m : OpenMethod)
    (h : s.diskWriterEntries[i]? = none) : openIfNot s i m = (.error .undefinedBehaviour, s) := by
  unfold openIfNot; rw [h]

theorem openIfNot_hit (s : MultiDiskAdaptor) (i : Nat) (m : OpenMethod) (e : DiskWriterEntry)
    (h : s.diskWriterEntries[i]? = some e) (ho : e.isOpen = true) :
    openIfNot s i m = (.ok (), s) := by
  unfold openIfNot; rw [h]; simp [ho]

theorem openIfNot_miss_error (s : MultiDiskAdaptor) (i : Nat) (m : OpenMethod)
    (e : DiskWriterEntry) (err : DlAbort)
    (h : s.diskWriterEntries[i]? = some e) (ho : e.isOpen = false)
    (hopen : e.open m i = .error err) : openIfNot s i m = (.error err, s) := by
  unfold openIfNot; rw [h]; simp [ho, openIfNotOpen_error s i e m err hopen]

theorem openIfNot_miss_ok (s : MultiDiskAdaptor) (i : Nat) (m : OpenMethod)
    (e e1 : DiskWriterEntry)
    (h : s.diskWriterEntries[i]? = some e) (ho : e.isOpen = false)
    (hopen : e.open m i = .ok e1) :
    openIfNot s i m =
      openIfNotCache (openIfNotOpen s i e m).2 i s.openedDiskWriterEntries.length := by
  unfold openIfNot; rw [h]; simp [ho, openIfNotOpen_ok s i e e1 m hopen]

theorem openIfNot_frame (s : MultiDiskAdaptor) (i : Nat) (m : OpenMethod) :
    CacheFrame s (openIfNot s i m).2 := by
  cases h : s.diskWriterEntries[i]? with
  | none => rw [openIfNot_none s i m h]; exact cacheFrame_refl s
  | some e =>
    cases ho : e.isOpen with
    | true => rw [openIfNot_hit s i m e h ho]; exact cacheFrame_refl s
    | false =>
      cases hopen : e.open m i with
      | error err => rw [openIfNot_miss_error s i m e err h ho hopen]; exact cacheFrame_refl s
      | ok e1 =>
        rw [openIfNot_miss_ok s i m e e1 h ho hopen]
        exact cacheFrame_trans (openIfNotOpen_frame s i e m h) (openIfNotCache_frame _ i _)

theorem isOpenAt_of_getElem (s : MultiDiskAdaptor) (j : Nat) (e : DiskWriterEntry)
    (h : s.diskWriterEntries[j]? = some e) : isOpenAt s j = e.isOpen := by
  unfold isOpenAt; rw [h]

theorem isOpenAt_congr (s s1 : MultiDiskAdaptor) (j : Nat)
    (h : s1.diskWriterEntries[j]? = s.diskWriterEntries[j]?) : isOpenAt s1 j = isOpenAt s j := by
  unfold isOpenAt; rw [h]

theorem isOpenAt_lt (s : MultiDiskAdaptor) (j : Nat) (h : isOpenAt s j = true) :
    j < s.diskWriterEntries.length := by
  unfold isOpenAt at h
  cases hj : s.diskWriterEntries[j]? with
  | none => rw [hj] at h; cases h
  | some e => exact (List.getElem?_eq_some.1 hj).1

theorem canOpen_of_diskPart (e e1 : DiskWriterEntry) (h : diskPart e1 = diskPart e) :
    canOpen e1 = canOpen e := by
  unfold diskPart at h
  unfold canOpen
  rw [(Prod.mk.inj h).2]

theorem contentOf_of_diskPart (e e1 : DiskWriterEntry) (h : diskPart e1 = diskPart e) :
    contentOf e1 = contentOf e := by
  unfold diskPart at h
  unfold contentOf
  rw [(Prod.mk.inj h).2]

theorem fileEntry_of_diskPart (e e1 : DiskWriterEntry) (h : diskPart e1 = diskPart e) :
    e1.fileEntry = e.fileEntry := by
  unfold diskPart at h
  exact (Prod.mk.inj h).1

theorem diskPart_getElem {l l1 : List DiskWriterEntry}
    (h : l1.map diskPart = l.map diskPart) {j : Nat} {e1 : DiskWriterEntry}
    (h1 : l1[j]? = some e1) : ∃ e, l[j]? = some e ∧ diskPart e1 = diskPart e := by
  have h2 : (l1.map diskPart)[j]? = some (diskPart e1) := by
    rw [List.getElem?_map, h1]; rfl
  rw [h, List.getElem?_map] at h2
  cases hl : l[j]? with
  | none => rw [hl] at h2; cases h2
  | some e =>
    rw [hl] at h2
    exact ⟨e, rfl, (Option.some.inj h2).symm⟩

theorem diskPart_length {l l1 : List DiskWriterEntry}
    (h : l1.map diskPart = l.map diskPart) : l1.length = l.length := by
  have := congrArg List.length h
  simpa using this

theorem openable_of_frame {s s1 : MultiDiskAdaptor} (h : CacheFrame s s1) (ho : Openable s) :
    Openable s1 := by
  intro e1 he1
  obtain ⟨j, hj⟩ := List.mem_iff_getElem?.1 he1
  obtain ⟨e, he, hd⟩ := diskPart_getElem h.1 hj
  rw [canOpen_of_diskPart e e1 hd]
  exact ho e (List.getElem?_mem he)

theorem contents_of_diskPart {s s1 : MultiDiskAdaptor}
    (h : s1.diskWriterEntries.map diskPart = s.diskWriterEntries.map diskPart) :
    contents s1 = contents s := by
  unfold contents
  have : contentOf = (fun p : FileEntry × Option DiskWriter =>
      match p.2 with
      | some w => w.content
      | none => []) ∘ diskPart := by
    funext e; rfl
  rw [this, ← List.map_map, ← List.map_map, h]

theorem isOpenAt_true (s : MultiDiskAdaptor) (j : Nat) (e : DiskWriterEntry)
    (h : s.diskWriterEntries[j]? = some e) (ho : e.isOpen = true) : isOpenAt s j = true := by
  rw [isOpenAt_of_getElem s j e h, ho]

theorem openIfNot_succeeds (s : MultiDiskAdaptor) (i : Nat) (m : OpenMethod)
    (hop : Openable s) (hc : CacheConsistent s) (hi : i < s.diskWriterEntries.length) :
    ∃ s1, openIfNot s i m = (.ok (), s1) ∧ CacheFrame s s1 ∧ CacheConsistent s1 ∧
      isOpenAt s1 i = true := by
  have hfr := openIfNot_frame s i m
  have he := List.getElem?_eq_getElem hi
  generalize s.diskWriterEntries[i] = e at he
  cases ho : e.isOpen with
  | true =>
    exact ⟨s, openIfNot_hit s i m e he ho, cacheFrame_refl s, hc, isOpenAt_true s i e he ho⟩
  | false =>
    have hcan := hop e (List.getElem?_mem he)
    unfold canOpen at hcan
    cases hw : e.diskWriter with
    | none => rw [hw] at hcan; cases hcan
    | some w =>
      rw [hw] at hcan
      simp only at hcan
      have hopen := open_some_ok e m i w hw hcan
      have hcall := openIfNot_miss_ok s i m e _ he ho hopen
      rw [openIfNotOpen_ok s i e _ m hopen] at hcall
      simp only at hcall
      generalize hs1 : ({ s with
          diskWriterEntries := s.diskWriterEntries.set i { e with isOpen := true }
          ioLog := if e.diskWriter.isSome then s.ioLog ++ [.opened i] else s.ioLog } :
            MultiDiskAdaptor) = s1 at hcall
      have h1e : s1.diskWriterEntries = s.diskWriterEntries.set i { e with isOpen := true } := by
        rw [← hs1]
      have h1o : s1.openedDiskWriterEntries = s.openedDiskWriterEntries := by rw [← hs1]
      have h1m : s1.maxOpenFiles = s.maxOpenFiles := by rw [← hs1]
      have h1i : s1.diskWriterEntries[i]? = some { e with isOpen := true } := by
        rw [h1e, List.getElem?_set_self hi]
      obtain ⟨hmax, hnd, hall⟩ := hc
      have hnotin : i ∉ s.openedDiskWriterEntries := by
        intro hmem
        have := hall i hmem
        rw [isOpenAt_of_getElem s i e he, ho] at this
        cases this
      by_cases hcap : s.openedDiskWriterEntries.length < s.maxOpenFiles
      · rw [openIfNotCache_push s1 i _ (by rw [h1m]; exact hcap)] at hcall
        rw [hcall] at hfr
        refine ⟨_, hcall, hfr, ⟨by simp only; omega, ?_, ?_⟩, ?_⟩
        · simp only
          rw [h1o, List.nodup_append]
          refine ⟨hnd, List.nodup_singleton i, ?_⟩
          intro x hx hx2
          rw [List.mem_singleton] at hx2
          subst hx2
          exact hnotin hx
        · intro j hj
          simp only at hj
          rw [h1o] at hj
          rcases List.mem_append.1 hj with hj | hj
          · have hne : i ≠ j := fun h => hnotin (h ▸ hj)
            rw [← hall j hj]
            apply isOpenAt_congr
            simp only
            rw [h1e, List.getElem?_set_ne hne]
          · rw [List.mem_singleton] at hj
            subst hj
            exact isOpenAt_true _ _ _ h1i rfl
        · exact isOpenAt_true _ _ _ h1i rfl
      · have hlen : 0 < s.openedDiskWriterEntries.length := by omega
        obtain ⟨index, hindex⟩ : ∃ index, getRandomNumber (s1.randomizer s1.randomCalls)
            s.openedDiskWriterEntries.length = index := ⟨_, rfl⟩
        have hidx : index < s.openedDiskWriterEntries.length := by
          rw [← hindex]
          unfold getRandomNumber
          exact Nat.mod_lt _ hlen
        have hv := List.getElem?_eq_getElem hidx
        generalize s.openedDiskWriterEntries[index] = victim at hv
        have hvmem : victim ∈ s.openedDiskWriterEntries := List.getElem?_mem hv
        have hvne : i ≠ victim := fun h => hnotin (h ▸ hvmem)
        have hvopen := hall victim hvmem
        have hvlt := isOpenAt_lt s victim hvopen
        have hve := List.getElem?_eq_getElem hvlt
        generalize s.diskWriterEntries[victim] = ev at hve
        have hcall2 := openIfNotCache_evict s1 i s.openedDiskWriterEntries.length victim
          (by rw [h1m]; omega) (by rw [hindex, h1o]; exact hv)
        rw [hindex, closeEntry_some _ victim ev
          (by simp only; rw [h1e, List.getElem?_set_ne hvne]; exact hve)] at hcall2
        simp only at hcall2
        rw [hcall2] at hcall
        rw [hcall] at hfr
        refine ⟨_, hcall, hfr, ⟨by simp only; omega, ?_, ?_⟩, ?_⟩
        · simp only
          rw [h1o]
          exact nodup_set_new _ _ _ hnd hnotin
        · intro j hj
          simp only at hj
          rw [h1o] at hj
          rcases mem_set_nodup _ _ victim i j hnd hv hj with rfl | ⟨hj1, hj2⟩
          · refine isOpenAt_true _ _ { e with isOpen := true } ?_ rfl
            simp only
            rw [List.getElem?_set_ne (Ne.symm hvne)]
            exact h1i
          · have hne : i ≠ j := fun h => hnotin (h ▸ hj1)
            rw [← hall j hj1]
            apply isOpenAt_congr
            simp only
            rw [List.getElem?_set_ne (Ne.symm hj2), h1e, List.getElem?_set_ne hne]
        · refine isOpenAt_true _ _ { e with isOpen := true } ?_ rfl
          simp only
          rw [List.getElem?_set_ne (Ne.symm hvne)]
          exact h1i

/-! ## The write loop -/

theorem calculateLength_eq (e : DiskWriterEntry) (fileOffset : Int) (rem : Nat)
    (h0 : 0 ≤ fileOffset) (h1 : fileOffset ≤ e.fileEntry.length)
    (h2 : (e.fileEntry.length : Int) < 9223372036854775808)
    (h3 : (rem : Int) < 9223372036854775808) :
    calculateLength e fileOffset rem = min rem (e.fileEntry.length - fileOffset.toNat) := by
  unfold calculateLength u64
  split <;> omega

theorem u64_sub (a b : Nat) (h : b ≤ a) (ha : (a : Int) < 18446744073709551616) :
    u64 ((a : Int) - (b : Int)) = a - b := by
  unfold u64; omega

theorem entryWriteData_eq (s : MultiDiskAdaptor) (i : Nat) (chunk : List Byte)
    (fileOffset : Int) (e : DiskWriterEntry) (w : DiskWriter)
    (h : s.diskWriterEntries[i]? = some e) (hw : e.diskWriter = some w) :
    entryWriteData s i chunk fileOffset =
      (.ok (),
        { s with
          diskWriterEntries :=
            s.diskWriterEntries.set i
              { e with diskWriter := some (w.writeData chunk fileOffset.toNat) }
          ioLog := s.ioLog ++ [.wrote i chunk fileOffset] }) := by
  unfold entryWriteData; rw [h]; simp only [hw]

theorem writeDataLoop_step (data : List Byte) (len : Nat) (offset : Int) (k i : Nat)
    (s s1 : MultiDiskAdaptor) (rem : Nat) (fileOffset : Int) (e e1 : DiskWriterEntry)
    (w : DiskWriter)
    (he : s.diskWriterEntries[i]? = some e)
    (hopen : openIfNot s i .openFile = (.ok (), s1))
    (he1 : s1.diskWriterEntries[i]? = some e1) (ho : e1.isOpen = true)
    (hw : e1.diskWriter = some w) :
    writeDataLoop data len offset (k + 1) i s rem fileOffset =
      if u64 ((rem : Int) - (calculateLength e fileOffset rem : Int)) = 0 then
        (.ok (),
          { s1 with
            diskWriterEntries :=
              s1.diskWriterEntries.set i
                { e1 with diskWriter := some (w.writeData
                    ((data.drop (u64 ((len : Int) - (rem : Int)))).take
                      (calculateLength e fileOffset rem)) fileOffset.toNat) }
            ioLog := s1.ioLog ++ [.wrote i
              ((data.drop (u64 ((len : Int) - (rem : Int)))).take
                (calculateLength e fileOffset rem)) fileOffset] })
      else
        writeDataLoop data len offset k (i + 1)
          { s1 with
            diskWriterEntries :=
              s1.diskWriterEntries.set i
                { e1 with diskWriter := some (w.writeData
                    ((data.drop (u64 ((len : Int) - (rem : Int)))).take
                      (calculateLength e fileOffset rem)) fileOffset.toNat) }
            ioLog := s1.ioLog ++ [.wrote i
              ((data.drop (u64 ((len : Int) - (rem : Int)))).take
                (calculateLength e fileOffset rem)) fileOffset] }
          (u64 ((rem : Int) - (calculateLength e fileOffset rem : Int))) 0 := by
  rw [writeDataLoop]
  simp only [he, hopen, he1, ho, Bool.not_true, Bool.false_eq_true, if_false,
    entryWriteData_eq s1 i _ fileOffset e1 w he1 hw]

theorem writeDataLoop_notOpened (data : List Byte) (len : Nat) (offset : Int) (k i : Nat)
    (s s1 : MultiDiskAdaptor) (rem : Nat) (fileOffset : Int) (e e1 : DiskWriterEntry)
    (he : s.diskWriterEntries[i]? = some e)
    (hopen : openIfNot s i .openFile = (.ok (), s1))
    (he1 : s1.diskWriterEntries[i]? = some e1) (ho : e1.isOpen = false) :
    writeDataLoop data len offset (k + 1) i s rem fileOffset =
      (.error (.diskWriterNotOpened (i64 (offset + u64 ((len : Int) - (rem : Int)))) i), s1) := by
  rw [writeDataLoop]
  simp only [he, hopen, he1, ho, Bool.not_false, if_true]

theorem writeDataLoop_openError (data : List Byte) (len : Nat) (offset : Int) (k i : Nat)
    (s s1 : MultiDiskAdaptor) (rem : Nat) (fileOffset : Int) (e : DiskWriterEntry)
    (err : DlAbort)
    (he : s.diskWriterEntries[i]? = some e)
    (hopen : openIfNot s i .openFile = (.error err, s1)) :
    writeDataLoop data len offset (k + 1) i s rem fileOffset = (.error err, s1) := by
  rw [writeDataLoop]
  simp only [he, hopen]

theorem forall_mem_set {α : Type} (Q : α → Prop) (l : List α) (i : Nat) (b : α)
    (h : ∀ a ∈ l, Q a) (hb : Q b) : ∀ a ∈ l.set i b, Q a := by
  intro a ha
  rcases List.mem_or_eq_of_mem_set ha with ha | rfl
  · exact h a ha
  · exact hb

theorem bounded_of_frame {s s1 : MultiDiskAdaptor} (h : CacheFrame s s1) (hb : Bounded s) :
    Bounded s1 := by
  intro e1 he1
  obtain ⟨j, hj⟩ := List.mem_iff_getElem?.1 he1
  obtain ⟨e, he, hd⟩ := diskPart_getElem h.1 hj
  rw [fileEntry_of_diskPart e e1 hd]
  exact hb e (List.getElem?_mem he)

theorem cacheConsistent_set (s s2 : MultiDiskAdaptor) (i : Nat) (e1 e2 : DiskWriterEntry)
    (hc : CacheConsistent s) (he1 : s.diskWriterEntries[i]? = some e1)
    (ho : e2.isOpen = e1.isOpen)
    (h2e : s2.diskWriterEntries = s.diskWriterEntries.set i e2)
    (h2o : s2.openedDiskWriterEntries = s.openedDiskWriterEntries)
    (h2m : s2.maxOpenFiles = s.maxOpenFiles) : CacheConsistent s2 := by
  obtain ⟨hmax, hnd, hall⟩ := hc
  refine ⟨by omega, by rw [h2o]; exact hnd, ?_⟩
  intro j hj
  rw [h2o] at hj
  rw [← hall j hj]
  by_cases hij : i = j
  · subst hij
    have hi := (List.getElem?_eq_some.1 he1).1
    rw [isOpenAt_of_getElem s2 i e2 (by rw [h2e, List.getElem?_set_self hi]),
      isOpenAt_of_getElem s i e1 he1, ho]
  · apply isOpenAt_congr
    rw [h2e, List.getElem?_set_ne hij]

theorem writeDataLoop_first (data : List Byte) (len : Nat) (offset : Int)
    (hlen : (len : Int) < 9223372036854775808)
    (k i : Nat) (s : MultiDiskAdaptor) (rem : Nat) (fileOffset : Int) (e : DiskWriterEntry)
    (hop : Openable s) (hc : CacheConsistent s) (hb : Bounded s)
    (he : s.diskWriterEntries[i]? = some e) (h0 : 0 ≤ fileOffset)
    (h1 : fileOffset ≤ e.fileEntry.length) (hrem : rem ≤ len) :
    ∃ s2 w, e.diskWriter = some w ∧
      writeDataLoop data len offset (k + 1) i s rem fileOffset =
        (if rem ≤ e.fileEntry.length - fileOffset.toNat then (.ok (), s2)
          else writeDataLoop data len offset k (i + 1) s2
            (rem - (e.fileEntry.length - fileOffset.toNat)) 0) ∧
      Openable s2 ∧ CacheConsistent s2 ∧ Bounded s2 ∧ s2.maxOpenFiles = s.maxOpenFiles ∧
      s2.diskWriterEntries.map diskPart =
        (s.diskWriterEntries.map diskPart).set i
          (e.fileEntry, some (w.writeData
            ((data.drop (len - rem)).take (min rem (e.fileEntry.length - fileOffset.toNat)))
            fileOffset.toNat)) ∧
      wroteEvents s2.ioLog = wroteEvents s.ioLog ++
        [.wrote i ((data.drop (len - rem)).take
          (min rem (e.fileEntry.length - fileOffset.toNat))) fileOffset.toNat] ∧
      readEvents s2.ioLog = readEvents s.ioLog := by
  have hi := (List.getElem?_eq_some.1 he).1
  obtain ⟨s1, hcall, hfr, hc1, hopen1⟩ := openIfNot_succeeds s i .openFile hop hc hi
  have hi1 : i < s1.diskWriterEntries.length := isOpenAt_lt s1 i hopen1
  have he1 := List.getElem?_eq_getElem hi1
  generalize s1.diskWriterEntries[i] = e1 at he1
  have ho1 : e1.isOpen = true := by
    rw [isOpenAt_of_getElem s1 i e1 he1] at hopen1; exact hopen1
  obtain ⟨e0, he0, hd⟩ := diskPart_getElem hfr.1 he1
  rw [he] at he0
  cases he0
  have hop1 := openable_of_frame hfr hop
  have hcan := hop1 e1 (List.getElem?_mem he1)
  unfold canOpen at hcan
  cases hw : e1.diskWriter with
  | none => rw [hw] at hcan; cases hcan
  | some w =>
    rw [hw] at hcan
    simp only at hcan
    have hwe : e.diskWriter = some w := by
      have := (Prod.mk.inj hd).2
      rw [← this, hw]
    have hfe : e1.fileEntry = e.fileEntry := (Prod.mk.inj hd).1
    have hbe := hb e (List.getElem?_mem he)
    have hstep := writeDataLoop_step data len offset k i s s1 rem fileOffset e e1 w he hcall
      he1 ho1 hw
    have hcl := calculateLength_eq e fileOffset rem h0 h1 hbe (by omega)
    have hwl : min rem (e.fileEntry.length - fileOffset.toNat) ≤ rem := Nat.min_le_left _ _
    rw [hcl, u64_sub rem _ hwl (by omega), u64_sub len rem hrem (by omega)] at hstep
    have hto : ((fileOffset.toNat : Nat) : Int) = fileOffset := Int.toNat_of_nonneg h0
    generalize hchunk : (data.drop (len - rem)).take
      (min rem (e.fileEntry.length - fileOffset.toNat)) = chunk at hstep
    generalize hs2 : ({ s1 with
        diskWriterEntries :=
          s1.diskWriterEntries.set i
            { e1 with diskWriter := some (w.writeData chunk fileOffset.toNat) }
        ioLog := s1.ioLog ++ [.wrote i chunk fileOffset] } : MultiDiskAdaptor) = s2 at hstep
    have h2e : s2.diskWriterEntries = s1.diskWriterEntries.set i
        { e1 with diskWriter := some (w.writeData chunk fileOffset.toNat) } := by rw [← hs2]
    have h2l : s2.ioLog = s1.ioLog ++ [.wrote i chunk fileOffset] := by rw [← hs2]
    have h2o : s2.openedDiskWriterEntries = s1.openedDiskWriterEntries := by rw [← hs2]
    have h2m : s2.maxOpenFiles = s1.maxOpenFiles := by rw [← hs2]
    refine ⟨s2, w, hwe, ?_, ?_, ?_, ?_, ?_, ?_, ?_, ?_⟩
    · rw [hstep]
      by_cases hr : rem ≤ e.fileEntry.length - fileOffset.toNat
      · rw [if_pos hr, if_pos (by omega)]
      · rw [if_neg hr, if_neg (by omega)]
        congr 1
        omega
    · intro a ha
      rw [h2e] at ha
      refine forall_mem_set (fun a => canOpen a = true) _ i _ hop1 ?_ a ha
      unfold canOpen
      simp only [DiskWriter.writeData]
      exact hcan
    · exact cacheConsistent_set s1 s2 i e1
        { e1 with diskWriter := some (w.writeData chunk fileOffset.toNat) } hc1 he1 rfl h2e
        h2o h2m
    · intro a ha
      rw [h2e] at ha
      rcases List.mem_or_eq_of_mem_set ha with ha | rfl
      · exact (bounded_of_frame hfr hb) a ha
      · simp only
        rw [hfe]
        exact hbe
    · rw [h2m]
      exact hfr.2.1
    · rw [h2e, List.map_set, hfr.1]
      simp only [diskPart, hfe]
    · rw [h2l, wroteEvents, List.filter_append, ← wroteEvents, hfr.2.2.1, hto]
      simp [wroteEvents]
    · rw [h2l, readEvents, List.filter_append, ← readEvents, hfr.2.2.2]
      simp

theorem take_succ_set {α : Type} (l : List α) (i : Nat) (x : α) (hi : i < l.length) :
    (l.set i x).take (i + 1) = l.take i ++ [x] := by
  rw [List.set_eq_take_append_cons_drop, if_pos hi, List.take_append_eq_append_take]
  have hl : (l.take i).length = i := by rw [List.length_take]; omega
  rw [hl, List.take_of_length_le (by rw [hl]; omega)]
  simp

theorem writeDataLoop_spec (data : List Byte) (len : Nat) (offset : Int)
    (hdata : data.length = len) (hlen : (len : Int) < 9223372036854775808) :
    ∀ (k i : Nat) (s : MultiDiskAdaptor) (rem : Nat) (fileOffset : Int),
      Openable s → CacheConsistent s → Bounded s →
      i + k = s.diskWriterEntries.length → 0 ≤ fileOffset →
      (∀ e, s.diskWriterEntries[i]? = some e → fileOffset ≤ e.fileEntry.length) →
      rem ≤ len →
      ∃ s1, writeDataLoop data len offset k i s rem fileOffset = (.ok (), s1) ∧
        Openable s1 ∧ CacheConsistent s1 ∧ Bounded s1 ∧ s1.maxOpenFiles = s.maxOpenFiles ∧
        s1.diskWriterEntries.map diskPart =
          (s.diskWriterEntries.map diskPart).take i ++
            spreadParts ((s.diskWriterEntries.map diskPart).drop i) fileOffset.toNat
              (data.drop (len - rem)) ∧
        wroteEvents s1.ioLog = wroteEvents s.ioLog ++
          expectedWrites ((s.diskWriterEntries.map diskPart).drop i) i fileOffset.toNat
            (data.drop (len - rem)) ∧
        readEvents s1.ioLog = readEvents s.ioLog := by
  intro k
  induction k with
  | zero =>
    intro i s rem fileOffset hop hc hb hik _ _ _
    refine ⟨s, by rw [writeDataLoop], hop, hc, hb, rfl, ?_, ?_, rfl⟩
    · rw [List.drop_of_length_le (by rw [List.length_map]; omega),
        List.take_of_length_le (by rw [List.length_map]; omega)]
      simp [spreadParts]
    · rw [List.drop_of_length_le (by rw [List.length_map]; omega)]
      simp [expectedWrites]
  | succ k ih =>
    intro i s rem fileOffset hop hc hb hik h0 h1 hrem
    have hi : i < s.diskWriterEntries.length := by omega
    have he := List.getElem?_eq_getElem hi
    generalize s.diskWriterEntries[i] = e at he
    obtain ⟨s2, w, hwe, hloop, hop2, hc2, hb2, hm2, hd2, hw2, hr2⟩ :=
      writeDataLoop_first data len offset hlen k i s rem fileOffset e hop hc hb he h0
        (h1 e he) hrem
    have hPi : i < (s.diskWriterEntries.map diskPart).length := by
      rw [List.length_map]; exact hi
    have hPe : (s.diskWriterEntries.map diskPart)[i] = (e.fileEntry, some w) := by
      have : (s.diskWriterEntries.map diskPart)[i]? = some (e.fileEntry, some w) := by
        rw [List.getElem?_map, he]
        simp [diskPart, hwe]
      exact (List.getElem?_eq_some.1 this).2
    have hdl : (data.drop (len - rem)).length = rem := by
      rw [List.length_drop]; omega
    rw [List.drop_eq_getElem_cons hPi, hPe]
    simp only [spreadParts, expectedWrites, Option.map_some', hdl]
    by_cases hr : rem ≤ e.fileEntry.length - fileOffset.toNat
    · rw [if_pos hr] at hloop
      refine ⟨s2, hloop, hop2, hc2, hb2, hm2, ?_, ?_, hr2⟩
      · rw [hd2, List.set_eq_take_append_cons_drop, if_pos hPi, if_pos hr]
      · rw [hw2, if_pos hr]
    · rw [if_neg hr] at hloop
      have hlen2 : s2.diskWriterEntries.length = s.diskWriterEntries.length := by
        have := congrArg List.length hd2
        simpa using this
      obtain ⟨s3, hloop3, hop3, hc3, hb3, hm3, hd3, hw3, hr3⟩ :=
        ih (i + 1) s2 (rem - (e.fileEntry.length - fileOffset.toNat)) 0 hop2 hc2 hb2
          (by omega) (le_refl 0) (fun _ _ => by omega) (by omega)
      rw [hloop3] at hloop
      have hdrop : data.drop (len - (rem - (e.fileEntry.length - fileOffset.toNat))) =
          (data.drop (len - rem)).drop (e.fileEntry.length - fileOffset.toNat) := by
        rw [List.drop_drop]
        congr 1
        omega
      refine ⟨s3, hloop, hop3, hc3, hb3, by omega, ?_, ?_, by rw [hr3, hr2]⟩
      · rw [hd3, hd2, take_succ_set _ i _ hPi, List.drop_set_of_lt _ _ (by omega), if_neg hr,
          hdrop]
        simp
      · rw [hw3, hw2, hd2, List.drop_set_of_lt _ _ (by omega), if_neg hr, hdrop]
        simp

theorem Bounded.of_representable (s : MultiDiskAdaptor)
    (h : Representable s.diskWriterEntries) : Bounded s := by
  intro e he
  have := h e he
  unfold DiskWriterEntry.lastOffset at this
  omega

theorem writeData_spec (s : MultiDiskAdaptor) (data : List Byte) (len : Nat) (offset : Int)
    (first last : DiskWriterEntry)
    (hop : Openable s) (hc : CacheConsistent s)
    (hcont : Contiguous s.diskWriterEntries) (hrep : Representable s.diskWriterEntries)
    (hf : s.diskWriterEntries.head? = some first)
    (hl : s.diskWriterEntries.getLast? = some last)
    (h1 : first.fileEntry.offset ≤ offset) (h2 : offset < last.lastOffset)
    (hdata : data.length = len) (hlen : (len : Int) < 9223372036854775808) :
    ∃ i e s1, findFirstDiskWriterEntry s.diskWriterEntries offset = .ok i ∧
      s.diskWriterEntries[i]? = some e ∧ Contains e offset ∧
      writeData s data len offset = (.ok (), s1) ∧
      Openable s1 ∧ CacheConsistent s1 ∧ s1.maxOpenFiles = s.maxOpenFiles ∧
      s1.diskWriterEntries.map diskPart =
        (s.diskWriterEntries.map diskPart).take i ++
          spreadParts ((s.diskWriterEntries.map diskPart).drop i)
            (offset - e.fileEntry.offset).toNat data ∧
      wroteEvents s1.ioLog = wroteEvents s.ioLog ++
        expectedWrites ((s.diskWriterEntries.map diskPart).drop i) i
          (offset - e.fileEntry.offset).toNat data ∧
      readEvents s1.ioLog = readEvents s.ioLog := by
  obtain ⟨i, e, hfind, hie, hcon, _, _⟩ :=
    findFirst_contains s.diskWriterEntries offset first last hcont hrep hf hl h1 h2
  have hi := (List.getElem?_eq_some.1 hie).1
  have hre := hrep e (List.getElem?_mem hie)
  have hfo : i64 (offset - e.fileEntry.offset) = offset - e.fileEntry.offset := by
    apply i64_of_range
    · have := hcon.1; omega
    · have := hcon.2; have := hre.1; have := hre.2; omega
  obtain ⟨s1, hloop, hop1, hc1, _, hm1, hd1, hw1, hr1⟩ :=
    writeDataLoop_spec data len offset hdata hlen (s.diskWriterEntries.length - i) i s len
      (offset - e.fileEntry.offset) hop hc (Bounded.of_representable s hrep) (by omega)
      (by have := hcon.1; omega)
      (by
        intro e1 he1
        rw [hie] at he1
        cases he1
        have := hcon.2
        unfold DiskWriterEntry.lastOffset at this
        omega)
      (le_refl _)
  rw [Nat.sub_self, List.drop_zero] at hd1 hw1
  refine ⟨i, e, s1, hfind, hie, hcon, ?_, hop1, hc1, hm1, hd1, hw1, hr1⟩
  unfold writeData
  rw [hfind]
  simp only [hie, hfo]
  exact hloop

/-! ## Chunks of a write -/

theorem totalLength_cons (p : FileEntry × Option DiskWriter)
    (rest : List (FileEntry × Option DiskWriter)) :
    totalLength (p :: rest) = p.1.length + totalLength rest := by
  simp [totalLength]

theorem expectedWrites_chunks : ∀ (parts : List (FileEntry × Option DiskWriter))
    (i localOffset : Nat) (d : List Byte),
    (∀ p, parts.head? = some p → localOffset ≤ p.1.length) →
    ((expectedWrites parts i localOffset d).map IoEvent.chunk).flatten =
      d.take (totalLength parts - localOffset)
  | [], _, _, _, _ => by simp [expectedWrites, totalLength]
  | p :: rest, i, localOffset, d, h => by
    have hp := h p rfl
    rw [expectedWrites, totalLength_cons]
    by_cases hd : d.length ≤ p.1.length - localOffset
    · rw [if_pos hd]
      simp only [List.map_cons, List.map_nil, List.flatten_cons, List.flatten_nil,
        List.append_nil, IoEvent.chunk]
      rw [Nat.min_eq_left hd, List.take_of_length_le (le_refl _),
        List.take_of_length_le (by omega)]
    · rw [if_neg hd]
      have ih := expectedWrites_chunks rest (i + 1) 0 (d.drop (p.1.length - localOffset))
        (fun _ _ => Nat.zero_le _)
      simp only [List.map_cons, List.flatten_cons, IoEvent.chunk]
      rw [ih, Nat.min_eq_right (by omega), Nat.sub_zero,
        show p.1.length + totalLength rest - localOffset =
          (p.1.length - localOffset) + totalLength rest by omega, List.take_add]

theorem contiguous_total : ∀ (l : List DiskWriterEntry) (a last : DiskWriterEntry),
    Contiguous (a :: l) → (a :: l).getLast? = some last →
    a.fileEntry.offset + (totalLength ((a :: l).map diskPart) : Int) = last.lastOffset
  | [], a, last, _, hl => by
    simp at hl
    subst hl
    simp [totalLength, diskPart, DiskWriterEntry.lastOffset]
  | b :: l, a, last, hc, hl => by
    rw [contiguous_cons_cons] at hc
    rw [List.getLast?_cons_cons] at hl
    have ih := contiguous_total l b last hc.2 hl
    have h1 := hc.1
    unfold DiskWriterEntry.lastOffset at h1
    rw [List.map_cons, totalLength_cons]
    simp only [diskPart] at ih ⊢
    push_cast
    omega

theorem contiguous_total_drop (entries : List DiskWriterEntry) (i : Nat)
    (e last : DiskWriterEntry) (hc : Contiguous entries) (hie : entries[i]? = some e)
    (hl : entries.getLast? = some last) :
    e.fileEntry.offset + (totalLength ((entries.map diskPart).drop i) : Int) =
      last.lastOffset := by
  obtain ⟨hi, hie1⟩ := List.getElem?_eq_some.1 hie
  rw [← List.map_drop, List.drop_eq_getElem_cons hi, hie1]
  apply contiguous_total
  · have := List.Chain'.drop ((contiguous_iff_chain _).1 hc) i
    rw [List.drop_eq_getElem_cons hi, hie1] at this
    exact (contiguous_iff_chain _).2 this
  · rw [← hie1, ← List.drop_eq_getElem_cons hi, List.getLast?_drop, if_neg (by omega)]
    exact hl

/-! ## The read loop -/

theorem openable_of_parts {s s1 : MultiDiskAdaptor}
    (h : s1.diskWriterEntries.map diskPart = s.diskWriterEntries.map diskPart)
    (ho : Openable s) : Openable s1 := by
  intro e1 he1
  obtain ⟨j, hj⟩ := List.mem_iff_getElem?.1 he1
  obtain ⟨e, he, hd⟩ := diskPart_getElem h hj
  rw [canOpen_of_diskPart e e1 hd]
  exact ho e (List.getElem?_mem he)

theorem bounded_of_parts {s s1 : MultiDiskAdaptor}
    (h : s1.diskWriterEntries.map diskPart = s.diskWriterEntries.map diskPart)
    (hb : Bounded s) : Bounded s1 := by
  intro e1 he1
  obtain ⟨j, hj⟩ := List.mem_iff_getElem?.1 he1
  obtain ⟨e, he, hd⟩ := diskPart_getElem h hj
  rw [fileEntry_of_diskPart e e1 hd]
  exact hb e (List.getElem?_mem he)

theorem fullReads_of_parts {s s1 : MultiDiskAdaptor}
    (h : s1.diskWriterEntries.map diskPart = s.diskWriterEntries.map diskPart)
    (hb : FullReads s) : FullReads s1 := by
  intro e1 he1
  obtain ⟨j, hj⟩ := List.mem_iff_getElem?.1 he1
  obtain ⟨e, he, hd⟩ := diskPart_getElem h hj
  rw [fileEntry_of_diskPart e e1 hd, contentOf_of_diskPart e e1 hd]
  exact hb e (List.getElem?_mem he)

theorem fullFiles_of_parts {s s1 : MultiDiskAdaptor}
    (h : s1.diskWriterEntries.map diskPart = s.diskWriterEntries.map diskPart)
    (hb : FullFiles s) : FullFiles s1 := by
  intro e1 he1
  obtain ⟨j, hj⟩ := List.mem_iff_getElem?.1 he1
  obtain ⟨e, he, hd⟩ := diskPart_getElem h hj
  rw [fileEntry_of_diskPart e e1 hd, contentOf_of_diskPart e e1 hd]
  exact hb e (List.getElem?_mem he)

theorem fullReads_of_fullFiles {s : MultiDiskAdaptor} (h : FullFiles s) : FullReads s :=
  fun e he => le_of_eq (h e he).symm

theorem entryReadData_eq (s : MultiDiskAdaptor) (i : Nat) (readLength : Nat)
    (fileOffset : Int) (e : DiskWriterEntry) (w : DiskWriter)
    (h : s.diskWriterEntries[i]? = some e) (hw : e.diskWriter = some w) :
    entryReadData s i readLength fileOffset =
      (.ok (w.readData readLength fileOffset.toNat),
        { s with ioLog := s.ioLog ++ [.read i readLength fileOffset] }) := by
  unfold entryReadData; rw [h]; simp only [hw]

theorem readDataLoop_step (len : Nat) (offset : Int) (k i : Nat)
    (s s1 : MultiDiskAdaptor) (buf : List Byte) (total rem : Nat) (fileOffset : Int)
    (e e1 : DiskWriterEntry) (w : DiskWriter)
    (he : s.diskWriterEntries[i]? = some e)
    (hopen : openIfNot s i .openFile = (.ok (), s1))
    (he1 : s1.diskWriterEntries[i]? = some e1) (ho : e1.isOpen = true)
    (hw : e1.diskWriter = some w) :
    readDataLoop len offset (k + 1) i s buf total rem fileOffset =
      if u64 ((rem : Int) - (calculateLength e fileOffset rem : Int)) = 0 then
        (.ok (u64 ((total : Int) +
              ((w.readData (calculateLength e fileOffset rem) fileOffset.toNat).length : Int)),
            storeAt buf (u64 ((len : Int) - (rem : Int)))
              (w.readData (calculateLength e fileOffset rem) fileOffset.toNat)),
          { s1 with ioLog := s1.ioLog ++
              [.read i (calculateLength e fileOffset rem) fileOffset] })
      else
        readDataLoop len offset k (i + 1)
          { s1 with ioLog := s1.ioLog ++
              [.read i (calculateLength e fileOffset rem) fileOffset] }
          (storeAt buf (u64 ((len : Int) - (rem : Int)))
            (w.readData (calculateLength e fileOffset rem) fileOffset.toNat))
          (u64 ((total : Int) +
            ((w.readData (calculateLength e fileOffset rem) fileOffset.toNat).length : Int)))
          (u64 ((rem : Int) - (calculateLength e fileOffset rem : Int))) 0 := by
  rw [readDataLoop]
  simp only [he, hopen, he1, ho, Bool.not_true, Bool.false_eq_true, if_false,
    entryReadData_eq s1 i _ fileOffset e1 w he1 hw]

theorem readDataLoop_notOpened (len : Nat) (offset : Int) (k i : Nat)
    (s s1 : MultiDiskAdaptor) (buf : List Byte) (total rem : Nat) (fileOffset : Int)
    (e e1 : DiskWriterEntry)
    (he : s.diskWriterEntries[i]? = some e)
    (hopen : openIfNot s i .openFile = (.ok (), s1))
    (he1 : s1.diskWriterEntries[i]? = some e1) (ho : e1.isOpen = false) :
    readDataLoop len offset (k + 1) i s buf total rem fileOffset =
      (.error (.diskWriterNotOpened (i64 (offset + u64 ((len : Int) - (rem : Int)))) i), s1) := by
  rw [readDataLoop]
  simp only [he, hopen, he1, ho, Bool.not_false, if_true]

theorem readDataLoop_openError (len : Nat) (offset : Int) (k i : Nat)
    (s s1 : MultiDiskAdaptor) (buf : List Byte) (total rem : Nat) (fileOffset : Int)
    (e : DiskWriterEntry) (err : DlAbort)
    (he : s.diskWriterEntries[i]? = some e)
    (hopen : openIfNot s i .openFile = (.error err, s1)) :
    readDataLoop len offset (k + 1) i s buf total rem fileOffset = (.error err, s1) := by
  rw [readDataLoop]
  simp only [he, hopen]

theorem storeAt_append (a b x : List Byte) (p : Nat) (hp : a.length = p) :
    storeAt (a ++ b) p x = a ++ x ++ b.drop x.length := by
  unfold storeAt
  subst hp
  rw [List.take_append_eq_append_take, Nat.sub_self, List.take_zero, List.append_nil,
    List.take_of_length_le (le_refl _), List.drop_append_eq_append_drop,
    List.drop_of_length_le (by omega), List.nil_append,
    show a.length + x.length - a.length = x.length by omega]

theorem storeAt_storeAt (buf : List Byte) (p : Nat) (a b : List Byte) (hp : p ≤ buf.length) :
    storeAt (storeAt buf p a) (p + a.length) b = storeAt buf p (a ++ b) := by
  have h1 : (buf.take p).length = p := by rw [List.length_take]; omega
  conv_lhs => rw [← List.take_append_drop p buf]
  conv_rhs => rw [← List.take_append_drop p buf]
  rw [storeAt_append _ _ a p h1, storeAt_append _ _ (a ++ b) p h1,
    storeAt_append (buf.take p ++ a) _ b (p + a.length)
      (by rw [List.length_append, h1]),
    List.drop_drop, List.length_append]
  simp only [List.append_assoc]

theorem storeAt_nil (buf : List Byte) (p : Nat) : storeAt buf p [] = buf := by
  unfold storeAt
  simp

theorem storeAt_length (buf : List Byte) (p : Nat) (x : List Byte)
    (h : p + x.length ≤ buf.length) : (storeAt buf p x).length = buf.length := by
  unfold storeAt
  simp only [List.length_append, List.length_take, List.length_drop]
  omega

theorem readDataLoop_first (len : Nat) (offset : Int)
    (hlen : (len : Int) < 9223372036854775808)
    (k i : Nat) (s : MultiDiskAdaptor) (buf : List Byte) (total rem : Nat) (fileOffset : Int)
    (e : DiskWriterEntry)
    (hop : Openable s) (hc : CacheConsistent s) (hb : Bounded s) (hfull : FullReads s)
    (he : s.diskWriterEntries[i]? = some e) (h0 : 0 ≤ fileOffset)
    (h1 : fileOffset ≤ e.fileEntry.length) (hrem : rem ≤ len) (htot : total + rem ≤ len) :
    ∃ s2, readDataLoop len offset (k + 1) i s buf total rem fileOffset =
        (if rem ≤ e.fileEntry.length - fileOffset.toNat then
          (.ok (total + rem,
            storeAt buf (len - rem) (((contentOf e).drop fileOffset.toNat).take rem)), s2)
          else readDataLoop len offset k (i + 1) s2
            (storeAt buf (len - rem) (((contentOf e).drop fileOffset.toNat).take
              (e.fileEntry.length - fileOffset.toNat)))
            (total + (e.fileEntry.length - fileOffset.toNat))
            (rem - (e.fileEntry.length - fileOffset.toNat)) 0) ∧
      CacheConsistent s2 ∧ s2.maxOpenFiles = s.maxOpenFiles ∧
      s2.diskWriterEntries.map diskPart = s.diskWriterEntries.map diskPart ∧
      wroteEvents s2.ioLog = wroteEvents s.ioLog ∧
      readEvents s2.ioLog = readEvents s.ioLog ++
        [.read i (min rem (e.fileEntry.length - fileOffset.toNat)) fileOffset.toNat] := by
  have hi := (List.getElem?_eq_some.1 he).1
  obtain ⟨s1, hcall, hfr, hc1, hopen1⟩ := openIfNot_succeeds s i .openFile hop hc hi
  have hi1 : i < s1.diskWriterEntries.length := isOpenAt_lt s1 i hopen1
  have he1 := List.getElem?_eq_getElem hi1
  generalize s1.diskWriterEntries[i] = e1 at he1
  have ho1 : e1.isOpen = true := by
    rw [isOpenAt_of_getElem s1 i e1 he1] at hopen1; exact hopen1
  obtain ⟨e0, he0, hd⟩ := diskPart_getElem hfr.1 he1
  rw [he] at he0
  cases he0
  have hop1 := openable_of_frame hfr hop
  have hcan := hop1 e1 (List.getElem?_mem he1)
  unfold canOpen at hcan
  cases hw : e1.diskWriter with
  | none => rw [hw] at hcan; cases hcan
  | some w =>
    have hwe : e.diskWriter = some w := by
      have := (Prod.mk.inj hd).2
      rw [← this, hw]
    have hbe := hb e (List.getElem?_mem he)
    have hfe := hfull e (List.getElem?_mem he)
    have hce : contentOf e = w.content := by unfold contentOf; rw [hwe]
    rw [hce] at hfe ⊢
    have hstep := readDataLoop_step len offset k i s s1 buf total rem fileOffset e e1 w he
      hcall he1 ho1 hw
    have hcl := calculateLength_eq e fileOffset rem h0 h1 hbe (by omega)
    have hwl : min rem (e.fileEntry.length - fileOffset.toNat) ≤ rem := Nat.min_le_left _ _
    have hrl : (w.readData (min rem (e.fileEntry.length - fileOffset.toNat))
        fileOffset.toNat).length = min rem (e.fileEntry.length - fileOffset.toNat) := by
      unfold DiskWriter.readData
      rw [List.length_take, List.length_drop]
      omega
    rw [hcl, u64_sub rem _ hwl (by omega), u64_sub len rem hrem (by omega), hrl] at hstep
    have hu : u64 ((total : Int) + ((min rem (e.fileEntry.length - fileOffset.toNat) : Nat) : Int))
        = total + min rem (e.fileEntry.length - fileOffset.toNat) := by
      unfold u64; omega
    rw [hu] at hstep
    have hto : ((fileOffset.toNat : Nat) : Int) = fileOffset := Int.toNat_of_nonneg h0
    generalize hs2 : ({ s1 with ioLog := s1.ioLog ++
        [.read i (min rem (e.fileEntry.length - fileOffset.toNat)) fileOffset] } :
          MultiDiskAdaptor) = s2 at hstep
    have h2e : s2.diskWriterEntries = s1.diskWriterEntries := by rw [← hs2]
    have h2l : s2.ioLog = s1.ioLog ++
        [.read i (min rem (e.fileEntry.length - fileOffset.toNat)) fileOffset] := by rw [← hs2]
    have h2o : s2.openedDiskWriterEntries = s1.openedDiskWriterEntries := by rw [← hs2]
    have h2m : s2.maxOpenFiles = s1.maxOpenFiles := by rw [← hs2]
    refine ⟨s2, ?_, ?_, ?_, ?_, ?_, ?_⟩
    · rw [hstep]
      unfold DiskWriter.readData
      by_cases hr : rem ≤ e.fileEntry.length - fileOffset.toNat
      · rw [if_pos hr, if_pos (by omega), Nat.min_eq_left hr]
      · rw [if_neg hr, if_neg (by omega), Nat.min_eq_right (by omega)]
    · obtain ⟨hmax, hnd, hall⟩ := hc1
      refine ⟨by omega, by rw [h2o]; exact hnd, ?_⟩
      intro j hj
      rw [h2o] at hj
      rw [← hall j hj]
      apply isOpenAt_congr
      rw [h2e]
    · rw [h2m]; exact hfr.2.1
    · rw [h2e]; exact hfr.1
    · rw [h2l, wroteEvents, List.filter_append, ← wroteEvents, hfr.2.2.1]
      simp
    · rw [h2l, readEvents, List.filter_append, ← readEvents, hfr.2.2.2, hto]
      simp [readEvents]

theorem readDataLoop_spec (len : Nat) (offset : Int)
    (hlen : (len : Int) < 9223372036854775808) :
    ∀ (k i : Nat) (s : MultiDiskAdaptor) (buf : List Byte) (total rem : Nat)
      (fileOffset : Int),
      Openable s → CacheConsistent s → Bounded s → FullReads s →
      i + k = s.diskWriterEntries.length → 0 ≤ fileOffset →
      (∀ e, s.diskWriterEntries[i]? = some e → fileOffset ≤ e.fileEntry.length) →
      rem ≤ len → total + rem ≤ len → len ≤ buf.length →
      ∃ s1, readDataLoop len offset k i s buf total rem fileOffset =
          (.ok (total + min rem
              (totalLength ((s.diskWriterEntries.map diskPart).drop i) - fileOffset.toNat),
            storeAt buf (len - rem)
              (gatherParts ((s.diskWriterEntries.map diskPart).drop i) fileOffset.toNat rem)),
            s1) ∧
        CacheConsistent s1 ∧ s1.maxOpenFiles = s.maxOpenFiles ∧
        s1.diskWriterEntries.map diskPart = s.diskWriterEntries.map diskPart ∧
        wroteEvents s1.ioLog = wroteEvents s.ioLog := by
  intro k
  induction k with
  | zero =>
    intro i s buf total rem fileOffset _ hc _ _ hik _ _ _ _ _
    refine ⟨s, ?_, hc, rfl, rfl, rfl⟩
    rw [readDataLoop, List.drop_of_length_le (by rw [List.length_map]; omega)]
    simp [gatherParts, totalLength, storeAt_nil]
  | succ k ih =>
    intro i s buf total rem fileOffset hop hc hb hfull hik h0 h1 hrem htot hbuf
    have hi : i < s.diskWriterEntries.length := by omega
    have he := List.getElem?_eq_getElem hi
    generalize s.diskWriterEntries[i] = e at he
    obtain ⟨s2, hloop, hc2, hm2, hd2, hw2, _⟩ :=
      readDataLoop_first len offset hlen k i s buf total rem fileOffset e hop hc hb hfull he h0
        (h1 e he) hrem htot
    have hfe := hfull e (List.getElem?_mem he)
    have h1e := h1 e he
    have hPi : i < (s.diskWriterEntries.map diskPart).length := by
      rw [List.length_map]; exact hi
    have hPe : (s.diskWriterEntries.map diskPart)[i] = diskPart e := by
      have : (s.diskWriterEntries.map diskPart)[i]? = some (diskPart e) := by
        rw [List.getElem?_map, he]; rfl
      exact (List.getElem?_eq_some.1 this).2
    have hpc : partContent (diskPart e) = contentOf e := rfl
    have hpl : (diskPart e).1.length = e.fileEntry.length := rfl
    rw [List.drop_eq_getElem_cons hPi, hPe, gatherParts, totalLength_cons, hpc, hpl]
    by_cases hr : rem ≤ e.fileEntry.length - fileOffset.toNat
    · rw [if_pos hr] at hloop
      refine ⟨s2, ?_, hc2, hm2, hd2, hw2⟩
      rw [hloop, if_pos hr, List.append_nil, Nat.min_eq_left hr,
        Nat.min_eq_left (by omega)]
    · rw [if_neg hr] at hloop
      have hlen2 : s2.diskWriterEntries.length = s.diskWriterEntries.length := by
        have := congrArg List.length hd2
        simpa using this
      have hbl : (((contentOf e).drop fileOffset.toNat).take
          (e.fileEntry.length - fileOffset.toNat)).length =
            e.fileEntry.length - fileOffset.toNat := by
        rw [List.length_take, List.length_drop]; omega
      obtain ⟨s3, hloop3, hc3, hm3, hd3, hw3⟩ :=
        ih (i + 1) s2
          (storeAt buf (len - rem) (((contentOf e).drop fileOffset.toNat).take
              (e.fileEntry.length - fileOffset.toNat)))
          (total + (e.fileEntry.length - fileOffset.toNat))
          (rem - (e.fileEntry.length - fileOffset.toNat)) 0
          (openable_of_parts hd2 hop) hc2 (bounded_of_parts hd2 hb) (fullReads_of_parts hd2 hfull)
          (by omega) (le_refl 0) (fun _ _ => by omega) (by omega) (by omega)
          (by rw [storeAt_length _ _ _ (by rw [hbl]; omega)]; exact hbuf)
      rw [hloop3] at hloop
      refine ⟨s3, ?_, hc3, by omega, by rw [hd3, hd2], by rw [hw3, hw2]⟩
      rw [hloop, if_neg hr, hd2,
        Nat.min_eq_right (show e.fileEntry.length - fileOffset.toNat ≤ rem by omega)]
      have hpos : len - (rem - (e.fileEntry.length - fileOffset.toNat)) =
          (len - rem) + (((contentOf e).drop fileOffset.toNat).take
            (e.fileEntry.length - fileOffset.toNat)).length := by
        rw [hbl]; omega
      rw [hpos, storeAt_storeAt _ _ _ _ (by omega)]
      simp only [Int.toNat_zero, Nat.sub_zero]
      have hnum : total + (e.fileEntry.length - fileOffset.toNat) +
          min (rem - (e.fileEntry.length - fileOffset.toNat))
            (totalLength ((s.diskWriterEntries.map diskPart).drop (i + 1))) =
          total + min rem (e.fileEntry.length +
            totalLength ((s.diskWriterEntries.map diskPart).drop (i + 1)) -
              fileOffset.toNat) := by
        omega
      rw [hnum]

/-! ## The logical space -/

theorem storeAt_append_right (a b x : List Byte) (q : Nat) :
    storeAt (a ++ b) (a.length + q) x = a ++ storeAt b q x := by
  unfold storeAt
  rw [List.take_append_eq_append_take, List.take_of_length_le (by omega),
    List.drop_append_eq_append_drop, List.drop_of_length_le (by omega), List.nil_append,
    show a.length + q - a.length = q by omega,
    show a.length + q + x.length - a.length = q + x.length by omega]
  simp only [List.append_assoc]

theorem storeAt_append_left (c r x : List Byte) (p : Nat) (h : p + x.length ≤ c.length) :
    storeAt (c ++ r) p x = storeAt c p x ++ r := by
  unfold storeAt
  rw [List.take_append_eq_append_take, List.drop_append_eq_append_drop,
    show p - c.length = 0 by omega, show p + x.length - c.length = 0 by omega]
  simp

theorem writeData_content (w : DiskWriter) (x : List Byte) (p : Nat)
    (h : p ≤ w.content.length) : (w.writeData x p).content = storeAt w.content p x := by
  unfold DiskWriter.writeData storeAt
  simp only
  rw [show p - w.content.length = 0 by omega]
  simp

theorem spreadParts_flatten : ∀ (parts : List (FileEntry × Option DiskWriter))
    (localOffset : Nat) (d : List Byte),
    (∀ p ∈ parts, p.2.isSome = true ∧ (partContent p).length = p.1.length) →
    (∀ p, parts.head? = some p → localOffset ≤ p.1.length) →
    ((spreadParts parts localOffset d).map partContent).flatten =
      storeAt ((parts.map partContent).flatten) localOffset
        (d.take (totalLength parts - localOffset))
  | [], _, _, _, _ => by simp [spreadParts, totalLength, storeAt]
  | p :: rest, localOffset, d, hfull, h => by
    have hp := h p rfl
    obtain ⟨hsome, hpl⟩ := hfull p (List.mem_cons_self _ _)
    obtain ⟨f, ow⟩ := p
    cases ow with
    | none => cases hsome
    | some w =>
      simp only [partContent] at hpl
      simp only at hp
      have htl : ((rest.map partContent).flatten).length = totalLength rest := by
        rw [List.length_flatten, totalLength, List.map_map]
        congr 1
        apply List.map_congr_left
        intro q hq
        exact (hfull q (List.mem_cons_of_mem _ hq)).2
      rw [spreadParts, totalLength_cons]
      simp only [Option.map_some', List.map_cons, List.flatten_cons, partContent]
      rw [writeData_content w _ _ (by omega)]
      by_cases hd : d.length ≤ f.length - localOffset
      · rw [if_pos hd, Nat.min_eq_left hd, List.take_of_length_le (le_refl _),
          List.take_of_length_le (by omega), storeAt_append_left _ _ _ _ (by omega)]
      · rw [if_neg hd, Nat.min_eq_right (by omega),
          spreadParts_flatten rest 0 _ (fun q hq => hfull q (List.mem_cons_of_mem _ hq))
            (fun _ _ => Nat.zero_le _),
          show f.length + totalLength rest - localOffset =
            (f.length - localOffset) + totalLength rest by omega, List.take_add, Nat.sub_zero]
        generalize hy : (d.drop (f.length - localOffset)).take (totalLength rest) = y
        generalize hxx : d.take (f.length - localOffset) = x
        have hx : x.length = f.length - localOffset := by
          rw [← hxx, List.length_take]; omega
        have hl1 : storeAt w.content localOffset x = w.content.take localOffset ++ x := by
          unfold storeAt
          rw [List.drop_of_length_le (by omega), List.append_nil]
        have hl2 : storeAt (w.content ++ (rest.map partContent).flatten) localOffset (x ++ y) =
            w.content.take localOffset ++ (x ++ y) ++
              ((rest.map partContent).flatten).drop y.length := by
          conv_lhs => rw [← List.take_append_drop localOffset w.content, List.append_assoc]
          rw [storeAt_append _ _ _ localOffset (by rw [List.length_take]; omega),
            List.drop_append_eq_append_drop,
            List.drop_of_length_le (by rw [List.length_drop, List.length_append]; omega),
            List.nil_append, List.length_drop, List.length_append]
          congr 2
          omega
        rw [hl1, hl2]
        unfold storeAt
        simp only [List.take_zero, List.nil_append, Nat.zero_add, List.append_assoc]

theorem gatherParts_flatten : ∀ (parts : List (FileEntry × Option DiskWriter))
    (localOffset n : Nat),
    (∀ p ∈ parts, (partContent p).length = p.1.length) →
    (∀ p, parts.head? = some p → localOffset ≤ p.1.length) →
    gatherParts parts localOffset n =
      (((parts.map partContent).flatten).drop localOffset).take n
  | [], _, _, _, _ => by simp [gatherParts]
  | p :: rest, localOffset, n, hfull, h => by
    have hp := h p rfl
    have hpl := hfull p (List.mem_cons_self _ _)
    rw [gatherParts, List.map_cons, List.flatten_cons, List.drop_append_eq_append_drop,
      show localOffset - (partContent p).length = 0 by omega, List.drop_zero,
      List.take_append_eq_append_take, List.length_drop, hpl]
    by_cases hn : n ≤ p.1.length - localOffset
    · rw [if_pos hn, Nat.min_eq_left hn, show n - (p.1.length - localOffset) = 0 by omega]
      simp
    · rw [if_neg hn, Nat.min_eq_right (by omega),
        gatherParts_flatten rest 0 _ (fun q hq => hfull q (List.mem_cons_of_mem _ hq))
          (fun _ _ => Nat.zero_le _), List.drop_zero]
      congr 1
      rw [List.take_of_length_le (by rw [List.length_drop]; omega),
        List.take_of_length_le (by rw [List.length_drop]; omega)]

theorem goodPart_of_entry (e : DiskWriterEntry) (h1 : canOpen e = true)
    (h2 : (contentOf e).length = e.fileEntry.length) : GoodPart (diskPart e) := by
  unfold canOpen at h1
  unfold contentOf at h2
  cases hw : e.diskWriter with
  | none => rw [hw] at h1; cases h1
  | some w =>
    rw [hw] at h1 h2
    exact ⟨w, by simp [diskPart, hw], h1, h2⟩

theorem goodPart_entry (e : DiskWriterEntry) (h : GoodPart (diskPart e)) :
    canOpen e = true ∧ (contentOf e).length = e.fileEntry.length := by
  obtain ⟨w, hw, ho, hl⟩ := h
  simp only [diskPart] at hw hl
  unfold canOpen contentOf
  rw [hw]
  exact ⟨ho, hl⟩

theorem goodParts_iff (s : MultiDiskAdaptor) :
    (∀ p ∈ s.diskWriterEntries.map diskPart, GoodPart p) ↔ Openable s ∧ FullFiles s := by
  constructor
  · intro h
    refine ⟨fun e he => ?_, fun e he => ?_⟩
    · exact (goodPart_entry e (h _ (List.mem_map_of_mem _ he))).1
    · exact (goodPart_entry e (h _ (List.mem_map_of_mem _ he))).2
  · rintro ⟨h1, h2⟩ p hp
    obtain ⟨e, he, rfl⟩ := List.mem_map.1 hp
    exact goodPart_of_entry e (h1 e he) (h2 e he)

theorem spreadParts_fst : ∀ (parts : List (FileEntry × Option DiskWriter))
    (localOffset : Nat) (d : List Byte),
    (spreadParts parts localOffset d).map Prod.fst = parts.map Prod.fst
  | [], _, _ => by simp [spreadParts]
  | p :: rest, localOffset, d => by
    rw [spreadParts]
    split
    · simp
    · simp [spreadParts_fst rest]

theorem spreadParts_good : ∀ (parts : List (FileEntry × Option DiskWriter))
    (localOffset : Nat) (d : List Byte),
    (∀ p ∈ parts, GoodPart p) →
    (∀ p, parts.head? = some p → localOffset ≤ p.1.length) →
    ∀ p ∈ spreadParts parts localOffset d, GoodPart p
  | [], _, _, _, _ => by simp [spreadParts]
  | p :: rest, localOffset, d, hgood, h => by
    have hp := h p rfl
    obtain ⟨w, hw, ho, hl⟩ := hgood p (List.mem_cons_self _ _)
    have hrest : ∀ q ∈ rest, GoodPart q := fun q hq => hgood q (List.mem_cons_of_mem _ hq)
    have hhead : GoodPart (p.1, p.2.map (fun w =>
        w.writeData (d.take (min d.length (p.1.length - localOffset))) localOffset)) := by
      refine ⟨w.writeData (d.take (min d.length (p.1.length - localOffset))) localOffset,
        by simp [hw], ho, ?_⟩
      rw [writeData_content w _ _ (by omega), storeAt_length _ _ _
        (by rw [List.length_take]; omega)]
      exact hl
    intro q hq
    rw [spreadParts] at hq
    rcases List.mem_cons.1 hq with rfl | hq
    · exact hhead
    · split at hq
      · exact hrest q hq
      · exact spreadParts_good rest 0 _ hrest (fun _ _ => Nat.zero_le _) q hq

theorem contiguous_of_fileEntries : ∀ (l l1 : List DiskWriterEntry),
    l1.map (fun e => e.fileEntry) = l.map (fun e => e.fileEntry) → Contiguous l →
    Contiguous l1
  | [], [], _, _ => trivial
  | [], _ :: _, h, _ => by simp at h
  | _ :: _, [], h, _ => by simp at h
  | [_], [_], _, _ => trivial
  | [_], _ :: _ :: _, h, _ => by simp at h
  | _ :: _ :: _, [_], h, _ => by simp at h
  | a :: b :: rest, a1 :: b1 :: rest1, h, hc => by
    rw [contiguous_cons_cons] at hc ⊢
    simp only [List.map_cons, List.cons.injEq] at h
    obtain ⟨ha, hb, hr⟩ := h
    refine ⟨?_, contiguous_of_fileEntries (b :: rest) (b1 :: rest1)
      (by simp [hb, hr]) hc.2⟩
    unfold DiskWriterEntry.lastOffset
    rw [ha, hb]
    exact hc.1

theorem representable_of_fileEntries (l l1 : List DiskWriterEntry)
    (h : l1.map (fun e => e.fileEntry) = l.map (fun e => e.fileEntry))
    (hr : Representable l) : Representable l1 := by
  intro e1 he1
  have : e1.fileEntry ∈ l.map (fun e => e.fileEntry) := by
    rw [← h]; exact List.mem_map_of_mem _ he1
  obtain ⟨e, he, hfe⟩ := List.mem_map.1 this
  have := hr e he
  unfold DiskWriterEntry.lastOffset at *
  have hfe2 : e.fileEntry = e1.fileEntry := hfe
  rw [← hfe2]
  exact this

theorem logicalStart_of_fileEntries (s s1 : MultiDiskAdaptor)
    (h : s1.diskWriterEntries.map (fun e => e.fileEntry) =
      s.diskWriterEntries.map (fun e => e.fileEntry)) : logicalStart s1 = logicalStart s := by
  have := congrArg List.head? h
  rw [List.head?_map, List.head?_map] at this
  unfold logicalStart
  cases h1 : s1.diskWriterEntries.head? <;> cases h2 : s.diskWriterEntries.head? <;>
    rw [h1, h2] at this <;> simp at this ⊢
  rw [this]

theorem logicalEnd_of_fileEntries (s s1 : MultiDiskAdaptor)
    (h : s1.diskWriterEntries.map (fun e => e.fileEntry) =
      s.diskWriterEntries.map (fun e => e.fileEntry)) : logicalEnd s1 = logicalEnd s := by
  have := congrArg List.getLast? h
  rw [List.getLast?_map, List.getLast?_map] at this
  unfold logicalEnd
  cases h1 : s1.diskWriterEntries.getLast? <;> cases h2 : s.diskWriterEntries.getLast? <;>
    rw [h1, h2] at this <;> simp at this ⊢
  unfold DiskWriterEntry.lastOffset
  rw [this]

theorem contents_eq_parts (s : MultiDiskAdaptor) :
    contents s = (s.diskWriterEntries.map diskPart).map partContent := by
  unfold contents
  rw [List.map_map]
  rfl

theorem fileEntries_eq_parts (l : List DiskWriterEntry) :
    l.map (fun e => e.fileEntry) = (l.map diskPart).map Prod.fst := by
  rw [List.map_map]
  rfl

theorem totalLength_append (a b : List (FileEntry × Option DiskWriter)) :
    totalLength (a ++ b) = totalLength a + totalLength b := by
  simp [totalLength]

theorem flatten_length_total (parts : List (FileEntry × Option DiskWriter))
    (h : ∀ p ∈ parts, GoodPart p) :
    ((parts.map partContent).flatten).length = totalLength parts := by
  rw [List.length_flatten, totalLength, List.map_map]
  congr 1
  apply List.map_congr_left
  intro q hq
  obtain ⟨w, hw, _, hl⟩ := h q hq
  simp only [Function.comp, partContent, hw]
  exact hl

theorem goodPart_full (p : FileEntry × Option DiskWriter) (h : GoodPart p) :
    p.2.isSome = true ∧ (partContent p).length = p.1.length := by
  obtain ⟨w, hw, _, hl⟩ := h
  simp only [partContent, hw]
  exact ⟨rfl, hl⟩

theorem modelDisk_ends (s : MultiDiskAdaptor) (h : ModelDisk s) :
    ∃ first last, s.diskWriterEntries.head? = some first ∧
      s.diskWriterEntries.getLast? = some last ∧
      logicalStart s = first.fileEntry.offset ∧ logicalEnd s = last.lastOffset := by
  obtain ⟨_, _, _, _, _, hne⟩ := h
  cases h1 : s.diskWriterEntries.head? with
  | none => exact absurd (List.head?_eq_none_iff.1 h1) hne
  | some first =>
    cases h2 : s.diskWriterEntries.getLast? with
    | none => exact absurd (List.getLast?_eq_none_iff.1 h2) hne
    | some last =>
      refine ⟨first, last, rfl, rfl, ?_, ?_⟩
      · unfold logicalStart; rw [h1]
      · unfold logicalEnd; rw [h2]

theorem prefix_total (s : MultiDiskAdaptor) (h : ModelDisk s) (i : Nat) (e : DiskWriterEntry)
    (hie : s.diskWriterEntries[i]? = some e) :
    (totalLength ((s.diskWriterEntries.map diskPart).take i) : Int) =
        e.fileEntry.offset - logicalStart s ∧
      e.fileEntry.offset + (totalLength ((s.diskWriterEntries.map diskPart).drop i) : Int) =
        logicalEnd s := by
  obtain ⟨first, last, hf, hl, hs, hen⟩ := modelDisk_ends s h
  obtain ⟨_, _, hcont, _, _, _⟩ := h
  have h0 := contiguous_total_drop s.diskWriterEntries 0 first last hcont
    (by rw [← List.head?_eq_getElem?]; exact hf) hl
  have hi := contiguous_total_drop s.diskWriterEntries i e last hcont hie hl
  have hsplit := totalLength_append ((s.diskWriterEntries.map diskPart).take i)
    ((s.diskWriterEntries.map diskPart).drop i)
  rw [List.take_append_drop] at hsplit
  rw [List.drop_zero] at h0
  rw [hs, hen]
  constructor <;> omega

theorem logicalSpace_length (s : MultiDiskAdaptor) (h : ModelDisk s) :
    ((logicalSpace s).length : Int) = logicalEnd s - logicalStart s := by
  obtain ⟨first, last, hf, hl, hs, hen⟩ := modelDisk_ends s h
  have hgood := (goodParts_iff s).2 ⟨h.1, h.2.2.2.2.1⟩
  have h0 := contiguous_total_drop s.diskWriterEntries 0 first last h.2.2.1
    (by rw [← List.head?_eq_getElem?]; exact hf) hl
  rw [List.drop_zero] at h0
  unfold logicalSpace
  rw [contents_eq_parts, flatten_length_total _ hgood, hs, hen]
  omega

theorem writeData_logical (s : MultiDiskAdaptor) (data : List Byte) (len : Nat) (offset : Int)
    (h : ModelDisk s) (h1 : logicalStart s ≤ offset) (h2 : offset < logicalEnd s)
    (hdata : data.length = len) (hlen : (len : Int) < 9223372036854775808) :
    ∃ s1, writeData s data len offset = (.ok (), s1) ∧ ModelDisk s1 ∧
      s1.diskWriterEntries.map (fun e => e.fileEntry) =
        s.diskWriterEntries.map (fun e => e.fileEntry) ∧
      s1.maxOpenFiles = s.maxOpenFiles ∧
      logicalSpace s1 = storeAt (logicalSpace s) (offset - logicalStart s).toNat
        (data.take (logicalEnd s - offset).toNat) := by
  obtain ⟨first, last, hf, hl, hs, hen⟩ := modelDisk_ends s h
  have hgood := (goodParts_iff s).2 ⟨h.1, h.2.2.2.2.1⟩
  obtain ⟨hop, hc, hcont, hrep, hfull, hne⟩ := h
  obtain ⟨i, e, s1, _, hie, hcon, hw, hop1, hc1, hm1, hd1, _, _⟩ :=
    writeData_spec s data len offset first last hop hc hcont hrep hf hl (by rw [← hs]; exact h1)
      (by rw [← hen]; exact h2) hdata hlen
  obtain ⟨hpre, hsuf⟩ := prefix_total s ⟨hop, hc, hcont, hrep, hfull, hne⟩ i e hie
  have hi := (List.getElem?_eq_some.1 hie).1
  have hhead : ∀ p, ((s.diskWriterEntries.map diskPart).drop i).head? = some p →
      (offset - e.fileEntry.offset).toNat ≤ p.1.length := by
    intro p hp
    rw [List.head?_drop, List.getElem?_map, hie] at hp
    cases hp
    have := hcon.1
    have := hcon.2
    unfold DiskWriterEntry.lastOffset at *
    simp only [diskPart]
    omega
  have hgd : ∀ p ∈ (s.diskWriterEntries.map diskPart).drop i, GoodPart p :=
    fun p hp => hgood p (List.mem_of_mem_drop hp)
  have hgt : ∀ p ∈ (s.diskWriterEntries.map diskPart).take i, GoodPart p :=
    fun p hp => hgood p (List.mem_of_mem_take hp)
  have hfe : s1.diskWriterEntries.map (fun e => e.fileEntry) =
      s.diskWriterEntries.map (fun e => e.fileEntry) := by
    rw [fileEntries_eq_parts, fileEntries_eq_parts, hd1, List.map_append, spreadParts_fst,
      ← List.map_append, List.take_append_drop]
  have hgood1 : ∀ p ∈ s1.diskWriterEntries.map diskPart, GoodPart p := by
    intro p hp
    rw [hd1] at hp
    rcases List.mem_append.1 hp with hp | hp
    · exact hgt p hp
    · exact spreadParts_good _ _ _ hgd hhead p hp
  obtain ⟨_, hfull1⟩ := (goodParts_iff s1).1 hgood1
  refine ⟨s1, hw, ⟨hop1, hc1, contiguous_of_fileEntries _ _ hfe hcont,
    representable_of_fileEntries _ _ hfe hrep, hfull1, ?_⟩, hfe, hm1, ?_⟩
  · intro hnil
    rw [hnil] at hfe
    simp at hfe
    exact hne hfe
  · unfold logicalSpace
    rw [contents_eq_parts, contents_eq_parts, hd1, List.map_append, List.flatten_append,
      spreadParts_flatten _ _ _ (fun p hp => goodPart_full p (hgd p hp)) hhead]
    conv_rhs => rw [← List.take_append_drop i (s.diskWriterEntries.map diskPart),
      List.map_append, List.flatten_append]
    have hA := flatten_length_total _ hgt
    rw [show (offset - logicalStart s).toNat =
        (((s.diskWriterEntries.map diskPart).take i).map partContent).flatten.length +
          (offset - e.fileEntry.offset).toNat by
        rw [hA]; have := hcon.1; omega,
      storeAt_append_right]
    congr 3
    have := hcon.1
    omega

theorem readData_spec (s : MultiDiskAdaptor) (buf : List Byte) (len : Nat) (offset : Int)
    (first last : DiskWriterEntry)
    (hop : Openable s) (hc : CacheConsistent s)
    (hcont : Contiguous s.diskWriterEntries) (hrep : Representable s.diskWriterEntries)
    (hfull : FullReads s)
    (hf : s.diskWriterEntries.head? = some first)
    (hl : s.diskWriterEntries.getLast? = some last)
    (h1 : first.fileEntry.offset ≤ offset) (h2 : offset < last.lastOffset)
    (hlen : (len : Int) < 9223372036854775808) (hbuf : len ≤ buf.length) :
    ∃ i e s1, s.diskWriterEntries[i]? = some e ∧ Contains e offset ∧
      readData s buf len offset =
        (.ok (min len (last.lastOffset - offset).toNat,
          storeAt buf 0 (gatherParts ((s.diskWriterEntries.map diskPart).drop i)
            (offset - e.fileEntry.offset).toNat len)), s1) ∧
      CacheConsistent s1 ∧ s1.maxOpenFiles = s.maxOpenFiles ∧
      s1.diskWriterEntries.map diskPart = s.diskWriterEntries.map diskPart ∧
      wroteEvents s1.ioLog = wroteEvents s.ioLog := by
  obtain ⟨i, e, hfind, hie, hcon, _, _⟩ :=
    findFirst_contains s.diskWriterEntries offset first last hcont hrep hf hl h1 h2
  have hi := (List.getElem?_eq_some.1 hie).1
  have hre := hrep e (List.getElem?_mem hie)
  have hfo : i64 (offset - e.fileEntry.offset) = offset - e.fileEntry.offset := by
    apply i64_of_range
    · have := hcon.1; omega
    · have := hcon.2; have := hre.1; have := hre.2; omega
  obtain ⟨s1, hloop, hc1, hm1, hd1, hw1⟩ :=
    readDataLoop_spec len offset hlen (s.diskWriterEntries.length - i) i s buf 0 len
      (offset - e.fileEntry.offset) hop hc (Bounded.of_representable s hrep) hfull (by omega)
      (by have := hcon.1; omega)
      (by
        intro e1 he1
        rw [hie] at he1
        cases he1
        have := hcon.2
        unfold DiskWriterEntry.lastOffset at this
        omega)
      (le_refl _) (by omega) hbuf
  have htot := contiguous_total_drop s.diskWriterEntries i e last hcont hie hl
  rw [Nat.sub_self, Nat.zero_add] at hloop
  refine ⟨i, e, s1, hie, hcon, ?_, hc1, hm1, hd1, hw1⟩
  unfold readData
  rw [hfind]
  simp only [hie, hfo]
  rw [hloop]
  congr 4
  have := hcon.1
  omega

theorem readData_logical (s : MultiDiskAdaptor) (buf : List Byte) (len : Nat) (offset : Int)
    (h : ModelDisk s) (h1 : logicalStart s ≤ offset) (h2 : offset < logicalEnd s)
    (hlen : (len : Int) < 9223372036854775808) (hbuf : len ≤ buf.length) :
    ∃ s1, readData s buf len offset =
        (.ok (min len (logicalEnd s - offset).toNat,
          storeAt buf 0 (((logicalSpace s).drop (offset - logicalStart s).toNat).take len)),
          s1) ∧
      ModelDisk s1 ∧
      s1.diskWriterEntries.map diskPart = s.diskWriterEntries.map diskPart ∧
      s1.maxOpenFiles = s.maxOpenFiles := by
  obtain ⟨first, last, hf, hl, hs, hen⟩ := modelDisk_ends s h
  have hgood := (goodParts_iff s).2 ⟨h.1, h.2.2.2.2.1⟩
  obtain ⟨hop, hc, hcont, hrep, hfull, hne⟩ := h
  obtain ⟨i, e, s1, hie, hcon, hr, hc1, hm1, hd1, _⟩ :=
    readData_spec s buf len offset first last hop hc hcont hrep (fullReads_of_fullFiles hfull) hf hl
      (by rw [← hs]; exact h1) (by rw [← hen]; exact h2) hlen hbuf
  have hpre := (prefix_total s ⟨hop, hc, hcont, hrep, hfull, hne⟩ i e hie).1
  have hhead : ∀ p, ((s.diskWriterEntries.map diskPart).drop i).head? = some p →
      (offset - e.fileEntry.offset).toNat ≤ p.1.length := by
    intro p hp
    rw [List.head?_drop, List.getElem?_map, hie] at hp
    cases hp
    have := hcon.1
    have := hcon.2
    unfold DiskWriterEntry.lastOffset at *
    simp only [diskPart]
    omega
  have hgd : ∀ p ∈ (s.diskWriterEntries.map diskPart).drop i, GoodPart p :=
    fun p hp => hgood p (List.mem_of_mem_drop hp)
  have hgt : ∀ p ∈ (s.diskWriterEntries.map diskPart).take i, GoodPart p :=
    fun p hp => hgood p (List.mem_of_mem_take hp)
  have hfe : s1.diskWriterEntries.map (fun e => e.fileEntry) =
      s.diskWriterEntries.map (fun e => e.fileEntry) := by
    rw [fileEntries_eq_parts, fileEntries_eq_parts, hd1]
  refine ⟨s1, ?_, ⟨openable_of_parts hd1 hop, hc1, contiguous_of_fileEntries _ _ hfe hcont,
    representable_of_fileEntries _ _ hfe hrep, fullFiles_of_parts hd1 hfull, ?_⟩, hd1, hm1⟩
  · have hA := flatten_length_total _ hgt
    have key : (logicalSpace s).drop (offset - logicalStart s).toNat =
        ((((s.diskWriterEntries.map diskPart).drop i).map partContent).flatten).drop
          (offset - e.fileEntry.offset).toNat := by
      unfold logicalSpace
      rw [contents_eq_parts]
      conv_lhs => rw [← List.take_append_drop i (s.diskWriterEntries.map diskPart),
        List.map_append, List.flatten_append]
      rw [List.drop_append_eq_append_drop,
        List.drop_of_length_le (by rw [hA]; have := hcon.1; omega), List.nil_append, hA]
      congr 1
      have := hcon.1
      omega
    rw [hr, hen, gatherParts_flatten _ _ _ (fun p hp => (goodPart_full p (hgd p hp)).2) hhead,
      key]
  · intro hnil
    rw [hnil] at hfe
    simp at hfe
    exact hne hfe

/-! ## Requests that leave the logical space -/

theorem lastOffset_le_last (entries : List DiskWriterEntry) (e last : DiskWriterEntry)
    (hc : Contiguous entries) (he : e ∈ entries) (hl : entries.getLast? = some last) :
    e.lastOffset ≤ last.lastOffset := by
  obtain ⟨j, hj⟩ := List.mem_iff_getElem?.1 he
  have hjl := (List.getElem?_eq_some.1 hj).1
  rw [List.getLast?_eq_getElem?] at hl
  by_cases hlt : j + 1 < entries.length
  · have hb := List.getElem?_eq_getElem hlt
    have h1 := contiguous_getElem hc hj hb
    have h2 := offsetOrdered_getElem (offsetOrdered_of_contiguous entries hc)
      (show j + 1 ≤ entries.length - 1 by omega) hb hl
    unfold DiskWriterEntry.lastOffset at *
    omega
  · have : entries.length - 1 = j := by omega
    rw [this, hj] at hl
    cases hl
    exact le_refl _

theorem findFirst_beyond_end (s : MultiDiskAdaptor) (offset : Int)
    (hcont : Contiguous s.diskWriterEntries) (hrep : Representable s.diskWriterEntries)
    (hne : s.diskWriterEntries ≠ []) (hend : logicalEnd s ≤ offset)
    (hoff : offset < 9223372036854775808) :
    findFirstDiskWriterEntry s.diskWriterEntries offset =
      .error (.fileOffsetOutOfRange offset) := by
  cases h1 : s.diskWriterEntries.head? with
  | none => exact absurd (List.head?_eq_none_iff.1 h1) hne
  | some first =>
    cases h2 : s.diskWriterEntries.getLast? with
    | none => exact absurd (List.getLast?_eq_none_iff.1 h2) hne
    | some last =>
      have hen : logicalEnd s = last.lastOffset := by unfold logicalEnd; rw [h2]
      have hfl := lastOffset_le_last _ first last hcont (List.mem_of_mem_head? h1) h2
      rw [hen] at hend
      apply findFirst_outOfRange s.diskWriterEntries offset first
        (offsetOrdered_of_contiguous _ hcont) hrep h1 _ hoff
      · intro e he hcon
        have := lastOffset_le_last _ e last hcont he h2
        have := hcon.2
        omega
      · unfold DiskWriterEntry.lastOffset at hfl hend
        omega

theorem writeData_findFirst_error (s : MultiDiskAdaptor) (data : List Byte) (len : Nat)
    (offset : Int) (err : DlAbort)
    (h : findFirstDiskWriterEntry s.diskWriterEntries offset = .error err) :
    writeData s data len offset = (.error err, s) := by
  unfold writeData; rw [h]

theorem readData_findFirst_error (s : MultiDiskAdaptor) (buf : List Byte) (len : Nat)
    (offset : Int) (err : DlAbort)
    (h : findFirstDiskWriterEntry s.diskWriterEntries offset = .error err) :
    readData s buf len offset = (.error err, s) := by
  unfold readData; rw [h]

/-! ## Bytes of the logical space -/

theorem storeAt_getElem (l x : List Byte) (p k : Nat) (h : p + x.length ≤ l.length) :
    (storeAt l p x)[k]? =
      if k < p then l[k]? else if k < p + x.length then x[k - p]? else l[k]? := by
  unfold storeAt
  have h1 : (l.take p).length = p := by rw [List.length_take]; omega
  rw [List.append_assoc, List.getElem?_append, h1]
  by_cases hk : k < p
  · rw [if_pos hk, if_pos hk, List.getElem?_take, if_pos hk]
  · rw [if_neg hk, if_neg hk, List.getElem?_append]
    by_cases hk2 : k < p + x.length
    · rw [if_pos (by omega), if_pos hk2]
    · rw [if_neg (by omega), if_neg hk2, List.getElem?_drop]
      congr 1
      omega

theorem storeAt_comm (l x y : List Byte) (p q : Nat) (hx : p + x.length ≤ l.length)
    (hy : q + y.length ≤ l.length) (hd : p + x.length ≤ q ∨ q + y.length ≤ p) :
    storeAt (storeAt l p x) q y = storeAt (storeAt l q y) p x := by
  apply List.ext_getElem?
  intro k
  rw [storeAt_getElem _ _ _ _ (by rw [storeAt_length _ _ _ hx]; exact hy),
    storeAt_getElem _ _ _ _ hx,
    storeAt_getElem _ _ _ _ (by rw [storeAt_length _ _ _ hy]; exact hx),
    storeAt_getElem _ _ _ _ hy]
  by_cases h1 : k < p <;> by_cases h2 : k < q <;> by_cases h3 : k < p + x.length <;>
    by_cases h4 : k < q + y.length <;>
    first
      | omega
      | simp only [h1, h2, h3, h4, if_true, if_false]

theorem contentOf_slice (s : MultiDiskAdaptor) (h : ModelDisk s) (i : Nat)
    (e : DiskWriterEntry) (hie : s.diskWriterEntries[i]? = some e) :
    contentOf e =
      ((logicalSpace s).drop (e.fileEntry.offset - logicalStart s).toNat).take
        e.fileEntry.length := by
  have hgood := (goodParts_iff s).2 ⟨h.1, h.2.2.2.2.1⟩
  have hpre := (prefix_total s h i e hie).1
  have hi := (List.getElem?_eq_some.1 hie).1
  have hPi : i < (s.diskWriterEntries.map diskPart).length := by
    rw [List.length_map]; exact hi
  have hPe : (s.diskWriterEntries.map diskPart)[i] = diskPart e := by
    have : (s.diskWriterEntries.map diskPart)[i]? = some (diskPart e) := by
      rw [List.getElem?_map, hie]; rfl
    exact (List.getElem?_eq_some.1 this).2
  have hgt : ∀ p ∈ (s.diskWriterEntries.map diskPart).take i, GoodPart p :=
    fun p hp => hgood p (List.mem_of_mem_take hp)
  have hA := flatten_length_total _ hgt
  have hce := h.2.2.2.2.1 e (List.getElem?_mem hie)
  unfold logicalSpace
  rw [contents_eq_parts]
  conv_rhs => rw [← List.take_append_drop i (s.diskWriterEntries.map diskPart),
    List.map_append, List.flatten_append, List.drop_eq_getElem_cons hPi, hPe]
  rw [List.drop_append_eq_append_drop,
    List.drop_of_length_le (by rw [hA]; omega), List.nil_append, hA,
    show (e.fileEntry.offset - logicalStart s).toNat -
      totalLength ((s.diskWriterEntries.map diskPart).take i) = 0 by omega, List.drop_zero,
    List.map_cons, List.flatten_cons, List.take_append_eq_append_take,
    show partContent (diskPart e) = contentOf e from rfl, hce, Nat.sub_self, List.take_zero,
    List.append_nil, List.take_of_length_le (by omega)]

theorem contents_of_logicalSpace (s s1 : MultiDiskAdaptor) (h : ModelDisk s)
    (h1 : ModelDisk s1)
    (hfe : s1.diskWriterEntries.map (fun e => e.fileEntry) =
      s.diskWriterEntries.map (fun e => e.fileEntry))
    (hl : logicalSpace s1 = logicalSpace s) : contents s1 = contents s := by
  apply List.ext_getElem?
  intro i
  unfold contents
  rw [List.getElem?_map, List.getElem?_map]
  have hfi := congrArg (fun l => l[i]?) hfe
  simp only [List.getElem?_map] at hfi
  cases he1 : s1.diskWriterEntries[i]? with
  | none =>
    cases he : s.diskWriterEntries[i]? with
    | none => rfl
    | some e => rw [he1, he] at hfi; cases hfi
  | some e1 =>
    cases he : s.diskWriterEntries[i]? with
    | none => rw [he1, he] at hfi; cases hfi
    | some e =>
      rw [he1, he] at hfi
      have hfe1 : e1.fileEntry = e.fileEntry := Option.some.inj hfi
      simp only [Option.map_some']
      rw [contentOf_slice s h i e he, contentOf_slice s1 h1 i e1 he1, hl, hfe1,
        logicalStart_of_fileEntries s s1 hfe]

/-! ## Sequences of writes -/

theorem runWrites_spec : ∀ (calls : List WriteCall) (s : MultiDiskAdaptor), ModelDisk s →
    (∀ w ∈ calls, logicalStart s ≤ w.offset ∧ w.offset < logicalEnd s ∧
      w.offset + w.data.length ≤ logicalEnd s) →
    calls.Pairwise WriteCall.Disjoint →
    ∃ s1, runWrites s calls = (.ok (), s1) ∧ ModelDisk s1 ∧
      s1.diskWriterEntries.map (fun e => e.fileEntry) =
        s.diskWriterEntries.map (fun e => e.fileEntry) ∧
      (∀ w ∈ calls, ∀ j, j < w.data.length →
        (logicalSpace s1)[(w.offset - logicalStart s).toNat + j]? = w.data[j]?) ∧
      (∀ k : Nat, (∀ w ∈ calls, ¬ w.Covers (logicalStart s + k)) →
        (logicalSpace s1)[k]? = (logicalSpace s)[k]?)
  | [], s, h, _, _ => ⟨s, rfl, h, rfl, by simp, fun _ _ => rfl⟩
  | w :: rest, s, h, hin, hdis => by
    obtain ⟨hw1, hw2, hw3⟩ := hin w (List.mem_cons_self _ _)
    have hrep := h.2.2.2.1
    obtain ⟨first, last, hf, hl, hs, hen⟩ := modelDisk_ends s h
    have hlastr := hrep last (List.mem_of_mem_getLast? hl)
    have hfirstr := hrep first (List.mem_of_mem_head? hf)
    have hlsp := logicalSpace_length s h
    obtain ⟨s1, hwr, hm1, hfe1, _, hlog1⟩ :=
      writeData_logical s w.data w.data.length w.offset h hw1 hw2 rfl (by omega)
    rw [List.take_of_length_le (by omega)] at hlog1
    have hst1 := logicalStart_of_fileEntries s s1 hfe1
    have hen1 := logicalEnd_of_fileEntries s s1 hfe1
    rw [List.pairwise_cons] at hdis
    obtain ⟨s2, hrun, hm2, hfe2, hin2, hout2⟩ :=
      runWrites_spec rest s1 hm1
        (fun v hv => by rw [hst1, hen1]; exact hin v (List.mem_cons_of_mem _ hv)) hdis.2
    rw [hst1] at hin2 hout2
    refine ⟨s2, ?_, hm2, by rw [hfe2, hfe1], ?_, ?_⟩
    · rw [runWrites, hwr]
      exact hrun
    · intro v hv j hj
      rcases List.mem_cons.1 hv with rfl | hv
      · have hk := hout2 ((v.offset - logicalStart s).toNat + j) (by
          intro u hu hcov
          have hd := hdis.1 u hu
          unfold WriteCall.Covers at hcov
          unfold WriteCall.Disjoint at hd
          omega)
        rw [hk, hlog1, storeAt_getElem _ _ _ _ (by omega), if_neg (by omega),
          if_pos (by omega)]
        congr 1
        omega
      · exact hin2 v hv j hj
    · intro k hk
      rw [hout2 k (fun u hu => hk u (List.mem_cons_of_mem _ hu)), hlog1,
        storeAt_getElem _ _ _ _ (by omega)]
      have hnc := hk w (List.mem_cons_self _ _)
      unfold WriteCall.Covers at hnc
      by_cases hlt : k < (w.offset - logicalStart s).toNat
      · rw [if_pos hlt]
      · rw [if_neg hlt, if_neg (by omega)]

/-! ## The handle-unavailable error -/

theorem open_error_kind (e : DiskWriterEntry) (m : OpenMethod) (i : Nat) (err : DlAbort)
    (h : e.open m i = .error err) : err = .openFailed i := by
  cases hw : e.diskWriter with
  | none => rw [open_none e m i hw] at h; cases h
  | some w =>
    cases ho : w.openable with
    | false => rw [open_some_fail e m i w hw ho] at h; cases h; rfl
    | true => rw [open_some_ok e m i w hw ho] at h; cases h

theorem openIfNotCache_error_kind (s s1 : MultiDiskAdaptor) (i n : Nat) (err : DlAbort)
    (h : openIfNotCache s i n = (.error err, s1)) : err = .undefinedBehaviour := by
  by_cases hcap : n < s.maxOpenFiles
  · rw [openIfNotCache_push s i n hcap] at h; cases h
  · cases hv : s.openedDiskWriterEntries[getRandomNumber (s.randomizer s.randomCalls) n]? with
    | none =>
      rw [openIfNotCache_undefined s i n (by omega) hv] at h
      cases h; rfl
    | some victim => rw [openIfNotCache_evict s i n victim (by omega) hv] at h; cases h

theorem openIfNot_error_kind (s s1 : MultiDiskAdaptor) (i : Nat) (m : OpenMethod)
    (err : DlAbort) (h : openIfNot s i m = (.error err, s1)) :
    err = .undefinedBehaviour ∨ err = .openFailed i := by
  cases he : s.diskWriterEntries[i]? with
  | none => rw [openIfNot_none s i m he] at h; cases h; left; rfl
  | some e =>
    cases ho : e.isOpen with
    | true => rw [openIfNot_hit s i m e he ho] at h; cases h
    | false =>
      cases hopen : e.open m i with
      | error err1 =>
        rw [openIfNot_miss_error s i m e err1 he ho hopen] at h
        cases h
        right
        exact open_error_kind e m i _ hopen
      | ok e1 =>
        rw [openIfNot_miss_ok s i m e e1 he ho hopen] at h
        left
        exact openIfNotCache_error_kind _ _ _ _ _ h

theorem writeDataLoop_noWriter (data : List Byte) (len : Nat) (offset : Int) (k i : Nat)
    (s s1 : MultiDiskAdaptor) (rem : Nat) (fileOffset : Int) (e e1 : DiskWriterEntry)
    (he : s.diskWriterEntries[i]? = some e)
    (hopen : openIfNot s i .openFile = (.ok (), s1))
    (he1 : s1.diskWriterEntries[i]? = some e1) (ho : e1.isOpen = true)
    (hw : e1.diskWriter = none) :
    writeDataLoop data len offset (k + 1) i s rem fileOffset =
      (.error .undefinedBehaviour, s1) := by
  rw [writeDataLoop]
  simp only [he, hopen, he1, ho, Bool.not_true, Bool.false_eq_true, if_false]
  unfold entryWriteData
  simp only [he1, hw]

theorem readDataLoop_noWriter (len : Nat) (offset : Int) (k i : Nat)
    (s s1 : MultiDiskAdaptor) (buf : List Byte) (total rem : Nat) (fileOffset : Int)
    (e e1 : DiskWriterEntry)
    (he : s.diskWriterEntries[i]? = some e)
    (hopen : openIfNot s i .openFile = (.ok (), s1))
    (he1 : s1.diskWriterEntries[i]? = some e1) (ho : e1.isOpen = true)
    (hw : e1.diskWriter = none) :
    readDataLoop len offset (k + 1) i s buf total rem fileOffset =
      (.error .undefinedBehaviour, s1) := by
  rw [readDataLoop]
  simp only [he, hopen, he1, ho, Bool.not_true, Bool.false_eq_true, if_false]
  unfold entryReadData
  simp only [he1, hw]

theorem writeDataLoop_none (data : List Byte) (len : Nat) (offset : Int) (k i : Nat)
    (s : MultiDiskAdaptor) (rem : Nat) (fileOffset : Int)
    (he : s.diskWriterEntries[i]? = none) :
    writeDataLoop data len offset k i s rem fileOffset = (.ok (), s) ∨
      writeDataLoop data len offset k i s rem fileOffset = (.error .undefinedBehaviour, s) := by
  cases k with
  | zero => left; rw [writeDataLoop]
  | succ k => right; rw [writeDataLoop]; simp only [he]

theorem readDataLoop_none (len : Nat) (offset : Int) (k i : Nat)
    (s : MultiDiskAdaptor) (buf : List Byte) (total rem : Nat) (fileOffset : Int)
    (he : s.diskWriterEntries[i]? = none) :
    readDataLoop len offset k i s buf total rem fileOffset = (.ok (total, buf), s) ∨
      readDataLoop len offset k i s buf total rem fileOffset =
        (.error .undefinedBehaviour, s) := by
  cases k with
  | zero => left; rw [readDataLoop]
  | succ k => right; rw [readDataLoop]; simp only [he]

theorem bytesWritten_of_wroteEvents (log log1 : List IoEvent) (ev : IoEvent)
    (h : wroteEvents log1 = wroteEvents log ++ [ev]) :
    bytesWritten log1 = bytesWritten log + ev.chunk.length := by
  unfold bytesWritten
  rw [h]
  simp

theorem bytesAsked_of_readEvents (log log1 : List IoEvent) (ev : IoEvent)
    (h : readEvents log1 = readEvents log ++ [ev]) :
    bytesAsked log1 = bytesAsked log + ev.readLength := by
  unfold bytesAsked
  rw [h]
  simp

theorem isOpenAt_false (s : MultiDiskAdaptor) (j : Nat) (e : DiskWriterEntry)
    (h : s.diskWriterEntries[j]? = some e) (ho : e.isOpen = false) : isOpenAt s j = false := by
  rw [isOpenAt_of_getElem s j e h, ho]

theorem fileEntry_getElem {l l1 : List DiskWriterEntry}
    (h : l1.map (fun e => e.fileEntry) = l.map (fun e => e.fileEntry)) {j : Nat}
    {e1 : DiskWriterEntry} (h1 : l1[j]? = some e1) :
    ∃ e, l[j]? = some e ∧ e.fileEntry = e1.fileEntry := by
  have h2 := congrArg (fun x => x[j]?) h
  simp only [List.getElem?_map, h1, Option.map_some'] at h2
  cases hl : l[j]? with
  | none => rw [hl] at h2; cases h2
  | some e =>
    rw [hl] at h2
    exact ⟨e, rfl, (Option.some.inj h2).symm⟩

theorem writeDataLoop_error_offset (data : List Byte) (len : Nat) (offset : Int)
    (hdata : data.length = len) (hlen : (len : Int) < 9223372036854775808) :
    ∀ (k i : Nat) (s : MultiDiskAdaptor) (rem : Nat) (fileOffset : Int) (e : DiskWriterEntry),
      Contiguous s.diskWriterEntries → Representable s.diskWriterEntries →
      s.diskWriterEntries[i]? = some e → rem ≤ len → 0 ≤ fileOffset →
      fileOffset ≤ e.fileEntry.length →
      offset + ((len - rem : Nat) : Int) = e.fileEntry.offset + fileOffset →
      ∀ (o : Int) (j : Nat) (s1 : MultiDiskAdaptor),
        writeDataLoop data len offset k i s rem fileOffset =
          (.error (.diskWriterNotOpened o j), s1) →
        ∃ ej, s.diskWriterEntries[j]? = some ej ∧ i ≤ j ∧ isOpenAt s1 j = false ∧
          o + bytesWritten s.ioLog = offset + ((len - rem : Nat) : Int) + bytesWritten s1.ioLog ∧
          (j = i → o = e.fileEntry.offset + fileOffset) ∧
          (i < j → o = ej.fileEntry.offset) := by
  intro k
  induction k with
  | zero =>
    intro i s rem fileOffset e _ _ _ _ _ _ _ o j s1 h
    rw [writeDataLoop] at h
    cases h
  | succ k ih =>
    intro i s rem fileOffset e hcont hrep he hrem h0 h1 hpos o j s1 h
    have hre := hrep e (List.getElem?_mem he)
    unfold DiskWriterEntry.lastOffset at hre
    have hfr := openIfNot_frame s i .openFile
    cases hcall : openIfNot s i .openFile with
    | mk r sa =>
      rw [hcall] at hfr
      replace hfr : CacheFrame s sa := hfr
      cases r with
      | error err =>
        rw [writeDataLoop_openError data len offset k i s sa rem fileOffset e err he hcall] at h
        rcases openIfNot_error_kind s sa i .openFile err hcall with hk | hk
        · rw [hk] at h; cases h
        · rw [hk] at h; cases h
      | ok u =>
        cases u
        have hia : i < sa.diskWriterEntries.length := by
          rw [diskPart_length hfr.1]; exact (List.getElem?_eq_some.1 he).1
        have hea := List.getElem?_eq_getElem hia
        generalize sa.diskWriterEntries[i] = ea at hea
        obtain ⟨e0, he0, hd⟩ := diskPart_getElem hfr.1 hea
        rw [he] at he0
        cases he0
        have hfea : ea.fileEntry = e.fileEntry := fileEntry_of_diskPart e ea hd
        cases hoa : ea.isOpen with
        | false =>
          rw [writeDataLoop_notOpened data len offset k i s sa rem fileOffset e ea he hcall hea
            hoa] at h
          have hbw : bytesWritten sa.ioLog = bytesWritten s.ioLog := by
            unfold bytesWritten; rw [hfr.2.2.1]
          have hcl := isOpenAt_false sa i ea hea hoa
          cases h
          have ho : i64 (offset + (u64 ((len : Int) - (rem : Int)) : Int)) =
              e.fileEntry.offset + fileOffset := by
            rw [u64_sub len rem hrem (by omega), hpos]
            apply i64_of_range <;> omega
          refine ⟨e, he, le_refl _, hcl, ?_, fun _ => ho, ?_⟩
          · rw [ho, hbw, hpos]
          · intro hlt; omega
        | true =>
          cases hwa : ea.diskWriter with
          | none =>
            rw [writeDataLoop_noWriter data len offset k i s sa rem fileOffset e ea he hcall hea
              hoa hwa] at h
            cases h
          | some w =>
            rw [writeDataLoop_step data len offset k i s sa rem fileOffset e ea w he hcall hea
              hoa hwa] at h
            have hcl := calculateLength_eq e fileOffset rem h0 h1 (by omega) (by omega)
            have hwl : min rem (e.fileEntry.length - fileOffset.toNat) ≤ rem :=
              Nat.min_le_left _ _
            rw [hcl, u64_sub rem _ hwl (by omega), u64_sub len rem hrem (by omega)] at h
            by_cases hz : rem - min rem (e.fileEntry.length - fileOffset.toNat) = 0
            · rw [if_pos hz] at h; cases h
            · rw [if_neg hz] at h
              generalize hchunk : (data.drop (len - rem)).take
                (min rem (e.fileEntry.length - fileOffset.toNat)) = chunk at h
              have hcl2 : chunk.length = e.fileEntry.length - fileOffset.toNat := by
                rw [← hchunk, List.length_take, List.length_drop]; omega
              generalize hs2 : ({ sa with
                  diskWriterEntries :=
                    sa.diskWriterEntries.set i
                      { ea with diskWriter := some (w.writeData chunk fileOffset.toNat) }
                  ioLog := sa.ioLog ++ [.wrote i chunk fileOffset] } : MultiDiskAdaptor) = s2
                at h
              have h2e : s2.diskWriterEntries = sa.diskWriterEntries.set i
                  { ea with diskWriter := some (w.writeData chunk fileOffset.toNat) } := by
                rw [← hs2]
              have h2l : s2.ioLog = sa.ioLog ++ [.wrote i chunk fileOffset] := by rw [← hs2]
              have hfe2 : s2.diskWriterEntries.map (fun e => e.fileEntry) =
                  s.diskWriterEntries.map (fun e => e.fileEntry) := by
                rw [h2e, map_set_same (fun (x : DiskWriterEntry) => x.fileEntry) _ i ea
                    { ea with diskWriter := some (w.writeData chunk fileOffset.toNat) } hea rfl,
                  fileEntries_eq_parts, fileEntries_eq_parts, hfr.1]
              have hbw2 : bytesWritten s2.ioLog =
                  bytesWritten s.ioLog + (e.fileEntry.length - fileOffset.toNat) := by
                rw [bytesWritten_of_wroteEvents sa.ioLog s2.ioLog (.wrote i chunk fileOffset)
                  (by rw [h2l, wroteEvents, List.filter_append]; simp [wroteEvents])]
                unfold bytesWritten
                rw [hfr.2.2.1]
                simp only [IoEvent.chunk, hcl2]
              have he2 : s2.diskWriterEntries[i]? =
                  some { ea with diskWriter := some (w.writeData chunk fileOffset.toNat) } := by
                rw [h2e, List.getElem?_set_self hia]
              cases hnext : s2.diskWriterEntries[i + 1]? with
              | none =>
                rcases writeDataLoop_none data len offset k (i + 1) s2
                  (rem - min rem (e.fileEntry.length - fileOffset.toNat)) 0 hnext with hh | hh
                · rw [hh] at h; cases h
                · rw [hh] at h; cases h
              | some en =>
                have hcont2 := contiguous_of_fileEntries _ _ hfe2 hcont
                have hrep2 := representable_of_fileEntries _ _ hfe2 hrep
                have hadj := contiguous_getElem hcont2 he2 hnext
                unfold DiskWriterEntry.lastOffset at hadj
                simp only [hfea] at hadj
                obtain ⟨ej, hej, hij, hclosed, hbytes, hsame, hlater⟩ :=
                  ih (i + 1) s2 (rem - min rem (e.fileEntry.length - fileOffset.toNat)) 0 en
                    hcont2 hrep2 hnext (by omega) (le_refl 0) (by omega) (by omega) o j s1 h
                obtain ⟨ej0, hej0, hfej⟩ := fileEntry_getElem hfe2 hej
                refine ⟨ej0, hej0, by omega, hclosed, ?_, fun hji => by omega, ?_⟩
                · rw [hbw2] at hbytes
                  omega
                · intro _
                  rw [hfej]
                  by_cases hj1 : j = i + 1
                  · subst hj1
                    rw [hnext] at hej
                    cases hej
                    have := hsame rfl
                    omega
                  · exact hlater (by omega)

theorem readDataLoop_error_offset (len : Nat) (offset : Int)
    (hlen : (len : Int) < 9223372036854775808) :
    ∀ (k i : Nat) (s : MultiDiskAdaptor) (buf : List Byte) (total rem : Nat)
      (fileOffset : Int) (e : DiskWriterEntry),
      Contiguous s.diskWriterEntries → Representable s.diskWriterEntries →
      s.diskWriterEntries[i]? = some e → rem ≤ len → 0 ≤ fileOffset →
      fileOffset ≤ e.fileEntry.length →
      offset + ((len - rem : Nat) : Int) = e.fileEntry.offset + fileOffset →
      ∀ (o : Int) (j : Nat) (s1 : MultiDiskAdaptor),
        readDataLoop len offset k i s buf total rem fileOffset =
          (.error (.diskWriterNotOpened o j), s1) →
        ∃ ej, s.diskWriterEntries[j]? = some ej ∧ i ≤ j ∧ isOpenAt s1 j = false ∧
          o + bytesAsked s.ioLog = offset + ((len - rem : Nat) : Int) + bytesAsked s1.ioLog ∧
          (j = i → o = e.fileEntry.offset + fileOffset) ∧
          (i < j → o = ej.fileEntry.offset) := by
  intro k
  induction k with
  | zero =>
    intro i s buf total rem fileOffset e _ _ _ _ _ _ _ o j s1 h
    rw [readDataLoop] at h
    cases h
  | succ k ih =>
    intro i s buf total rem fileOffset e hcont hrep he hrem h0 h1 hpos o j s1 h
    have hre := hrep e (List.getElem?_mem he)
    unfold DiskWriterEntry.lastOffset at hre
    have hfr := openIfNot_frame s i .openFile
    cases hcall : openIfNot s i .openFile with
    | mk r sa =>
      rw [hcall] at hfr
      replace hfr : CacheFrame s sa := hfr
      cases r with
      | error err =>
        rw [readDataLoop_openError len offset k i s sa buf total rem fileOffset e err he hcall]
          at h
        rcases openIfNot_error_kind s sa i .openFile err hcall with hk | hk
        · rw [hk] at h; cases h
        · rw [hk] at h; cases h
      | ok u =>
        cases u
        have hia : i < sa.diskWriterEntries.length := by
          rw [diskPart_length hfr.1]; exact (List.getElem?_eq_some.1 he).1
        have hea := List.getElem?_eq_getElem hia
        generalize sa.diskWriterEntries[i] = ea at hea
        obtain ⟨e0, he0, hd⟩ := diskPart_getElem hfr.1 hea
        rw [he] at he0
        cases he0
        have hfea : ea.fileEntry = e.fileEntry := fileEntry_of_diskPart e ea hd
        cases hoa : ea.isOpen with
        | false =>
          rw [readDataLoop_notOpened len offset k i s sa buf total rem fileOffset e ea he hcall
            hea hoa] at h
          have hbw : bytesAsked sa.ioLog = bytesAsked s.ioLog := by
            unfold bytesAsked; rw [hfr.2.2.2]
          have hcl := isOpenAt_false sa i ea hea hoa
          cases h
          have ho : i64 (offset + (u64 ((len : Int) - (rem : Int)) : Int)) =
              e.fileEntry.offset + fileOffset := by
            rw [u64_sub len rem hrem (by omega), hpos]
            apply i64_of_range <;> omega
          refine ⟨e, he, le_refl _, hcl, ?_, fun _ => ho, ?_⟩
          · rw [ho, hbw, hpos]
          · intro hlt; omega
        | true =>
          cases hwa : ea.diskWriter with
          | none =>
            rw [readDataLoop_noWriter len offset k i s sa buf total rem fileOffset e ea he hcall
              hea hoa hwa] at h
            cases h
          | some w =>
            rw [readDataLoop_step len offset k i s sa buf total rem fileOffset e ea w he hcall
              hea hoa hwa] at h
            have hcl := calculateLength_eq e fileOffset rem h0 h1 (by omega) (by omega)
            have hwl : min rem (e.fileEntry.length - fileOffset.toNat) ≤ rem :=
              Nat.min_le_left _ _
            rw [hcl, u64_sub rem _ hwl (by omega), u64_sub len rem hrem (by omega)] at h
            by_cases hz : rem - min rem (e.fileEntry.length - fileOffset.toNat) = 0
            · rw [if_pos hz] at h; cases h
            · rw [if_neg hz] at h
              have hmin : min rem (e.fileEntry.length - fileOffset.toNat) =
                  e.fileEntry.length - fileOffset.toNat := by omega
              generalize hs2 : ({ sa with ioLog := sa.ioLog ++
                  [.read i (min rem (e.fileEntry.length - fileOffset.toNat)) fileOffset] } :
                    MultiDiskAdaptor) = s2 at h
              have h2e : s2.diskWriterEntries = sa.diskWriterEntries := by rw [← hs2]
              have h2l : s2.ioLog = sa.ioLog ++
                  [.read i (min rem (e.fileEntry.length - fileOffset.toNat)) fileOffset] := by
                rw [← hs2]
              have hfe2 : s2.diskWriterEntries.map (fun e => e.fileEntry) =
                  s.diskWriterEntries.map (fun e => e.fileEntry) := by
                rw [h2e, fileEntries_eq_parts, fileEntries_eq_parts, hfr.1]
              have hbw2 : bytesAsked s2.ioLog =
                  bytesAsked s.ioLog + (e.fileEntry.length - fileOffset.toNat) := by
                rw [bytesAsked_of_readEvents sa.ioLog s2.ioLog
                  (.read i (min rem (e.fileEntry.length - fileOffset.toNat)) fileOffset)
                  (by rw [h2l, readEvents, List.filter_append]; simp [readEvents])]
                unfold bytesAsked
                rw [hfr.2.2.2]
                simp only [IoEvent.readLength, hmin]
              have he2 : s2.diskWriterEntries[i]? = some ea := by rw [h2e]; exact hea
              cases hnext : s2.diskWriterEntries[i + 1]? with
              | none =>
                rcases readDataLoop_none len offset k (i + 1) s2
                  (storeAt buf (len - rem)
                    (w.readData (min rem (e.fileEntry.length - fileOffset.toNat))
                      fileOffset.toNat))
                  (u64 ((total : Int) +
                    ((w.readData (min rem (e.fileEntry.length - fileOffset.toNat))
                      fileOffset.toNat).length : Int)))
                  (rem - min rem (e.fileEntry.length - fileOffset.toNat)) 0 hnext with hh | hh
                · rw [hh] at h; cases h
                · rw [hh] at h; cases h
              | some en =>
                have hcont2 := contiguous_of_fileEntries _ _ hfe2 hcont
                have hrep2 := representable_of_fileEntries _ _ hfe2 hrep
                have hadj := contiguous_getElem hcont2 he2 hnext
                unfold DiskWriterEntry.lastOffset at hadj
                simp only [hfea] at hadj
                obtain ⟨ej, hej, hij, hclosed, hbytes, hsame, hlater⟩ :=
                  ih (i + 1) s2 _ _ (rem - min rem (e.fileEntry.length - fileOffset.toNat)) 0 en
                    hcont2 hrep2 hnext (by omega) (le_refl 0) (by omega) (by omega) o j s1 h
                obtain ⟨ej0, hej0, hfej⟩ := fileEntry_getElem hfe2 hej
                refine ⟨ej0, hej0, by omega, hclosed, ?_, fun hji => by omega, ?_⟩
                · rw [hbw2] at hbytes
                  omega
                · intro _
                  rw [hfej]
                  by_cases hj1 : j = i + 1
                  · subst hj1
                    rw [hnext] at hej
                    cases hej
                    have := hsame rfl
                    omega
                  · exact hlater (by omega)

theorem findFirst_ok (entries : List DiskWriterEntry) (offset : Int) (i : Nat)
    (h : findFirstDiskWriterEntry entries offset = .ok i) :
    ∃ e, entries[i]? = some e ∧ isInRange e offset = true := by
  unfold findFirstDiskWriterEntry at h
  simp only at h
  split at h
  · cases h
  · split at h
    · cases h
    · rename_i entry he
      cases hr : isInRange entry offset with
      | false => rw [hr] at h; simp at h
      | true =>
        rw [hr] at h
        simp only [Bool.not_true, Bool.false_eq_true, if_false] at h
        cases h
        exact ⟨entry, he, hr⟩

/-! ## The cap on open handles -/

theorem filter_length_range {α : Type} (p : α → Bool) : ∀ (l : List α) (q : Nat → Bool),
    (∀ j a, l[j]? = some a → q j = p a) →
    (l.filter p).length = ((List.range l.length).filter q).length
  | [], _, _ => by simp
  | a :: l, q, hq => by
    have ih := filter_length_range p l (q ∘ Nat.succ)
      (fun j b hb => hq (j + 1) b (by simpa using hb))
    have h0 : q 0 = p a := hq 0 a (by simp)
    rw [List.length_cons, List.range_succ_eq_map, List.filter_cons, List.filter_cons,
      List.filter_map, h0]
    cases p a
    · simpa using ih
    · simpa using ih

theorem openCount_le_cache (cap : Nat) (s : MultiDiskAdaptor) (h : WithinCap cap s) :
    openCount s ≤ cap := by
  obtain ⟨_, _, hlen, hall⟩ := h
  unfold openCount
  rw [filter_length_range (fun e => e.isOpen) s.diskWriterEntries (isOpenAt s)
    (fun j a ha => isOpenAt_of_getElem s j a ha)]
  refine le_trans ?_ hlen
  apply List.Subperm.length_le
  apply List.subperm_of_subset ((List.nodup_range _).filter _)
  intro j hj
  rw [List.mem_filter] at hj
  exact hall j hj.2

theorem isOpenAt_set (s s1 : MultiDiskAdaptor) (i j : Nat) (b : DiskWriterEntry)
    (h : s1.diskWriterEntries = s.diskWriterEntries.set i b)
    (ho : isOpenAt s1 j = true) : isOpenAt s j = true ∨ (j = i ∧ b.isOpen = true) := by
  by_cases hij : i = j
  · subst hij
    right
    have hlt := isOpenAt_lt s1 i ho
    rw [h, List.length_set] at hlt
    rw [isOpenAt_of_getElem s1 i b (by rw [h, List.getElem?_set_self hlt])] at ho
    exact ⟨rfl, ho⟩
  · left
    rw [← ho]
    exact (isOpenAt_congr s s1 j (by rw [h, List.getElem?_set_ne hij])).symm

theorem isOpenAt_closeEntry (s : MultiDiskAdaptor) (v j : Nat)
    (h : isOpenAt (closeEntry s v) j = true) : isOpenAt s j = true ∧ j ≠ v := by
  cases he : s.diskWriterEntries[v]? with
  | none =>
    rw [closeEntry_none s v he] at h
    refine ⟨h, ?_⟩
    intro hjv
    subst hjv
    unfold isOpenAt at h
    rw [he] at h
    cases h
  | some e =>
    rw [closeEntry_some s v e he] at h
    rcases isOpenAt_set s _ v j e.closeFile rfl h with hj | ⟨_, hc⟩
    · refine ⟨hj, ?_⟩
      intro hjv
      subst hjv
      have hlt := (List.getElem?_eq_some.1 he).1
      rw [isOpenAt_of_getElem _ j e.closeFile
        (by simp only; rw [List.getElem?_set_self hlt]), closeFile_isOpen] at h
      cases h
    · rw [closeFile_isOpen] at hc; cases hc

theorem withinCap_closeEntry (cap : Nat) (s : MultiDiskAdaptor) (i : Nat)
    (h : WithinCap cap s) : WithinCap cap (closeEntry s i) := by
  obtain ⟨hcap, hm, hlen, hall⟩ := h
  refine ⟨by rw [(closeEntry_frame s i).2.1]; exact hcap, hm,
    by rw [closeEntry_opened]; exact hlen, ?_⟩
  intro j hj
  rw [closeEntry_opened]
  exact hall j (isOpenAt_closeEntry s i j hj).1

theorem withinCap_openIfNot (cap : Nat) (s : MultiDiskAdaptor) (i : Nat) (m : OpenMethod)
    (h : WithinCap cap s) : WithinCap cap (openIfNot s i m).2 := by
  cases he : s.diskWriterEntries[i]? with
  | none => rw [openIfNot_none s i m he]; exact h
  | some e =>
    cases ho : e.isOpen with
    | true => rw [openIfNot_hit s i m e he ho]; exact h
    | false =>
      cases hopen : e.open m i with
      | error err => rw [openIfNot_miss_error s i m e err he ho hopen]; exact h
      | ok e1 =>
        rw [openIfNot_miss_ok s i m e e1 he ho hopen, openIfNotOpen_ok s i e e1 m hopen]
        simp only
        obtain ⟨hcapeq, hm, hlen, hall⟩ := h
        subst hcapeq
        generalize hsa : ({ s with
            diskWriterEntries := s.diskWriterEntries.set i e1
            ioLog := if e.diskWriter.isSome then s.ioLog ++ [.opened i] else s.ioLog } :
              MultiDiskAdaptor) = sa
        have hae : sa.diskWriterEntries = s.diskWriterEntries.set i e1 := by rw [← hsa]
        have hao : sa.openedDiskWriterEntries = s.openedDiskWriterEntries := by rw [← hsa]
        have ham : sa.maxOpenFiles = s.maxOpenFiles := by rw [← hsa]
        by_cases hcap : s.openedDiskWriterEntries.length < s.maxOpenFiles
        · rw [openIfNotCache_push sa i _ (by rw [ham]; exact hcap)]
          refine ⟨ham, hm,
            by simp only [List.length_append, List.length_singleton]; rw [hao]; omega, ?_⟩
          intro j hj
          simp only
          rw [hao]
          rcases isOpenAt_set s _ i j e1 hae hj with hj | ⟨rfl, _⟩
          · exact List.mem_append_left _ (hall j hj)
          · exact List.mem_append_right _ (List.mem_singleton_self _)
        · have hpos : 0 < s.openedDiskWriterEntries.length := by omega
          obtain ⟨index, hindex⟩ : ∃ index, getRandomNumber (sa.randomizer sa.randomCalls)
              s.openedDiskWriterEntries.length = index := ⟨_, rfl⟩
          have hidx : index < s.openedDiskWriterEntries.length := by
            rw [← hindex]
            unfold getRandomNumber
            exact Nat.mod_lt _ hpos
          have hv := List.getElem?_eq_getElem hidx
          generalize s.openedDiskWriterEntries[index] = victim at hv
          rw [openIfNotCache_evict sa i _ victim (by rw [ham]; omega)
            (by rw [hindex, hao]; exact hv), hindex]
          refine ⟨?_, hm, ?_, ?_⟩
          · show (closeEntry { sa with randomCalls := sa.randomCalls + 1 } victim).maxOpenFiles =
              s.maxOpenFiles
            rw [(closeEntry_frame _ victim).2.1]
            exact ham
          · show (sa.openedDiskWriterEntries.set index i).length ≤ s.maxOpenFiles
            rw [List.length_set, hao]
            exact hlen
          · intro j hj
            show j ∈ sa.openedDiskWriterEntries.set index i
            rw [hao]
            replace hj : isOpenAt
                (closeEntry { sa with randomCalls := sa.randomCalls + 1 } victim) j = true := hj
            obtain ⟨hj1, hjv⟩ := isOpenAt_closeEntry _ victim j hj
            replace hj1 : isOpenAt sa j = true := hj1
            rcases isOpenAt_set s sa i j e1 hae hj1 with hjs | ⟨rfl, _⟩
            · exact mem_set_of_mem_ne _ index victim i j hv (hall j hjs) hjv
            · exact List.mem_iff_getElem?.2 ⟨index, by rw [List.getElem?_set_self hidx]⟩

theorem withinCap_entryWriteData (cap : Nat) (s : MultiDiskAdaptor) (i : Nat) (chunk : List Byte)
    (fileOffset : Int) (h : WithinCap cap s) :
    WithinCap cap (entryWriteData s i chunk fileOffset).2 := by
  cases he : s.diskWriterEntries[i]? with
  | none =>
    unfold entryWriteData
    rw [he]
    exact h
  | some e =>
    cases hw : e.diskWriter with
    | none =>
      unfold entryWriteData
      rw [he]
      simp only [hw]
      exact h
    | some w =>
      rw [entryWriteData_eq s i chunk fileOffset e w he hw]
      obtain ⟨hcap, hm, hlen, hall⟩ := h
      refine ⟨hcap, hm, hlen, ?_⟩
      intro j hj
      apply hall
      rcases isOpenAt_set s _ i j
        { e with diskWriter := some (w.writeData chunk fileOffset.toNat) } rfl hj with
        hj | ⟨rfl, ho⟩
      · exact hj
      · exact isOpenAt_true s j e he ho

theorem withinCap_entryReadData (cap : Nat) (s : MultiDiskAdaptor) (i : Nat) (readLength : Nat)
    (fileOffset : Int) (h : WithinCap cap s) :
    WithinCap cap (entryReadData s i readLength fileOffset).2 := by
  cases he : s.diskWriterEntries[i]? with
  | none =>
    unfold entryReadData
    rw [he]
    exact h
  | some e =>
    cases hw : e.diskWriter with
    | none =>
      unfold entryReadData
      rw [he]
      simp only [hw]
      exact h
    | some w =>
      rw [entryReadData_eq s i readLength fileOffset e w he hw]
      exact h

theorem withinCap_writeDataLoop (cap : Nat) (data : List Byte) (len : Nat) (offset : Int) :
    ∀ (k i : Nat) (s : MultiDiskAdaptor) (rem : Nat) (fileOffset : Int), WithinCap cap s →
      WithinCap cap (writeDataLoop data len offset k i s rem fileOffset).2 := by
  intro k
  induction k with
  | zero => intro i s rem fileOffset h; rw [writeDataLoop]; exact h
  | succ k ih =>
    intro i s rem fileOffset h
    rw [writeDataLoop]
    cases he : s.diskWriterEntries[i]? with
    | none => exact h
    | some e =>
      simp only
      have h1 := withinCap_openIfNot cap s i .openFile h
      cases hcall : openIfNot s i .openFile with
      | mk r s1 =>
        rw [hcall] at h1
        replace h1 : WithinCap cap s1 := h1
        cases r with
        | error err => exact h1
        | ok u =>
          cases u
          simp only
          cases he1 : s1.diskWriterEntries[i]? with
          | none => exact h1
          | some e1 =>
            simp only
            cases ho : e1.isOpen with
            | false => exact h1
            | true =>
              simp only [Bool.not_true, Bool.false_eq_true, if_false]
              have h2 := withinCap_entryWriteData cap s1 i
                ((data.drop (u64 ((len : Int) - (rem : Int)))).take
                  (calculateLength e fileOffset rem)) fileOffset h1
              cases hwr : entryWriteData s1 i
                ((data.drop (u64 ((len : Int) - (rem : Int)))).take
                  (calculateLength e fileOffset rem)) fileOffset with
              | mk r2 s2 =>
                rw [hwr] at h2
                replace h2 : WithinCap cap s2 := h2
                cases r2 with
                | error err => exact h2
                | ok u2 =>
                  cases u2
                  simp only
                  split
                  · exact h2
                  · exact ih _ _ _ _ h2

theorem withinCap_readDataLoop (cap : Nat) (len : Nat) (offset : Int) :
    ∀ (k i : Nat) (s : MultiDiskAdaptor) (buf : List Byte) (total rem : Nat)
      (fileOffset : Int), WithinCap cap s →
      WithinCap cap (readDataLoop len offset k i s buf total rem fileOffset).2 := by
  intro k
  induction k with
  | zero => intro i s buf total rem fileOffset h; rw [readDataLoop]; exact h
  | succ k ih =>
    intro i s buf total rem fileOffset h
    rw [readDataLoop]
    cases he : s.diskWriterEntries[i]? with
    | none => exact h
    | some e =>
      simp only
      have h1 := withinCap_openIfNot cap s i .openFile h
      cases hcall : openIfNot s i .openFile with
      | mk r s1 =>
        rw [hcall] at h1
        replace h1 : WithinCap cap s1 := h1
        cases r with
        | error err => exact h1
        | ok u =>
          cases u
          simp only
          cases he1 : s1.diskWriterEntries[i]? with
          | none => exact h1
          | some e1 =>
            simp only
            cases ho : e1.isOpen with
            | false => exact h1
            | true =>
              simp only [Bool.not_true, Bool.false_eq_true, if_false]
              have h2 := withinCap_entryReadData cap s1 i (calculateLength e fileOffset rem)
                fileOffset h1
              cases hrd : entryReadData s1 i (calculateLength e fileOffset rem) fileOffset with
              | mk r2 s2 =>
                rw [hrd] at h2
                replace h2 : WithinCap cap s2 := h2
                cases r2 with
                | error err => exact h2
                | ok bytes =>
                  simp only
                  split
                  · exact h2
                  · exact ih _ _ _ _ _ _ h2

theorem withinCap_writeData (cap : Nat) (s : MultiDiskAdaptor) (data : List Byte) (len : Nat)
    (offset : Int) (h : WithinCap cap s) : WithinCap cap (writeData s data len offset).2 := by
  unfold writeData
  cases hfind : findFirstDiskWriterEntry s.diskWriterEntries offset with
  | error err => exact h
  | ok first =>
    simp only
    cases he : s.diskWriterEntries[first]? with
    | none => exact h
    | some e => exact withinCap_writeDataLoop cap data len offset _ _ _ _ _ h

theorem withinCap_readData (cap : Nat) (s : MultiDiskAdaptor) (buf : List Byte) (len : Nat)
    (offset : Int) (h : WithinCap cap s) : WithinCap cap (readData s buf len offset).2 := by
  unfold readData
  cases hfind : findFirstDiskWriterEntry s.diskWriterEntries offset with
  | error err => exact h
  | ok first =>
    simp only
    cases he : s.diskWriterEntries[first]? with
    | none => exact h
    | some e => exact withinCap_readDataLoop cap len offset _ _ _ _ _ _ _ h

theorem withinCap_closeFileLoop (cap : Nat) : ∀ (k i : Nat) (s : MultiDiskAdaptor),
    WithinCap cap s →
    WithinCap cap (closeFileLoop k i s)
  | 0, _, _, h => h
  | k + 1, i, s, h =>
    withinCap_closeFileLoop cap k (i + 1) _ (withinCap_closeEntry cap s i h)

theorem withinCap_performCall (cap : Nat) (s : MultiDiskAdaptor) (c : AdaptorCall)
    (h : WithinCap cap s) :
    WithinCap cap (performCall s c) := by
  cases c with
  | openIfNot entry method => exact withinCap_openIfNot cap s entry method h
  | writeData data len offset => exact withinCap_writeData cap s data len offset h
  | readData buf len offset => exact withinCap_readData cap s buf len offset h
  | closeFile => exact withinCap_closeFileLoop cap _ _ s h

theorem withinCap_performCalls (cap : Nat) : ∀ (calls : List AdaptorCall) (s : MultiDiskAdaptor),
    WithinCap cap s → WithinCap cap (performCalls s calls)
  | [], _, h => h
  | c :: rest, s, h =>
    withinCap_performCalls cap rest _ (withinCap_performCall cap s c h)

/-! ## The order of open and close at the cap -/

theorem filter_length_set {α : Type} (p : α → Bool) (l : List α) (i : Nat) (e b : α)
    (h : l[i]? = some e) :
    ((l.set i b).filter p).length + (if p e then 1 else 0) =
      (l.filter p).length + (if p b then 1 else 0) := by
  obtain ⟨hi, hie⟩ := List.getElem?_eq_some.1 h
  have hdec : l = l.take i ++ e :: l.drop (i + 1) := by
    conv_lhs => rw [← List.take_append_drop i l]
    rw [List.drop_eq_getElem_cons hi, hie]
  rw [List.set_eq_take_append_cons_drop, if_pos hi]
  conv_rhs => rw [hdec]
  simp only [List.filter_append, List.filter_cons, List.length_append]
  cases p e <;> cases p b <;> simp <;> omega

theorem openCount_set (s s1 : MultiDiskAdaptor) (i : Nat) (e b : DiskWriterEntry)
    (h : s.diskWriterEntries[i]? = some e)
    (h1 : s1.diskWriterEntries = s.diskWriterEntries.set i b) :
    openCount s1 + (if e.isOpen then 1 else 0) = openCount s + (if b.isOpen then 1 else 0) := by
  unfold openCount
  rw [h1]
  exact filter_length_set (fun e => e.isOpen) _ i e b h

theorem cache_le_openCount (s : MultiDiskAdaptor) (h : CacheConsistent s) :
    s.openedDiskWriterEntries.length ≤ openCount s := by
  obtain ⟨_, hnd, hall⟩ := h
  unfold openCount
  rw [filter_length_range (fun e => e.isOpen) s.diskWriterEntries (isOpenAt s)
    (fun j a ha => isOpenAt_of_getElem s j a ha)]
  apply List.Subperm.length_le
  apply List.subperm_of_subset hnd
  intro j hj
  rw [List.mem_filter, List.mem_range]
  exact ⟨isOpenAt_lt s j (hall j hj), hall j hj⟩

/-! ## Rebuilding the handle entries -/

theorem needsAt_set (entries : List DiskWriterEntry) (i j : Nat) (e : DiskWriterEntry)
    (hi : i < entries.length) :
    needsAt (entries.set i e) j = if i = j then e.needsFileAllocation else needsAt entries j := by
  unfold needsAt
  rw [List.getElem?_set]
  by_cases h : i = j
  · subst h
    simp [hi]
  · simp [h]

theorem fileAt_of_shape (files : List FileEntry) (entries : List DiskWriterEntry)
    (h : entries.map (fun e => e.fileEntry) = files) (j : Nat) :
    files[j]? = (entries[j]?).map (fun e => e.fileEntry) := by
  rw [← h, List.getElem?_map]

theorem map_fileEntry_set (entries : List DiskWriterEntry) (i : Nat) (e : DiskWriterEntry)
    (h : entries[i]? = some e) :
    (entries.set i { e with needsFileAllocation := true }).map (fun e => e.fileEntry) =
      entries.map (fun e => e.fileEntry) := by
  apply List.ext_getElem?
  intro j
  rw [List.getElem?_map, List.getElem?_map, List.getElem?_set]
  by_cases hij : i = j
  · subst hij
    have hi := (List.getElem?_eq_some.1 h).1
    simp [hi, h]
  · simp [hij]

/-- The backward loop started at `i` with `done ≤ i` ends normally; it keeps
the files and sets the flag of exactly the entries `j` from `done` to `i` such
that the condition holds from `j` up to `i`. -/
theorem backwardLoop_spec (files : List FileEntry) (pso : Int) (done : Nat) :
    ∀ (i : Nat) (entries : List DiskWriterEntry), done ≤ i → i < entries.length →
      entries.map (fun e => e.fileEntry) = files →
      ∃ r, backwardLoop pso done i entries = .ok r ∧
        r.map (fun e => e.fileEntry) = files ∧
        ∀ j, needsAt r j = true ↔ (needsAt entries j = true ∨
          (done ≤ j ∧ j ≤ i ∧
            ∀ k f, j ≤ k → k ≤ i → files[k]? = some f → reachesPieceStart pso f = true)) := by
  intro i
  induction i with
  | zero =>
    intro entries hd hi hshape
    have hd0 : done = 0 := by omega
    subst hd0
    obtain ⟨e, he⟩ : ∃ e, entries[0]? = some e := ⟨entries[0], List.getElem?_eq_getElem hi⟩
    have hf : files[0]? = some e.fileEntry := by
      rw [fileAt_of_shape files entries hshape, he]; rfl
    unfold backwardLoop
    rw [he]
    simp only
    by_cases hr : reachesPieceStart pso e.fileEntry = true
    · rw [if_pos hr, if_pos trivial]
      refine ⟨_, rfl, ?_, ?_⟩
      · rw [map_fileEntry_set entries 0 e he, hshape]
      · intro j
        rw [needsAt_set entries 0 j _ hi]
        by_cases hj : 0 = j
        · subst hj
          simp only [if_true, true_iff]
          right
          refine ⟨le_refl _, le_refl _, ?_⟩
          intro k f hk1 hk2 hkf
          have hk : k = 0 := by omega
          subst hk
          rw [hf] at hkf
          cases hkf
          exact hr
        · rw [if_neg hj]
          constructor
          · intro h; exact Or.inl h
          · rintro (h | ⟨_, h2, _⟩)
            · exact h
            · omega
    · rw [if_neg hr]
      refine ⟨_, rfl, hshape, ?_⟩
      intro j
      constructor
      · intro h; exact Or.inl h
      · rintro (h | ⟨_, h2, h3⟩)
        · exact h
        · have hj : j = 0 := by omega
          subst hj
          exact absurd (h3 0 e.fileEntry (le_refl _) (le_refl _) hf) hr
  | succ i ih =>
    intro entries hd hi hshape
    obtain ⟨e, he⟩ : ∃ e, entries[i + 1]? = some e :=
      ⟨entries[i + 1], List.getElem?_eq_getElem hi⟩
    have hf : files[i + 1]? = some e.fileEntry := by
      rw [fileAt_of_shape files entries hshape, he]; rfl
    unfold backwardLoop
    rw [he]
    simp only
    by_cases hr : reachesPieceStart pso e.fileEntry = true
    · rw [if_pos hr]
      have hshape1 : (entries.set (i + 1) { e with needsFileAllocation := true }).map
          (fun e => e.fileEntry) = files := by
        rw [map_fileEntry_set entries (i + 1) e he, hshape]
      by_cases hdone : i + 1 = done
      · rw [if_pos hdone]
        refine ⟨_, rfl, hshape1, ?_⟩
        intro j
        rw [needsAt_set entries (i + 1) j _ hi]
        by_cases hj : i + 1 = j
        · subst hj
          simp only [if_true, true_iff]
          right
          refine ⟨hd, le_refl _, ?_⟩
          intro k f hk1 hk2 hkf
          have hk : k = i + 1 := by omega
          subst hk
          rw [hf] at hkf
          cases hkf
          exact hr
        · rw [if_neg hj]
          constructor
          · intro h; exact Or.inl h
          · rintro (h | ⟨h1, h2, _⟩)
            · exact h
            · omega
      · rw [if_neg hdone]
        obtain ⟨r, hr1, hr2, hr3⟩ := ih (entries.set (i + 1) { e with needsFileAllocation := true })
          (by omega) (by rw [List.length_set]; omega) hshape1
        refine ⟨r, hr1, hr2, ?_⟩
        intro j
        rw [hr3 j, needsAt_set entries (i + 1) j _ hi]
        by_cases hj : i + 1 = j
        · subst hj
          simp only [if_true, true_or, true_iff]
          right
          refine ⟨hd, le_refl _, ?_⟩
          intro k f hk1 hk2 hkf
          have hk : k = i + 1 := by omega
          subst hk
          rw [hf] at hkf
          cases hkf
          exact hr
        · rw [if_neg hj]
          constructor
          · rintro (h | ⟨h1, h2, h3⟩)
            · exact Or.inl h
            · right
              refine ⟨h1, by omega, ?_⟩
              intro k f hk1 hk2 hkf
              by_cases hk : k = i + 1
              · subst hk
                rw [hf] at hkf
                cases hkf
                exact hr
              · exact h3 k f hk1 (by omega) hkf
          · rintro (h | ⟨h1, h2, h3⟩)
            · exact Or.inl h
            · right
              refine ⟨h1, by omega, ?_⟩
              intro k f hk1 hk2 hkf
              exact h3 k f hk1 (by omega) hkf
    · rw [if_neg hr]
      refine ⟨_, rfl, hshape, ?_⟩
      intro j
      constructor
      · intro h; exact Or.inl h
      · rintro (h | ⟨_, h2, h3⟩)
        · exact h
        · exact absurd (h3 (i + 1) e.fileEntry h2 (le_refl _) hf) hr

theorem skippable_iff (f : FileEntry) :
    (!f.requested || f.length == 0) = true ↔ Skippable f := by
  unfold Skippable
  cases f.requested <;> simp

/-- The forward loop: where it ends, which files it passes and what `dwreq`
holds afterwards. -/
theorem forwardLoop_spec (limit : Int) :
    ∀ (rest : List DiskWriterEntry) (itr : Nat) (dwreq : List String),
      itr ≤ (forwardLoop limit rest itr dwreq).1 ∧
      (forwardLoop limit rest itr dwreq).1 ≤ itr + rest.length ∧
      (∀ k e, itr + k < (forwardLoop limit rest itr dwreq).1 → rest[k]? = some e →
        Skippable e.fileEntry ∧ e.fileEntry.offset < limit ∧
          e.fileEntry.path ∈ (forwardLoop limit rest itr dwreq).2) ∧
      (∀ p ∈ dwreq, p ∈ (forwardLoop limit rest itr dwreq).2) ∧
      (∀ p ∈ (forwardLoop limit rest itr dwreq).2, p ∈ dwreq ∨
        ∃ k e, itr + k < (forwardLoop limit rest itr dwreq).1 ∧ rest[k]? = some e ∧
          e.fileEntry.path = p) ∧
      (∀ e, rest[(forwardLoop limit rest itr dwreq).1 - itr]? = some e →
        ¬ (Skippable e.fileEntry ∧ e.fileEntry.offset < limit)) := by
  intro rest
  induction rest with
  | nil =>
    intro itr dwreq
    simp [forwardLoop]
  | cons e rest ih =>
    intro itr dwreq
    by_cases h1 : (!e.fileEntry.requested || e.fileEntry.length == 0) = true
    · by_cases h2 : e.fileEntry.offset < limit
      · have hstep : forwardLoop limit (e :: rest) itr dwreq =
            forwardLoop limit rest (itr + 1) (e.fileEntry.path :: dwreq) := by
          rw [forwardLoop, if_pos h1, if_pos h2]
        rw [hstep]
        obtain ⟨a1, a2, a3, a4, a5, a6⟩ := ih (itr + 1) (e.fileEntry.path :: dwreq)
        refine ⟨by omega, by rw [List.length_cons]; omega, ?_, ?_, ?_, ?_⟩
        · intro k e1 hk he1
          cases k with
          | zero =>
            rw [List.getElem?_cons_zero] at he1
            cases he1
            exact ⟨(skippable_iff _).1 h1, h2, a4 _ (List.mem_cons_self _ _)⟩
          | succ k =>
            rw [List.getElem?_cons_succ] at he1
            exact a3 k e1 (by omega) he1
        · intro p hp
          exact a4 p (List.mem_cons_of_mem _ hp)
        · intro p hp
          rcases a5 p hp with h | ⟨k, e1, hk, he1, hpath⟩
          · rcases List.mem_cons.1 h with h | h
            · right
              exact ⟨0, e, by omega, by rw [List.getElem?_cons_zero], h.symm⟩
            · exact Or.inl h
          · right
            exact ⟨k + 1, e1, by omega, by rw [List.getElem?_cons_succ]; exact he1, hpath⟩
        · intro e1 he1
          have hidx : (forwardLoop limit rest (itr + 1) (e.fileEntry.path :: dwreq)).1 - itr =
              ((forwardLoop limit rest (itr + 1) (e.fileEntry.path :: dwreq)).1 - (itr + 1)) + 1 := by
            omega
          rw [hidx, List.getElem?_cons_succ] at he1
          exact a6 e1 he1
      · have hstep : forwardLoop limit (e :: rest) itr dwreq = (itr, dwreq) := by
          rw [forwardLoop, if_pos h1, if_neg h2]
        rw [hstep]
        refine ⟨le_refl _, by omega, ?_, ?_, ?_, ?_⟩
        · intro k e1 hk
          simp only at hk
          omega
        · intro p hp; exact hp
        · intro p hp; exact Or.inl hp
        · intro e1 he1
          simp only [Nat.sub_self, List.getElem?_cons_zero] at he1
          cases he1
          exact fun h => h2 h.2
    · have hstep : forwardLoop limit (e :: rest) itr dwreq = (itr, dwreq) := by
        rw [forwardLoop, if_neg h1]
      rw [hstep]
      refine ⟨le_refl _, by omega, ?_, ?_, ?_, ?_⟩
      · intro k e1 hk
        simp only at hk
        omega
      · intro p hp; exact hp
      · intro p hp; exact Or.inl hp
      · intro e1 he1
        simp only [Nat.sub_self, List.getElem?_cons_zero] at he1
        cases he1
        exact fun h => h1 ((skippable_iff _).2 h.1)

/-! ### Arithmetic of piece boundaries -/

theorem floor_mul_le (x pl : Int) (hpl : 0 < pl) : x / pl * pl ≤ x :=
  Int.ediv_mul_le x (ne_of_gt hpl)

theorem lt_floor_mul_add (x pl : Int) (hpl : 0 < pl) : x < x / pl * pl + pl := by
  have := Int.lt_ediv_add_one_mul_self x hpl
  linarith

theorem floor_mul_mono (x y pl : Int) (hpl : 0 < pl) (h : x ≤ y) : x / pl * pl ≤ y / pl * pl :=
  mul_le_mul_of_nonneg_right (Int.ediv_le_ediv hpl h) (le_of_lt hpl)

theorem floor_mul_nonneg (x pl : Int) (hpl : 0 < pl) (hx : 0 ≤ x) : 0 ≤ x / pl * pl :=
  mul_nonneg (Int.ediv_nonneg hx (le_of_lt hpl)) (le_of_lt hpl)

/-- A piece boundary above `x` lies at or above the end of the piece of `x`. -/
theorem floor_mul_add_le (x y pl : Int) (hpl : 0 < pl) (h : x < y / pl * pl) :
    x / pl * pl + pl ≤ y / pl * pl := by
  have h1 : x / pl < y / pl := Int.ediv_lt_of_lt_mul hpl h
  have h2 : x / pl + 1 ≤ y / pl := h1
  have h3 := mul_le_mul_of_nonneg_right h2 (le_of_lt hpl)
  linarith

/-- Offsets of one piece have the same piece start. -/
theorem floor_mul_eq (x y pl : Int) (hpl : 0 < pl) (h1 : y / pl * pl ≤ x) (h2 : x ≤ y) :
    x / pl * pl = y / pl * pl := by
  apply le_antisymm (floor_mul_mono x y pl hpl h2)
  by_contra hc
  have hlt : x / pl * pl < y / pl * pl := lt_of_not_ge hc
  have h3 := floor_mul_add_le (x / pl * pl) y pl hpl hlt
  have h4 : x / pl * pl / pl * pl = x / pl * pl := by
    rw [Int.mul_ediv_cancel _ (ne_of_gt hpl)]
  have h5 := lt_floor_mul_add x pl hpl
  rw [h4] at h3
  linarith

theorem pieceStartOffset_eq (f : FileEntry) (pl : Nat) (h0 : 0 ≤ f.offset)
    (h1 : f.offset < 9223372036854775808) (hpl : 0 < pl) :
    pieceStartOffset f pl = f.offset / (pl : Int) * pl := by
  have hplz : (0 : Int) < pl := by exact_mod_cast hpl
  have hu : ((u64 f.offset : Nat) : Int) = f.offset := by unfold u64; omega
  have hq : (((u64 f.offset / pl : Nat) : Int)) = f.offset / (pl : Int) := by
    rw [Int.natCast_div, hu]
  have hle := floor_mul_le f.offset pl hplz
  have hnn := floor_mul_nonneg f.offset pl hplz h0
  unfold pieceStartOffset
  rw [hq]
  have hu2 : ((u64 (f.offset / (pl : Int) * pl) : Nat) : Int) = f.offset / (pl : Int) * pl := by
    unfold u64; omega
  rw [hu2]
  apply i64_of_range <;> omega

theorem lastPieceEnd_eq (f : FileEntry) (pl : Nat) (h0 : 0 ≤ f.offset) (hlen : 0 < f.length)
    (h1 : f.offset + f.length + pl < 9223372036854775808) (hpl : 0 < pl) :
    lastPieceEnd f pl = (f.offset + f.length - 1) / (pl : Int) * pl + pl := by
  have hplz : (0 : Int) < pl := by exact_mod_cast hpl
  have hx0 : 0 ≤ f.offset + f.length - 1 := by omega
  have hu : ((u64 (f.offset + f.length - 1) : Nat) : Int) = f.offset + f.length - 1 := by
    unfold u64; omega
  have hq : (((u64 (f.offset + f.length - 1) / pl : Nat) : Int)) =
      (f.offset + f.length - 1) / (pl : Int) := by
    rw [Int.natCast_div, hu]
  have hle := floor_mul_le (f.offset + f.length - 1) pl hplz
  have hnn := floor_mul_nonneg (f.offset + f.length - 1) pl hplz hx0
  unfold lastPieceEnd lastPieceStartOffset
  rw [hq]
  have hu2 : ((u64 ((f.offset + f.length - 1) / (pl : Int) * pl) : Nat) : Int) =
      (f.offset + f.length - 1) / (pl : Int) * pl := by
    unfold u64; omega
  rw [hu2]
  have h3 : i64 ((f.offset + f.length - 1) / (pl : Int) * pl) =
      (f.offset + f.length - 1) / (pl : Int) * pl := by
    apply i64_of_range <;> omega
  rw [h3]
  apply i64_of_range <;> omega

theorem reachesPieceStart_iff (p : Int) (f : FileEntry) (hp0 : 0 ≤ p)
    (hp : p < 9223372036854775808) (h0 : 0 ≤ f.offset)
    (h1 : f.offset + f.length < 9223372036854775808) :
    reachesPieceStart p f = true ↔ (p ≤ f.offset ∨ p < f.offset + f.length) := by
  unfold reachesPieceStart u64
  simp only [Bool.or_eq_true, decide_eq_true_eq]
  constructor
  · rintro (h | h)
    · exact Or.inl h
    · right; omega
  · rintro (h | h)
    · exact Or.inl h
    · right; omega

/-! ### Ordered file lists -/

theorem filesContiguous_next : ∀ (files : List FileEntry) (j : Nat) (a b : FileEntry),
    FilesContiguous files → files[j]? = some a → files[j + 1]? = some b →
    a.offset + a.length = b.offset
  | [], _, _, _, _, h, _ => by simp at h
  | [_], j, _, _, _, _, h => by simp at h
  | x :: y :: rest, 0, a, b, hc, ha, hb => by
    simp only [List.getElem?_cons_zero, List.getElem?_cons_succ] at ha hb
    cases ha; cases hb
    exact hc.1
  | x :: y :: rest, j + 1, a, b, hc, ha, hb => by
    rw [List.getElem?_cons_succ] at ha hb
    exact filesContiguous_next (y :: rest) j a b hc.2 ha hb

theorem files_end_le : ∀ (d : Nat) (files : List FileEntry) (i : Nat) (a b : FileEntry),
    FilesContiguous files → files[i]? = some a → files[i + d + 1]? = some b →
    a.offset + a.length ≤ b.offset := by
  intro d
  induction d with
  | zero =>
    intro files i a b hc ha hb
    exact le_of_eq (filesContiguous_next files i a b hc ha hb)
  | succ d ih =>
    intro files i a b hc ha hb
    have hlt : i + d + 1 < files.length := by
      have := (List.getElem?_eq_some.1 hb).1
      omega
    have hm : files[i + d + 1]? = some files[i + d + 1] := List.getElem?_eq_getElem hlt
    have h1 := ih files i a _ hc ha hm
    have h2 := filesContiguous_next files (i + d + 1) _ b hc hm hb
    have : (0 : Int) ≤ (files[i + d + 1].length : Int) := Int.natCast_nonneg _
    omega

/-- In a contiguous list a file ends at or before the start of every later file. -/
theorem files_end_le_offset (files : List FileEntry) (i j : Nat) (a b : FileEntry)
    (hc : FilesContiguous files) (hij : i < j) (ha : files[i]? = some a)
    (hb : files[j]? = some b) : a.offset + a.length ≤ b.offset := by
  have hj : j = i + (j - i - 1) + 1 := by omega
  rw [hj] at hb
  exact files_end_le (j - i - 1) files i a b hc ha hb

theorem files_offset_le (files : List FileEntry) (i j : Nat) (a b : FileEntry)
    (hc : FilesContiguous files) (hij : i ≤ j) (ha : files[i]? = some a)
    (hb : files[j]? = some b) : a.offset ≤ b.offset := by
  rcases Nat.lt_or_eq_of_le hij with h | h
  · have := files_end_le_offset files i j a b hc h ha hb
    have : (0 : Int) ≤ (a.length : Int) := Int.natCast_nonneg _
    omega
  · subst h
    rw [ha] at hb
    cases hb
    exact le_refl _

/-- On representable files the piece start of a file lies between 0 and its offset. -/
theorem pieceStartOffset_bounds (files : List FileEntry) (pl : Nat) (s : Nat) (g : FileEntry)
    (hr : FilesRepresentable files pl) (hpl : 0 < pl) (hg : files[s]? = some g) :
    0 ≤ pieceStartOffset g pl ∧ pieceStartOffset g pl ≤ g.offset ∧
      pieceStartOffset g pl < 9223372036854775808 := by
  have hplz : (0 : Int) < pl := by exact_mod_cast hpl
  obtain ⟨h0, h1⟩ := hr g (List.getElem?_mem hg)
  have hlen : (0 : Int) ≤ (g.length : Int) := Int.natCast_nonneg _
  rw [pieceStartOffset_eq g pl h0 (by omega) hpl]
  have := floor_mul_le g.offset pl hplz
  have := floor_mul_nonneg g.offset pl hplz h0
  omega

theorem pieceStartOffset_mono (files : List FileEntry) (pl : Nat) (s0 s : Nat)
    (g0 g : FileEntry) (hc : FilesContiguous files) (hr : FilesRepresentable files pl)
    (hpl : 0 < pl) (hs : s0 ≤ s) (hg0 : files[s0]? = some g0) (hg : files[s]? = some g) :
    pieceStartOffset g0 pl ≤ pieceStartOffset g pl := by
  have hplz : (0 : Int) < pl := by exact_mod_cast hpl
  obtain ⟨h0, h1⟩ := hr g (List.getElem?_mem hg)
  obtain ⟨k0, k1⟩ := hr g0 (List.getElem?_mem hg0)
  have hlen : (0 : Int) ≤ (g.length : Int) := Int.natCast_nonneg _
  have hlen0 : (0 : Int) ≤ (g0.length : Int) := Int.natCast_nonneg _
  rw [pieceStartOffset_eq g pl h0 (by omega) hpl, pieceStartOffset_eq g0 pl k0 (by omega) hpl]
  exact floor_mul_mono _ _ _ hplz (files_offset_le files s0 s g0 g hc hs hg0 hg)

/-- The condition of the backward loop passes from a file to every later file. -/
theorem reaches_later (files : List FileEntry) (pl : Nat) (p : Int) (j k : Nat)
    (fj fk : FileEntry) (hc : FilesContiguous files) (hr : FilesRepresentable files pl)
    (hp0 : 0 ≤ p) (hp : p < 9223372036854775808) (hjk : j ≤ k)
    (hfj : files[j]? = some fj) (hfk : files[k]? = some fk)
    (h : reachesPieceStart p fj = true) : reachesPieceStart p fk = true := by
  obtain ⟨h0, h1⟩ := hr fj (List.getElem?_mem hfj)
  obtain ⟨k0, k1⟩ := hr fk (List.getElem?_mem hfk)
  have hpl : (0 : Int) ≤ (pl : Int) := Int.natCast_nonneg _
  rw [reachesPieceStart_iff p fj hp0 hp h0 (by omega)] at h
  rw [reachesPieceStart_iff p fk hp0 hp k0 (by omega)]
  rcases Nat.lt_or_eq_of_le hjk with hlt | heq
  · have := files_end_le_offset files j k fj fk hc hlt hfj hfk
    have : (0 : Int) ≤ (fj.length : Int) := Int.natCast_nonneg _
    left
    rcases h with h | h <;> omega
  · subst heq
    rw [hfj] at hfk
    cases hfk
    exact h

/-- The condition of the backward loop passes to every earlier piece start. -/
theorem reaches_earlier (files : List FileEntry) (pl : Nat) (p0 p : Int) (j : Nat)
    (f : FileEntry) (hr : FilesRepresentable files pl)
    (hp0 : 0 ≤ p0) (hle : p0 ≤ p) (hp : p < 9223372036854775808)
    (hf : files[j]? = some f)
    (h : reachesPieceStart p f = true) : reachesPieceStart p0 f = true := by
  obtain ⟨h0, h1⟩ := hr f (List.getElem?_mem hf)
  have hpl : (0 : Int) ≤ (pl : Int) := Int.natCast_nonneg _
  rw [reachesPieceStart_iff p f (by omega) hp h0 (by omega)] at h
  rw [reachesPieceStart_iff p0 f hp0 (by omega) h0 (by omega)]
  rcases h with h | h
  · left; omega
  · right; omega

/-- An iteration of the main loop at a file that is not requested. -/
theorem resetInv_skip (files : List FileEntry) (pl : Nat) (st : ResetScan) (g : FileEntry)
    (hinv : ResetInv files pl st) (hg : files[st.itr]? = some g) (hreq : g.requested = false) :
    ResetInv files pl { st with itr := st.itr + 1 } := by
  have hlt := (List.getElem?_eq_some.1 hg).1
  refine ⟨hinv.shape, hlt, ?_, hinv.sel, ?_, ?_, hinv.doneRun, ?_⟩
  · have := hinv.done_lt
    show st.done < st.itr + 1 ∨ (st.itr + 1 = 0 ∧ st.done = 0)
    omega
  · intro j f hf hn
    rcases hinv.nsound j f hf hn with h | ⟨s, g1, h1, h2, h3, h4, h5⟩
    · exact Or.inl h
    · exact Or.inr ⟨s, g1, h1, Nat.lt_succ_of_lt h2, h3, h4, h5⟩
  · intro p hp
    obtain ⟨s, j, g1, f, h1, h2, h3⟩ := hinv.dsound p hp
    exact ⟨s, j, g1, f, h1, Nat.lt_succ_of_lt h2, h3⟩
  · intro hc hr hpl s j g1 f hs hj hg1 hf hreq1 hreach
    have hs1 : s < st.itr + 1 := hs
    rcases Nat.lt_or_eq_of_le (Nat.le_of_lt_succ hs1) with h | h
    · exact hinv.reach hc hr hpl s j g1 f h hj hg1 hf hreq1 hreach
    · subst h
      rw [hg] at hg1
      cases hg1
      rw [hreq] at hreq1
      cases hreq1

/-- An iteration of the main loop at a requested file, up to the end of the
backward loop: `entries1` is the entry list the backward loop leaves. -/
theorem resetInv_selected (files : List FileEntry) (pl : Nat) (st : ResetScan) (g : FileEntry)
    (entries1 : List DiskWriterEntry)
    (hinv : ResetInv files pl st) (hg : files[st.itr]? = some g) (hreq : g.requested = true)
    (hshape : entries1.map (fun e => e.fileEntry) = files)
    (hmark : ∀ j, needsAt entries1 j = true ↔ (needsAt st.entries j = true ∨
      (st.done ≤ j ∧ j < st.itr ∧ ∀ k f, j ≤ k → k < st.itr → files[k]? = some f →
        reachesPieceStart (pieceStartOffset g pl) f = true))) :
    ResetInv files pl
      { entries := entries1, dwreq := st.dwreq, done := st.itr, itr := st.itr + 1 } := by
  have hlt := (List.getElem?_eq_some.1 hg).1
  refine ⟨hshape, hlt, Or.inl (Nat.lt_succ_self _), ?_, ?_, ?_, ?_, ?_⟩
  · intro j f hf hr
    exact (hmark j).2 (Or.inl (hinv.sel j f hf hr))
  · intro j f hf hn
    rcases (hmark j).1 hn with h | ⟨_, h2, h3⟩
    · rcases hinv.nsound j f hf h with h | ⟨s, g1, h1, h2, h3, h4, h5⟩
      · exact Or.inl h
      · exact Or.inr ⟨s, g1, h1, Nat.lt_succ_of_lt h2, h3, h4, h5⟩
    · exact Or.inr ⟨st.itr, g, h2, Nat.lt_succ_self _, hg, hreq, h3 j f (le_refl _) h2 hf⟩
  · intro p hp
    obtain ⟨s, j, g1, f, h1, h2, h3⟩ := hinv.dsound p hp
    exact ⟨s, j, g1, f, h1, Nat.lt_succ_of_lt h2, h3⟩
  · right
    refine ⟨st.itr, g, le_refl _, hg, hreq, ?_⟩
    intro i h hi1 hi2
    exact absurd hi2 (not_le_of_lt hi1)
  · intro hc hr hpl s j g1 f hs hj hg1 hf hreq1 hreach
    have hs1 : s < st.itr + 1 := hs
    rcases Nat.lt_or_eq_of_le (Nat.le_of_lt_succ hs1) with h | h
    · rcases hinv.reach hc hr hpl s j g1 f h hj hg1 hf hreq1 hreach with h | h
      · exact Or.inl ((hmark j).2 (Or.inl h))
      · exact Or.inr h
    · subst h
      rw [hg] at hg1
      cases hg1
      obtain ⟨hb0, hb1, hb2⟩ := pieceStartOffset_bounds files pl st.itr g hr hpl hg
      by_cases hd : st.done ≤ j
      · left
        refine (hmark j).2 (Or.inr ⟨hd, hj, ?_⟩)
        intro k fk hk1 _ hfk
        exact reaches_later files pl _ j k f fk hc hr hb0 hb2 hk1 hf hfk hreach
      · have hjd : j < st.done := Nat.lt_of_not_le hd
        rcases hinv.doneRun with h0 | ⟨s0, g0, hs0, hg0, hreq0, hrun⟩
        · omega
        · have hditr : st.done < st.itr := by
            rcases hinv.done_lt with h | h
            · exact h
            · omega
          rcases Nat.lt_trichotomy j s0 with hlt0 | heq0 | hgt0
          · have hle := pieceStartOffset_mono files pl s0 st.itr g0 g hc hr hpl (by omega) hg0 hg
            obtain ⟨hc0, _, _⟩ := pieceStartOffset_bounds files pl s0 g0 hr hpl hg0
            have hreach0 := reaches_earlier files pl _ _ j f hr hc0 hle hb2 hf hreach
            rcases hinv.reach hc hr hpl s0 j g0 f (by omega) hlt0 hg0 hf hreq0 hreach0 with h | h
            · exact Or.inl ((hmark j).2 (Or.inl h))
            · exact Or.inr h
          · subst heq0
            have hfreq : f.requested = true := by
              have hx := hf
              rw [hg0] at hx
              cases hx
              exact hreq0
            exact Or.inl ((hmark j).2 (Or.inl (hinv.sel j f hf hfreq)))
          · right
            have hj1 : j + 1 < files.length := by omega
            obtain ⟨a1, a2, _⟩ := hrun j f hgt0 (le_of_lt hjd) hf
            obtain ⟨_, _, a3⟩ := hrun (j + 1) files[j + 1] (by omega) hjd
              (List.getElem?_eq_getElem hj1)
            exact ⟨a2, s0, g0, files[j + 1], hgt0, hg0, hreq0, a1,
              List.getElem?_eq_getElem hj1, a3⟩

/-- The forward loop over the entries from `itr` on, in terms of the files. -/
theorem forwardLoop_files (files : List FileEntry) (entries : List DiskWriterEntry)
    (limit : Int) (itr : Nat) (dwreq : List String)
    (hshape : entries.map (fun e => e.fileEntry) = files) (hitr : itr ≤ files.length) :
    itr ≤ (forwardLoop limit (entries.drop itr) itr dwreq).1 ∧
    (forwardLoop limit (entries.drop itr) itr dwreq).1 ≤ files.length ∧
    (∀ i f, itr ≤ i → i < (forwardLoop limit (entries.drop itr) itr dwreq).1 →
      files[i]? = some f →
      Skippable f ∧ f.offset < limit ∧
        f.path ∈ (forwardLoop limit (entries.drop itr) itr dwreq).2) ∧
    (∀ p ∈ dwreq, p ∈ (forwardLoop limit (entries.drop itr) itr dwreq).2) ∧
    (∀ p ∈ (forwardLoop limit (entries.drop itr) itr dwreq).2, p ∈ dwreq ∨
      ∃ i f, itr ≤ i ∧ i < (forwardLoop limit (entries.drop itr) itr dwreq).1 ∧
        files[i]? = some f ∧ f.path = p) ∧
    (∀ f, files[(forwardLoop limit (entries.drop itr) itr dwreq).1]? = some f →
      ¬ (Skippable f ∧ f.offset < limit)) := by
  obtain ⟨a1, a2, a3, a4, a5, a6⟩ := forwardLoop_spec limit (entries.drop itr) itr dwreq
  have hlen : entries.length = files.length := by rw [← hshape, List.length_map]
  have hfile : ∀ (i : Nat) (f : FileEntry), files[i]? = some f →
      ∃ e : DiskWriterEntry, entries[i]? = some e ∧ e.fileEntry = f := by
    intro i f hf
    rw [fileAt_of_shape files entries hshape] at hf
    cases he : entries[i]? with
    | none => rw [he] at hf; cases hf
    | some e =>
      rw [he] at hf
      exact ⟨e, rfl, Option.some.inj hf⟩
  refine ⟨a1, ?_, ?_, a4, ?_, ?_⟩
  · rw [List.length_drop] at a2
    omega
  · intro i f hi1 hi2 hf
    obtain ⟨e, he, hef⟩ := hfile i f hf
    have hk : (entries.drop itr)[i - itr]? = some e := by
      rw [List.getElem?_drop]
      rw [show itr + (i - itr) = i by omega]
      exact he
    have := a3 (i - itr) e (by omega) hk
    rw [hef] at this
    exact this
  · intro p hp
    rcases a5 p hp with h | ⟨k, e, hk, he, hpath⟩
    · exact Or.inl h
    · right
      rw [List.getElem?_drop] at he
      refine ⟨itr + k, e.fileEntry, by omega, hk, ?_, hpath⟩
      rw [fileAt_of_shape files entries hshape, he]
      rfl
  · intro f hf
    obtain ⟨e, he, hef⟩ := hfile _ f hf
    have hk : (entries.drop itr)[(forwardLoop limit (entries.drop itr) itr dwreq).1 - itr]? =
        some e := by
      rw [List.getElem?_drop]
      rw [show itr + ((forwardLoop limit (entries.drop itr) itr dwreq).1 - itr) =
        (forwardLoop limit (entries.drop itr) itr dwreq).1 by omega]
      exact he
    have := a6 e hk
    rw [hef] at this
    exact this

/-- An iteration of the main loop at a requested file of non-zero length, from
the end of the backward loop on. -/
theorem resetInv_forward (files : List FileEntry) (pl : Nat) (st1 : ResetScan) (g : FileEntry)
    (hinv : ResetInv files pl st1) (hitr : st1.itr = st1.done + 1)
    (hg : files[st1.done]? = some g) (hreq : g.requested = true) (hlen : 0 < g.length) :
    ResetInv files pl
      { entries := st1.entries
        dwreq := (forwardLoop (lastPieceEnd g pl) (st1.entries.drop st1.itr) st1.itr st1.dwreq).2
        done := (forwardLoop (lastPieceEnd g pl) (st1.entries.drop st1.itr) st1.itr st1.dwreq).1 - 1
        itr := (forwardLoop (lastPieceEnd g pl) (st1.entries.drop st1.itr) st1.itr st1.dwreq).1 } := by
  obtain ⟨a1, a2, a3, a4, a5, _⟩ := forwardLoop_files files st1.entries (lastPieceEnd g pl)
    st1.itr st1.dwreq hinv.shape hinv.itr_le
  generalize forwardLoop (lastPieceEnd g pl) (st1.entries.drop st1.itr) st1.itr st1.dwreq = r
    at a1 a2 a3 a4 a5 ⊢
  refine ⟨hinv.shape, a2, ?_, hinv.sel, ?_, ?_, ?_, ?_⟩
  · left
    show r.1 - 1 < r.1
    omega
  · intro j f hf hn
    rcases hinv.nsound j f hf hn with h | ⟨s, g1, h1, h2, h3, h4, h5⟩
    · exact Or.inl h
    · exact Or.inr ⟨s, g1, h1, lt_of_lt_of_le h2 a1, h3, h4, h5⟩
  · intro p hp
    rcases a5 p hp with h | ⟨i, f, hi1, hi2, hf, hpath⟩
    · obtain ⟨s, j, g1, f, h1, h2, h3⟩ := hinv.dsound p h
      exact ⟨s, j, g1, f, h1, lt_of_lt_of_le h2 a1, h3⟩
    · refine ⟨st1.done, i, g, f, by omega, hi2, hg, hf, hreq, hlen, hpath,
        (a3 i f hi1 hi2 hf).2.1, ?_⟩
      intro k h hk1 hk2 hkf
      exact (a3 k h (by omega) (by omega) hkf).1
  · right
    refine ⟨st1.done, g, ?_, hg, hreq, ?_⟩
    · show st1.done ≤ r.1 - 1
      omega
    · intro i h hi1 hi2 hif
      have hi3 : i ≤ r.1 - 1 := hi2
      obtain ⟨_, b2, b3⟩ := a3 i h (by omega) (by omega) hif
      exact ⟨hlen, b3, b2⟩
  · intro hc hr hpl s j g1 f hs hj hg1 hf hreq1 hreach
    have hs1 : s < r.1 := hs
    by_cases hsi : s < st1.itr
    · rcases hinv.reach hc hr hpl s j g1 f hsi hj hg1 hf hreq1 hreach with h | ⟨h1, h2⟩
      · exact Or.inl h
      · exact Or.inr ⟨a4 _ h1, h2⟩
    · rcases Nat.lt_trichotomy j st1.done with hlt | heq | hgt
      · have hle := pieceStartOffset_mono files pl st1.done s g g1 hc hr hpl (by omega) hg hg1
        obtain ⟨hc0, _, _⟩ := pieceStartOffset_bounds files pl st1.done g hr hpl hg
        obtain ⟨_, _, hc2⟩ := pieceStartOffset_bounds files pl s g1 hr hpl hg1
        have hreach0 := reaches_earlier files pl _ _ j f hr hc0 hle hc2 hf hreach
        rcases hinv.reach hc hr hpl st1.done j g f (by omega) hlt hg hf hreq hreach0
          with h | ⟨h1, h2⟩
        · exact Or.inl h
        · exact Or.inr ⟨a4 _ h1, h2⟩
      · have hf1 : files[st1.done]? = some f := heq ▸ hf
        have hfreq : f.requested = true := by
          have hx := hf1
          rw [hg] at hx
          cases hx
          exact hreq
        rw [heq]
        exact Or.inl (hinv.sel st1.done f hf1 hfreq)
      · right
        have hj1 : j + 1 < files.length := by omega
        obtain ⟨_, _, b3⟩ := a3 j f (by omega) (by omega) hf
        obtain ⟨_, c2, _⟩ := a3 (j + 1) files[j + 1] (by omega) (by omega)
          (List.getElem?_eq_getElem hj1)
        exact ⟨b3, st1.done, g, files[j + 1], hgt, hg, hreq, hlen,
          List.getElem?_eq_getElem hj1, c2⟩

theorem dwreqComplete_skip (files : List FileEntry) (pl : Nat) (st : ResetScan) (g : FileEntry)
    (entries1 : List DiskWriterEntry) (done1 : Nat)
    (hd : DwreqComplete files pl st) (hg : files[st.itr]? = some g)
    (hno : g.requested = false ∨ g.length = 0) :
    DwreqComplete files pl
      { entries := entries1, dwreq := st.dwreq, done := done1, itr := st.itr + 1 } := by
  intro s j g1 f hsj hs hg1 hf hreq hlen hall
  have hs1 : s < st.itr + 1 := hs
  rcases Nat.lt_or_eq_of_le (Nat.le_of_lt_succ hs1) with h | h
  · exact hd s j g1 f hsj h hg1 hf hreq hlen hall
  · subst h
    rw [hg] at hg1
    cases hg1
    rcases hno with h | h
    · rw [h] at hreq; cases hreq
    · omega

theorem dwreqComplete_forward (files : List FileEntry) (pl : Nat) (st : ResetScan)
    (g : FileEntry) (entries1 : List DiskWriterEntry) (done1 : Nat)
    (hd : DwreqComplete files pl st) (hg : files[st.itr]? = some g)
    (hshape : entries1.map (fun e => e.fileEntry) = files) :
    DwreqComplete files pl
      { entries := entries1
        dwreq := (forwardLoop (lastPieceEnd g pl) (entries1.drop (st.itr + 1)) (st.itr + 1)
          st.dwreq).2
        done := done1
        itr := (forwardLoop (lastPieceEnd g pl) (entries1.drop (st.itr + 1)) (st.itr + 1)
          st.dwreq).1 } := by
  have hlt := (List.getElem?_eq_some.1 hg).1
  obtain ⟨a1, a2, a3, a4, _, a6⟩ := forwardLoop_files files entries1 (lastPieceEnd g pl)
    (st.itr + 1) st.dwreq hshape hlt
  generalize forwardLoop (lastPieceEnd g pl) (entries1.drop (st.itr + 1)) (st.itr + 1)
    st.dwreq = r at a1 a2 a3 a4 a6 ⊢
  intro s j g1 f hsj hs hg1 hf hreq hlen hall
  have hs1 : s < r.1 := hs
  have hjn := (List.getElem?_eq_some.1 hf).1
  rcases Nat.lt_trichotomy s st.itr with h | h | h
  · exact a4 _ (hd s j g1 f hsj h hg1 hf hreq hlen hall)
  · subst h
    rw [hg] at hg1
    cases hg1
    by_cases hjr : j < r.1
    · exact (a3 j f (by omega) hjr hf).2.2
    · have hr1 : r.1 < files.length := by omega
      exact absurd (hall r.1 files[r.1] (by omega) (by omega) (List.getElem?_eq_getElem hr1))
        (a6 files[r.1] (List.getElem?_eq_getElem hr1))
  · rcases (a3 s g1 (by omega) hs1 hg1).1 with h | h
    · rw [h] at hreq; cases hreq
    · omega

/-- The backward loop as the main loop calls it. -/
theorem backward_result (files : List FileEntry) (pl : Nat) (st : ResetScan) (g : FileEntry)
    (hinv : ResetInv files pl st) (hg : files[st.itr]? = some g) :
    ∃ entries1,
      (if st.itr ≠ 0 then
        backwardLoop (pieceStartOffset g pl) st.done (st.itr - 1) st.entries
      else .ok st.entries) = .ok entries1 ∧
      entries1.map (fun e => e.fileEntry) = files ∧
      ∀ j, needsAt entries1 j = true ↔ (needsAt st.entries j = true ∨
        (st.done ≤ j ∧ j < st.itr ∧ ∀ k f, j ≤ k → k < st.itr → files[k]? = some f →
          reachesPieceStart (pieceStartOffset g pl) f = true)) := by
  have hlt := (List.getElem?_eq_some.1 hg).1
  have hlen : st.entries.length = files.length := by rw [← hinv.shape, List.length_map]
  by_cases h0 : st.itr = 0
  · refine ⟨st.entries, ?_, hinv.shape, ?_⟩
    · rw [if_neg (by simpa using h0)]
    · intro j
      constructor
      · intro h; exact Or.inl h
      · rintro (h | ⟨_, h2, _⟩)
        · exact h
        · omega
  · have hd : st.done ≤ st.itr - 1 := by
      rcases hinv.done_lt with h | h <;> omega
    obtain ⟨r, hr1, hr2, hr3⟩ := backwardLoop_spec files (pieceStartOffset g pl) st.done
      (st.itr - 1) st.entries hd (by omega) hinv.shape
    refine ⟨r, ?_, hr2, ?_⟩
    · rw [if_pos h0]
      exact hr1
    · intro j
      rw [hr3 j]
      constructor
      · rintro (h | ⟨h1, h2, h3⟩)
        · exact Or.inl h
        · exact Or.inr ⟨h1, by omega, fun k f hk1 hk2 hkf => h3 k f hk1 (by omega) hkf⟩
      · rintro (h | ⟨h1, h2, h3⟩)
        · exact Or.inl h
        · exact Or.inr ⟨h1, by omega, fun k f hk1 hk2 hkf => h3 k f hk1 (by omega) hkf⟩

theorem unopened_set (entries : List DiskWriterEntry) (i : Nat) (e : DiskWriterEntry)
    (hu : Unopened entries) (he : entries[i]? = some e) :
    Unopened (entries.set i { e with needsFileAllocation := true }) := by
  intro x hx
  rcases List.mem_or_eq_of_mem_set hx with h | h
  · exact hu x h
  · subst h
    exact hu e (List.getElem?_mem he)

theorem backwardLoop_unopened (pso : Int) (done : Nat) :
    ∀ (i : Nat) (entries r : List DiskWriterEntry),
      backwardLoop pso done i entries = .ok r → Unopened entries → Unopened r := by
  intro i
  induction i with
  | zero =>
    intro entries r h hu
    unfold backwardLoop at h
    cases he : entries[0]? with
    | none => rw [he] at h; cases h
    | some e =>
      rw [he] at h
      simp only at h
      split at h
      · split at h
        · cases h
          exact unopened_set entries 0 e hu he
        · cases h
      · cases h
        exact hu
  | succ i ih =>
    intro entries r h hu
    unfold backwardLoop at h
    cases he : entries[i + 1]? with
    | none => rw [he] at h; cases h
    | some e =>
      rw [he] at h
      simp only at h
      split at h
      · split at h
        · cases h
          exact unopened_set entries (i + 1) e hu he
        · exact ih _ r h (unopened_set entries (i + 1) e hu he)
      · cases h
        exact hu

theorem backward_call_unopened (pso : Int) (done i : Nat) (c : Prop) [Decidable c]
    (entries r : List DiskWriterEntry)
    (h : (if c then backwardLoop pso done i entries else .ok entries) = .ok r)
    (hu : Unopened entries) : Unopened r := by
  split at h
  · exact backwardLoop_unopened pso done i entries r h hu
  · cases h
    exact hu

/-- The main loop ends normally with `itr` at the end of the list, and what
holds before every iteration holds at the end. -/
theorem resetLoop_spec (files : List FileEntry) (pl : Nat) :
    ∀ (fuel : Nat) (st : ResetScan), ResetInv files pl st → DwreqComplete files pl st →
      Unopened st.entries → files.length - st.itr ≤ fuel →
      ∃ st1, resetLoop pl fuel st = .ok st1 ∧ ResetInv files pl st1 ∧
        DwreqComplete files pl st1 ∧ Unopened st1.entries ∧ st1.itr = files.length := by
  intro fuel
  induction fuel with
  | zero =>
    intro st hinv hd hun hfuel
    refine ⟨st, rfl, hinv, hd, hun, ?_⟩
    have := hinv.itr_le
    omega
  | succ fuel ih =>
    intro st hinv hd hun hfuel
    have hlen : st.entries.length = files.length := by rw [← hinv.shape, List.length_map]
    rw [resetLoop]
    cases he : st.entries[st.itr]? with
    | none =>
      refine ⟨st, rfl, hinv, hd, hun, ?_⟩
      have := hinv.itr_le
      have := List.getElem?_eq_none_iff.1 he
      omega
    | some e =>
      have hg : files[st.itr]? = some e.fileEntry := by
        rw [fileAt_of_shape files st.entries hinv.shape, he]; rfl
      have hlt := (List.getElem?_eq_some.1 hg).1
      simp only
      by_cases hreq : e.fileEntry.requested = true
      · have hcond : (!e.fileEntry.requested) = false := by rw [hreq]; rfl
        rw [hcond]
        simp only [Bool.false_eq_true, if_false]
        obtain ⟨entries1, hb, hshape, hmark⟩ := backward_result files pl st e.fileEntry hinv hg
        have hun1 := backward_call_unopened _ _ _ _ _ _ hb hun
        rw [hb]
        simp only
        have hinv1 := resetInv_selected files pl st e.fileEntry entries1 hinv hg hreq hshape hmark
        by_cases hl : e.fileEntry.length > 0
        · rw [if_pos hl]
          have hinv2 := resetInv_forward files pl _ e.fileEntry hinv1 rfl hg hreq hl
          have hd2 := dwreqComplete_forward files pl st e.fileEntry entries1
            ((forwardLoop (lastPieceEnd e.fileEntry pl) (entries1.drop (st.itr + 1)) (st.itr + 1)
              st.dwreq).1 - 1) hd hg hshape
          apply ih _ hinv2 hd2 hun1
          have := (forwardLoop_spec (lastPieceEnd e.fileEntry pl) (entries1.drop (st.itr + 1))
            (st.itr + 1) st.dwreq).1
          show files.length - (forwardLoop (lastPieceEnd e.fileEntry pl)
            (entries1.drop (st.itr + 1)) (st.itr + 1) st.dwreq).1 ≤ fuel
          omega
        · rw [if_neg hl]
          have hd1 := dwreqComplete_skip files pl st e.fileEntry entries1 st.itr hd hg
            (Or.inr (by omega))
          apply ih _ hinv1 hd1 hun1
          show files.length - (st.itr + 1) ≤ fuel
          omega
      · have hreq0 : e.fileEntry.requested = false := by
          cases h : e.fileEntry.requested
          · rfl
          · exact absurd h hreq
        have hcond : (!e.fileEntry.requested) = true := by rw [hreq0]; rfl
        rw [hcond]
        simp only [if_true]
        have hinv1 := resetInv_skip files pl st e.fileEntry hinv hg hreq0
        have hd1 := dwreqComplete_skip files pl st e.fileEntry st.entries st.done hd hg
          (Or.inl hreq0)
        apply ih _ hinv1 hd1 hun
        show files.length - (st.itr + 1) ≤ fuel
        omega

theorem needsAt_map_create (files : List FileEntry) (j : Nat) (f : FileEntry)
    (hf : files[j]? = some f) :
    needsAt (files.map (fun f => createDiskWriterEntry f f.requested)) j = f.requested := by
  unfold needsAt
  rw [List.getElem?_map, hf]
  rfl

/-- What holds of the variables when the main loop is entered. -/
theorem resetInv_init (files : List FileEntry) (pl : Nat) :
    ResetInv files pl
      { entries := files.map (fun f => createDiskWriterEntry f f.requested)
        dwreq := [], done := 0, itr := 0 } ∧
    DwreqComplete files pl
      { entries := files.map (fun f => createDiskWriterEntry f f.requested)
        dwreq := [], done := 0, itr := 0 } := by
  refine ⟨⟨?_, Nat.zero_le _, Or.inr ⟨rfl, rfl⟩, ?_, ?_, ?_, Or.inl rfl, ?_⟩, ?_⟩
  · rw [List.map_map]
    exact List.map_id _
  · intro j f hf hr
    show needsAt (files.map (fun f => createDiskWriterEntry f f.requested)) j = true
    rw [needsAt_map_create files j f hf, hr]
  · intro j f hf hn
    have hn1 : needsAt (files.map (fun f => createDiskWriterEntry f f.requested)) j = true := hn
    rw [needsAt_map_create files j f hf] at hn1
    exact Or.inl hn1
  · intro p hp
    cases hp
  · intro _ _ _ s j g f hs
    exact absurd hs (Nat.not_lt_zero _)
  · intro s j g f _ hs
    exact absurd hs (Nat.not_lt_zero _)

/-- The first part of `resetDiskWriterEntries` ends normally for every file
list, and for `pieceLength > 0` its result satisfies the loop invariant with
`itr` at the end. -/
theorem unopened_create (files : List FileEntry) :
    Unopened (files.map (fun f => createDiskWriterEntry f f.requested)) := by
  intro e he
  obtain ⟨f, _, hf⟩ := List.mem_map.1 he
  subst hf
  exact ⟨rfl, rfl, rfl⟩

theorem resetScan_spec (files : List FileEntry) (pl : Nat) (hpl : 0 < pl) :
    ∃ st, resetScan files pl = .ok st ∧ ResetInv files pl st ∧ DwreqComplete files pl st ∧
      Unopened st.entries ∧ st.itr = files.length := by
  obtain ⟨h1, h2⟩ := resetInv_init files pl
  obtain ⟨st, hst, h3, h4, h5⟩ := resetLoop_spec files pl files.length _ h1 h2
    (unopened_create files) (by simp)
  refine ⟨st, ?_, h3, h4, h5⟩
  unfold resetScan
  simp only [if_pos hpl, List.length_map]
  exact hst

theorem resetScan_zero (files : List FileEntry) :
    resetScan files 0 = .ok
      { entries := files.map (fun f => createDiskWriterEntry f f.requested)
        dwreq := [], done := 0, itr := 0 } := by
  unfold resetScan
  simp

/-! ### The result of `resetDiskWriterEntries` -/

/-- Entry `j` of the rebuilt list, in terms of the variables at the end of the
main loop. -/
theorem final_entry (fs : FileSystem) (files : List FileEntry) (st : ResetScan) (j : Nat)
    (f : FileEntry) (hshape : st.entries.map (fun e => e.fileEntry) = files)
    (hun : Unopened st.entries) (hf : files[j]? = some f) :
    ∃ e, (setDiskWriters fs st.dwreq st.entries)[j]? = some e ∧ e.fileEntry = f ∧
      e.needsFileAllocation = needsAt st.entries j ∧
      e.diskWriter =
        if (needsAt st.entries j || st.dwreq.contains f.path || fs.fileExists f.path) = true
        then some (fs.newDiskWriter f.path) else none := by
  rw [fileAt_of_shape files st.entries hshape] at hf
  cases he : st.entries[j]? with
  | none => rw [he] at hf; cases hf
  | some e0 =>
    rw [he] at hf
    have hef : e0.fileEntry = f := Option.some.inj hf
    have hn : needsAt st.entries j = e0.needsFileAllocation := by
      unfold needsAt; rw [he]
    have hw := (hun e0 (List.getElem?_mem he)).2.2
    unfold setDiskWriters
    rw [List.getElem?_map, he, hn, ← hef]
    simp only [Option.map_some']
    by_cases hcond : (e0.needsFileAllocation || st.dwreq.contains e0.fileEntry.path ||
        fs.fileExists e0.fileEntry.path) = true
    · rw [if_pos hcond, if_pos hcond]
      exact ⟨_, rfl, rfl, rfl, rfl⟩
    · rw [if_neg hcond, if_neg hcond]
      exact ⟨_, rfl, rfl, rfl, hw⟩

theorem setDiskWriters_files (fs : FileSystem) (dwreq : List String)
    (entries : List DiskWriterEntry) :
    (setDiskWriters fs dwreq entries).map (fun e => e.fileEntry) =
      entries.map (fun e => e.fileEntry) := by
  unfold setDiskWriters
  rw [List.map_map]
  apply List.map_congr_left
  intro e _
  simp only [Function.comp]
  split <;> rfl

/-- For `pieceLength > 0` and a non-empty file list `resetDiskWriterEntries`
returns normally; its result is the last loop applied to the variables the main
loop ends with. -/
theorem reset_result (fs : FileSystem) (s : MultiDiskAdaptor) (hpl : 0 < s.pieceLength)
    (hne : s.fileEntries ≠ []) :
    ∃ st, resetScan s.fileEntries s.pieceLength = .ok st ∧
      ResetInv s.fileEntries s.pieceLength st ∧ DwreqComplete s.fileEntries s.pieceLength st ∧
      Unopened st.entries ∧ st.itr = s.fileEntries.length ∧
      resetDiskWriterEntries fs s =
        (.ok (), { s with diskWriterEntries := setDiskWriters fs st.dwreq st.entries }) := by
  obtain ⟨st, h1, h2, h3, h4, h5⟩ := resetScan_spec s.fileEntries s.pieceLength hpl
  refine ⟨st, h1, h2, h3, h4, h5, ?_⟩
  unfold resetDiskWriterEntries
  have he : s.fileEntries.isEmpty = false := by
    cases hfe : s.fileEntries with
    | nil => exact absurd hfe hne
    | cons a l => rfl
  rw [he, h1]
  simp

/-- A file of the list, after the rebuild: the flag and the disk writer of its entry. -/
theorem reset_entry (fs : FileSystem) (s : MultiDiskAdaptor) (hpl : 0 < s.pieceLength)
    (j : Nat) (f : FileEntry) (hf : s.fileEntries[j]? = some f) :
    ∃ st e, resetScan s.fileEntries s.pieceLength = .ok st ∧
      ResetInv s.fileEntries s.pieceLength st ∧ DwreqComplete s.fileEntries s.pieceLength st ∧
      st.itr = s.fileEntries.length ∧
      (resetDiskWriterEntries fs s).1 = .ok () ∧
      (resetDiskWriterEntries fs s).2.diskWriterEntries[j]? = some e ∧ e.fileEntry = f ∧
      e.needsFileAllocation = needsAt st.entries j ∧
      e.diskWriter =
        if (needsAt st.entries j || st.dwreq.contains f.path || fs.fileExists f.path) = true
        then some (fs.newDiskWriter f.path) else none := by
  have hne : s.fileEntries ≠ [] := by
    intro h
    rw [h] at hf
    cases hf
  obtain ⟨st, h1, h2, h3, h4, h5, h6⟩ := reset_result fs s hpl hne
  obtain ⟨e, e1, e2, e3, e4⟩ := final_entry fs s.fileEntries st j f h2.shape h4 hf
  refine ⟨st, e, h1, h2, h3, h5, ?_, ?_, e2, e3, e4⟩
  · rw [h6]
  · rw [h6]
    exact e1

/-- The first part of `resetDiskWriterEntries` ends normally for every file list
and every piece length. -/
theorem resetScan_total (files : List FileEntry) (pl : Nat) :
    ∃ st, resetScan files pl = .ok st ∧ ResetInv files pl st ∧ Unopened st.entries ∧
      (pl = 0 → st.entries = files.map (fun f => createDiskWriterEntry f f.requested)) := by
  rcases Nat.eq_zero_or_pos pl with h | h
  · subst h
    exact ⟨_, resetScan_zero files, (resetInv_init files 0).1, unopened_create files,
      fun _ => rfl⟩
  · obtain ⟨st, h1, h2, _, h4, _⟩ := resetScan_spec files pl h
    exact ⟨st, h1, h2, h4, fun h0 => by omega⟩

/-- Method `resetDiskWriterEntries` returns normally for every adaptor. -/
theorem reset_total (fs : FileSystem) (s : MultiDiskAdaptor) :
    ∃ st, resetScan s.fileEntries s.pieceLength = .ok st ∧
      ResetInv s.fileEntries s.pieceLength st ∧ Unopened st.entries ∧
      (s.pieceLength = 0 →
        st.entries = s.fileEntries.map (fun f => createDiskWriterEntry f f.requested)) ∧
      resetDiskWriterEntries fs s =
        (.ok (), { s with diskWriterEntries := setDiskWriters fs st.dwreq st.entries }) := by
  obtain ⟨st, h1, h2, h3, h4⟩ := resetScan_total s.fileEntries s.pieceLength
  refine ⟨st, h1, h2, h3, h4, ?_⟩
  unfold resetDiskWriterEntries
  cases hfe : s.fileEntries with
  | nil =>
    have hsh := h2.shape
    rw [hfe] at hsh
    have hnil : st.entries = [] := List.map_eq_nil_iff.1 hsh
    rw [hnil]
    rfl
  | cons a l =>
    rw [hfe] at h1
    simp only [List.isEmpty_cons, Bool.false_eq_true, if_false]
    rw [h1]


theorem contains_iff_mem (l : List String) (a : String) : l.contains a = true ↔ a ∈ l := by
  unfold List.contains
  exact List.elem_iff

/-- An offset between the start of the piece of `b` and its end is in that piece. -/
theorem div_eq_of_between (b c pl : Int) (hpl : 0 < pl) (h1 : b / pl * pl ≤ c)
    (h2 : c < b / pl * pl + pl) : c / pl = b / pl := by
  have h3 : b / pl ≤ c / pl := Int.le_ediv_of_mul_le hpl h1
  have h4 : c / pl < b / pl + 1 := by
    apply Int.ediv_lt_of_lt_mul hpl
    linarith
  omega

/-! ### Writes of one piece after the rebuild -/

theorem lastPieceEnd_mono (S h : FileEntry) (pl : Nat) (hpl : 0 < pl)
    (s0 : 0 ≤ S.offset) (slen : 0 < S.length) (s1 : S.offset + S.length + pl < 9223372036854775808)
    (h0 : 0 ≤ h.offset) (hlen : 0 < h.length) (h1 : h.offset + h.length + pl < 9223372036854775808)
    (hle : S.offset + S.length ≤ h.offset + h.length) :
    lastPieceEnd S pl ≤ lastPieceEnd h pl := by
  have hplz : (0 : Int) < pl := by exact_mod_cast hpl
  rw [lastPieceEnd_eq S pl s0 slen s1 hpl, lastPieceEnd_eq h pl h0 hlen h1 hpl]
  have := floor_mul_mono (S.offset + S.length - 1) (h.offset + h.length - 1) pl hplz (by linarith)
  linarith

/-- After the main loop every file that starts below the end of the last piece
of an earlier requested file of non-zero length is flagged or a key of `dwreq`. -/
theorem covered_after_requested (files : List FileEntry) (pl : Nat) (st : ResetScan)
    (hinv : ResetInv files pl st) (hd : DwreqComplete files pl st)
    (hitr : st.itr = files.length) (hc : FilesContiguous files)
    (hr : FilesRepresentable files pl) (hpl : 0 < pl) :
    ∀ (d q j : Nat) (S f : FileEntry), j - q ≤ d → q < j → files[q]? = some S →
      files[j]? = some f → S.requested = true → 0 < S.length →
      f.offset < lastPieceEnd S pl →
      needsAt st.entries j = true ∨ f.path ∈ st.dwreq := by
  intro d
  induction d with
  | zero =>
    intro q j S f h1 h2
    omega
  | succ d ih =>
    intro q j S f hjq hqj hS hf hsel hlen hoff
    have hq := (List.getElem?_eq_some.1 hS).1
    by_cases hall : ∀ (i : Nat) (h : FileEntry), q < i → i ≤ j → files[i]? = some h → Skippable h
    · right
      apply hd q j S f hqj (by rw [hitr]; exact hq) hS hf hsel hlen
      intro i h hi1 hi2 hh
      refine ⟨hall i h hi1 hi2 hh, ?_⟩
      have := files_offset_le files i j h f hc hi2 hh hf
      linarith
    · push_neg at hall
      obtain ⟨i, h, hi1, hi2, hh, hns⟩ := hall
      unfold Skippable at hns
      rw [not_or] at hns
      have hreq : h.requested = true := by
        cases hx : h.requested
        · exact absurd hx hns.1
        · rfl
      have hhlen : 0 < h.length := Nat.pos_of_ne_zero hns.2
      rcases Nat.lt_or_eq_of_le hi2 with hlt | heq
      · obtain ⟨s0, s1⟩ := hr S (List.getElem?_mem hS)
        obtain ⟨h0, h1⟩ := hr h (List.getElem?_mem hh)
        have hend := files_end_le_offset files q i S h hc hi1 hS hh
        have hhz : (0 : Int) ≤ (h.length : Int) := Int.natCast_nonneg _
        have hmono := lastPieceEnd_mono S h pl hpl s0 hlen s1 h0 hhlen h1 (by linarith)
        exact ih i j h f (by omega) hlt hh hf hreq hhlen (by linarith)
      · subst heq
        rw [hf] at hh
        cases hh
        exact Or.inl (hinv.sel i f hf hreq)

/-- The entries the writes of `expectedWrites` go to: the first one, and later
ones that start before the end of the data. -/
theorem expectedWrites_touched (files : List FileEntry) (hc : FilesContiguous files) :
    ∀ (parts : List (FileEntry × Option DiskWriter)) (i lo : Nat) (d : List Byte)
      (fi : FileEntry),
      (∀ t, (parts[t]?).map Prod.fst = files[i + t]?) → files[i]? = some fi →
      ∀ ev ∈ expectedWrites parts i lo d, ∃ (j : Nat) (chunk : List Byte) (off : Int)
        (fj : FileEntry), ev = .wrote j chunk off ∧ i ≤ j ∧ files[j]? = some fj ∧
          (j = i ∨ fj.offset < fi.offset + lo + d.length) := by
  intro parts
  induction parts with
  | nil =>
    intro i lo d fi _ _ ev hev
    simp [expectedWrites] at hev
  | cons p rest ih =>
    intro i lo d fi hparts hfi ev hev
    have hp : p.1 = fi := by
      have := hparts 0
      simp only [List.getElem?_cons_zero, Option.map_some', Nat.add_zero] at this
      rw [hfi] at this
      exact Option.some.inj this
    rw [expectedWrites] at hev
    rcases List.mem_cons.1 hev with h | h
    · exact ⟨i, _, _, fi, h, le_refl _, hfi, Or.inl rfl⟩
    · by_cases hlen : d.length ≤ p.1.length - lo
      · rw [if_pos hlen] at h
        cases h
      · rw [if_neg hlen] at h
        cases rest with
        | nil => simp [expectedWrites] at h
        | cons p2 rest2 =>
          have hp2 : files[i + 1]? = some p2.1 := by
            have := hparts 1
            simp only [List.getElem?_cons_succ, List.getElem?_cons_zero, Option.map_some'] at this
            exact this.symm
          have hrest : ∀ t, ((p2 :: rest2)[t]?).map Prod.fst = files[i + 1 + t]? := by
            intro t
            have := hparts (t + 1)
            rw [List.getElem?_cons_succ] at this
            rw [this]
            congr 1
            omega
          obtain ⟨j, chunk, off, fj, e1, e2, e3, e4⟩ :=
            ih (i + 1) 0 (d.drop (p.1.length - lo)) p2.1 hrest hp2 ev h
          refine ⟨j, chunk, off, fj, e1, by omega, e3, Or.inr ?_⟩
          have hnext := filesContiguous_next files i fi p2.1 hc hfi hp2
          rw [hp] at hlen e4
          rw [List.length_drop] at e4
          rcases e4 with e4 | e4
          · subst e4
            rw [hp2] at e3
            cases e3
            omega
          · omega

theorem files_of_contiguous : ∀ (entries : List DiskWriterEntry),
    FilesContiguous (entries.map (fun e => e.fileEntry)) → Contiguous entries
  | [], _ => trivial
  | [_], _ => trivial
  | a :: b :: rest, h => by
    have h1 : a.fileEntry.offset + a.fileEntry.length = b.fileEntry.offset := h.1
    have h2 : FilesContiguous ((b :: rest).map (fun e => e.fileEntry)) := h.2
    exact ⟨h1, files_of_contiguous (b :: rest) h2⟩

theorem files_of_representable (entries : List DiskWriterEntry) (pl : Nat)
    (h : FilesRepresentable (entries.map (fun e => e.fileEntry)) pl) : Representable entries := by
  intro e he
  obtain ⟨h0, h1⟩ := h e.fileEntry (List.mem_map_of_mem _ he)
  unfold DiskWriterEntry.lastOffset
  have : (0 : Int) ≤ (pl : Int) := Int.natCast_nonneg _
  exact ⟨h0, by omega⟩

/-! ## Segments -/

theorem foldl_completeBlock (l : List Nat) :
    ∀ (p : Piece),
      (l.foldl (fun p i => p.completeBlock i) p).length = p.length ∧
      (l.foldl (fun p i => p.completeBlock i) p).blockLength = p.blockLength ∧
      (l.foldl (fun p i => p.completeBlock i) p).index = p.index ∧
      ∀ i, i ∈ (l.foldl (fun p i => p.completeBlock i) p).completedBlocks ↔
        (i ∈ l ∨ i ∈ p.completedBlocks) := by
  induction l with
  | nil =>
    intro p
    simp
  | cons a rest ih =>
    intro p
    obtain ⟨h1, h2, h3, h4⟩ := ih (p.completeBlock a)
    rw [List.foldl_cons]
    refine ⟨h1, h2, h3, ?_⟩
    intro i
    rw [h4 i]
    simp only [Piece.completeBlock, List.mem_cons]
    constructor
    · rintro (h | h | h)
      · exact Or.inl (Or.inr h)
      · exact Or.inl (Or.inl h)
      · exact Or.inr h
    · rintro ((h | h) | h)
      · exact Or.inr (Or.inl h)
      · exact Or.inl h
      · exact Or.inr (Or.inr h)

theorem countBlock_congr (p q : Piece) (h1 : q.length = p.length)
    (h2 : q.blockLength = p.blockLength) : q.countBlock = p.countBlock := by
  unfold Piece.countBlock
  rw [h1, h2]

/-- A call of `updateWrittenLength` that stays within the piece: it returns,
adds the bytes to `writtenLength` and completes the blocks from
`writtenLength / blockLength` up to `newWrittenLength / blockLength`, and block
`countBlock() - 1` when the end of the piece is reached. -/
theorem updateWrittenLength_ok (seg : PiecedSegment) (n : Nat)
    (hb : 0 < seg.piece.blockLength) (hsum : seg.writtenLength + n ≤ seg.piece.length)
    (hrep : seg.writtenLength + n < 18446744073709551616) :
    ∃ seg1, seg.updateWrittenLength n = (.ok (), seg1) ∧
      seg1.writtenLength = seg.writtenLength + n ∧
      seg1.pieceLength = seg.pieceLength ∧
      seg1.piece.length = seg.piece.length ∧
      seg1.piece.blockLength = seg.piece.blockLength ∧
      seg1.piece.index = seg.piece.index ∧
      ∀ i, i ∈ seg1.piece.completedBlocks ↔
        (i ∈ seg.piece.completedBlocks ∨
          (seg.writtenLength / seg.piece.blockLength ≤ i ∧
            i < (seg.writtenLength + n) / seg.piece.blockLength) ∨
          (seg.writtenLength + n = seg.piece.length ∧
            i = (seg.piece.countBlock + 18446744073709551615) % 18446744073709551616)) := by
  have hmod : (seg.writtenLength + n) % 18446744073709551616 = seg.writtenLength + n :=
    Nat.mod_eq_of_lt hrep
  have hb0 : ¬ seg.piece.blockLength = 0 := by omega
  obtain ⟨f1, f2, f3, f4⟩ := foldl_completeBlock
    (List.range' (seg.writtenLength / seg.piece.blockLength)
      ((seg.writtenLength + n) / seg.piece.blockLength -
        seg.writtenLength / seg.piece.blockLength)) seg.piece
  have hdiv : seg.writtenLength / seg.piece.blockLength ≤
      (seg.writtenLength + n) / seg.piece.blockLength :=
    Nat.div_le_div_right (Nat.le_add_right _ _)
  unfold PiecedSegment.updateWrittenLength
  simp only [hmod, if_pos hsum, if_neg hb0]
  generalize List.foldl (fun p i => p.completeBlock i) seg.piece
    (List.range' (seg.writtenLength / seg.piece.blockLength)
      ((seg.writtenLength + n) / seg.piece.blockLength -
        seg.writtenLength / seg.piece.blockLength)) = p1 at f1 f2 f3 f4 ⊢
  by_cases hend : seg.writtenLength + n = seg.piece.length
  · rw [if_pos hend]
    refine ⟨_, rfl, rfl, rfl, ?_, ?_, ?_, ?_⟩
    · exact f1
    · exact f2
    · exact f3
    · intro i
      simp only [Piece.completeBlock, List.mem_cons]
      rw [f4 i, countBlock_congr seg.piece p1 f1 f2, List.mem_range'_1]
      constructor
      · rintro (h | h | h)
        · exact Or.inr (Or.inr ⟨hend, h⟩)
        · exact Or.inr (Or.inl ⟨h.1, by omega⟩)
        · exact Or.inl h
      · rintro (h | h | h)
        · exact Or.inr (Or.inr h)
        · exact Or.inr (Or.inl ⟨h.1, by omega⟩)
        · exact Or.inl h.2
  · rw [if_neg hend]
    refine ⟨_, rfl, rfl, rfl, ?_, ?_, ?_, ?_⟩
    · exact f1
    · exact f2
    · exact f3
    · intro i
      simp only
      rw [f4 i, List.mem_range'_1]
      constructor
      · rintro (h | h)
        · exact Or.inr (Or.inl ⟨h.1, by omega⟩)
        · exact Or.inl h
      · rintro (h | h | h)
        · exact Or.inr h
        · exact Or.inl ⟨h.1, by omega⟩
        · exact absurd h.1 hend

/-- A call of `updateWrittenLength` whose sum, computed in `size_t`, exceeds the
length of the piece fails the assertion and changes nothing. -/
theorem updateWrittenLength_fails (seg : PiecedSegment) (n : Nat)
    (h : seg.piece.length < (seg.writtenLength + n) % 18446744073709551616) :
    seg.updateWrittenLength n = (.error .assertionFailed, seg) := by
  unfold PiecedSegment.updateWrittenLength
  simp only [if_neg (Nat.not_le_of_lt h)]

theorem countBlock_pos (p : Piece) (hb : 0 < p.blockLength) (hl : 0 < p.length) :
    p.countBlock = (p.length - 1) / p.blockLength + 1 := by
  unfold Piece.countBlock
  have : p.length + p.blockLength - 1 = (p.length - 1) + p.blockLength := by omega
  rw [this, Nat.add_div_right _ hb]

theorem inStep_update (seg seg1 : PiecedSegment) (n : Nat)
    (hin : seg.InStep) (hb : 0 < seg.piece.blockLength) (hl : 0 < seg.piece.length)
    (hL : seg.piece.length < 18446744073709551616)
    (hsum : seg.writtenLength + n ≤ seg.piece.length)
    (h : seg.updateWrittenLength n = (.ok (), seg1)) : seg1.InStep := by
  obtain ⟨seg2, h1, h2, _, h4, h5, _, h7⟩ := updateWrittenLength_ok seg n hb hsum (by omega)
  have hcb1 := countBlock_congr seg.piece seg2.piece h4 h5
  rw [h1] at h
  cases h
  have hcb := countBlock_pos seg.piece hb hl
  have hcble : (seg.piece.length - 1) / seg.piece.blockLength ≤ seg.piece.length - 1 :=
    Nat.div_le_self _ _
  have hlast : (seg.piece.countBlock + 18446744073709551615) % 18446744073709551616 =
      seg.piece.countBlock - 1 := by
    rw [hcb]
    generalize (seg.piece.length - 1) / seg.piece.blockLength = q at hcble
    omega
  have hdiv : seg.writtenLength / seg.piece.blockLength ≤
      (seg.writtenLength + n) / seg.piece.blockLength :=
    Nat.div_le_div_right (Nat.le_add_right _ _)
  unfold PiecedSegment.InStep
  rw [h2, h4, h5, hcb1]
  refine ⟨hsum, ?_⟩
  intro i
  rw [h7 i, hin.2 i, hlast]
  constructor
  · rintro ((h | h) | h | h)
    · exact Or.inl (by omega)
    · exact Or.inr ⟨by omega, h.2⟩
    · exact Or.inl h.2
    · exact Or.inr h
  · rintro (h | h)
    · by_cases hlt : i < seg.writtenLength / seg.piece.blockLength
      · exact Or.inl (Or.inl hlt)
      · exact Or.inr (Or.inl ⟨by omega, h⟩)
    · exact Or.inr (Or.inr h)

/-- While a piece is written from its start through a segment it is complete
exactly when `writtenLength` has reached its length. -/
theorem inStep_complete_iff (seg : PiecedSegment) (hin : seg.InStep)
    (hb : 0 < seg.piece.blockLength) (hl : 0 < seg.piece.length) :
    seg.complete = true ↔ seg.writtenLength = seg.piece.length := by
  have hcb := countBlock_pos seg.piece hb hl
  unfold PiecedSegment.complete Piece.pieceComplete Piece.hasBlock
  rw [List.all_eq_true]
  constructor
  · intro h
    by_contra hne
    have hlt : seg.writtenLength < seg.piece.length := lt_of_le_of_ne hin.1 hne
    have hpos : seg.piece.countBlock - 1 < seg.piece.countBlock := by
      rw [hcb]
      exact Nat.lt_succ_self _
    have hmem := h (seg.piece.countBlock - 1) (List.mem_range.2 hpos)
    have hmem1 : seg.piece.countBlock - 1 ∈ seg.piece.completedBlocks := by
      unfold List.contains at hmem
      exact List.elem_iff.1 hmem
    rcases (hin.2 _).1 hmem1 with h1 | h1
    · have hw : seg.writtenLength ≤ seg.piece.length - 1 := by omega
      have : seg.writtenLength / seg.piece.blockLength ≤
          (seg.piece.length - 1) / seg.piece.blockLength :=
        Nat.div_le_div_right hw
      omega
    · exact hne h1.1
  · intro h i hi
    have hi1 := List.mem_range.1 hi
    have hmem : i ∈ seg.piece.completedBlocks := by
      apply (hin.2 i).2
      by_cases hlast : i = seg.piece.countBlock - 1
      · exact Or.inr ⟨h, hlast⟩
      · left
        rw [h]
        have hw : seg.piece.length - 1 ≤ seg.piece.length := Nat.sub_le _ _
        have : (seg.piece.length - 1) / seg.piece.blockLength ≤
            seg.piece.length / seg.piece.blockLength :=
          Nat.div_le_div_right hw
        omega
    unfold List.contains
    exact List.elem_iff.2 hmem

theorem updateAll_spec : ∀ (ns : List Nat) (seg : PiecedSegment),
    seg.InStep → 0 < seg.piece.blockLength → 0 < seg.piece.length →
    seg.piece.length < 18446744073709551616 →
    seg.writtenLength + ns.sum ≤ seg.piece.length →
    ∃ seg1, seg.updateAll ns = (.ok (), seg1) ∧ seg1.InStep ∧
      seg1.writtenLength = seg.writtenLength + ns.sum ∧
      seg1.piece.length = seg.piece.length ∧
      seg1.piece.blockLength = seg.piece.blockLength := by
  intro ns
  induction ns with
  | nil =>
    intro seg hin _ _ _ _
    exact ⟨seg, rfl, hin, by simp, rfl, rfl⟩
  | cons n rest ih =>
    intro seg hin hb hl hL hsum
    rw [List.sum_cons] at hsum
    obtain ⟨seg2, h1, h2, _, h4, h5, _, _⟩ := updateWrittenLength_ok seg n hb (by omega)
      (by omega)
    have hin2 := inStep_update seg seg2 n hin hb hl hL (by omega) h1
    obtain ⟨seg3, g1, g2, g3, g4, g5⟩ := ih seg2 hin2 (by rw [h5]; exact hb)
      (by rw [h4]; exact hl) (by rw [h4]; exact hL) (by rw [h2, h4]; omega)
    refine ⟨seg3, ?_, g2, ?_, by rw [g4, h4], by rw [g5, h5]⟩
    · rw [PiecedSegment.updateAll, h1]
      exact g1
    · rw [g3, h2, List.sum_cons]
      omega

/-- The constructor over a piece with no completed block. -/
theorem construct_fresh (pieceLength : Nat) (piece : Piece) (he : piece.completedBlocks = [])
    (hb : 0 < piece.blockLength) (hl : 0 < piece.length) :
    PiecedSegment.construct pieceLength piece =
      .ok { pieceLength := pieceLength, piece := piece, writtenLength := 0 } := by
  have hcb := countBlock_pos piece hb hl
  unfold PiecedSegment.construct Piece.getFirstMissingBlockIndexWithoutLock
  rw [hcb, List.range_succ_eq_map, List.find?_cons]
  have h0 : (!piece.hasBlock 0) = true := by
    unfold Piece.hasBlock
    rw [he]
    rfl
  rw [h0]
  simp

/-- The sum `writtenLength_+bytes` is computed in `size_t`: a byte count of
`2^64 - 3` added to a written length of 4 wraps to 1, the assertion holds and
`writtenLength_` becomes 1. -/
theorem updateWrittenLength_wraps :
    PiecedSegment.updateWrittenLength
        { pieceLength := 16, piece := shortPiece.completeBlock 0, writtenLength := 4 }
        18446744073709551613 =
      (.ok (), { pieceLength := 16, piece := shortPiece.completeBlock 0, writtenLength := 1 }) := by
  decide

/-! ### Construction, positions and reset -/

theorem find?_range' (p : Nat → Bool) : ∀ (n s k : Nat),
    (List.range' s n).find? p = some k →
    s ≤ k ∧ k < s + n ∧ p k = true ∧ ∀ i, s ≤ i → i < k → p i = false := by
  intro n
  induction n with
  | zero =>
    intro s k h
    simp at h
  | succ n ih =>
    intro s k h
    rw [List.range'_succ, List.find?_cons] at h
    cases hp : p s with
    | true =>
      rw [hp] at h
      cases h
      exact ⟨le_refl _, by omega, hp, fun i h1 h2 => by omega⟩
    | false =>
      rw [hp] at h
      obtain ⟨h1, h2, h3, h4⟩ := ih (s + 1) k h
      refine ⟨by omega, by omega, h3, ?_⟩
      intro i hi1 hi2
      rcases Nat.eq_or_lt_of_le hi1 with he | hl
      · rw [← he]
        exact hp
      · exact h4 i hl hi2

theorem hasBlock_iff (p : Piece) (i : Nat) : p.hasBlock i = true ↔ i ∈ p.completedBlocks := by
  unfold Piece.hasBlock List.contains
  exact List.elem_iff

/-- The first missing block: it is a block of the piece, it is not complete and
all blocks before it are. -/
theorem firstMissing_spec (p : Piece) (k : Nat)
    (h : p.getFirstMissingBlockIndexWithoutLock = some k) :
    k < p.countBlock ∧ k ∉ p.completedBlocks ∧ ∀ i, i < k → i ∈ p.completedBlocks := by
  unfold Piece.getFirstMissingBlockIndexWithoutLock at h
  rw [List.range_eq_range'] at h
  obtain ⟨_, h2, h3, h4⟩ := find?_range' (fun i => !p.hasBlock i) p.countBlock 0 k h
  refine ⟨by omega, ?_, ?_⟩
  · intro hm
    have := (hasBlock_iff p k).2 hm
    simp only [this, Bool.not_true] at h3
    cases h3
  · intro i hi
    have := h4 i (Nat.zero_le _) hi
    apply (hasBlock_iff p i).1
    cases hb : p.hasBlock i with
    | true => rfl
    | false => simp [hb] at this

/-- The constructor returns exactly when a block is missing, with
`writtenLength_` at the start of the first missing block. -/
theorem construct_spec (pieceLength : Nat) (piece : Piece) (seg : PiecedSegment)
    (h : PiecedSegment.construct pieceLength piece = .ok seg) :
    ∃ k, piece.getFirstMissingBlockIndexWithoutLock = some k ∧
      seg = { pieceLength := pieceLength, piece := piece
              writtenLength := (k * piece.blockLength) % 18446744073709551616 } := by
  unfold PiecedSegment.construct at h
  cases hk : piece.getFirstMissingBlockIndexWithoutLock with
  | none => rw [hk] at h; cases h
  | some k =>
    rw [hk] at h
    cases h
    exact ⟨k, rfl, rfl⟩

/-- A block of the piece starts before the end of the piece. -/
theorem block_start_lt (p : Piece) (k : Nat) (hk : k < p.countBlock) :
    0 < p.blockLength ∧ 0 < p.length ∧ k * p.blockLength < p.length := by
  have hb : 0 < p.blockLength := by
    rcases Nat.eq_zero_or_pos p.blockLength with h | h
    · unfold Piece.countBlock at hk
      rw [h, Nat.div_zero] at hk
      omega
    · exact h
  have hl : 0 < p.length := by
    rcases Nat.eq_zero_or_pos p.length with h | h
    · unfold Piece.countBlock at hk
      rw [h, Nat.zero_add, Nat.div_eq_of_lt (by omega)] at hk
      omega
    · exact h
  refine ⟨hb, hl, ?_⟩
  rw [countBlock_pos p hb hl] at hk
  have h1 : k ≤ (p.length - 1) / p.blockLength := by omega
  have h2 := Nat.mul_le_mul_right p.blockLength h1
  have h3 := Nat.div_mul_le_self (p.length - 1) p.blockLength
  omega

/-- A call of `updateWrittenLength` that returns: the sum computed in `size_t`
is within the piece and becomes `writtenLength_`, and nothing else of the
segment but the completed blocks changes. -/
theorem updateWrittenLength_returns (seg seg1 : PiecedSegment) (n : Nat)
    (h : seg.updateWrittenLength n = (.ok (), seg1)) :
    (seg.writtenLength + n) % 18446744073709551616 ≤ seg.piece.length ∧
    0 < seg.piece.blockLength ∧
    seg1.writtenLength = (seg.writtenLength + n) % 18446744073709551616 ∧
    seg1.pieceLength = seg.pieceLength ∧ seg1.piece.length = seg.piece.length ∧
    seg1.piece.blockLength = seg.piece.blockLength ∧ seg1.piece.index = seg.piece.index := by
  unfold PiecedSegment.updateWrittenLength at h
  simp only at h
  split at h
  · rename_i hle
    split at h
    · cases h
    · rename_i hb
      obtain ⟨f1, f2, f3, _⟩ := foldl_completeBlock
        (List.range' (seg.writtenLength / seg.piece.blockLength)
          ((seg.writtenLength + n) % 18446744073709551616 / seg.piece.blockLength -
            seg.writtenLength / seg.piece.blockLength)) seg.piece
      cases h
      refine ⟨hle, Nat.pos_of_ne_zero hb, rfl, rfl, ?_, ?_, ?_⟩
      · simp only
        split
        · exact f1
        · exact f1
      · simp only
        split
        · exact f2
        · exact f2
      · simp only
        split
        · exact f3
        · exact f3
  · cases h

theorem reachable_le (seg : PiecedSegment) (h : seg.Reachable) :
    seg.writtenLength ≤ seg.piece.length := by
  induction h with
  | construct pieceLength piece seg hc =>
    obtain ⟨k, hk, hseg⟩ := construct_spec pieceLength piece seg hc
    obtain ⟨h1, _, _⟩ := firstMissing_spec piece k hk
    obtain ⟨_, _, h4⟩ := block_start_lt piece k h1
    rw [hseg]
    simp only
    have := Nat.mod_le (k * piece.blockLength) 18446744073709551616
    omega
  | update seg seg1 bytes _ hu _ =>
    obtain ⟨h1, _, h3, _, h5, _⟩ := updateWrittenLength_returns seg seg1 bytes hu
    rw [h3, h5]
    exact h1
  | clear seg _ _ =>
    exact Nat.zero_le _

theorem getPositionToWrite_eq (seg : PiecedSegment)
    (h : seg.piece.index * seg.pieceLength + seg.writtenLength < 9223372036854775808) :
    seg.getPosition = ((seg.piece.index * seg.pieceLength : Nat) : Int) ∧
    seg.getPositionToWrite =
      ((seg.piece.index * seg.pieceLength + seg.writtenLength : Nat) : Int) := by
  have hidx : seg.piece.index * seg.pieceLength < 9223372036854775808 := by omega
  have hpos : seg.getPosition = ((seg.piece.index * seg.pieceLength : Nat) : Int) := by
    unfold PiecedSegment.getPosition
    rcases Nat.eq_zero_or_pos seg.pieceLength with h0 | h0
    · rw [h0]
      simp only [Nat.mul_zero]
      unfold i64
      omega
    · have hi : seg.piece.index < 9223372036854775808 := by
        have := Nat.le_mul_of_pos_right seg.piece.index h0
        omega
      have h1 : i64 (seg.piece.index : Int) = seg.piece.index := by
        apply i64_of_range <;> omega
      have h2 : u64 (seg.piece.index : Int) = seg.piece.index := by
        unfold u64
        omega
      rw [h1, h2]
      apply i64_of_range
      · have := Int.natCast_nonneg (seg.piece.index * seg.pieceLength)
        omega
      · exact_mod_cast hidx
  refine ⟨hpos, ?_⟩
  unfold PiecedSegment.getPositionToWrite
  rw [hpos]
  have hsum : ((seg.piece.index * seg.pieceLength : Nat) : Int) + (seg.writtenLength : Int) =
      ((seg.piece.index * seg.pieceLength + seg.writtenLength : Nat) : Int) := by
    push_cast
    rfl
  rw [hsum]
  apply i64_of_range
  · have := Int.natCast_nonneg (seg.piece.index * seg.pieceLength + seg.writtenLength)
    omega
  · exact_mod_cast h

theorem updateAll_cons_ok (seg seg1 : PiecedSegment) (n : Nat) (rest : List Nat)
    (h : seg.updateAll (n :: rest) = (.ok (), seg1)) :
    ∃ seg2, seg.updateWrittenLength n = (.ok (), seg2) ∧ seg2.updateAll rest = (.ok (), seg1) := by
  rw [PiecedSegment.updateAll] at h
  cases hres : seg.updateWrittenLength n with
  | mk r seg2 =>
    rw [hres] at h
    cases r with
    | error err =>
      simp only at h
      cases h
    | ok u =>
      simp only at h
      exact ⟨seg2, rfl, h⟩

/-- What every returning `updateWrittenLength` call with a representable sum
keeps holds after a sequence of such calls. -/
theorem updateAll_induct (P : PiecedSegment → Prop)
    (hstep : ∀ (seg seg1 : PiecedSegment) (n : Nat), P seg →
      seg.updateWrittenLength n = (.ok (), seg1) →
      seg.writtenLength + n < 18446744073709551616 → P seg1) :
    ∀ (ns : List Nat) (seg seg1 : PiecedSegment), P seg →
      seg.updateAll ns = (.ok (), seg1) →
      seg.writtenLength + ns.sum < 18446744073709551616 →
      P seg1 ∧ seg1.writtenLength = seg.writtenLength + ns.sum ∧
        seg1.piece.length = seg.piece.length ∧
        seg1.piece.blockLength = seg.piece.blockLength := by
  intro ns
  induction ns with
  | nil =>
    intro seg seg1 hp h _
    rw [PiecedSegment.updateAll] at h
    cases h
    exact ⟨hp, by simp, rfl, rfl⟩
  | cons n rest ih =>
    intro seg seg1 hp h hrep
    rw [List.sum_cons] at hrep
    obtain ⟨seg2, h1, h2⟩ := updateAll_cons_ok seg seg1 n rest h
    obtain ⟨_, _, r3, _, r5, r6, _⟩ := updateWrittenLength_returns seg seg2 n h1
    have hmod : (seg.writtenLength + n) % 18446744073709551616 = seg.writtenLength + n :=
      Nat.mod_eq_of_lt (by omega)
    rw [hmod] at r3
    obtain ⟨g1, g2, g3, g4⟩ := ih seg2 seg1 (hstep seg seg2 n hp h1 (by omega)) h2
      (by rw [r3]; omega)
    refine ⟨g1, ?_, by rw [g3, r5], by rw [g4, r6]⟩
    rw [g2, r3, List.sum_cons]
    omega

theorem prefixDone_update (seg seg1 : PiecedSegment) (n : Nat)
    (hin : seg.PrefixDone ∧ 0 < seg.piece.length)
    (h : seg.updateWrittenLength n = (.ok (), seg1))
    (hrep : seg.writtenLength + n < 18446744073709551616) :
    seg1.PrefixDone ∧ 0 < seg1.piece.length := by
  obtain ⟨r1, hb, _⟩ := updateWrittenLength_returns seg seg1 n h
  have hmod : (seg.writtenLength + n) % 18446744073709551616 = seg.writtenLength + n :=
    Nat.mod_eq_of_lt hrep
  rw [hmod] at r1
  obtain ⟨seg2, h1, h2, _, h4, h5, _, h7⟩ := updateWrittenLength_ok seg n hb r1 hrep
  have hcb1 := countBlock_congr seg.piece seg2.piece h4 h5
  rw [h1] at h
  cases h
  have hl := hin.2
  have hcb := countBlock_pos seg.piece hb hl
  have hcble : (seg.piece.length - 1) / seg.piece.blockLength ≤ seg.piece.length - 1 :=
    Nat.div_le_self _ _
  refine ⟨⟨by rw [h2, h4]; exact r1, ?_, ?_⟩, by rw [h4]; exact hl⟩
  · intro i hi
    rw [h2, h5] at hi
    rw [h7 i]
    by_cases hlt : i < seg.writtenLength / seg.piece.blockLength
    · exact Or.inl (hin.1.2.1 i hlt)
    · exact Or.inr (Or.inl ⟨by omega, hi⟩)
  · intro hend
    rw [h2, h4] at hend
    rw [hcb1, h7]
    right
    right
    refine ⟨hend, ?_⟩
    rw [hcb]
    generalize (seg.piece.length - 1) / seg.piece.blockLength = q at hcble
    omega

/-- When the blocks below `writtenLength` are complete and `writtenLength` has
reached the length of the piece, the piece is complete. -/
theorem prefixDone_complete (seg : PiecedSegment) (hin : seg.PrefixDone)
    (hb : 0 < seg.piece.blockLength) (hl : 0 < seg.piece.length)
    (h : seg.writtenLength = seg.piece.length) : seg.complete = true := by
  have hcb := countBlock_pos seg.piece hb hl
  unfold PiecedSegment.complete Piece.pieceComplete
  rw [List.all_eq_true]
  intro i hi
  have hi1 := List.mem_range.1 hi
  apply (hasBlock_iff seg.piece i).2
  by_cases hlast : i = seg.piece.countBlock - 1
  · rw [hlast]
    exact hin.2.2 h
  · apply hin.2.1 i
    rw [h]
    have hw : seg.piece.length - 1 ≤ seg.piece.length := Nat.sub_le _ _
    have : (seg.piece.length - 1) / seg.piece.blockLength ≤
        seg.piece.length / seg.piece.blockLength :=
      Nat.div_le_div_right hw
    omega

theorem feedAll_hashContext : ∀ (chunks : List (List Byte)) (seg : PiecedSegment) (b : Nat),
    (seg.feedAll b chunks).piece.hashContext =
      match chunks with
      | [] => seg.piece.hashContext
      | _ :: _ => some (seg.piece.hashContext.getD [] ++ chunks.flatten) := by
  intro chunks
  induction chunks with
  | nil =>
    intro seg b
    rfl
  | cons c rest ih =>
    intro seg b
    rw [PiecedSegment.feedAll, ih]
    cases rest with
    | nil =>
      simp [PiecedSegment.updateHash, Piece.updateHash]
    | cons c2 rest2 =>
      simp [PiecedSegment.updateHash, Piece.updateHash]

theorem feedAll_frame : ∀ (chunks : List (List Byte)) (seg : PiecedSegment) (b : Nat),
    (seg.feedAll b chunks).writtenLength = seg.writtenLength ∧
    (seg.feedAll b chunks).piece.completedBlocks = seg.piece.completedBlocks := by
  intro chunks
  induction chunks with
  | nil =>
    intro seg b
    exact ⟨rfl, rfl⟩
  | cons c rest ih =>
    intro seg b
    rw [PiecedSegment.feedAll]
    obtain ⟨h1, h2⟩ := ih (seg.updateHash b c).2 (b + c.length)
    exact ⟨h1, h2⟩

/-! ## File path of a range and reuse of URIs -/

theorem countRequested_foldl : ∀ (files : List FileEntry) (acc : Nat),
    (∀ e ∈ files, e.requested = true) →
    files.foldl (fun (count : Nat) (e : FileEntry) => if e.requested then count + 1 else count)
        acc =
      acc + files.length := by
  intro files
  induction files with
  | nil =>
    intro acc _
    rfl
  | cons e rest ih =>
    intro acc hall
    have he : e.requested = true := hall e (List.mem_cons_self _ _)
    rw [List.foldl_cons]
    simp only [he, if_true]
    rw [ih _ (fun x hx => hall x (List.mem_cons_of_mem _ hx)), List.length_cons]
    omega

theorem reuseLoop_length : ∀ (n : Nat) (uris reusable : List String),
    (reuseLoop n uris reusable).length = uris.length + n * reusable.length := by
  intro n
  induction n with
  | zero =>
    intro uris reusable
    simp [reuseLoop]
  | succ n ih =>
    intro uris reusable
    rw [reuseLoop, ih, List.length_append, Nat.succ_mul]
    omega

theorem reuseLoop_mem : ∀ (n : Nat) (uris reusable : List String) (u : String),
    u ∈ reuseLoop n uris reusable → u ∈ uris ∨ u ∈ reusable := by
  intro n
  induction n with
  | zero =>
    intro uris reusable u h
    exact Or.inl h
  | succ n ih =>
    intro uris reusable u h
    rw [reuseLoop] at h
    rcases ih _ _ _ h with h1 | h1
    · exact List.mem_append.1 h1
    · exact Or.inr h1

/-- With at least one reusable URI and fewer than `_numConcurrentCommand` of
them, the reuse block leaves exactly `_numConcurrentCommand` URIs in `_uris`,
all of them reusable ones. -/
theorem reuseUris_fewer (spentUris resultUris : List String) (numConcurrentCommand : Nat)
    (h0 : 0 < (reusableURIs spentUris resultUris).length)
    (h1 : (reusableURIs spentUris resultUris).length < numConcurrentCommand) :
    (reuseUris true [] spentUris resultUris numConcurrentCommand).length =
      numConcurrentCommand ∧
    ∀ u ∈ reuseUris true [] spentUris resultUris numConcurrentCommand,
      u ∈ reusableURIs spentUris resultUris := by
  unfold reuseUris
  simp only [List.isEmpty_nil, Bool.and_self, if_true, h0, h1, decide_True, gt_iff_lt]
  constructor
  · rw [List.length_append, reuseLoop_length, List.length_take, List.length_nil]
    have hm := Nat.mod_lt numConcurrentCommand h0
    have hd := Nat.div_add_mod numConcurrentCommand (reusableURIs spentUris resultUris).length
    rw [Nat.min_eq_left (Nat.le_of_lt hm), Nat.mul_comm]
    omega
  · intro u hu
    rcases List.mem_append.1 hu with h2 | h2
    · rcases reuseLoop_mem _ _ _ _ h2 with h3 | h3
      · cases h3
      · exact h3
    · exact List.mem_of_mem_take h2

/-! ## Comparison of info hashes -/

theorem memcmp_self : ∀ (n : Nat) (a : List Byte), memcmp a a n = 0 := by
  intro n
  induction n with
  | zero =>
    intro a
    cases a <;> rfl
  | succ n ih =>
    intro a
    cases a with
    | nil => rfl
    | cons x xs =>
      simp only [memcmp, lt_self_iff_false, if_false]
      exact ih xs

theorem memcmp_swap : ∀ (n : Nat) (a b : List Byte), memcmp b a n = - memcmp a b n := by
  intro n
  induction n with
  | zero =>
    intro a b
    cases a <;> cases b <;> rfl
  | succ n ih =>
    intro a b
    cases a with
    | nil => cases b <;> rfl
    | cons x xs =>
      cases b with
      | nil => rfl
      | cons y ys =>
        simp only [memcmp]
        by_cases h1 : x < y
        · have h2 : ¬ y < x := Nat.lt_asymm h1
          simp only [h1, h2, if_true, if_false]
          rfl
        · by_cases h2 : y < x
          · simp only [h1, h2, if_true, if_false]
          · simp only [h1, h2, if_false]
            exact ih xs ys

theorem memcmp_eq_zero : ∀ (n : Nat) (a b : List Byte), a.length = n → b.length = n →
    memcmp a b n = 0 → a = b := by
  intro n
  induction n with
  | zero =>
    intro a b ha hb _
    rw [List.length_eq_zero.1 ha, List.length_eq_zero.1 hb]
  | succ n ih =>
    intro a b ha hb h
    cases a with
    | nil => cases ha
    | cons x xs =>
      cases b with
      | nil => cases hb
      | cons y ys =>
        simp only [memcmp] at h
        by_cases h1 : x < y
        · simp only [h1, if_true] at h
          omega
        · by_cases h2 : y < x
          · simp only [h1, h2, if_true, if_false] at h
            omega
          · simp only [h1, h2, if_false] at h
            have hxy : x = y := Nat.le_antisymm (Nat.le_of_not_lt h2) (Nat.le_of_not_lt h1)
            have := ih xs ys (by simpa using ha) (by simpa using hb) h
            rw [hxy, this]

theorem memcmp_trans : ∀ (n : Nat) (a b c : List Byte),
    memcmp a b n < 0 → memcmp b c n < 0 → memcmp a c n < 0 := by
  intro n
  induction n with
  | zero =>
    intro a b c h
    cases a <;> cases b <;> simp [memcmp] at h
  | succ n ih =>
    intro a b c h1 h2
    cases a with
    | nil => simp [memcmp] at h1
    | cons x xs =>
      cases b with
      | nil => simp [memcmp] at h1
      | cons y ys =>
        cases c with
        | nil => simp [memcmp] at h2
        | cons z zs =>
          simp only [memcmp] at h1 h2 ⊢
          by_cases hxy : x < y
          · by_cases hyz : y < z
            · have : x < z := Nat.lt_trans hxy hyz
              simp only [this, if_true]
              decide
            · by_cases hzy : z < y
              · simp only [hyz, hzy, if_true, if_false] at h2
                omega
              · have hyz1 : y = z :=
                  Nat.le_antisymm (Nat.le_of_not_lt hzy) (Nat.le_of_not_lt hyz)
                have : x < z := by
                  rw [← hyz1]
                  exact hxy
                simp only [this, if_true]
                decide
          · by_cases hyx : y < x
            · simp only [hxy, hyx, if_true, if_false] at h1
              omega
            · simp only [hxy, hyx, if_false] at h1
              have hxy1 : x = y := Nat.le_antisymm (Nat.le_of_not_lt hyx) (Nat.le_of_not_lt hxy)
              subst hxy1
              by_cases hyz : x < z
              · simp only [hyz, if_true]
                decide
              · by_cases hzy : z < x
                · simp only [hyz, hzy, if_true, if_false] at h2
                  omega
                · simp only [hyz, hzy, if_false] at h2 ⊢
                  exact ih xs ys zs h1 h2

/-- The entry created for a 20-byte info hash holds the info hash. -/
theorem create_infoHash (h : List Byte) (hl : h.length = DHT_ID_LENGTH) :
    (DHTPeerAnnounceEntry.create h).infoHash = h := by
  unfold DHTPeerAnnounceEntry.create
  exact List.take_of_length_le (by omega)

theorem ascending_getElem (entries : List DHTPeerAnnounceEntry) (hs : HashesAscending entries)
    (i j : Nat) (a b : DHTPeerAnnounceEntry) (hij : i < j)
    (ha : entries[i]? = some a) (hb : entries[j]? = some b) :
    memcmp a.infoHash b.infoHash DHT_ID_LENGTH < 0 := by
  have hp := hs.1
  rw [List.pairwise_map] at hp
  obtain ⟨hi, hai⟩ := List.getElem?_eq_some.1 ha
  obtain ⟨hj, hbj⟩ := List.getElem?_eq_some.1 hb
  have := List.pairwise_iff_getElem.1 hp i j hi hj hij
  rw [hai, hbj] at this
  exact this

theorem ascending_length (entries : List DHTPeerAnnounceEntry) (hs : HashesAscending entries)
    (e : DHTPeerAnnounceEntry) (he : e ∈ entries) : e.infoHash.length = DHT_ID_LENGTH :=
  hs.2 e.infoHash (List.mem_map.2 ⟨e, he, rfl⟩)

theorem lowerBoundLoop_spec (entries : List DHTPeerAnnounceEntry) (val : DHTPeerAnnounceEntry)
    (hs : HashesAscending entries) :
    ∀ (fuel first len : Nat), len ≤ fuel → first + len ≤ entries.length →
      (∀ (j : Nat) (e : DHTPeerAnnounceEntry), j < first → entries[j]? = some e →
        memcmp e.infoHash val.infoHash DHT_ID_LENGTH < 0) →
      (∀ (j : Nat) (e : DHTPeerAnnounceEntry), first + len ≤ j → entries[j]? = some e →
        ¬ memcmp e.infoHash val.infoHash DHT_ID_LENGTH < 0) →
      (∀ (j : Nat) (e : DHTPeerAnnounceEntry),
        j < lowerBoundLoop entries val fuel first len → entries[j]? = some e →
        memcmp e.infoHash val.infoHash DHT_ID_LENGTH < 0) ∧
      (∀ (j : Nat) (e : DHTPeerAnnounceEntry),
        lowerBoundLoop entries val fuel first len ≤ j → entries[j]? = some e →
        ¬ memcmp e.infoHash val.infoHash DHT_ID_LENGTH < 0) ∧
      lowerBoundLoop entries val fuel first len ≤ entries.length := by
  intro fuel
  induction fuel with
  | zero =>
    intro first len hl hb hlo hhi
    have : len = 0 := by omega
    subst this
    simp only [lowerBoundLoop]
    exact ⟨hlo, fun j e hj => hhi j e (by omega), by omega⟩
  | succ fuel ih =>
    intro first len hl hb hlo hhi
    simp only [lowerBoundLoop]
    by_cases hlen : len = 0
    · subst hlen
      simp only [if_true]
      exact ⟨hlo, fun j e hj => hhi j e (by omega), by omega⟩
    · simp only [hlen, if_false]
      have hmid : first + len / 2 < entries.length := by
        have : len / 2 < len := Nat.div_lt_self (Nat.pos_of_ne_zero hlen) (by decide)
        omega
      rw [List.getElem?_eq_getElem hmid]
      simp only
      have hm : entries[first + len / 2]? = some entries[first + len / 2] :=
        List.getElem?_eq_getElem hmid
      by_cases hc : InfoHashLess entries[first + len / 2] val = true
      · simp only [hc, if_true]
        have hc1 : memcmp entries[first + len / 2].infoHash val.infoHash DHT_ID_LENGTH < 0 := by
          simpa [InfoHashLess] using hc
        apply ih (first + len / 2 + 1) (len - len / 2 - 1) (by omega) (by omega)
        · intro j e hj he
          by_cases hjm : j = first + len / 2
          · subst hjm
            rw [hm] at he
            cases he
            exact hc1
          · exact memcmp_trans _ _ _ _
              (ascending_getElem entries hs j (first + len / 2) e _ (by omega) he hm) hc1
        · intro j e hj he
          exact hhi j e (by omega) he
      · simp only [hc, if_false]
        have hc1 : ¬ memcmp entries[first + len / 2].infoHash val.infoHash DHT_ID_LENGTH < 0 := by
          simpa [InfoHashLess] using hc
        apply ih first (len / 2) (by omega) (by omega) hlo
        intro j e hj he
        by_cases hjm : j = first + len / 2
        · subst hjm
          rw [hm] at he
          cases he
          exact hc1
        · intro hlt
          exact hc1 (memcmp_trans _ _ _ _
            (ascending_getElem entries hs (first + len / 2) j _ e (by omega) hm he) hlt)

theorem lowerBound_spec (entries : List DHTPeerAnnounceEntry) (val : DHTPeerAnnounceEntry)
    (hs : HashesAscending entries) :
    (∀ (j : Nat) (e : DHTPeerAnnounceEntry), j < lowerBound entries val → entries[j]? = some e →
      memcmp e.infoHash val.infoHash DHT_ID_LENGTH < 0) ∧
    (∀ (j : Nat) (e : DHTPeerAnnounceEntry), lowerBound entries val ≤ j → entries[j]? = some e →
      ¬ memcmp e.infoHash val.infoHash DHT_ID_LENGTH < 0) ∧
    lowerBound entries val ≤ entries.length := by
  unfold lowerBound
  apply lowerBoundLoop_spec entries val hs entries.length 0 entries.length (le_refl _)
    (by omega)
  · intro j e hj
    omega
  · intro j e hj he
    have := (List.getElem?_eq_some.1 he).1
    omega

theorem infoHashLess_iff (a b : DHTPeerAnnounceEntry) :
    InfoHashLess a b = true ↔ memcmp a.infoHash b.infoHash DHT_ID_LENGTH < 0 := by
  unfold InfoHashLess
  exact decide_eq_true_iff

/-- In an ascending list the lower bound of a stored info hash is the index of
its entry. -/
theorem lowerBound_of_entry (entries : List DHTPeerAnnounceEntry) (val : DHTPeerAnnounceEntry)
    (hs : HashesAscending entries) (j : Nat) (e : DHTPeerAnnounceEntry)
    (he : entries[j]? = some e) (heq : e.infoHash = val.infoHash) :
    lowerBound entries val = j := by
  obtain ⟨lo, hi, _⟩ := lowerBound_spec entries val hs
  have hself : memcmp e.infoHash val.infoHash DHT_ID_LENGTH = 0 := by
    rw [heq]
    exact memcmp_self _ _
  have h1 : lowerBound entries val ≤ j := by
    by_contra hlt
    have := lo j e (by omega) he
    omega
  have h2 : ¬ lowerBound entries val < j := by
    intro hlt
    have hj := (List.getElem?_eq_some.1 he).1
    have hr : lowerBound entries val < entries.length := by omega
    have hm : entries[lowerBound entries val]? = some entries[lowerBound entries val] :=
      List.getElem?_eq_getElem hr
    have hasc := ascending_getElem entries hs _ j _ e hlt hm he
    rw [heq] at hasc
    exact hi _ _ (le_refl _) hm hasc
  omega

theorem contains_iff (s : DHTPeerAnnounceStorage) (hs : HashesAscending s.entries)
    (h : List Byte) (hl : h.length = DHT_ID_LENGTH) :
    s.contains h = true ↔ ∃ e ∈ s.entries, e.infoHash = h := by
  have hc := create_infoHash h hl
  unfold DHTPeerAnnounceStorage.contains binary_search
  constructor
  · intro hb
    cases hm : s.entries[lowerBound s.entries (DHTPeerAnnounceEntry.create h)]? with
    | none =>
      rw [hm] at hb
      cases hb
    | some e =>
      rw [hm] at hb
      have hmem : e ∈ s.entries := List.mem_iff_getElem?.2 ⟨_, hm⟩
      refine ⟨e, hmem, ?_⟩
      have hn1 : ¬ memcmp h e.infoHash DHT_ID_LENGTH < 0 := by
        intro hlt
        have hless : InfoHashLess (DHTPeerAnnounceEntry.create h) e = true := by
          rw [infoHashLess_iff, hc]
          exact hlt
        have hb1 : (!InfoHashLess (DHTPeerAnnounceEntry.create h) e) = true := hb
        rw [hless] at hb1
        cases hb1
      have hn2 := (lowerBound_spec s.entries (DHTPeerAnnounceEntry.create h) hs).2.1 _ e
        (le_refl _) hm
      rw [hc] at hn2
      have hsw := memcmp_swap DHT_ID_LENGTH h e.infoHash
      have hz : memcmp e.infoHash h DHT_ID_LENGTH = 0 := by omega
      exact memcmp_eq_zero DHT_ID_LENGTH _ _ (ascending_length s.entries hs e hmem) hl hz
  · rintro ⟨e, hmem, heq⟩
    obtain ⟨j, hj⟩ := List.mem_iff_getElem?.1 hmem
    have hlb := lowerBound_of_entry s.entries (DHTPeerAnnounceEntry.create h) hs j e hj
      (by rw [hc]; exact heq)
    rw [hlb, hj]
    have hnl : InfoHashLess (DHTPeerAnnounceEntry.create h) e = false := by
      cases hv : InfoHashLess (DHTPeerAnnounceEntry.create h) e with
      | false => rfl
      | true =>
        rw [infoHashLess_iff, hc, heq] at hv
        have := memcmp_self DHT_ID_LENGTH h
        omega
    simp only [hnl]
    rfl

/-- Inserting the entry of a hash that is not stored at its lower bound keeps the
hashes ascending. -/
theorem insert_ascending (entries : List DHTPeerAnnounceEntry) (hs : HashesAscending entries)
    (h : List Byte) (hl : h.length = DHT_ID_LENGTH)
    (hnew : ∀ e ∈ entries, e.infoHash ≠ h) :
    HashesAscending
      (entries.take (lowerBound entries (DHTPeerAnnounceEntry.create h)) ++
        DHTPeerAnnounceEntry.create h ::
          entries.drop (lowerBound entries (DHTPeerAnnounceEntry.create h))) := by
  have hc := create_infoHash h hl
  obtain ⟨lo, hi, _⟩ := lowerBound_spec entries (DHTPeerAnnounceEntry.create h) hs
  rw [hc] at lo hi
  generalize lowerBound entries (DHTPeerAnnounceEntry.create h) = r at lo hi
  have hp := hs.1
  rw [List.pairwise_map] at hp
  have hbelow : ∀ a ∈ entries.take r, memcmp a.infoHash h DHT_ID_LENGTH < 0 := by
    intro a ha
    obtain ⟨j, hj⟩ := List.mem_iff_getElem?.1 ha
    rw [List.getElem?_take] at hj
    by_cases hjr : j < r
    · rw [if_pos hjr] at hj
      exact lo j a hjr hj
    · rw [if_neg hjr] at hj
      cases hj
  have habove : ∀ b ∈ entries.drop r, memcmp h b.infoHash DHT_ID_LENGTH < 0 := by
    intro b hb
    obtain ⟨k, hk⟩ := List.mem_iff_getElem?.1 hb
    rw [List.getElem?_drop] at hk
    have hmem : b ∈ entries := List.mem_iff_getElem?.2 ⟨_, hk⟩
    have hn := hi (r + k) b (by omega) hk
    have hne : memcmp b.infoHash h DHT_ID_LENGTH ≠ 0 := by
      intro hz
      exact hnew b hmem
        (memcmp_eq_zero DHT_ID_LENGTH _ _ (ascending_length entries hs b hmem) hl hz)
    have hsw := memcmp_swap DHT_ID_LENGTH b.infoHash h
    omega
  constructor
  · rw [List.pairwise_map, List.pairwise_append]
    refine ⟨hp.sublist (List.take_sublist _ _), ?_, ?_⟩
    · rw [List.pairwise_cons]
      refine ⟨?_, hp.sublist (List.drop_sublist _ _)⟩
      intro b hb
      rw [hc]
      exact habove b hb
    · intro a ha b hb
      rcases List.mem_cons.1 hb with hb1 | hb1
      · rw [hb1, hc]
        exact hbelow a ha
      · exact memcmp_trans _ _ _ _ (hbelow a ha) (habove b hb1)
  · intro x hx
    obtain ⟨e, he, hex⟩ := List.mem_map.1 hx
    rw [← hex]
    rcases List.mem_append.1 he with he1 | he1
    · exact ascending_length entries hs e (List.mem_of_mem_take he1)
    · rcases List.mem_cons.1 he1 with he2 | he2
      · rw [he2, hc]
        exact hl
      · exact ascending_length entries hs e (List.mem_of_mem_drop he2)

/-- What `getPeerAnnounceEntry` returns on an ascending storage: the storage
stays ascending, the handle refers to the entry of the hash, and the storage is
unchanged when the hash was stored. -/
theorem getPeerAnnounceEntry_spec (s : DHTPeerAnnounceStorage) (hs : HashesAscending s.entries)
    (h : List Byte) (hl : h.length = DHT_ID_LENGTH) :
    HashesAscending (s.getPeerAnnounceEntry h).2.entries ∧
    (∃ e, (s.getPeerAnnounceEntry h).2.entries[(s.getPeerAnnounceEntry h).1]? = some e ∧
      e.infoHash = h) ∧
    ((∃ e ∈ s.entries, e.infoHash = h) → (s.getPeerAnnounceEntry h).2 = s) := by
  have hc := create_infoHash h hl
  obtain ⟨lo, hi, hle⟩ := lowerBound_spec s.entries (DHTPeerAnnounceEntry.create h) hs
  have hfound : ∀ (j : Nat) (e : DHTPeerAnnounceEntry), s.entries[j]? = some e →
      e.infoHash = h → lowerBound s.entries (DHTPeerAnnounceEntry.create h) = j :=
    fun j e hj heq =>
      lowerBound_of_entry s.entries (DHTPeerAnnounceEntry.create h) hs j e hj
        (by rw [hc]; exact heq)
  have hat : ∀ (l : List DHTPeerAnnounceEntry) (x : DHTPeerAnnounceEntry) (r : Nat),
      r ≤ l.length → (l.take r ++ x :: l.drop r)[r]? = some x := by
    intro l x r hr
    have hlen : (l.take r).length = r := by
      rw [List.length_take]
      omega
    rw [List.getElem?_append_right (by omega), hlen, Nat.sub_self]
    exact List.getElem?_cons_zero
  unfold DHTPeerAnnounceStorage.getPeerAnnounceEntry
  simp only
  cases hm : s.entries[lowerBound s.entries (DHTPeerAnnounceEntry.create h)]? with
  | some e =>
    simp only
    by_cases hz : memcmp h e.infoHash DHT_ID_LENGTH = 0
    · rw [if_pos hz]
      have heq : e.infoHash = h := by
        have hmem : e ∈ s.entries := List.mem_iff_getElem?.2 ⟨_, hm⟩
        have hsw := memcmp_swap DHT_ID_LENGTH h e.infoHash
        exact memcmp_eq_zero DHT_ID_LENGTH _ _ (ascending_length s.entries hs e hmem) hl
          (by omega)
      exact ⟨hs, ⟨e, hm, heq⟩, fun _ => rfl⟩
    · rw [if_neg hz]
      have hnew : ∀ x ∈ s.entries, x.infoHash ≠ h := by
        intro x hx heq
        obtain ⟨j, hj⟩ := List.mem_iff_getElem?.1 hx
        have hlb := hfound j x hj heq
        rw [hlb, hj] at hm
        cases hm
        rw [heq] at hz
        exact hz (memcmp_self _ _)
      refine ⟨insert_ascending s.entries hs h hl hnew,
        ⟨DHTPeerAnnounceEntry.create h, hat _ _ _ hle, hc⟩, ?_⟩
      rintro ⟨x, hx, heq⟩
      exact absurd heq (hnew x hx)
  | none =>
    simp only
    have hnew : ∀ x ∈ s.entries, x.infoHash ≠ h := by
      intro x hx heq
      obtain ⟨j, hj⟩ := List.mem_iff_getElem?.1 hx
      have hlb := hfound j x hj heq
      rw [hlb, hj] at hm
      cases hm
    refine ⟨insert_ascending s.entries hs h hl hnew,
      ⟨DHTPeerAnnounceEntry.create h, hat _ _ _ hle, hc⟩, ?_⟩
    rintro ⟨x, hx, heq⟩
    exact absurd heq (hnew x hx)

theorem addPeerAddrEntry_infoHash (e : DHTPeerAnnounceEntry) (p : PeerAddrEntry) :
    (e.addPeerAddrEntry p).infoHash = e.infoHash := by
  unfold DHTPeerAnnounceEntry.addPeerAddrEntry
  split <;> rfl

theorem addPeerAnnounce_ascending (s : DHTPeerAnnounceStorage) (hs : HashesAscending s.entries)
    (h : List Byte) (hl : h.length = DHT_ID_LENGTH) (ipaddr : String) (port now : Nat) :
    HashesAscending (s.addPeerAnnounce h ipaddr port now).entries := by
  obtain ⟨h1, _, _⟩ := getPeerAnnounceEntry_spec s hs h hl
  unfold DHTPeerAnnounceStorage.addPeerAnnounce
  simp only
  cases hm : (s.getPeerAnnounceEntry h).2.entries[(s.getPeerAnnounceEntry h).1]? with
  | none => exact h1
  | some e =>
    simp only
    unfold HashesAscending
    rw [map_set_same (fun e => e.infoHash) _ _ e _ hm (addPeerAddrEntry_infoHash e _)]
    exact h1

theorem handleTimeout_ascending (s : DHTPeerAnnounceStorage) (hs : HashesAscending s.entries)
    (stale : PeerAddrEntry → Bool) : HashesAscending (s.handleTimeout stale).entries := by
  have hsub : List.Sublist
      (((s.entries.map (DHTPeerAnnounceEntry.removeStalePeerAddrEntry stale)).filter
        (fun e => !e.empty)).map (fun e => e.infoHash))
      (s.entries.map (fun e => e.infoHash)) := by
    have h1 : (s.entries.map (DHTPeerAnnounceEntry.removeStalePeerAddrEntry stale)).map
        (fun e => e.infoHash) = s.entries.map (fun e => e.infoHash) := by
      rw [List.map_map]
      rfl
    rw [← h1]
    exact List.Sublist.map _ (List.filter_sublist _)
  exact ⟨hs.1.sublist hsub, fun x hx => hs.2 x (hsub.subset hx)⟩

theorem reachable_ascending (s : DHTPeerAnnounceStorage) (hr : s.Reachable) :
    HashesAscending s.entries := by
  induction hr with
  | empty => exact ⟨List.Pairwise.nil, fun x hx => by cases hx⟩
  | getPeerAnnounceEntry s h _ hl ih => exact (getPeerAnnounceEntry_spec s ih h hl).1
  | addPeerAnnounce s h ipaddr port now _ hl ih =>
    exact addPeerAnnounce_ascending s ih h hl ipaddr port now
  | handleTimeout s stale _ ih => exact handleTimeout_ascending s ih stale

/-! # Claims -/

/-- C1: on a contiguous, representable entry list whose entries can all be
opened, a write of `len` bytes at an offset inside the logical space with
`offset + len` not beyond its end returns normally, and the physical writes it
issues are those of `expectedWrites` from the entry containing `offset`: the
first at local offset `offset - entry.offset`, the later ones at local offset 0,
each of `min(remaining, fileLength - localOffset)` bytes, and their chunks
concatenated are exactly `data`. -/
theorem writeData_splits_across_entries (s : MultiDiskAdaptor) (data : List Byte) (len : Nat)
    (offset : Int) (first last : DiskWriterEntry)
    (hop : Openable s) (hc : CacheConsistent s)
    (hcont : Contiguous s.diskWriterEntries) (hrep : Representable s.diskWriterEntries)
    (hf : s.diskWriterEntries.head? = some first)
    (hl : s.diskWriterEntries.getLast? = some last)
    (h1 : first.fileEntry.offset ≤ offset) (h2 : offset < last.lastOffset)
    (h3 : offset + len ≤ last.lastOffset) (hdata : data.length = len) :
    ∃ i e s1, s.diskWriterEntries[i]? = some e ∧ Contains e offset ∧
      writeData s data len offset = (.ok (), s1) ∧
      wroteEvents s1.ioLog = wroteEvents s.ioLog ++
        expectedWrites ((s.diskWriterEntries.map diskPart).drop i) i
          (offset - e.fileEntry.offset).toNat data ∧
      ((expectedWrites ((s.diskWriterEntries.map diskPart).drop i) i
          (offset - e.fileEntry.offset).toNat data).map IoEvent.chunk).flatten = data := by
  have hlast := hrep last (List.mem_of_mem_getLast? hl)
  have hfirst := hrep first (List.mem_of_mem_head? hf)
  obtain ⟨i, e, s1, _, hie, hcon, hw, _, _, _, _, hlog, _⟩ :=
    writeData_spec s data len offset first last hop hc hcont hrep hf hl h1 h2 hdata
      (by have := hlast.2; have := hfirst.1; omega)
  refine ⟨i, e, s1, hie, hcon, hw, hlog, ?_⟩
  have htot := contiguous_total_drop s.diskWriterEntries i e last hcont hie hl
  have hi := (List.getElem?_eq_some.1 hie).1
  rw [expectedWrites_chunks]
  · apply List.take_of_length_le
    have := hcon.1
    omega
  · intro p hp
    rw [List.head?_drop, List.getElem?_map, hie] at hp
    cases hp
    have := hcon.1
    have := hcon.2
    unfold DiskWriterEntry.lastOffset at *
    simp only [diskPart]
    omega

theorem writeData_splits_across_entries_witness :
    (Openable twoFiles ∧ CacheConsistent twoFiles ∧ Contiguous twoFiles.diskWriterEntries ∧
      Representable twoFiles.diskWriterEntries) ∧
    (∃ i e s1, twoFiles.diskWriterEntries[i]? = some e ∧ Contains e 6 ∧
      writeData twoFiles [1, 2, 3, 4, 5, 6, 7, 8] 8 6 = (.ok (), s1) ∧
      wroteEvents s1.ioLog = wroteEvents twoFiles.ioLog ++
        expectedWrites ((twoFiles.diskWriterEntries.map diskPart).drop i) i
          ((6 : Int) - e.fileEntry.offset).toNat [1, 2, 3, 4, 5, 6, 7, 8] ∧
      ((expectedWrites ((twoFiles.diskWriterEntries.map diskPart).drop i) i
          ((6 : Int) - e.fileEntry.offset).toNat [1, 2, 3, 4, 5, 6, 7, 8]).map
            IoEvent.chunk).flatten = [1, 2, 3, 4, 5, 6, 7, 8]) ∧
    wroteEvents (writeData twoFiles [1, 2, 3, 4, 5, 6, 7, 8] 8 6).2.ioLog =
      [.wrote 0 [1, 2, 3, 4] 6, .wrote 1 [5, 6, 7, 8] 0] :=
  ⟨⟨by decide, by decide, by decide, by decide⟩,
    writeData_splits_across_entries twoFiles [1, 2, 3, 4, 5, 6, 7, 8] 8 6
      (exampleEntry "a" 0 10) (exampleEntry "b" 10 15)
      (by decide) (by decide) (by decide) (by decide) rfl rfl (by decide) (by decide)
      (by decide) rfl,
    by decide⟩

/-- C2: on a non-empty contiguous (hence offset-ordered) entry list whose ranges
are representable, for every offset from the first entry's offset up to the end
of the last entry, `findFirstDiskWriterEntry` returns the index of an entry
whose range contains the offset; that entry has non-zero length and no other
entry contains the offset. -/
theorem findFirstDiskWriterEntry_returns_containing_entry (entries : List DiskWriterEntry)
    (offset : Int) (first last : DiskWriterEntry)
    (hc : Contiguous entries) (hr : Representable entries)
    (hf : entries.head? = some first) (hl : entries.getLast? = some last)
    (h1 : first.fileEntry.offset ≤ offset) (h2 : offset < last.lastOffset) :
    ∃ i e, findFirstDiskWriterEntry entries offset = .ok i ∧ entries[i]? = some e ∧
      Contains e offset ∧ 0 < e.fileEntry.length ∧
      ∀ j e1, entries[j]? = some e1 → Contains e1 offset → j = i :=
  findFirst_contains entries offset first last hc hr hf hl h1 h2

theorem findFirstDiskWriterEntry_returns_containing_entry_witness :
    (Contiguous threeWithEmpty.diskWriterEntries ∧
      Representable threeWithEmpty.diskWriterEntries) ∧
    (∃ i e, findFirstDiskWriterEntry threeWithEmpty.diskWriterEntries 10 = .ok i ∧
      threeWithEmpty.diskWriterEntries[i]? = some e ∧
      Contains e 10 ∧ 0 < e.fileEntry.length ∧
      ∀ j e1, threeWithEmpty.diskWriterEntries[j]? = some e1 → Contains e1 10 → j = i) ∧
    findFirstDiskWriterEntry threeWithEmpty.diskWriterEntries 10 = .ok 2 :=
  ⟨⟨by decide, by decide⟩,
    findFirstDiskWriterEntry_returns_containing_entry threeWithEmpty.diskWriterEntries 10
      (exampleEntry "a" 0 10) (exampleEntry "b" 10 15) (by decide) (by decide) rfl rfl
      (by decide) (by decide),
    by decide⟩

/-- C3: the offset -1 lies in no entry's range of the two files `[0,10)` and
`[10,25)`, yet `findFirstDiskWriterEntry` does not raise the out-of-range error:
`std::upper_bound` yields `begin()`, and the decrement of that iterator is
undefined behaviour; `writeData` and `readData` inherit it.  The same happens
for an empty entry list. -/
theorem findFirstDiskWriterEntry_before_first_entry :
    Contiguous twoFiles.diskWriterEntries ∧
    (∀ e ∈ twoFiles.diskWriterEntries, ¬ Contains e (-1)) ∧
    upperBound twoFiles.diskWriterEntries (-1) = 0 ∧
    findFirstDiskWriterEntry twoFiles.diskWriterEntries (-1) = .error .undefinedBehaviour ∧
    (writeData twoFiles [7] 1 (-1)).1 = .error .undefinedBehaviour ∧
    (readData twoFiles [0] 1 (-1)).1 = .error .undefinedBehaviour ∧
    findFirstDiskWriterEntry [] 0 = .error .undefinedBehaviour := by
  refine ⟨by decide, by decide, by decide, by decide, by decide, by decide, by decide⟩

/-- C4 (counterexample): on the two files `[0,10)` and `[10,25)` a request of 8
bytes at offset 20 runs past the end 25 of the logical space, yet `writeData`
returns normally after storing the 5 bytes that fit in the second file, and
`readData` returns 5. -/
theorem writeData_past_end_is_clamped :
    logicalEnd twoFiles = 25 ∧
    (writeData twoFiles [1, 2, 3, 4, 5, 6, 7, 8] 8 20).1 = .ok () ∧
    contents (writeData twoFiles [1, 2, 3, 4, 5, 6, 7, 8] 8 20).2 =
      [List.replicate 10 0, List.replicate 10 0 ++ [1, 2, 3, 4, 5]] ∧
    contents (writeData twoFiles [1, 2, 3, 4, 5, 6, 7, 8] 8 20).2 ≠ contents twoFiles ∧
    (readData twoFiles (List.replicate 8 9) 8 20).1 = .ok (5, [0, 0, 0, 0, 0, 9, 9, 9]) := by
  refine ⟨by decide, by decide, by decide, by decide, by decide⟩

/-- C4 (amended): with an offset at or beyond the end of the logical space,
`writeData` and `readData` raise the out-of-range error and return the adaptor
unchanged.  With an offset inside the logical space of a model disk and
`offset + len` beyond its end, neither fails: `writeData` stores the first
`end - offset` bytes of `data` at their logical positions and `readData` returns
`end - offset` together with the bytes up to the end. -/
theorem writeData_readData_beyond_end (s : MultiDiskAdaptor) (data buf : List Byte)
    (len : Nat) (offset : Int)
    (hcont : Contiguous s.diskWriterEntries) (hrep : Representable s.diskWriterEntries)
    (hne : s.diskWriterEntries ≠ []) (hoff : offset < 9223372036854775808) :
    (logicalEnd s ≤ offset →
      writeData s data len offset = (.error (.fileOffsetOutOfRange offset), s) ∧
      readData s buf len offset = (.error (.fileOffsetOutOfRange offset), s)) ∧
    (ModelDisk s → logicalStart s ≤ offset → offset < logicalEnd s →
      logicalEnd s < offset + len → data.length = len →
      (len : Int) < 9223372036854775808 → len ≤ buf.length →
      ∃ s1 s2, writeData s data len offset = (.ok (), s1) ∧
        logicalSpace s1 = storeAt (logicalSpace s) (offset - logicalStart s).toNat
          (data.take (logicalEnd s - offset).toNat) ∧
        readData s buf len offset =
          (.ok ((logicalEnd s - offset).toNat,
            storeAt buf 0 ((logicalSpace s).drop (offset - logicalStart s).toNat)), s2) ∧
        logicalSpace s2 = logicalSpace s) := by
  constructor
  · intro hend
    have h := findFirst_beyond_end s offset hcont hrep hne hend hoff
    exact ⟨writeData_findFirst_error s data len offset _ h,
      readData_findFirst_error s buf len offset _ h⟩
  · intro hm h1 h2 h3 hdata hlen hbuf
    obtain ⟨s1, hw, _, _, _, hlog⟩ := writeData_logical s data len offset hm h1 h2 hdata hlen
    obtain ⟨s2, hr, _, hd2, _⟩ := readData_logical s buf len offset hm h1 h2 hlen hbuf
    have hlenl := logicalSpace_length s hm
    refine ⟨s1, s2, hw, hlog, ?_, ?_⟩
    · rw [hr, Nat.min_eq_right (by omega),
        List.take_of_length_le (by rw [List.length_drop]; omega)]
    · unfold logicalSpace
      rw [contents_of_diskPart hd2]

theorem writeData_readData_beyond_end_witness :
    (Contiguous twoFiles.diskWriterEntries ∧ Representable twoFiles.diskWriterEntries ∧
      ModelDisk twoFiles ∧ logicalStart twoFiles = 0 ∧ logicalEnd twoFiles = 25) ∧
    ((logicalEnd twoFiles ≤ 20 →
      writeData twoFiles [1, 2, 3, 4, 5, 6, 7, 8] 8 20 =
        (.error (.fileOffsetOutOfRange 20), twoFiles) ∧
      readData twoFiles (List.replicate 8 9) 8 20 =
        (.error (.fileOffsetOutOfRange 20), twoFiles)) ∧
    (ModelDisk twoFiles → logicalStart twoFiles ≤ 20 → (20 : Int) < logicalEnd twoFiles →
      logicalEnd twoFiles < (20 : Int) + (8 : Nat) → [1, 2, 3, 4, 5, 6, 7, 8].length = 8 →
      ((8 : Nat) : Int) < 9223372036854775808 → 8 ≤ (List.replicate 8 9).length →
      ∃ s1 s2, writeData twoFiles [1, 2, 3, 4, 5, 6, 7, 8] 8 20 = (.ok (), s1) ∧
        logicalSpace s1 = storeAt (logicalSpace twoFiles)
          ((20 : Int) - logicalStart twoFiles).toNat
          (List.take (logicalEnd twoFiles - 20).toNat [1, 2, 3, 4, 5, 6, 7, 8]) ∧
        readData twoFiles (List.replicate 8 9) 8 20 =
          (.ok ((logicalEnd twoFiles - 20).toNat,
            storeAt (List.replicate 8 9) 0
              ((logicalSpace twoFiles).drop ((20 : Int) - logicalStart twoFiles).toNat)), s2) ∧
        logicalSpace s2 = logicalSpace twoFiles)) ∧
    (writeData twoFiles [1, 2, 3] 3 25).1 = .error (.fileOffsetOutOfRange 25) :=
  ⟨⟨by decide, by decide, by decide, by decide, by decide⟩,
    writeData_readData_beyond_end twoFiles [1, 2, 3, 4, 5, 6, 7, 8] (List.replicate 8 9) 8 20
      (by decide) (by decide) (by decide) (by decide),
    by decide⟩

/-- C5 (counterexample): the model disk with the single empty file `[0,0)` has a
logical space of 0 bytes, which the empty sequence of writes covers; yet the
following `readData(buf, 0, 0)` does not return 0 but raises the out-of-range
error, because no entry's range contains offset 0.  Likewise an empty write at
the very end of the two files `[0,10)` and `[10,25)` overlaps nothing and raises
the out-of-range error. -/
theorem full_read_of_empty_space_fails :
    ModelDisk oneEmptyFile ∧ logicalStart oneEmptyFile = 0 ∧ logicalEnd oneEmptyFile = 0 ∧
    (runWrites oneEmptyFile []).1 = .ok () ∧
    (readData (runWrites oneEmptyFile []).2 [] 0 0).1 = .error (.fileOffsetOutOfRange 0) ∧
    (coveringWrites ++ [WriteCall.mk [] 25]).Pairwise WriteCall.Disjoint ∧
    (runWrites twoFiles (coveringWrites ++ [WriteCall.mk [] 25])).1 =
      .error (.fileOffsetOutOfRange 25) := by
  refine ⟨by decide, by decide, by decide, by decide, by decide, by decide, by decide⟩

/-- C5 (amended): on a model disk whose logical space starts at 0 and is not
empty, every sequence of `writeData` calls that start inside the logical space,
stay within it, are pairwise non-overlapping and together cover every byte runs
without an exception, and the following `readData(buf, totalLength, 0)` returns
`totalLength` and a buffer holding every written byte at its logical position. -/
theorem full_read_after_covering_writes (s : MultiDiskAdaptor) (calls : List WriteCall)
    (buf : List Byte) (h : ModelDisk s) (hstart : logicalStart s = 0)
    (hpos : 0 < logicalEnd s)
    (hin : ∀ w ∈ calls, 0 ≤ w.offset ∧ w.offset < logicalEnd s ∧
      w.offset + w.data.length ≤ logicalEnd s)
    (hdis : calls.Pairwise WriteCall.Disjoint)
    (hcover : ∀ p : Int, 0 ≤ p → p < logicalEnd s → ∃ w ∈ calls, w.Covers p)
    (hbuf : (logicalEnd s).toNat ≤ buf.length) :
    ∃ s1 buf1 s2, runWrites s calls = (.ok (), s1) ∧
      readData s1 buf (logicalEnd s).toNat 0 = (.ok ((logicalEnd s).toNat, buf1), s2) ∧
      buf1.length = buf.length ∧
      (∀ w ∈ calls, ∀ j, j < w.data.length → buf1[w.offset.toNat + j]? = w.data[j]?) ∧
      (∀ k : Nat, (k : Int) < logicalEnd s →
        ∃ w ∈ calls, w.Covers k ∧ buf1[k]? = w.data[((k : Int) - w.offset).toNat]?) := by
  have hrep := h.2.2.2.1
  obtain ⟨first, last, hf, hl, hs, hen⟩ := modelDisk_ends s h
  have hlastr := hrep last (List.mem_of_mem_getLast? hl)
  obtain ⟨s1, hrun, hm1, hfe1, hin1, _⟩ := runWrites_spec calls s h
    (fun w hw => by rw [hstart]; exact hin w hw) hdis
  have hst1 := logicalStart_of_fileEntries s s1 hfe1
  have hen1 := logicalEnd_of_fileEntries s s1 hfe1
  have hlsp := logicalSpace_length s1 hm1
  rw [hst1, hen1, hstart] at hlsp
  obtain ⟨s2, hr, _, _, _⟩ := readData_logical s1 buf (logicalEnd s).toNat 0 hm1
    (by rw [hst1, hstart]) (by rw [hen1]; exact hpos) (by omega) hbuf
  rw [hst1, hstart, hen1, Int.sub_zero, Nat.min_self, Int.sub_zero, Int.toNat_zero,
    List.drop_zero, List.take_of_length_le (by omega)] at hr
  have hget : ∀ w ∈ calls, ∀ j, j < w.data.length →
      (storeAt buf 0 (logicalSpace s1))[w.offset.toNat + j]? = w.data[j]? := by
    intro w hw j hj
    obtain ⟨g1, g2, g3⟩ := hin w hw
    have := hin1 w hw j hj
    rw [hstart, Int.sub_zero] at this
    rw [storeAt_getElem _ _ _ _ (by omega), if_neg (by omega), if_pos (by omega), Nat.sub_zero]
    exact this
  refine ⟨s1, _, s2, hrun, hr, storeAt_length _ _ _ (by omega), hget, ?_⟩
  intro k hk
  obtain ⟨w, hw, hcov⟩ := hcover k (by omega) hk
  refine ⟨w, hw, hcov, ?_⟩
  unfold WriteCall.Covers at hcov
  obtain ⟨g1, _, _⟩ := hin w hw
  have := hget w hw ((k : Int) - w.offset).toNat (by omega)
  rw [show w.offset.toNat + ((k : Int) - w.offset).toNat = k by omega] at this
  exact this

theorem full_read_after_covering_writes_witness :
    (ModelDisk twoFiles ∧ logicalStart twoFiles = 0 ∧ logicalEnd twoFiles = 25 ∧
      coveringWrites.Pairwise WriteCall.Disjoint) ∧
    (∃ s1 buf1 s2, runWrites twoFiles coveringWrites = (.ok (), s1) ∧
      readData s1 (List.replicate 25 0) (logicalEnd twoFiles).toNat 0 =
        (.ok ((logicalEnd twoFiles).toNat, buf1), s2) ∧
      buf1.length = (List.replicate 25 0).length ∧
      (∀ w ∈ coveringWrites, ∀ j, j < w.data.length →
        buf1[w.offset.toNat + j]? = w.data[j]?) ∧
      (∀ k : Nat, (k : Int) < logicalEnd twoFiles →
        ∃ w ∈ coveringWrites, w.Covers k ∧
          buf1[k]? = w.data[((k : Int) - w.offset).toNat]?)) ∧
    (readData (runWrites twoFiles coveringWrites).2 (List.replicate 25 0) 25 0).1 =
      .ok (25, [1, 2, 3, 4, 5, 6, 7, 8, 9, 10, 11, 12, 13, 14, 15, 16, 17, 18, 19, 20, 21, 22,
        23, 24, 25]) :=
  ⟨⟨by decide, by decide, by decide, by decide⟩,
    full_read_after_covering_writes twoFiles coveringWrites (List.replicate 25 0) (by decide)
      (by decide) (by decide) (by decide) (by decide)
      (by
        intro p h0 h1
        have h25 : logicalEnd twoFiles = 25 := by decide
        rw [h25] at h1
        by_cases h6 : p < 6
        · exact ⟨⟨[1, 2, 3, 4, 5, 6], 0⟩, by decide, ⟨h0, by simp; omega⟩⟩
        · by_cases h15 : p < 15
          · exact ⟨⟨[7, 8, 9, 10, 11, 12, 13, 14, 15], 6⟩, by decide,
              ⟨by simp; omega, by simp; omega⟩⟩
          · exact ⟨⟨[16, 17, 18, 19, 20, 21, 22, 23, 24, 25], 15⟩, by decide,
              ⟨by simp; omega, by simp; omega⟩⟩)
      (by decide),
    by decide⟩

/-- C6: on a model disk, a write of `len` bytes at an offset inside the logical
space with `offset + len` within it returns normally and leaves every byte of
every physical file whose logical position is outside `[offset, offset + len)`
as it was; and two such writes to disjoint ranges give the same contents of all
physical files in either order. -/
theorem writeData_leaves_other_bytes (s : MultiDiskAdaptor) (data : List Byte) (len : Nat)
    (offset : Int) (h : ModelDisk s) (h1 : logicalStart s ≤ offset)
    (h2 : offset < logicalEnd s) (h3 : offset + len ≤ logicalEnd s)
    (hdata : data.length = len) :
    ∃ s1, writeData s data len offset = (.ok (), s1) ∧
      (∀ (i j : Nat) (e e1 : DiskWriterEntry), s.diskWriterEntries[i]? = some e →
        s1.diskWriterEntries[i]? = some e1 →
        (e.fileEntry.offset + j < offset ∨ offset + len ≤ e.fileEntry.offset + j) →
        (contentOf e1)[j]? = (contentOf e)[j]?) ∧
      (∀ (data2 : List Byte) (len2 : Nat) (offset2 : Int), logicalStart s ≤ offset2 →
        offset2 < logicalEnd s → offset2 + len2 ≤ logicalEnd s → data2.length = len2 →
        (offset + len ≤ offset2 ∨ offset2 + len2 ≤ offset) →
        (writeData s1 data2 len2 offset2).1 = .ok () ∧
        (writeData s data2 len2 offset2).1 = .ok () ∧
        (writeData (writeData s data2 len2 offset2).2 data len offset).1 = .ok () ∧
        contents (writeData s1 data2 len2 offset2).2 =
          contents (writeData (writeData s data2 len2 offset2).2 data len offset).2) := by
  have hrep := h.2.2.2.1
  obtain ⟨first, last, hf, hl, hs, hen⟩ := modelDisk_ends s h
  have hlastr := hrep last (List.mem_of_mem_getLast? hl)
  have hfirstr := hrep first (List.mem_of_mem_head? hf)
  have hlsp := logicalSpace_length s h
  have hlen : (len : Int) < 9223372036854775808 := by omega
  obtain ⟨s1, hw1, hm1, hfe1, _, hlog1⟩ :=
    writeData_logical s data len offset h h1 h2 hdata hlen
  have htake : data.take (logicalEnd s - offset).toNat = data :=
    List.take_of_length_le (by omega)
  rw [htake] at hlog1
  have hst1 := logicalStart_of_fileEntries s s1 hfe1
  have hen1 := logicalEnd_of_fileEntries s s1 hfe1
  refine ⟨s1, hw1, ?_, ?_⟩
  · intro i j e e1 hie hie1 hout
    have hfi := congrArg (fun l => l[i]?) hfe1
    simp only [List.getElem?_map, hie, hie1, Option.map_some'] at hfi
    have hfe : e1.fileEntry = e.fileEntry := Option.some.inj hfi
    have hpre := (prefix_total s h i e hie).1
    rw [contentOf_slice s h i e hie, contentOf_slice s1 hm1 i e1 hie1, hfe, hst1, hlog1,
      List.getElem?_take, List.getElem?_take]
    by_cases hj : j < e.fileEntry.length
    · rw [if_pos hj, if_pos hj, List.getElem?_drop, List.getElem?_drop,
        storeAt_getElem _ _ _ _ (by omega)]
      by_cases hlt : (e.fileEntry.offset - logicalStart s).toNat + j <
          (offset - logicalStart s).toNat
      · rw [if_pos hlt]
      · rw [if_neg hlt, if_neg (by omega)]
    · rw [if_neg hj, if_neg hj]
  · intro data2 len2 offset2 g1 g2 g3 gdata gdis
    have glen : (len2 : Int) < 9223372036854775808 := by omega
    obtain ⟨s12, hw12, hm12, hfe12, _, hlog12⟩ :=
      writeData_logical s1 data2 len2 offset2 hm1 (by rw [hst1]; exact g1)
        (by rw [hen1]; exact g2) gdata glen
    obtain ⟨s2, hw2, hm2, hfe2, _, hlog2⟩ :=
      writeData_logical s data2 len2 offset2 h g1 g2 gdata glen
    have hst2 := logicalStart_of_fileEntries s s2 hfe2
    have hen2 := logicalEnd_of_fileEntries s s2 hfe2
    obtain ⟨s21, hw21, hm21, hfe21, _, hlog21⟩ :=
      writeData_logical s2 data len offset hm2 (by rw [hst2]; exact h1)
        (by rw [hen2]; exact h2) hdata hlen
    have gtake : data2.take (logicalEnd s - offset2).toNat = data2 :=
      List.take_of_length_le (by omega)
    rw [hen1, hst1, gtake, hlog1] at hlog12
    rw [gtake] at hlog2
    rw [hen2, hst2, htake, hlog2] at hlog21
    rw [hw12, hw2, hw21]
    refine ⟨rfl, rfl, rfl, ?_⟩
    apply contents_of_logicalSpace s21 s12 hm21 hm12 (by rw [hfe12, hfe1, hfe21, hfe2])
    rw [hlog12, hlog21]
    exact storeAt_comm _ _ _ _ _ (by omega) (by omega) (by omega)

theorem writeData_leaves_other_bytes_witness :
    (ModelDisk twoFiles ∧ logicalStart twoFiles = 0 ∧ logicalEnd twoFiles = 25) ∧
    (∃ s1, writeData twoFiles [1, 2, 3, 4, 5, 6, 7, 8] 8 6 = (.ok (), s1) ∧
      (∀ (i j : Nat) (e e1 : DiskWriterEntry), twoFiles.diskWriterEntries[i]? = some e →
        s1.diskWriterEntries[i]? = some e1 →
        (e.fileEntry.offset + j < 6 ∨ (6 : Int) + (8 : Nat) ≤ e.fileEntry.offset + j) →
        (contentOf e1)[j]? = (contentOf e)[j]?) ∧
      (∀ (data2 : List Byte) (len2 : Nat) (offset2 : Int), logicalStart twoFiles ≤ offset2 →
        offset2 < logicalEnd twoFiles → offset2 + len2 ≤ logicalEnd twoFiles →
        data2.length = len2 →
        ((6 : Int) + (8 : Nat) ≤ offset2 ∨ offset2 + len2 ≤ 6) →
        (writeData s1 data2 len2 offset2).1 = .ok () ∧
        (writeData twoFiles data2 len2 offset2).1 = .ok () ∧
        (writeData (writeData twoFiles data2 len2 offset2).2 [1, 2, 3, 4, 5, 6, 7, 8] 8 6).1 =
          .ok () ∧
        contents (writeData s1 data2 len2 offset2).2 =
          contents (writeData (writeData twoFiles data2 len2 offset2).2
            [1, 2, 3, 4, 5, 6, 7, 8] 8 6).2)) ∧
    contents (writeData (writeData twoFiles [1, 2, 3, 4, 5, 6, 7, 8] 8 6).2 [9, 9, 9] 3 2).2 =
      [[0, 0, 9, 9, 9, 0, 1, 2, 3, 4], [5, 6, 7, 8, 0, 0, 0, 0, 0, 0, 0, 0, 0, 0, 0]] ∧
    contents (writeData (writeData twoFiles [9, 9, 9] 3 2).2 [1, 2, 3, 4, 5, 6, 7, 8] 8 6).2 =
      [[0, 0, 9, 9, 9, 0, 1, 2, 3, 4], [5, 6, 7, 8, 0, 0, 0, 0, 0, 0, 0, 0, 0, 0, 0]] :=
  ⟨⟨by decide, by decide, by decide⟩,
    writeData_leaves_other_bytes twoFiles [1, 2, 3, 4, 5, 6, 7, 8] 8 6 (by decide) (by decide)
      (by decide) (by decide) rfl,
    by decide, by decide⟩

/-- C7: on a non-empty contiguous, representable entry list whose entries can
all be opened and whose physical files are at least as long as declared (so
each physical read returns the full length asked), `readData` at an offset
inside the logical space returns `min(len, end - offset)`: `len` itself when
`offset + len` lies within the logical space, and fewer than `len` only when
the request runs past the end of the last file. -/
theorem readData_returns_clamped_length (s : MultiDiskAdaptor) (buf : List Byte) (len : Nat)
    (offset : Int) (first last : DiskWriterEntry)
    (hop : Openable s) (hc : CacheConsistent s)
    (hcont : Contiguous s.diskWriterEntries) (hrep : Representable s.diskWriterEntries)
    (hfull : FullReads s)
    (hf : s.diskWriterEntries.head? = some first)
    (hl : s.diskWriterEntries.getLast? = some last)
    (h1 : first.fileEntry.offset ≤ offset) (h2 : offset < last.lastOffset)
    (hlen : (len : Int) < 9223372036854775808) (hbuf : len ≤ buf.length) :
    ∃ n buf1 s1, readData s buf len offset = (.ok (n, buf1), s1) ∧
      n = min len (last.lastOffset - offset).toNat ∧
      (offset + len ≤ last.lastOffset → n = len) ∧
      (n < len → last.lastOffset < offset + len) := by
  obtain ⟨i, e, s1, _, _, hr, _⟩ :=
    readData_spec s buf len offset first last hop hc hcont hrep hfull hf hl h1 h2 hlen hbuf
  refine ⟨_, _, s1, hr, rfl, ?_, ?_⟩
  · intro h; omega
  · intro h; omega

theorem readData_returns_clamped_length_witness :
    (Openable twoFiles ∧ CacheConsistent twoFiles ∧ Contiguous twoFiles.diskWriterEntries ∧
      Representable twoFiles.diskWriterEntries ∧ FullReads twoFiles) ∧
    (∃ n buf1 s1, readData twoFiles (List.replicate 8 9) 8 20 = (.ok (n, buf1), s1) ∧
      n = min 8 ((exampleEntry "b" 10 15).lastOffset - 20).toNat ∧
      ((20 : Int) + (8 : Nat) ≤ (exampleEntry "b" 10 15).lastOffset → n = 8) ∧
      (n < 8 → (exampleEntry "b" 10 15).lastOffset < (20 : Int) + (8 : Nat))) ∧
    (readData twoFiles (List.replicate 8 9) 8 20).1 = .ok (5, [0, 0, 0, 0, 0, 9, 9, 9]) ∧
    (readData twoFiles (List.replicate 8 9) 8 6).1 = .ok (8, [0, 0, 0, 0, 0, 0, 0, 0]) :=
  ⟨⟨by decide, by decide, by decide, by decide, by decide⟩,
    readData_returns_clamped_length twoFiles (List.replicate 8 9) 8 20
      (exampleEntry "a" 0 10) (exampleEntry "b" 10 15)
      (by decide) (by decide) (by decide) (by decide) (by decide) rfl rfl (by decide)
      (by decide) (by decide) (by decide),
    by decide, by decide⟩

/-- C8: in the loops of `writeData` and `readData`, an entry that is still not
open after `openIfNot` makes the call fail with the handle-unavailable error
carrying `offset + (len - rem)`.  On a contiguous, representable entry list,
whenever `writeData` or `readData` fails with that error for entry `j`, the
entry is indeed not open, the reported offset is `offset` plus the bytes already
handed to (asked of) the physical files, and it is `offset` itself when `j` is
the first entry touched and the starting offset of entry `j` otherwise. -/
theorem notOpened_reports_first_byte_of_entry (s : MultiDiskAdaptor) (data buf : List Byte)
    (len : Nat) (offset : Int)
    (hcont : Contiguous s.diskWriterEntries) (hrep : Representable s.diskWriterEntries)
    (hoff : offset < 9223372036854775808) (hdata : data.length = len)
    (hlen : (len : Int) < 9223372036854775808) :
    (∀ (k i : Nat) (s0 s1 : MultiDiskAdaptor) (b : List Byte) (total rem : Nat)
        (fileOffset : Int) (e e1 : DiskWriterEntry),
      s0.diskWriterEntries[i]? = some e → openIfNot s0 i .openFile = (.ok (), s1) →
      s1.diskWriterEntries[i]? = some e1 → e1.isOpen = false →
      writeDataLoop data len offset (k + 1) i s0 rem fileOffset =
        (.error (.diskWriterNotOpened (i64 (offset + u64 ((len : Int) - (rem : Int)))) i), s1) ∧
      readDataLoop len offset (k + 1) i s0 b total rem fileOffset =
        (.error (.diskWriterNotOpened (i64 (offset + u64 ((len : Int) - (rem : Int)))) i),
          s1)) ∧
    (∀ (o : Int) (j : Nat) (s1 : MultiDiskAdaptor),
      writeData s data len offset = (.error (.diskWriterNotOpened o j), s1) →
      ∃ first ej, findFirstDiskWriterEntry s.diskWriterEntries offset = .ok first ∧
        s.diskWriterEntries[j]? = some ej ∧ first ≤ j ∧ isOpenAt s1 j = false ∧
        o + bytesWritten s.ioLog = offset + bytesWritten s1.ioLog ∧
        (j = first → o = offset) ∧ (first < j → o = ej.fileEntry.offset)) ∧
    (∀ (o : Int) (j : Nat) (s1 : MultiDiskAdaptor),
      readData s buf len offset = (.error (.diskWriterNotOpened o j), s1) →
      ∃ first ej, findFirstDiskWriterEntry s.diskWriterEntries offset = .ok first ∧
        s.diskWriterEntries[j]? = some ej ∧ first ≤ j ∧ isOpenAt s1 j = false ∧
        o + bytesAsked s.ioLog = offset + bytesAsked s1.ioLog ∧
        (j = first → o = offset) ∧ (first < j → o = ej.fileEntry.offset)) := by
  refine ⟨?_, ?_, ?_⟩
  · intro k i s0 s1 b total rem fileOffset e e1 he hcall he1 ho
    exact ⟨writeDataLoop_notOpened data len offset k i s0 s1 rem fileOffset e e1 he hcall he1 ho,
      readDataLoop_notOpened len offset k i s0 s1 b total rem fileOffset e e1 he hcall he1 ho⟩
  · intro o j s1 h
    cases hfind : findFirstDiskWriterEntry s.diskWriterEntries offset with
    | error err =>
      rw [writeData_findFirst_error s data len offset err hfind] at h
      cases h
      unfold findFirstDiskWriterEntry at hfind
      simp only at hfind
      split at hfind
      · cases hfind
      · split at hfind
        · cases hfind
        · split at hfind <;> cases hfind
    | ok first =>
      obtain ⟨e, hie, hin⟩ := findFirst_ok _ _ _ hfind
      have hre := hrep e (List.getElem?_mem hie)
      have hcon := (isInRange_iff e offset hre.1 hre.2 hoff).1 hin
      unfold Contains DiskWriterEntry.lastOffset at hcon
      unfold DiskWriterEntry.lastOffset at hre
      have hfo : i64 (offset - e.fileEntry.offset) = offset - e.fileEntry.offset := by
        apply i64_of_range <;> omega
      unfold writeData at h
      rw [hfind] at h
      simp only [hie, hfo] at h
      obtain ⟨ej, hej, hij, hclosed, hbytes, hsame, hlater⟩ :=
        writeDataLoop_error_offset data len offset hdata hlen _ first s len
          (offset - e.fileEntry.offset) e hcont hrep hie (le_refl _) (by omega) (by omega)
          (by simp) o j s1 h
      refine ⟨first, ej, rfl, hej, hij, hclosed, ?_, ?_, hlater⟩
      · simpa using hbytes
      · intro hj
        have := hsame hj
        omega
  · intro o j s1 h
    cases hfind : findFirstDiskWriterEntry s.diskWriterEntries offset with
    | error err =>
      rw [readData_findFirst_error s buf len offset err hfind] at h
      cases h
      unfold findFirstDiskWriterEntry at hfind
      simp only at hfind
      split at hfind
      · cases hfind
      · split at hfind
        · cases hfind
        · split at hfind <;> cases hfind
    | ok first =>
      obtain ⟨e, hie, hin⟩ := findFirst_ok _ _ _ hfind
      have hre := hrep e (List.getElem?_mem hie)
      have hcon := (isInRange_iff e offset hre.1 hre.2 hoff).1 hin
      unfold Contains DiskWriterEntry.lastOffset at hcon
      unfold DiskWriterEntry.lastOffset at hre
      have hfo : i64 (offset - e.fileEntry.offset) = offset - e.fileEntry.offset := by
        apply i64_of_range <;> omega
      unfold readData at h
      rw [hfind] at h
      simp only [hie, hfo] at h
      obtain ⟨ej, hej, hij, hclosed, hbytes, hsame, hlater⟩ :=
        readDataLoop_error_offset len offset hlen _ first s buf 0 len
          (offset - e.fileEntry.offset) e hcont hrep hie (le_refl _) (by omega) (by omega)
          (by simp) o j s1 h
      refine ⟨first, ej, rfl, hej, hij, hclosed, ?_, ?_, hlater⟩
      · simpa using hbytes
      · intro hj
        have := hsame hj
        omega

theorem notOpened_reports_first_byte_of_entry_witness :
    (Contiguous secondWithoutWriter.diskWriterEntries ∧
      Representable secondWithoutWriter.diskWriterEntries) ∧
    writeData secondWithoutWriter [1, 2, 3, 4, 5, 6, 7, 8] 8 6 =
      (.error (.diskWriterNotOpened 10 1),
        (writeData secondWithoutWriter [1, 2, 3, 4, 5, 6, 7, 8] 8 6).2) ∧
    (∃ first ej, findFirstDiskWriterEntry secondWithoutWriter.diskWriterEntries 6 = .ok first ∧
      secondWithoutWriter.diskWriterEntries[1]? = some ej ∧ first ≤ 1 ∧
      isOpenAt (writeData secondWithoutWriter [1, 2, 3, 4, 5, 6, 7, 8] 8 6).2 1 = false ∧
      (10 : Int) + bytesWritten secondWithoutWriter.ioLog =
        6 + bytesWritten (writeData secondWithoutWriter [1, 2, 3, 4, 5, 6, 7, 8] 8 6).2.ioLog ∧
      (1 = first → (10 : Int) = 6) ∧ (first < 1 → (10 : Int) = ej.fileEntry.offset)) ∧
    (readData secondWithoutWriter (List.replicate 8 0) 8 12).1 =
      .error (.diskWriterNotOpened 12 1) :=
  ⟨⟨by decide, by decide⟩, Prod.ext (by decide) rfl,
    (notOpened_reports_first_byte_of_entry secondWithoutWriter [1, 2, 3, 4, 5, 6, 7, 8]
      (List.replicate 8 0) 8 6 (by decide) (by decide) (by decide) rfl (by decide)).2.1 10 1
      (writeData secondWithoutWriter [1, 2, 3, 4, 5, 6, 7, 8] 8 6).2
      (Prod.ext (by decide) rfl),
    by decide⟩

/-- C9: with a cap `maxOpenFiles >= 1`, starting from an adaptor with no open
entry whose cache holds at most `maxOpenFiles` handles (none in a fresh
adaptor), after every sequence of `openIfNot`, `writeData`, `readData` and
`closeFile` calls (whether a call returned or threw) the cap is unchanged and
the number of entries whose `isOpen()` is true is at most the cap; in
particular after every completed `openIfNot` call. -/
theorem open_handles_within_cap (s : MultiDiskAdaptor) (calls : List AdaptorCall)
    (hcap : 1 ≤ s.maxOpenFiles)
    (hcache : s.openedDiskWriterEntries.length ≤ s.maxOpenFiles)
    (hclosed : ∀ e ∈ s.diskWriterEntries, e.isOpen = false) :
    (performCalls s calls).maxOpenFiles = s.maxOpenFiles ∧
      openCount (performCalls s calls) ≤ s.maxOpenFiles ∧
      ∀ entry method,
        openCount (openIfNot (performCalls s calls) entry method).2 ≤ s.maxOpenFiles := by
  have h0 : WithinCap s.maxOpenFiles s := by
    refine ⟨rfl, hcap, hcache, ?_⟩
    intro j hj
    have hlt := isOpenAt_lt s j hj
    have he := List.getElem?_eq_getElem hlt
    rw [isOpenAt_of_getElem s j _ he, hclosed _ (List.getElem?_mem he)] at hj
    cases hj
  have h1 := withinCap_performCalls s.maxOpenFiles calls s h0
  exact ⟨h1.1, openCount_le_cache _ _ h1,
    fun entry method => openCount_le_cache _ _ (withinCap_openIfNot _ _ entry method h1)⟩

theorem open_handles_within_cap_witness :
    (1 ≤ threeFiles.maxOpenFiles ∧ threeFiles.maxOpenFiles = 2 ∧
      threeFiles.openedDiskWriterEntries.length ≤ threeFiles.maxOpenFiles ∧
      ∀ e ∈ threeFiles.diskWriterEntries, e.isOpen = false) ∧
    ((performCalls threeFiles
        [.openIfNot 0 .openFile, .openIfNot 1 .openFile, .openIfNot 2 .openFile]).maxOpenFiles =
        threeFiles.maxOpenFiles ∧
      openCount (performCalls threeFiles
        [.openIfNot 0 .openFile, .openIfNot 1 .openFile, .openIfNot 2 .openFile]) ≤
        threeFiles.maxOpenFiles ∧
      ∀ entry method,
        openCount (openIfNot (performCalls threeFiles
          [.openIfNot 0 .openFile, .openIfNot 1 .openFile, .openIfNot 2 .openFile])
            entry method).2 ≤ threeFiles.maxOpenFiles) ∧
    openCount (performCalls threeFiles [.openIfNot 0 .openFile]) = 1 ∧
    openCount (performCalls threeFiles [.openIfNot 0 .openFile, .openIfNot 1 .openFile]) = 2 ∧
    openCount (performCalls threeFiles
      [.openIfNot 0 .openFile, .openIfNot 1 .openFile, .openIfNot 2 .openFile]) = 2 :=
  ⟨⟨by decide, by decide, by decide, by decide⟩,
    open_handles_within_cap threeFiles
      [.openIfNot 0 .openFile, .openIfNot 1 .openFile, .openIfNot 2 .openFile]
      (by decide) (by decide) (by decide),
    by decide, by decide, by decide⟩

/-- C10 (counterexample): with cap 2 and the first two of three entries open,
`openIfNot` on the third performs the physical open first, so that three
handles are open before the evicted entry 0 is closed: the log of the call is
`opened 2` followed by `closed 0`. -/
theorem openIfNot_opens_before_closing :
    threeFilesTwoOpen.maxOpenFiles = 2 ∧ openCount threeFilesTwoOpen = 2 ∧
    threeFilesTwoOpen.openedDiskWriterEntries = [0, 1] ∧
    threeFilesTwoOpen.diskWriterEntries[2]? = some (exampleEntry "c" 25 5) ∧
    openCount (openIfNotOpen threeFilesTwoOpen 2 (exampleEntry "c" 25 5) .openFile).2 = 3 ∧
    (openIfNot threeFilesTwoOpen 2 .openFile).2.ioLog =
      threeFilesTwoOpen.ioLog ++ [.opened 2, .closed 0] ∧
    openCount (openIfNot threeFilesTwoOpen 2 .openFile).2 = 2 := by
  refine ⟨by decide, by decide, by decide, by decide, by decide, by decide, by decide⟩

/-- C10 (amended): when `openIfNot` is called for a closed entry that can be
opened while a consistent cache is at the cap, the physical open of the new
entry is performed first and the evicted entry is closed afterwards; between
the two more than `maxOpenFiles` handles are open, and when `openIfNot` returns
the number of open handles is what it was before the call, the new entry being
open and the evicted one closed. -/
theorem openIfNot_at_cap_opens_then_closes (s : MultiDiskAdaptor) (i : Nat) (m : OpenMethod)
    (e : DiskWriterEntry) (hc : CacheConsistent s)
    (he : s.diskWriterEntries[i]? = some e) (ho : e.isOpen = false)
    (hcan : canOpen e = true)
    (hfull : s.maxOpenFiles ≤ s.openedDiskWriterEntries.length) :
    ∃ s1 s2 victim, openIfNotOpen s i e m = (.ok (), s1) ∧
      s1.ioLog = s.ioLog ++ [.opened i] ∧ openCount s1 = openCount s + 1 ∧
      s.maxOpenFiles < openCount s1 ∧
      openIfNot s i m = (.ok (), s2) ∧ victim ∈ s.openedDiskWriterEntries ∧
      s2.ioLog = s.ioLog ++ [.opened i, .closed victim] ∧
      openCount s2 = openCount s ∧ isOpenAt s2 i = true ∧ isOpenAt s2 victim = false := by
  have hi := (List.getElem?_eq_some.1 he).1
  have hge := cache_le_openCount s hc
  unfold canOpen at hcan
  cases hw : e.diskWriter with
  | none => rw [hw] at hcan; cases hcan
  | some w =>
    rw [hw] at hcan
    simp only at hcan
    have hopen := open_some_ok e m i w hw hcan
    have hcall := openIfNot_miss_ok s i m e _ he ho hopen
    have hfirst := openIfNotOpen_ok s i e _ m hopen
    rw [hfirst] at hcall
    have hsome : e.diskWriter.isSome = true := by rw [hw]; rfl
    simp only [hsome, if_true] at hcall hfirst
    generalize hs1 : ({ s with
        diskWriterEntries := s.diskWriterEntries.set i { e with isOpen := true }
        ioLog := s.ioLog ++ [.opened i] } : MultiDiskAdaptor) = s1 at hcall hfirst
    have h1e : s1.diskWriterEntries = s.diskWriterEntries.set i { e with isOpen := true } := by
      rw [← hs1]
    have h1o : s1.openedDiskWriterEntries = s.openedDiskWriterEntries := by rw [← hs1]
    have h1m : s1.maxOpenFiles = s.maxOpenFiles := by rw [← hs1]
    have h1l : s1.ioLog = s.ioLog ++ [.opened i] := by rw [← hs1]
    have h1i : s1.diskWriterEntries[i]? = some { e with isOpen := true } := by
      rw [h1e, List.getElem?_set_self hi]
    have hcount1 : openCount s1 = openCount s + 1 := by
      have := openCount_set s s1 i e { e with isOpen := true } he h1e
      simp only [ho, Bool.false_eq_true, if_false, if_true] at this
      omega
    obtain ⟨hmax, hnd, hall⟩ := hc
    have hnotin : i ∉ s.openedDiskWriterEntries := by
      intro hmem
      have := hall i hmem
      rw [isOpenAt_of_getElem s i e he, ho] at this
      cases this
    have hlen : 0 < s.openedDiskWriterEntries.length := by omega
    obtain ⟨index, hindex⟩ : ∃ index, getRandomNumber (s1.randomizer s1.randomCalls)
        s.openedDiskWriterEntries.length = index := ⟨_, rfl⟩
    have hidx : index < s.openedDiskWriterEntries.length := by
      rw [← hindex]
      unfold getRandomNumber
      exact Nat.mod_lt _ hlen
    have hv := List.getElem?_eq_getElem hidx
    generalize s.openedDiskWriterEntries[index] = victim at hv
    have hvmem : victim ∈ s.openedDiskWriterEntries := List.getElem?_mem hv
    have hvne : i ≠ victim := fun h => hnotin (h ▸ hvmem)
    have hvopen := hall victim hvmem
    have hvlt := isOpenAt_lt s victim hvopen
    have hve := List.getElem?_eq_getElem hvlt
    generalize s.diskWriterEntries[victim] = ev at hve
    have hevo : ev.isOpen = true := by
      rw [isOpenAt_of_getElem s victim ev hve] at hvopen
      exact hvopen
    have hve1 : s1.diskWriterEntries[victim]? = some ev := by
      rw [h1e, List.getElem?_set_ne hvne]; exact hve
    have hcall2 := openIfNotCache_evict s1 i s.openedDiskWriterEntries.length victim
      (by rw [h1m]; omega) (by rw [hindex, h1o]; exact hv)
    rw [hindex, closeEntry_some { s1 with randomCalls := s1.randomCalls + 1 } victim ev hve1]
      at hcall2
    simp only [hevo, if_true] at hcall2
    rw [hcall2] at hcall
    generalize hs2 : ({ s1 with
        diskWriterEntries := s1.diskWriterEntries.set victim ev.closeFile
        openedDiskWriterEntries := s1.openedDiskWriterEntries.set index i
        randomCalls := s1.randomCalls + 1
        ioLog := s1.ioLog ++ [.closed victim] } : MultiDiskAdaptor) = s2 at hcall
    have h2e : s2.diskWriterEntries = s1.diskWriterEntries.set victim ev.closeFile := by
      rw [← hs2]
    have h2l : s2.ioLog = s1.ioLog ++ [.closed victim] := by rw [← hs2]
    have hvlt1 : victim < s1.diskWriterEntries.length := (List.getElem?_eq_some.1 hve1).1
    have hcount2 : openCount s2 = openCount s := by
      have := openCount_set s1 s2 victim ev ev.closeFile hve1 h2e
      simp only [hevo, closeFile_isOpen, Bool.false_eq_true, if_false, if_true] at this
      omega
    refine ⟨s1, s2, victim, hfirst, h1l, hcount1, by omega, hcall, hvmem, ?_, hcount2, ?_, ?_⟩
    · rw [h2l, h1l, List.append_assoc]
      rfl
    · refine isOpenAt_true s2 i { e with isOpen := true } ?_ rfl
      rw [h2e, List.getElem?_set_ne (Ne.symm hvne)]
      exact h1i
    · refine isOpenAt_false s2 victim ev.closeFile ?_ (closeFile_isOpen ev)
      rw [h2e, List.getElem?_set_self hvlt1]

theorem openIfNot_at_cap_opens_then_closes_witness :
    (CacheConsistent threeFilesTwoOpen ∧
      threeFilesTwoOpen.maxOpenFiles ≤ threeFilesTwoOpen.openedDiskWriterEntries.length) ∧
    (∃ s1 s2 victim,
      openIfNotOpen threeFilesTwoOpen 2 (exampleEntry "c" 25 5) .openFile = (.ok (), s1) ∧
      s1.ioLog = threeFilesTwoOpen.ioLog ++ [.opened 2] ∧
      openCount s1 = openCount threeFilesTwoOpen + 1 ∧
      threeFilesTwoOpen.maxOpenFiles < openCount s1 ∧
      openIfNot threeFilesTwoOpen 2 .openFile = (.ok (), s2) ∧
      victim ∈ threeFilesTwoOpen.openedDiskWriterEntries ∧
      s2.ioLog = threeFilesTwoOpen.ioLog ++ [.opened 2, .closed victim] ∧
      openCount s2 = openCount threeFilesTwoOpen ∧ isOpenAt s2 2 = true ∧
      isOpenAt s2 victim = false) :=
  ⟨⟨by decide, by decide⟩,
    openIfNot_at_cap_opens_then_closes threeFilesTwoOpen 2 .openFile (exampleEntry "c" 25 5)
      (by decide) (by decide) (by decide) (by decide) (by decide)⟩

/-- C11: for every file list `resetDiskWriterEntries` returns normally and
leaves exactly one handle entry per file, in the same order and wrapping that
file; the list it leaves does not depend on the handle list it found; every
entry of a requested file has `needsFileAllocation = true`; and for
`pieceLength = 0` the flag equals the selection flag for every entry. -/
theorem resetDiskWriterEntries_one_entry_per_file (fs : FileSystem) (s : MultiDiskAdaptor) :
    (resetDiskWriterEntries fs s).1 = .ok () ∧
    (resetDiskWriterEntries fs s).2.diskWriterEntries.map (fun e => e.fileEntry) =
      s.fileEntries ∧
    (∀ old, (resetDiskWriterEntries fs { s with diskWriterEntries := old }).2.diskWriterEntries =
      (resetDiskWriterEntries fs s).2.diskWriterEntries) ∧
    (∀ e ∈ (resetDiskWriterEntries fs s).2.diskWriterEntries,
      e.fileEntry.requested = true → e.needsFileAllocation = true) ∧
    (s.pieceLength = 0 → ∀ e ∈ (resetDiskWriterEntries fs s).2.diskWriterEntries,
      e.needsFileAllocation = e.fileEntry.requested) := by
  obtain ⟨st, _, hinv, hun, hzero, hres⟩ := reset_total fs s
  have hentry : ∀ e ∈ (resetDiskWriterEntries fs s).2.diskWriterEntries,
      ∃ j, s.fileEntries[j]? = some e.fileEntry ∧
        e.needsFileAllocation = needsAt st.entries j := by
    intro e he
    rw [hres] at he
    obtain ⟨j, hj⟩ := List.mem_iff_getElem?.1 he
    have hfile : s.fileEntries[j]? = some e.fileEntry := by
      rw [← hinv.shape, ← setDiskWriters_files fs st.dwreq st.entries, List.getElem?_map]
      simp only at hj
      rw [hj]
      rfl
    obtain ⟨e1, h1, _, h3, _⟩ := final_entry fs s.fileEntries st j e.fileEntry hinv.shape hun hfile
    simp only at hj
    rw [hj] at h1
    cases h1
    exact ⟨j, hfile, h3⟩
  refine ⟨by rw [hres], ?_, fun old => rfl, ?_, ?_⟩
  · rw [hres]
    simp only
    rw [setDiskWriters_files, hinv.shape]
  · intro e he hreq
    obtain ⟨j, hj1, hj2⟩ := hentry e he
    rw [hj2]
    exact hinv.sel j e.fileEntry hj1 hreq
  · intro hpl e he
    obtain ⟨j, hj1, hj2⟩ := hentry e he
    rw [hj2, hzero hpl]
    exact needsAt_map_create s.fileEntries j e.fileEntry hj1

/-- C12: for `pieceLength > 0` and a contiguous (hence offset-ordered) file
list, if `S` is a requested file and `P` is a file before `S` in the list whose
range contains `pieceStart(S) = floor(S.offset / pieceLength) * pieceLength`,
then after `resetDiskWriterEntries` (which returns normally) the entry of `P`
has `needsFileAllocation = true`, whatever files lie between `P` and `S`. -/
theorem file_holding_piece_start_is_allocated (fs : FileSystem) (s : MultiDiskAdaptor)
    (p q : Nat) (P S : FileEntry)
    (hpl : 0 < s.pieceLength) (hc : FilesContiguous s.fileEntries)
    (hr : FilesRepresentable s.fileEntries s.pieceLength)
    (hpq : p < q) (hP : s.fileEntries[p]? = some P) (hS : s.fileEntries[q]? = some S)
    (hsel : S.requested = true)
    (h1 : P.offset ≤ S.offset / (s.pieceLength : Int) * s.pieceLength)
    (h2 : S.offset / (s.pieceLength : Int) * s.pieceLength < P.offset + P.length) :
    (resetDiskWriterEntries fs s).1 = .ok () ∧
    ∃ e, (resetDiskWriterEntries fs s).2.diskWriterEntries[p]? = some e ∧ e.fileEntry = P ∧
      e.needsFileAllocation = true := by
  obtain ⟨st, e, _, hinv, _, hitr, hok, he, hef, hen, _⟩ := reset_entry fs s hpl p P hP
  refine ⟨hok, e, he, hef, ?_⟩
  rw [hen]
  have hplz : (0 : Int) < s.pieceLength := by exact_mod_cast hpl
  have hq := (List.getElem?_eq_some.1 hS).1
  obtain ⟨s0, s1⟩ := hr S (List.getElem?_mem hS)
  obtain ⟨p0, p1⟩ := hr P (List.getElem?_mem hP)
  have hSlen : (0 : Int) ≤ (S.length : Int) := Int.natCast_nonneg _
  have hS63 : S.offset < 9223372036854775808 := by linarith
  have hP63 : P.offset + P.length < 9223372036854775808 := by linarith
  have hpso := pieceStartOffset_eq S s.pieceLength s0 hS63 hpl
  obtain ⟨b0, b1, b2⟩ := pieceStartOffset_bounds s.fileEntries s.pieceLength q S hr hpl hS
  have hreach : reachesPieceStart (pieceStartOffset S s.pieceLength) P = true := by
    rw [reachesPieceStart_iff _ P b0 b2 p0 hP63, hpso]
    exact Or.inr h2
  rcases hinv.reach hc hr hpl q p S P (by rw [hitr]; exact hq) hpq hS hP hsel hreach
    with h | ⟨_, h⟩
  · exact h
  · obtain ⟨i0, g0, f1, hi0, hg0, _, hlen0, hf1, hlt⟩ := h
    exfalso
    obtain ⟨g00, g01⟩ := hr g0 (List.getElem?_mem hg0)
    rw [lastPieceEnd_eq g0 s.pieceLength g00 hlen0 g01 hpl] at hlt
    have hnext := filesContiguous_next s.fileEntries p P f1 hc hP hf1
    have hend := files_end_le_offset s.fileEntries i0 p g0 P hc hi0 hg0 hP
    have hle := floor_mul_add_le (g0.offset + g0.length - 1) S.offset s.pieceLength hplz
      (by linarith)
    linarith

theorem file_holding_piece_start_is_allocated_witness :
    (resetDiskWriterEntries emptyDisk fourInOnePiece).1 = .ok () ∧
    ∃ e, (resetDiskWriterEntries emptyDisk fourInOnePiece).2.diskWriterEntries[0]? = some e ∧
      e.fileEntry = { path := "p", length := 10, offset := 0, requested := false } ∧
      e.needsFileAllocation = true :=
  file_holding_piece_start_is_allocated emptyDisk fourInOnePiece 0 3
    { path := "p", length := 10, offset := 0, requested := false }
    { path := "s", length := 10, offset := 20, requested := true }
    (by decide) (by decide) (by decide) (by decide) rfl rfl rfl (by decide) (by decide)

/-- C13: for `pieceLength > 0` and a contiguous file list, if `S` is a requested
file of non-zero length and `B` is a file of the run of unrequested files
directly after `S` whose offset is below
`floor((S.offset + S.length - 1) / pieceLength) * pieceLength + pieceLength`,
then after `resetDiskWriterEntries` the entry of `B` has the disk writer the
factory makes for its path, whether or not the file exists on disk. -/
theorem unrequested_run_after_requested_gets_writer (fs : FileSystem) (s : MultiDiskAdaptor)
    (q j : Nat) (S B : FileEntry)
    (hpl : 0 < s.pieceLength) (hc : FilesContiguous s.fileEntries)
    (hr : FilesRepresentable s.fileEntries s.pieceLength)
    (hqj : q < j) (hS : s.fileEntries[q]? = some S) (hB : s.fileEntries[j]? = some B)
    (hsel : S.requested = true) (hlen : 0 < S.length)
    (hrun : ∀ (i : Nat) (f : FileEntry), q < i → i ≤ j → s.fileEntries[i]? = some f →
      f.requested = false)
    (hoff : B.offset <
      (S.offset + S.length - 1) / (s.pieceLength : Int) * s.pieceLength + s.pieceLength) :
    (resetDiskWriterEntries fs s).1 = .ok () ∧
    ∃ e, (resetDiskWriterEntries fs s).2.diskWriterEntries[j]? = some e ∧ e.fileEntry = B ∧
      e.diskWriter = some (fs.newDiskWriter B.path) := by
  obtain ⟨st, e, _, _, hd, hitr, hok, he, hef, _, hw⟩ := reset_entry fs s hpl j B hB
  refine ⟨hok, e, he, hef, ?_⟩
  have hq := (List.getElem?_eq_some.1 hS).1
  obtain ⟨s0, s1⟩ := hr S (List.getElem?_mem hS)
  have hmem : B.path ∈ st.dwreq := by
    apply hd q j S B hqj (by rw [hitr]; exact hq) hS hB hsel hlen
    intro i f hi1 hi2 hf
    refine ⟨Or.inl (hrun i f hi1 hi2 hf), ?_⟩
    rw [lastPieceEnd_eq S s.pieceLength s0 hlen s1 hpl]
    have := files_offset_le s.fileEntries i j f B hc hi2 hf hB
    linarith
  rw [hw, if_pos]
  rw [Bool.or_eq_true, Bool.or_eq_true, contains_iff_mem]
  exact Or.inl (Or.inr hmem)

theorem unrequested_run_after_requested_gets_writer_witness :
    (resetDiskWriterEntries emptyDisk twoBetween).1 = .ok () ∧
    ∃ e, (resetDiskWriterEntries emptyDisk twoBetween).2.diskWriterEntries[2]? = some e ∧
      e.fileEntry = { path := "c", length := 10, offset := 20, requested := false } ∧
      e.diskWriter = some (emptyDisk.newDiskWriter "c") :=
  unrequested_run_after_requested_gets_writer emptyDisk twoBetween 0 2
    { path := "a", length := 10, offset := 0, requested := true }
    { path := "c", length := 10, offset := 20, requested := false }
    (by decide) (by decide) (by decide) (by decide) rfl rfl rfl (by decide)
    (by
      intro i f h1 h2 hf
      have hi : i = 1 ∨ i = 2 := by omega
      rcases hi with h | h
      · subst h
        cases hf
        rfl
      · subst h
        cases hf
        rfl)
    (by decide)

/-- C14: for `pieceLength > 0`, if an unrequested file `B` directly follows a
requested file `A` of non-zero length, `B.offset` is below the end of the last
piece of `A`, and no requested file follows `B`, then after
`resetDiskWriterEntries` the entry of `B` has a disk writer while its
`needsFileAllocation` flag is false (the files need not even be contiguous). -/
theorem adjacent_file_writable_not_allocated (fs : FileSystem) (s : MultiDiskAdaptor)
    (a : Nat) (A B : FileEntry)
    (hpl : 0 < s.pieceLength) (hr : FilesRepresentable s.fileEntries s.pieceLength)
    (hA : s.fileEntries[a]? = some A) (hB : s.fileEntries[a + 1]? = some B)
    (hselA : A.requested = true) (hlenA : 0 < A.length) (hselB : B.requested = false)
    (hoff : B.offset <
      (A.offset + A.length - 1) / (s.pieceLength : Int) * s.pieceLength + s.pieceLength)
    (hlast : ∀ (i : Nat) (f : FileEntry), a + 1 < i → s.fileEntries[i]? = some f →
      f.requested = false) :
    (resetDiskWriterEntries fs s).1 = .ok () ∧
    ∃ e, (resetDiskWriterEntries fs s).2.diskWriterEntries[a + 1]? = some e ∧
      e.fileEntry = B ∧ e.diskWriter = some (fs.newDiskWriter B.path) ∧
      e.needsFileAllocation = false := by
  obtain ⟨st, e, _, hinv, hd, hitr, hok, he, hef, hen, hw⟩ := reset_entry fs s hpl (a + 1) B hB
  refine ⟨hok, e, he, hef, ?_, ?_⟩
  · have ha := (List.getElem?_eq_some.1 hA).1
    obtain ⟨a0, a1⟩ := hr A (List.getElem?_mem hA)
    have hmem : B.path ∈ st.dwreq := by
      apply hd a (a + 1) A B (Nat.lt_succ_self _) (by rw [hitr]; exact ha) hA hB hselA hlenA
      intro i f hi1 hi2 hf
      have hi : i = a + 1 := by omega
      subst hi
      rw [hB] at hf
      cases hf
      refine ⟨Or.inl hselB, ?_⟩
      rw [lastPieceEnd_eq A s.pieceLength a0 hlenA a1 hpl]
      exact hoff
    rw [hw, if_pos]
    rw [Bool.or_eq_true, Bool.or_eq_true, contains_iff_mem]
    exact Or.inl (Or.inr hmem)
  · rw [hen]
    cases hn : needsAt st.entries (a + 1) with
    | false => rfl
    | true =>
      exfalso
      rcases hinv.nsound (a + 1) B hB hn with h | ⟨i, g, hi1, _, hg, hgreq, _⟩
      · rw [hselB] at h
        cases h
      · rw [hlast i g hi1 hg] at hgreq
        cases hgreq

theorem adjacent_file_writable_not_allocated_witness :
    (∀ path, emptyDisk.fileExists path = false) ∧
    (resetDiskWriterEntries emptyDisk sharedPiece).1 = .ok () ∧
    ∃ e, (resetDiskWriterEntries emptyDisk sharedPiece).2.diskWriterEntries[0 + 1]? = some e ∧
      e.fileEntry = { path := "b", length := 50, offset := 100, requested := false } ∧
      e.diskWriter = some (emptyDisk.newDiskWriter "b") ∧
      e.needsFileAllocation = false :=
  ⟨fun _ => rfl,
    adjacent_file_writable_not_allocated emptyDisk sharedPiece 0
      { path := "a", length := 100, offset := 0, requested := true }
      { path := "b", length := 50, offset := 100, requested := false }
      (by decide) (by decide) rfl rfl rfl (by decide) rfl (by decide)
      (by
        intro i f h1 hf
        have hi : sharedPiece.fileEntries.length ≤ i := by
          show 2 ≤ i
          omega
        rw [List.getElem?_eq_none_iff.2 hi] at hf
        cases hf)⟩

/-- C15: after `resetDiskWriterEntries` (which returns normally), with `dwreq`
the set of paths the forward scans have entered, a handle entry has a disk
writer if and only if its `needsFileAllocation` flag is set, or its path is in
`dwreq`, or its file exists on disk; an entry outside the three conditions has
no writer.  Every path in `dwreq` is the path of a file that a forward scan
passed: it follows a requested file of non-zero length, separated from it only
by files that are not requested or empty, and starts below the end of that
file's last piece. -/
theorem writer_iff_needed_adjacent_or_existing (fs : FileSystem) (s : MultiDiskAdaptor) :
    ∃ st, resetScan s.fileEntries s.pieceLength = .ok st ∧
      (resetDiskWriterEntries fs s).1 = .ok () ∧
      (∀ (j : Nat) (e : DiskWriterEntry),
        (resetDiskWriterEntries fs s).2.diskWriterEntries[j]? = some e →
        ((e.diskWriter.isSome = true ↔
          (e.needsFileAllocation = true ∨ e.fileEntry.path ∈ st.dwreq ∨
            fs.fileExists e.fileEntry.path = true)) ∧
         (e.diskWriter = none ↔
          (e.needsFileAllocation = false ∧ e.fileEntry.path ∉ st.dwreq ∧
            fs.fileExists e.fileEntry.path = false)))) ∧
      (∀ p ∈ st.dwreq, ∃ (i j : Nat) (g f : FileEntry), i < j ∧ s.fileEntries[i]? = some g ∧
        s.fileEntries[j]? = some f ∧ g.requested = true ∧ 0 < g.length ∧ f.path = p ∧
        f.offset < lastPieceEnd g s.pieceLength ∧
        ∀ (k : Nat) (h : FileEntry), i < k → k ≤ j → s.fileEntries[k]? = some h →
          (h.requested = false ∨ h.length = 0)) := by
  obtain ⟨st, hst, hinv, hun, _, hres⟩ := reset_total fs s
  refine ⟨st, hst, by rw [hres], ?_, ?_⟩
  · intro j e he
    rw [hres] at he
    simp only at he
    have hfile : s.fileEntries[j]? = some e.fileEntry := by
      rw [← hinv.shape, ← setDiskWriters_files fs st.dwreq st.entries, List.getElem?_map, he]
      rfl
    obtain ⟨e1, h1, _, h3, h4⟩ := final_entry fs s.fileEntries st j e.fileEntry hinv.shape hun hfile
    rw [he] at h1
    cases h1
    rw [h4, h3]
    by_cases hcond : (needsAt st.entries j || st.dwreq.contains e.fileEntry.path ||
        fs.fileExists e.fileEntry.path) = true
    · rw [if_pos hcond]
      simp only [Bool.or_eq_true, contains_iff_mem] at hcond
      constructor
      · constructor
        · intro _
          rcases hcond with (h | h) | h
          · exact Or.inl h
          · exact Or.inr (Or.inl h)
          · exact Or.inr (Or.inr h)
        · intro _; rfl
      · constructor
        · intro h; cases h
        · rintro ⟨h1, h2, h3⟩
          rcases hcond with (h | h) | h
          · rw [h1] at h; cases h
          · exact absurd h h2
          · rw [h3] at h; cases h
    · rw [if_neg hcond]
      simp only [Bool.or_eq_true, contains_iff_mem, not_or] at hcond
      obtain ⟨⟨c1, c2⟩, c3⟩ := hcond
      constructor
      · constructor
        · intro h; cases h
        · rintro (h | h | h)
          · exact absurd h c1
          · exact absurd h c2
          · exact absurd h c3
      · constructor
        · intro _
          refine ⟨?_, c2, ?_⟩
          · cases h : needsAt st.entries j
            · rfl
            · exact absurd h c1
          · cases h : fs.fileExists e.fileEntry.path
            · rfl
            · exact absurd h c3
        · intro _; rfl
  · intro p hp
    obtain ⟨i, j, g, f, h1, _, h3, h4, h5, h6, h7, h8, h9⟩ := hinv.dsound p hp
    exact ⟨i, j, g, f, h1, h3, h4, h5, h6, h7, h8, h9⟩

/-- C16: for `pieceLength > 0` and a contiguous file list (zero-length files
allowed, any selection) whose first file starts at or before the piece, let
piece `k` hold a byte `b` of a requested file.  After `resetDiskWriterEntries`
(which returns normally) a write at the start `k * pieceLength` of the piece of
at most `pieceLength` bytes (the whole piece, clipped at the end of the logical
space) finds its first entry, and every entry that the physical writes of
`expectedWrites` go to has a disk writer. -/
theorem piece_write_touches_only_writers (fs : FileSystem) (s : MultiDiskAdaptor)
    (k q : Nat) (F0 S : FileEntry) (b : Int) (data : List Byte)
    (hpl : 0 < s.pieceLength) (hc : FilesContiguous s.fileEntries)
    (hr : FilesRepresentable s.fileEntries s.pieceLength)
    (hhead : s.fileEntries.head? = some F0)
    (h0 : F0.offset ≤ ((k * s.pieceLength : Nat) : Int))
    (hS : s.fileEntries[q]? = some S) (hsel : S.requested = true)
    (hb1 : S.offset ≤ b) (hb2 : b < S.offset + S.length)
    (hk1 : ((k * s.pieceLength : Nat) : Int) ≤ b)
    (hk2 : b < ((k * s.pieceLength : Nat) : Int) + s.pieceLength)
    (hdata : data.length ≤ s.pieceLength) :
    (resetDiskWriterEntries fs s).1 = .ok () ∧
    ∃ (first : Nat) (e0 : DiskWriterEntry),
      findFirstDiskWriterEntry (resetDiskWriterEntries fs s).2.diskWriterEntries
        ((k * s.pieceLength : Nat) : Int) = .ok first ∧
      (resetDiskWriterEntries fs s).2.diskWriterEntries[first]? = some e0 ∧
      ∀ ev ∈ expectedWrites
          (((resetDiskWriterEntries fs s).2.diskWriterEntries.map diskPart).drop first) first
          (((k * s.pieceLength : Nat) : Int) - e0.fileEntry.offset).toNat data,
        ∃ (j : Nat) (chunk : List Byte) (off : Int) (e : DiskWriterEntry),
          ev = .wrote j chunk off ∧
          (resetDiskWriterEntries fs s).2.diskWriterEntries[j]? = some e ∧
          e.diskWriter.isSome = true := by
  have hne : s.fileEntries ≠ [] := by
    intro h
    rw [h] at hS
    cases hS
  obtain ⟨st, _, hinv, hd, hun, hitr, hres⟩ := reset_result fs s hpl hne
  rw [hres]
  simp only
  generalize hfin : setDiskWriters fs st.dwreq st.entries = final
  have hmap : final.map (fun e => e.fileEntry) = s.fileEntries := by
    rw [← hfin, setDiskWriters_files, hinv.shape]
  have hplz : (0 : Int) < s.pieceLength := by exact_mod_cast hpl
  have hq := (List.getElem?_eq_some.1 hS).1
  obtain ⟨s0, s1⟩ := hr S (List.getElem?_mem hS)
  have hSlen : 0 < S.length := by omega
  have hcont : Contiguous final := files_of_contiguous final (by rw [hmap]; exact hc)
  have hrep : Representable final := files_of_representable final s.pieceLength
    (by rw [hmap]; exact hr)
  have hlenf : final.length = s.fileEntries.length := by rw [← hmap, List.length_map]
  have hfile : ∀ (j : Nat) (e : DiskWriterEntry), final[j]? = some e →
      s.fileEntries[j]? = some e.fileEntry := by
    intro j e he
    rw [← hmap, List.getElem?_map, he]
    rfl
  -- the first and the last entry
  obtain ⟨E0, hE0, hE0f⟩ : ∃ E0, final.head? = some E0 ∧ E0.fileEntry = F0 := by
    rw [← hmap, List.head?_map] at hhead
    cases hh : final.head? with
    | none => rw [hh] at hhead; cases hhead
    | some E0 =>
      rw [hh] at hhead
      exact ⟨E0, rfl, Option.some.inj hhead⟩
  have hlastIdx : s.fileEntries.length - 1 < final.length := by omega
  have hL : final.getLast? = some final[s.fileEntries.length - 1] := by
    rw [List.getLast?_eq_getElem?, hlenf]
    exact List.getElem?_eq_getElem hlastIdx
  have hLf := hfile _ _ (List.getElem?_eq_getElem hlastIdx)
  have hLend : S.offset + S.length ≤
      final[s.fileEntries.length - 1].fileEntry.offset +
        final[s.fileEntries.length - 1].fileEntry.length := by
    rcases Nat.lt_or_eq_of_le (Nat.le_sub_one_of_lt hq) with h | h
    · have := files_end_le_offset s.fileEntries q _ S _ hc h hS hLf
      have : (0 : Int) ≤ (final[s.fileEntries.length - 1].fileEntry.length : Int) :=
        Int.natCast_nonneg _
      linarith
    · have hx : s.fileEntries[q]? = some final[s.fileEntries.length - 1].fileEntry := by
        rw [h]
        exact hLf
      rw [hS] at hx
      rw [Option.some.inj hx]
  obtain ⟨first, e0, hfind, he0, hcon, _, _⟩ := findFirst_contains final
    ((k * s.pieceLength : Nat) : Int) E0 final[s.fileEntries.length - 1] hcont hrep hE0 hL
    (by rw [hE0f]; exact h0)
    (by unfold DiskWriterEntry.lastOffset; linarith)
  refine ⟨trivial, first, e0, hfind, he0, ?_⟩
  intro ev hev
  have he0f := hfile first e0 he0
  have hparts : ∀ t, (((final.map diskPart).drop first)[t]?).map Prod.fst =
      s.fileEntries[first + t]? := by
    intro t
    rw [List.getElem?_drop, List.getElem?_map, ← hmap, List.getElem?_map]
    cases final[first + t]? <;> rfl
  obtain ⟨j, chunk, off, fj, hj1, hj2, hj3, hj4⟩ := expectedWrites_touched s.fileEntries hc
    ((final.map diskPart).drop first) first _ data e0.fileEntry hparts he0f ev hev
  -- the entry touched is flagged or its path is a key of dwreq
  unfold Contains DiskWriterEntry.lastOffset at hcon
  obtain ⟨c1, c2⟩ := hcon
  obtain ⟨j0, j1⟩ := hr fj (List.getElem?_mem hj3)
  have hfjlen : (0 : Int) ≤ (fj.length : Int) := Int.natCast_nonneg _
  have hstart : fj.offset < ((k * s.pieceLength : Nat) : Int) + s.pieceLength := by
    rcases hj4 with h | h
    · subst h
      rw [he0f] at hj3
      cases hj3
      linarith
    · have hlo : (((((k * s.pieceLength : Nat) : Int) - e0.fileEntry.offset).toNat : Nat) : Int) =
          ((k * s.pieceLength : Nat) : Int) - e0.fileEntry.offset :=
        Int.toNat_of_nonneg (by linarith)
      rw [hlo] at h
      have hd2 : (data.length : Int) ≤ (s.pieceLength : Int) := by exact_mod_cast hdata
      linarith
  have hafter : ((k * s.pieceLength : Nat) : Int) < fj.offset + fj.length ∨ first < j := by
    rcases Nat.lt_or_eq_of_le hj2 with h | h
    · exact Or.inr h
    · left
      subst h
      rw [he0f] at hj3
      cases hj3
      exact c2
  have hkpl : ((k * s.pieceLength : Nat) : Int) = (k : Int) * (s.pieceLength : Int) := by
    push_cast
    rfl
  have hcover : needsAt st.entries j = true ∨ fj.path ∈ st.dwreq := by
    rcases Nat.lt_trichotomy j q with hlt | heq | hgt
    · have hend := files_end_le_offset s.fileEntries j q fj S hc hlt hj3 hS
      have hgt0 : ((k * s.pieceLength : Nat) : Int) < fj.offset + fj.length := by
        rcases hafter with h | h
        · exact h
        · have := files_end_le_offset s.fileEntries first j e0.fileEntry fj hc h he0f hj3
          linarith
      have hdiv : S.offset / (s.pieceLength : Int) < (k : Int) + 1 := by
        apply Int.ediv_lt_of_lt_mul hplz
        rw [hkpl] at hk2
        linarith
      have hdiv2 : S.offset / (s.pieceLength : Int) ≤ (k : Int) := by omega
      have hmul := mul_le_mul_of_nonneg_right hdiv2 (le_of_lt hplz)
      obtain ⟨b0, _, b2⟩ := pieceStartOffset_bounds s.fileEntries s.pieceLength q S hr hpl hS
      have hS63 : S.offset < 9223372036854775808 := by linarith
      have hreach : reachesPieceStart (pieceStartOffset S s.pieceLength) fj = true := by
        rw [reachesPieceStart_iff _ fj b0 b2 j0 (by linarith),
          pieceStartOffset_eq S s.pieceLength s0 hS63 hpl]
        right
        rw [hkpl] at hgt0
        linarith
      rcases hinv.reach hc hr hpl q j S fj (by rw [hitr]; exact hq) hlt hS hj3 hsel hreach
        with h | ⟨h, _⟩
      · exact Or.inl h
      · exact Or.inr h
    · subst heq
      rw [hS] at hj3
      cases hj3
      exact Or.inl (hinv.sel j S hS hsel)
    · apply covered_after_requested s.fileEntries s.pieceLength st hinv hd hitr hc hr hpl
        (j - q) q j S fj (le_refl _) hgt hS hj3 hsel hSlen
      rw [lastPieceEnd_eq S s.pieceLength s0 hSlen s1 hpl]
      have hdiv : (k : Int) ≤ (S.offset + S.length - 1) / (s.pieceLength : Int) := by
        apply Int.le_ediv_of_mul_le hplz
        rw [hkpl] at hk1
        linarith
      have hmul := mul_le_mul_of_nonneg_right hdiv (le_of_lt hplz)
      rw [hkpl] at hstart
      linarith
  -- hence it has a disk writer
  obtain ⟨e, e1, _, _, e4⟩ := final_entry fs s.fileEntries st j fj hinv.shape hun hj3
  rw [hfin] at e1
  refine ⟨j, chunk, off, e, hj1, e1, ?_⟩
  rw [e4, if_pos]
  · rfl
  · rw [Bool.or_eq_true, Bool.or_eq_true, contains_iff_mem]
    rcases hcover with h | h
    · exact Or.inl (Or.inl h)
    · exact Or.inl (Or.inr h)

theorem piece_write_touches_only_writers_witness :
    (resetDiskWriterEntries emptyDisk sharedPiece).1 = .ok () ∧
    ∃ (first : Nat) (e0 : DiskWriterEntry),
      findFirstDiskWriterEntry (resetDiskWriterEntries emptyDisk sharedPiece).2.diskWriterEntries
        ((0 * sharedPiece.pieceLength : Nat) : Int) = .ok first ∧
      (resetDiskWriterEntries emptyDisk sharedPiece).2.diskWriterEntries[first]? = some e0 ∧
      ∀ ev ∈ expectedWrites
          (((resetDiskWriterEntries emptyDisk sharedPiece).2.diskWriterEntries.map diskPart).drop
            first) first
          (((0 * sharedPiece.pieceLength : Nat) : Int) - e0.fileEntry.offset).toNat
          (List.replicate 150 7),
        ∃ (j : Nat) (chunk : List Byte) (off : Int) (e : DiskWriterEntry),
          ev = .wrote j chunk off ∧
          (resetDiskWriterEntries emptyDisk sharedPiece).2.diskWriterEntries[j]? = some e ∧
          e.diskWriter.isSome = true :=
  piece_write_touches_only_writers emptyDisk sharedPiece 0 0
    { path := "a", length := 100, offset := 0, requested := true }
    { path := "a", length := 100, offset := 0, requested := true } 0 (List.replicate 150 7)
    (by decide) (by decide) (by decide) rfl (by decide) rfl rfl (by decide) (by decide)
    (by decide) (by decide) (by simp [sharedPiece, adaptorOver])

/-- C17 fails on the code: in `twoBetween` the unrequested files `b` at `[10,20)`
and `c` at `[20,30)` lie between the requested files `a` and `d` in the piece
`[0,100)` in which `d` starts.  The forward loop of `a` leaves `done` at `c`, the
backward loop of `d` stops there, and `b`, a non-empty file before `d` that ends
beyond `pieceStart(d) = 0`, keeps `needsFileAllocation = false` while `c` is
flagged. -/
theorem backward_loop_stops_at_done :
    (resetDiskWriterEntries emptyDisk twoBetween).1 = .ok () ∧
    (resetDiskWriterEntries emptyDisk twoBetween).2.diskWriterEntries.map
        (fun e => (e.fileEntry.path, e.fileEntry.requested, e.needsFileAllocation)) =
      [("a", true, true), ("b", false, false), ("c", false, true), ("d", true, true)] ∧
    pieceStartOffset { path := "d", length := 10, offset := 30, requested := true } 100 = 0 ∧
    ((resetScan twoBetween.fileEntries 100).toOption.map (fun st => st.done)) = some 3 := by
  decide

/-- C18 as stated fails: in `samePath` (pieces of 10, no empty file, nothing on
disk) the unrequested file at `[20,30)` lies in piece 2 only, and the only
requested file `[0,5)` lies in piece 0, yet its entry gets a disk writer: its
path `x` is also the path of the file at `[5,20)`, which the forward loop entered
in `dwreq`, and `dwreq` is looked up by path. -/
theorem file_of_same_path_gets_writer :
    FilesContiguous samePath.fileEntries ∧
    (∀ f ∈ samePath.fileEntries, 0 < f.length) ∧
    SharesNoPiece samePath.fileEntries samePath.pieceLength
      { path := "x", length := 10, offset := 20, requested := false } ∧
    emptyDisk.fileExists "x" = false ∧
    (resetDiskWriterEntries emptyDisk samePath).2.diskWriterEntries.map
        (fun e => (e.fileEntry.offset, e.needsFileAllocation, e.diskWriter.isSome)) =
      [(0, true, true), (5, false, true), (20, false, true)] ∧
    (resetScan samePath.fileEntries samePath.pieceLength).toOption.map (fun st => st.dwreq) =
      some ["x"] := by
  refine ⟨by decide, by decide, ?_, rfl, by decide, by decide⟩
  intro i g b c hg hreq h1 h2 h3 h4
  have hi : i = 0 := by
    rcases i with _ | _ | _ | i
    · rfl
    · cases hg; cases hreq
    · cases hg; cases hreq
    · cases hg
  subst hi
  cases hg
  have k2 : b < 5 := h2
  have k3 : (20 : Int) ≤ c := h3
  show b / 10 ≠ c / 10
  omega

/-- C18, amended: for `pieceLength > 0` and a contiguous file list without
zero-length files, let `U` be an unrequested file such that no file of the list
with the path of `U` (itself included) has a byte in a piece that holds a byte of
a requested file.  After `resetDiskWriterEntries` the entry of `U` has
`needsFileAllocation = false`, its path is not in `dwreq`, and it has a disk
writer exactly when its file exists on disk. -/
theorem irrelevant_file_gets_no_writer (fs : FileSystem) (s : MultiDiskAdaptor)
    (u : Nat) (U : FileEntry)
    (hpl : 0 < s.pieceLength) (hc : FilesContiguous s.fileEntries)
    (hr : FilesRepresentable s.fileEntries s.pieceLength)
    (hnz : ∀ f ∈ s.fileEntries, 0 < f.length)
    (hU : s.fileEntries[u]? = some U) (hsel : U.requested = false)
    (hpath : ∀ (j : Nat) (f : FileEntry), s.fileEntries[j]? = some f → f.path = U.path →
      SharesNoPiece s.fileEntries s.pieceLength f) :
    ∃ st, resetScan s.fileEntries s.pieceLength = .ok st ∧
      (resetDiskWriterEntries fs s).1 = .ok () ∧
      ∃ e, (resetDiskWriterEntries fs s).2.diskWriterEntries[u]? = some e ∧ e.fileEntry = U ∧
        e.needsFileAllocation = false ∧ U.path ∉ st.dwreq ∧
        (e.diskWriter.isSome = true ↔ fs.fileExists U.path = true) ∧
        (fs.fileExists U.path = false → e.diskWriter = none) := by
  obtain ⟨st, e, hst, hinv, _, hitr, hok, he, hef, hen, hw⟩ := reset_entry fs s hpl u U hU
  have hplz : (0 : Int) < s.pieceLength := by exact_mod_cast hpl
  obtain ⟨u0, u1⟩ := hr U (List.getElem?_mem hU)
  have hUlen : 0 < U.length := hnz U (List.getElem?_mem hU)
  have hUlenz : (0 : Int) < (U.length : Int) := by exact_mod_cast hUlen
  have hneeds : needsAt st.entries u = false := by
    cases hn : needsAt st.entries u with
    | false => rfl
    | true =>
      exfalso
      rcases hinv.nsound u U hU hn with h | ⟨i, g, hi1, _, hg, hgreq, hreach⟩
      · rw [hsel] at h
        cases h
      · obtain ⟨g0, g1⟩ := hr g (List.getElem?_mem hg)
        have hglen : 0 < g.length := hnz g (List.getElem?_mem hg)
        have hglenz : (0 : Int) < (g.length : Int) := by exact_mod_cast hglen
        obtain ⟨b0, b1, b2⟩ := pieceStartOffset_bounds s.fileEntries s.pieceLength i g hr hpl hg
        have hg63 : g.offset < 9223372036854775808 := by linarith
        have hU63 : U.offset + U.length < 9223372036854775808 := by linarith
        rw [reachesPieceStart_iff _ U b0 b2 u0 hU63,
          pieceStartOffset_eq g s.pieceLength g0 hg63 hpl] at hreach
        have hend := files_end_le_offset s.fileEntries u i U g hc hi1 hU hg
        have hlt := lt_floor_mul_add g.offset s.pieceLength hplz
        have hdiv := div_eq_of_between g.offset (U.offset + U.length - 1) s.pieceLength hplz
          (by rcases hreach with h | h <;> linarith) (by linarith)
        exact hpath u U hU rfl i g g.offset (U.offset + U.length - 1) hg hgreq (le_refl _)
          (by linarith) (by linarith) (by linarith) hdiv.symm
  have hnot : U.path ∉ st.dwreq := by
    intro hin
    obtain ⟨i, j, g, f, hij, _, hg, hf, hgreq, hglen, hfp, hlt, _⟩ := hinv.dsound _ hin
    obtain ⟨g0, g1⟩ := hr g (List.getElem?_mem hg)
    have hflen : 0 < f.length := hnz f (List.getElem?_mem hf)
    have hflenz : (0 : Int) < (f.length : Int) := by exact_mod_cast hflen
    have hglenz : (0 : Int) < (g.length : Int) := by exact_mod_cast hglen
    rw [lastPieceEnd_eq g s.pieceLength g0 hglen g1 hpl] at hlt
    have hend := files_end_le_offset s.fileEntries i j g f hc hij hg hf
    have hle := floor_mul_le (g.offset + g.length - 1) s.pieceLength hplz
    have hdiv := div_eq_of_between (g.offset + g.length - 1) f.offset s.pieceLength hplz
      (by linarith) hlt
    exact hpath j f hf hfp i g (g.offset + g.length - 1) f.offset hg hgreq (by linarith)
      (by linarith) (le_refl _) (by linarith) hdiv.symm
  have hcont : st.dwreq.contains U.path = false := by
    cases hcn : st.dwreq.contains U.path with
    | false => rfl
    | true => exact absurd ((contains_iff_mem _ _).1 hcn) hnot
  rw [hneeds, hcont] at hw
  simp only [Bool.or_self, Bool.false_or] at hw
  refine ⟨st, hst, hok, e, he, hef, by rw [hen, hneeds], hnot, ?_, ?_⟩
  · rw [hw]
    by_cases hex : fs.fileExists U.path = true
    · rw [if_pos hex]
      simp [hex]
    · rw [if_neg hex]
      simp [hex]
  · intro hex
    rw [hw, if_neg (by rw [hex]; exact Bool.false_ne_true)]

theorem irrelevant_file_gets_no_writer_witness :
    ∃ st, resetScan endsAtPieceStart.fileEntries endsAtPieceStart.pieceLength = .ok st ∧
      (resetDiskWriterEntries emptyDisk endsAtPieceStart).1 = .ok () ∧
      ∃ e, (resetDiskWriterEntries emptyDisk endsAtPieceStart).2.diskWriterEntries[0]? = some e ∧
        e.fileEntry = { path := "u", length := 10, offset := 0, requested := false } ∧
        e.needsFileAllocation = false ∧
        "u" ∉ st.dwreq ∧
        (e.diskWriter.isSome = true ↔ emptyDisk.fileExists "u" = true) ∧
        (emptyDisk.fileExists "u" = false → e.diskWriter = none) :=
  irrelevant_file_gets_no_writer emptyDisk endsAtPieceStart 0
    { path := "u", length := 10, offset := 0, requested := false }
    (by decide) (by decide) (by decide) (by decide) rfl rfl
    (by
      intro j f hf hp i g b c hg hreq h1 h2 h3 h4
      rcases j with _ | _ | j
      · cases hf
        rcases i with _ | _ | i
        · cases hg; cases hreq
        · cases hg
          have k1 : (10 : Int) ≤ b := h1
          have k4 : c < 10 := h4
          show b / 10 ≠ c / 10
          omega
        · cases hg
      · cases hf
        exact absurd hp (by decide)
      · cases hf)

/-- C19: a `PiecedSegment` constructed over a piece with no completed block, of
length `L > 0` and block length `b > 0`, starts at `writtenLength = 0`; every
sequence of `updateWrittenLength` calls whose running total never exceeds `L`
returns normally, and afterwards `complete()` is true if and only if the sum of
the increments equals `L`, also when `b` does not divide `L`. -/
theorem complete_iff_increments_sum_to_length (pieceLength : Nat) (piece : Piece)
    (ns : List Nat)
    (he : piece.completedBlocks = []) (hl : 0 < piece.length) (hb : 0 < piece.blockLength)
    (hL : piece.length < 18446744073709551616)
    (hrun : ∀ k ≤ ns.length, (ns.take k).sum ≤ piece.length) :
    ∃ seg0 seg1, PiecedSegment.construct pieceLength piece = .ok seg0 ∧
      seg0.writtenLength = 0 ∧
      seg0.updateAll ns = (.ok (), seg1) ∧
      seg1.writtenLength = ns.sum ∧
      (seg1.complete = true ↔ ns.sum = piece.length) := by
  have hsum : ns.sum ≤ piece.length := by
    have := hrun ns.length (le_refl _)
    rw [List.take_length] at this
    exact this
  have hin : PiecedSegment.InStep
      { pieceLength := pieceLength, piece := piece, writtenLength := 0 } := by
    refine ⟨Nat.zero_le _, ?_⟩
    intro i
    simp only [he, List.not_mem_nil, Nat.zero_div, Nat.not_lt_zero, false_or, false_iff, not_and]
    intro h
    omega
  obtain ⟨seg1, h1, h2, h3, h4, h5⟩ := updateAll_spec ns
    { pieceLength := pieceLength, piece := piece, writtenLength := 0 } hin hb hl hL
    (by simp only [Nat.zero_add]; exact hsum)
  refine ⟨_, seg1, construct_fresh pieceLength piece he hb hl, rfl, h1, ?_, ?_⟩
  · rw [h3]
    simp
  · have hc := inStep_complete_iff seg1 h2 (by rw [h5]; exact hb) (by rw [h4]; exact hl)
    rw [hc, h3, h4]
    simp

theorem complete_iff_increments_sum_to_length_witness :
    (∃ seg0 seg1, PiecedSegment.construct 16 shortPiece = .ok seg0 ∧
      seg0.writtenLength = 0 ∧
      seg0.updateAll [3, 5, 2] = (.ok (), seg1) ∧
      seg1.writtenLength = [3, 5, 2].sum ∧
      (seg1.complete = true ↔ [3, 5, 2].sum = shortPiece.length)) ∧
    (PiecedSegment.updateAll { pieceLength := 16, piece := shortPiece, writtenLength := 0 }
      [3, 5, 2]).2.piece.completedBlocks = [2, 1, 0] ∧
    (PiecedSegment.updateAll { pieceLength := 16, piece := shortPiece, writtenLength := 0 }
      [3, 5, 1]).2.complete = false :=
  ⟨complete_iff_increments_sum_to_length 16 shortPiece [3, 5, 2] rfl (by decide) (by decide)
      (by decide) (by decide),
    by decide, by decide⟩

/-- C20, as the code has it: for a segment over a piece with non-zero block
length, `updateWrittenLength(n)` fails (the assertion) if and only if the sum
`writtenLength + n`, computed in `size_t`, exceeds the piece length; when it
fails the segment, its `writtenLength` and the block state of its piece are
unchanged, and when it returns `writtenLength` has become that sum.  For a sum
representable in `size_t` the call fails if and only if
`writtenLength + n > piece length`, and when it returns `writtenLength` has
become `writtenLength + n`. -/
theorem updateWrittenLength_fails_iff_past_end (seg : PiecedSegment) (n : Nat)
    (hb : 0 < seg.piece.blockLength) :
    ((seg.updateWrittenLength n).1 = .error .assertionFailed ↔
      seg.piece.length < (seg.writtenLength + n) % 18446744073709551616) ∧
    ((seg.updateWrittenLength n).1 = .ok () ↔
      (seg.writtenLength + n) % 18446744073709551616 ≤ seg.piece.length) ∧
    ((seg.updateWrittenLength n).1 = .error .assertionFailed →
      (seg.updateWrittenLength n).2 = seg) ∧
    ((seg.updateWrittenLength n).1 = .ok () →
      (seg.updateWrittenLength n).2.writtenLength =
        (seg.writtenLength + n) % 18446744073709551616) ∧
    (seg.writtenLength + n < 18446744073709551616 →
      ((seg.updateWrittenLength n).1 = .error .assertionFailed ↔
        seg.piece.length < seg.writtenLength + n) ∧
      ((seg.updateWrittenLength n).1 = .ok () ↔ seg.writtenLength + n ≤ seg.piece.length) ∧
      (seg.piece.length < seg.writtenLength + n → (seg.updateWrittenLength n).2 = seg) ∧
      (seg.writtenLength + n ≤ seg.piece.length →
        (seg.updateWrittenLength n).2.writtenLength = seg.writtenLength + n)) := by
  have hb0 : ¬ seg.piece.blockLength = 0 := Nat.pos_iff_ne_zero.1 hb
  have hgen :
      ((seg.updateWrittenLength n).1 = .error .assertionFailed ↔
        seg.piece.length < (seg.writtenLength + n) % 18446744073709551616) ∧
      ((seg.updateWrittenLength n).1 = .ok () ↔
        (seg.writtenLength + n) % 18446744073709551616 ≤ seg.piece.length) ∧
      ((seg.updateWrittenLength n).1 = .error .assertionFailed →
        (seg.updateWrittenLength n).2 = seg) ∧
      ((seg.updateWrittenLength n).1 = .ok () →
        (seg.updateWrittenLength n).2.writtenLength =
          (seg.writtenLength + n) % 18446744073709551616) := by
    by_cases hle : (seg.writtenLength + n) % 18446744073709551616 ≤ seg.piece.length
    · have h1 : (seg.updateWrittenLength n).1 = .ok () := by
        unfold PiecedSegment.updateWrittenLength
        simp only [hle, hb0, if_true, if_false]
      have h2 : (seg.updateWrittenLength n).2.writtenLength =
          (seg.writtenLength + n) % 18446744073709551616 := by
        unfold PiecedSegment.updateWrittenLength
        simp only [hle, hb0, if_true, if_false]
      rw [h1]
      exact ⟨⟨fun h => (by cases h), fun h => absurd hle (Nat.not_le_of_lt h)⟩,
        ⟨fun _ => hle, fun _ => rfl⟩, fun h => (by cases h), fun _ => h2⟩
    · have hlt : seg.piece.length < (seg.writtenLength + n) % 18446744073709551616 :=
        Nat.lt_of_not_le hle
      have hf := updateWrittenLength_fails seg n hlt
      rw [hf]
      exact ⟨⟨fun _ => hlt, fun _ => rfl⟩, ⟨fun h => (by cases h), fun h => absurd h hle⟩,
        fun _ => rfl, fun h => (by cases h)⟩
  refine ⟨hgen.1, hgen.2.1, hgen.2.2.1, hgen.2.2.2, ?_⟩
  intro hrep
  have hmod : (seg.writtenLength + n) % 18446744073709551616 = seg.writtenLength + n :=
    Nat.mod_eq_of_lt hrep
  rw [hmod] at hgen
  refine ⟨hgen.1, hgen.2.1, fun h => hgen.2.2.1 (hgen.1.2 h), fun h => hgen.2.2.2 (hgen.2.1.2 h)⟩

theorem updateWrittenLength_fails_iff_past_end_witness :
    (((PiecedSegment.updateWrittenLength
        { pieceLength := 16, piece := shortPiece.completeBlock 0, writtenLength := 4 } 7).1 =
        .error .assertionFailed ↔ shortPiece.length < 4 + 7) ∧
      ((PiecedSegment.updateWrittenLength
        { pieceLength := 16, piece := shortPiece.completeBlock 0, writtenLength := 4 } 7).1 =
        .ok () ↔ 4 + 7 ≤ shortPiece.length) ∧
      (shortPiece.length < 4 + 7 →
        (PiecedSegment.updateWrittenLength
          { pieceLength := 16, piece := shortPiece.completeBlock 0, writtenLength := 4 } 7).2 =
          { pieceLength := 16, piece := shortPiece.completeBlock 0, writtenLength := 4 }) ∧
      (4 + 7 ≤ shortPiece.length →
        (PiecedSegment.updateWrittenLength
          { pieceLength := 16, piece := shortPiece.completeBlock 0, writtenLength := 4 }
          7).2.writtenLength = 4 + 7)) ∧
    PiecedSegment.updateWrittenLength
        { pieceLength := 16, piece := shortPiece.completeBlock 0, writtenLength := 4 } 7 =
      (.error .assertionFailed,
        { pieceLength := 16, piece := shortPiece.completeBlock 0, writtenLength := 4 }) ∧
    (PiecedSegment.updateWrittenLength
        { pieceLength := 16, piece := shortPiece.completeBlock 0, writtenLength := 4 } 6).2 =
      { pieceLength := 16
        piece := ((shortPiece.completeBlock 0).completeBlock 1).completeBlock 2
        writtenLength := 10 } :=
  ⟨(updateWrittenLength_fails_iff_past_end
      { pieceLength := 16, piece := shortPiece.completeBlock 0, writtenLength := 4 } 7
      (by decide)).2.2.2.2 (by decide),
    by decide, by decide⟩

/-- C20 fails when the sum wraps: with `writtenLength = 4` over the 10-byte piece
and `n = 2^64 - 3`, `writtenLength + n` exceeds the piece length, and the call
returns normally with `writtenLength = 1`, because the sum computed in `size_t`
is 1. -/
theorem updateWrittenLength_returns_past_end_on_wrap :
    shortPiece.length < 4 + 18446744073709551613 ∧
    (PiecedSegment.updateWrittenLength
      { pieceLength := 16, piece := shortPiece.completeBlock 0, writtenLength := 4 }
      18446744073709551613).1 = .ok () ∧
    (PiecedSegment.updateWrittenLength
      { pieceLength := 16, piece := shortPiece.completeBlock 0, writtenLength := 4 }
      18446744073709551613).2.writtenLength = 1 ∧
    ¬ ((PiecedSegment.updateWrittenLength
        { pieceLength := 16, piece := shortPiece.completeBlock 0, writtenLength := 4 }
        18446744073709551613).1 = .error .assertionFailed ↔
      shortPiece.length < 4 + 18446744073709551613) := by
  decide

/-- C21: after an `updateWrittenLength(n)` call that returns and moves
`writtenLength` from `w` to `w + n`, a block `i` of the piece is complete if and
only if it was complete before, or `w / blockLength ≤ i < (w + n) / blockLength`,
or `w + n` equals the length of the piece and `i` is the last block
`countBlock() - 1`; the number of blocks is unchanged. -/
theorem updateWrittenLength_completes_crossed_blocks (seg seg1 : PiecedSegment) (n : Nat)
    (h : seg.updateWrittenLength n = (.ok (), seg1))
    (hw : seg1.writtenLength = seg.writtenLength + n) :
    seg1.piece.countBlock = seg.piece.countBlock ∧
    ∀ i, i < seg.piece.countBlock →
      (seg1.piece.hasBlock i = true ↔
        (seg.piece.hasBlock i = true ∨
          (seg.writtenLength / seg.piece.blockLength ≤ i ∧
            i < seg1.writtenLength / seg.piece.blockLength) ∨
          (seg1.writtenLength = seg.piece.length ∧ i = seg.piece.countBlock - 1))) := by
  obtain ⟨r1, hb, r3, _⟩ := updateWrittenLength_returns seg seg1 n h
  have hrep : seg.writtenLength + n < 18446744073709551616 := by
    have := Nat.mod_lt (seg.writtenLength + n) (show 0 < 18446744073709551616 by decide)
    omega
  have hmod : (seg.writtenLength + n) % 18446744073709551616 = seg.writtenLength + n :=
    Nat.mod_eq_of_lt hrep
  rw [hmod] at r1
  obtain ⟨seg2, h1, h2, _, h4, h5, _, h7⟩ := updateWrittenLength_ok seg n hb r1 hrep
  have hcb1 := countBlock_congr seg.piece seg2.piece h4 h5
  rw [h1] at h
  cases h
  refine ⟨hcb1, ?_⟩
  intro i hi
  obtain ⟨_, hl, _⟩ := block_start_lt seg.piece i hi
  have hcb := countBlock_pos seg.piece hb hl
  have hcble : (seg.piece.length - 1) / seg.piece.blockLength ≤ seg.piece.length - 1 :=
    Nat.div_le_self _ _
  rw [hasBlock_iff, hasBlock_iff, h7 i, hw]
  constructor
  · rintro (h | h | h)
    · exact Or.inl h
    · exact Or.inr (Or.inl h)
    · refine Or.inr (Or.inr ⟨h.1, ?_⟩)
      rw [h.2, hcb]
      generalize (seg.piece.length - 1) / seg.piece.blockLength = q at hcble
      omega
  · rintro (h | h | h)
    · exact Or.inl h
    · exact Or.inr (Or.inl h)
    · refine Or.inr (Or.inr ⟨h.1, ?_⟩)
      rw [h.2, hcb]
      generalize (seg.piece.length - 1) / seg.piece.blockLength = q at hcble
      omega

theorem updateWrittenLength_completes_crossed_blocks_witness :
    (PiecedSegment.updateWrittenLength
        { pieceLength := 16, piece := resumedPiece, writtenLength := 4 } 6).2.piece.countBlock =
      resumedPiece.countBlock ∧
    ∀ i, i < resumedPiece.countBlock →
      ((PiecedSegment.updateWrittenLength
          { pieceLength := 16, piece := resumedPiece, writtenLength := 4 } 6).2.piece.hasBlock i =
          true ↔
        (resumedPiece.hasBlock i = true ∨
          (4 / resumedPiece.blockLength ≤ i ∧
            i < (PiecedSegment.updateWrittenLength
              { pieceLength := 16, piece := resumedPiece, writtenLength := 4 } 6).2.writtenLength /
              resumedPiece.blockLength) ∨
          ((PiecedSegment.updateWrittenLength
              { pieceLength := 16, piece := resumedPiece, writtenLength := 4 } 6).2.writtenLength =
              resumedPiece.length ∧ i = resumedPiece.countBlock - 1))) :=
  updateWrittenLength_completes_crossed_blocks
    { pieceLength := 16, piece := resumedPiece, writtenLength := 4 }
    (PiecedSegment.updateWrittenLength
      { pieceLength := 16, piece := resumedPiece, writtenLength := 4 } 6).2 6
    (by decide) (by decide)

/-- C22: over a piece with index `x` whose first missing block has index `k`, the
constructor returns, and right after it `getPositionToWrite()` is
`x * pieceLength + k * blockLength` (a value representable in `off_t`), with
`writtenLength` at `k * blockLength`: a partially written piece resumes at its
first missing block. -/
theorem construct_resumes_at_first_missing_block (pieceLength : Nat) (piece : Piece) (k : Nat)
    (hk : piece.getFirstMissingBlockIndexWithoutLock = some k)
    (hrep : piece.index * pieceLength + k * piece.blockLength < 9223372036854775808) :
    ∃ seg, PiecedSegment.construct pieceLength piece = .ok seg ∧
      seg.writtenLength = k * piece.blockLength ∧
      seg.getPositionToWrite =
        ((piece.index * pieceLength + k * piece.blockLength : Nat) : Int) := by
  have hmod : (k * piece.blockLength) % 18446744073709551616 = k * piece.blockLength :=
    Nat.mod_eq_of_lt (by omega)
  refine ⟨{ pieceLength := pieceLength, piece := piece
            writtenLength := k * piece.blockLength }, ?_, rfl, ?_⟩
  · unfold PiecedSegment.construct
    rw [hk]
    show Except.ok _ = Except.ok _
    rw [hmod]
  · exact (getPositionToWrite_eq _ hrep).2

theorem construct_resumes_at_first_missing_block_witness :
    ∃ seg, PiecedSegment.construct 16 resumedPiece = .ok seg ∧
      seg.writtenLength = 1 * resumedPiece.blockLength ∧
      seg.getPositionToWrite =
        ((resumedPiece.index * 16 + 1 * resumedPiece.blockLength : Nat) : Int) :=
  construct_resumes_at_first_missing_block 16 resumedPiece 1 (by decide) (by decide)

/-- C23, as the code has it: in every segment reached from the constructor by
`updateWrittenLength` calls that return and by `clear` calls,
`writtenLength ≤ piece length` holds; an `updateWrittenLength(n)` call that
returns leaves the sum `writtenLength + n` computed in `size_t`, so that it makes
`writtenLength` smaller exactly when that sum wraps (`n` being a `size_t`); when
the sum is representable `writtenLength` becomes `writtenLength + n`, not
smaller, and `getPositionToWrite()` does not become smaller either, the positions
of the piece being representable in `off_t`. -/
theorem writtenLength_bounded_and_monotone (seg : PiecedSegment) (h : seg.Reachable) :
    seg.writtenLength ≤ seg.piece.length ∧
    ∀ (n : Nat) (seg1 : PiecedSegment), seg.updateWrittenLength n = (.ok (), seg1) →
      seg1.writtenLength = (seg.writtenLength + n) % 18446744073709551616 ∧
      seg1.writtenLength ≤ seg1.piece.length ∧
      (n < 18446744073709551616 →
        (seg1.writtenLength < seg.writtenLength ↔
          18446744073709551616 ≤ seg.writtenLength + n)) ∧
      (seg.writtenLength + n < 18446744073709551616 →
        seg1.writtenLength = seg.writtenLength + n ∧
        seg.writtenLength ≤ seg1.writtenLength ∧
        (seg.piece.index * seg.pieceLength + seg.piece.length < 9223372036854775808 →
          seg.getPositionToWrite ≤ seg1.getPositionToWrite)) := by
  have hle := reachable_le seg h
  refine ⟨hle, ?_⟩
  intro n seg1 hu
  obtain ⟨r1, _, r3, r4, r5, _, r7⟩ := updateWrittenLength_returns seg seg1 n hu
  refine ⟨r3, by rw [r3, r5]; exact r1, ?_, ?_⟩
  · intro hn
    rw [r3]
    omega
  · intro hrep
    have hmod : (seg.writtenLength + n) % 18446744073709551616 = seg.writtenLength + n :=
      Nat.mod_eq_of_lt hrep
    rw [hmod] at r1 r3
    refine ⟨r3, by omega, ?_⟩
    intro hpos
    rw [(getPositionToWrite_eq seg (by omega)).2,
      (getPositionToWrite_eq seg1 (by rw [r3, r4, r7]; omega)).2, r3, r4, r7]
    exact_mod_cast (by omega : seg.piece.index * seg.pieceLength + seg.writtenLength ≤
      seg.piece.index * seg.pieceLength + (seg.writtenLength + n))

theorem writtenLength_bounded_and_monotone_witness :
    PiecedSegment.Reachable { pieceLength := 16, piece := resumedPiece, writtenLength := 4 } ∧
    (4 : Nat) ≤ resumedPiece.length ∧
    (PiecedSegment.updateWrittenLength
      { pieceLength := 16, piece := resumedPiece, writtenLength := 4 } 3).2.writtenLength =
      4 + 3 ∧
    (4 : Nat) ≤ (PiecedSegment.updateWrittenLength
      { pieceLength := 16, piece := resumedPiece, writtenLength := 4 } 3).2.writtenLength ∧
    PiecedSegment.getPositionToWrite
        { pieceLength := 16, piece := resumedPiece, writtenLength := 4 } ≤
      (PiecedSegment.updateWrittenLength
        { pieceLength := 16, piece := resumedPiece, writtenLength := 4 }
        3).2.getPositionToWrite ∧
    ((PiecedSegment.updateWrittenLength
        { pieceLength := 16, piece := resumedPiece, writtenLength := 4 }
        18446744073709551613).2.writtenLength < 4 ↔
      18446744073709551616 ≤ 4 + 18446744073709551613) :=
  have hr : PiecedSegment.Reachable
      { pieceLength := 16, piece := resumedPiece, writtenLength := 4 } :=
    PiecedSegment.Reachable.construct 16 resumedPiece _ (by decide)
  have hw := writtenLength_bounded_and_monotone
    { pieceLength := 16, piece := resumedPiece, writtenLength := 4 } hr
  have h3 := hw.2 3 (PiecedSegment.updateWrittenLength
    { pieceLength := 16, piece := resumedPiece, writtenLength := 4 } 3).2 (by decide)
  have hbig := hw.2 18446744073709551613 (PiecedSegment.updateWrittenLength
    { pieceLength := 16, piece := resumedPiece, writtenLength := 4 } 18446744073709551613).2
    (by decide)
  ⟨hr, hw.1, (h3.2.2.2 (by decide)).1, (h3.2.2.2 (by decide)).2.1,
    (h3.2.2.2 (by decide)).2.2 (by decide), hbig.2.2.1 (by decide)⟩

/-- C23 fails when the sum wraps: the segment constructed over the 10-byte piece
with its first block written starts at `writtenLength = 4`; the call
`updateWrittenLength(2^64 - 3)` returns and leaves `writtenLength = 1`, so that
`getPositionToWrite()` falls from 52 to 49. -/
theorem wrapped_update_lowers_writtenLength :
    ∃ seg seg1, PiecedSegment.construct 16 resumedPiece = .ok seg ∧
      seg.updateWrittenLength 18446744073709551613 = (.ok (), seg1) ∧
      seg.writtenLength = 4 ∧ seg1.writtenLength = 1 ∧
      seg.getPositionToWrite = 52 ∧ seg1.getPositionToWrite = 49 :=
  ⟨{ pieceLength := 16, piece := resumedPiece, writtenLength := 4 },
    (PiecedSegment.updateWrittenLength
      { pieceLength := 16, piece := resumedPiece, writtenLength := 4 }
      18446744073709551613).2,
    by decide, by decide, rfl, by decide,
    (getPositionToWrite_eq { pieceLength := 16, piece := resumedPiece, writtenLength := 4 }
      (by decide)).2,
    (getPositionToWrite_eq
      (PiecedSegment.updateWrittenLength
        { pieceLength := 16, piece := resumedPiece, writtenLength := 4 }
        18446744073709551613).2 (by decide)).2.trans (by decide)⟩

/-- C24: from every segment, `clear()` leaves `writtenLength = 0`, no block of the
piece complete and no hash context; afterwards `getPositionToWrite()` equals
`getPosition()`, which is `index * pieceLength` (a value representable in
`off_t`), `complete()` is false for a piece with at least one block, and the
index, the length and the block length of the piece are unchanged. -/
theorem clear_resets_segment (seg : PiecedSegment)
    (hrep : seg.piece.index * seg.pieceLength < 9223372036854775808) :
    seg.clear.writtenLength = 0 ∧
    (∀ i, seg.clear.piece.hasBlock i = false) ∧
    seg.clear.piece.hashContext = none ∧
    seg.clear.getPositionToWrite = seg.clear.getPosition ∧
    seg.clear.getPosition = ((seg.piece.index * seg.pieceLength : Nat) : Int) ∧
    (0 < seg.piece.countBlock → seg.clear.complete = false) ∧
    seg.clear.piece.index = seg.piece.index ∧
    seg.clear.piece.length = seg.piece.length ∧
    seg.clear.piece.blockLength = seg.piece.blockLength ∧
    seg.clear.pieceLength = seg.pieceLength := by
  have hpos := getPositionToWrite_eq seg.clear (by
    show seg.piece.index * seg.pieceLength + 0 < 9223372036854775808
    omega)
  refine ⟨rfl, fun i => rfl, rfl, ?_, hpos.1, ?_, rfl, rfl, rfl, rfl⟩
  · rw [hpos.2, hpos.1]
    rfl
  · intro hcb
    unfold PiecedSegment.complete Piece.pieceComplete
    cases hall : (List.range seg.clear.piece.countBlock).all
        (fun i => seg.clear.piece.hasBlock i) with
    | false => rfl
    | true =>
      rw [List.all_eq_true] at hall
      have h0 := hall 0 (List.mem_range.2 hcb)
      cases h0

theorem clear_resets_segment_witness :
    (PiecedSegment.clear
      { pieceLength := 16
        piece := { index := 3, length := 10, blockLength := 4, completedBlocks := [2, 1, 0]
                   hashContext := some [1, 2, 3] }
        writtenLength := 10 }).getPositionToWrite = 48 ∧
    (PiecedSegment.clear
      { pieceLength := 16
        piece := { index := 3, length := 10, blockLength := 4, completedBlocks := [2, 1, 0]
                   hashContext := some [1, 2, 3] }
        writtenLength := 10 }).complete = false :=
  have h := clear_resets_segment
    { pieceLength := 16
      piece := { index := 3, length := 10, blockLength := 4, completedBlocks := [2, 1, 0]
                 hashContext := some [1, 2, 3] }
      writtenLength := 10 } (by decide)
  ⟨h.2.2.2.1.trans h.2.2.2.2.1, h.2.2.2.2.2.1 (by decide)⟩

/-- C25: with the digest of the piece a streaming fold over the bytes fed since
the hash context was created, for every sequence of chunks fed one after the
other through `updateHash`: `clear()` on any segment, whatever had been fed or
written to it before, followed by feeding the chunks makes `getDigest()` return
what the first pass over a segment without hash context returned, namely the
digest of the chunks joined when there is at least one. -/
theorem clear_then_refeed_reproduces_digest (digest : List Byte → String)
    (first seg : PiecedSegment) (chunks : List (List Byte))
    (h0 : first.piece.hashContext = none) :
    (seg.clear.feedAll 0 chunks).getDigest digest = (first.feedAll 0 chunks).getDigest digest ∧
    (chunks ≠ [] → (first.feedAll 0 chunks).getDigest digest = digest chunks.flatten) := by
  have h1 := feedAll_hashContext chunks seg.clear 0
  have h2 := feedAll_hashContext chunks first 0
  have hc : seg.clear.piece.hashContext = none := rfl
  rw [hc] at h1
  rw [h0] at h2
  unfold PiecedSegment.getDigest Piece.getDigest
  rw [h1, h2]
  refine ⟨rfl, ?_⟩
  intro hne
  cases chunks with
  | nil => exact absurd rfl hne
  | cons c rest => simp

theorem clear_then_refeed_reproduces_digest_witness :
    PiecedSegment.getDigest (fun fed => String.join (fed.map toString))
      (PiecedSegment.feedAll
        (PiecedSegment.clear
          { pieceLength := 16
            piece := { index := 3, length := 10, blockLength := 4, completedBlocks := [0]
                       hashContext := some [9, 9] }
            writtenLength := 4 }) 0 [[1, 2], [3]]) =
    PiecedSegment.getDigest (fun fed => String.join (fed.map toString))
      (PiecedSegment.feedAll { pieceLength := 16, piece := shortPiece, writtenLength := 0 } 0
        [[1, 2], [3]]) :=
  (clear_then_refeed_reproduces_digest (fun fed => String.join (fed.map toString))
    { pieceLength := 16, piece := shortPiece, writtenLength := 0 }
    { pieceLength := 16
      piece := { index := 3, length := 10, blockLength := 4, completedBlocks := [0]
                 hashContext := some [9, 9] }
      writtenLength := 4 } [[1, 2], [3]] rfl).1

/-- C26, as the code has it: for a segment constructed over an incomplete piece
whose first missing block is `k`, in every state reached by `updateWrittenLength`
calls that return (the running total representable in `size_t`),
`writtenLength = piece length` implies `complete()`; and when no block at or
after `k` was complete at construction, `complete()` is true if and only if
`writtenLength` equals the piece length. -/
theorem complete_agrees_with_writtenLength_from_prefix (pieceLength : Nat) (piece : Piece)
    (k : Nat) (ns : List Nat) (seg seg1 : PiecedSegment)
    (hk : piece.getFirstMissingBlockIndexWithoutLock = some k)
    (hL : piece.length < 18446744073709551616)
    (hc : PiecedSegment.construct pieceLength piece = .ok seg)
    (hu : seg.updateAll ns = (.ok (), seg1))
    (hrep : seg.writtenLength + ns.sum < 18446744073709551616) :
    (seg1.writtenLength = seg1.piece.length → seg1.complete = true) ∧
    ((∀ i ∈ piece.completedBlocks, i < k) →
      (seg1.complete = true ↔ seg1.writtenLength = seg1.piece.length)) := by
  obtain ⟨hlt, _, hall⟩ := firstMissing_spec piece k hk
  obtain ⟨hb, hl, hkb⟩ := block_start_lt piece k hlt
  have hmod : (k * piece.blockLength) % 18446744073709551616 = k * piece.blockLength :=
    Nat.mod_eq_of_lt (by omega)
  have hseg : seg = { pieceLength := pieceLength, piece := piece
                      writtenLength := k * piece.blockLength } := by
    unfold PiecedSegment.construct at hc
    rw [hk] at hc
    have hc1 := Except.ok.inj hc
    rw [← hc1, hmod]
  subst hseg
  have hdiv : k * piece.blockLength / piece.blockLength = k := Nat.mul_div_cancel k hb
  have hpd : PiecedSegment.PrefixDone
      { pieceLength := pieceLength, piece := piece, writtenLength := k * piece.blockLength } := by
    refine ⟨Nat.le_of_lt hkb, ?_, ?_⟩
    · intro i hi
      exact hall i (by
        have hi1 : i < k * piece.blockLength / piece.blockLength := hi
        rw [hdiv] at hi1
        exact hi1)
    · intro he
      have he1 : k * piece.blockLength = piece.length := he
      omega
  have hstep := updateAll_induct
    (fun s => (s.PrefixDone ∧ 0 < s.piece.length) ∧ 0 < s.piece.blockLength ∧
      s.piece.length < 18446744073709551616 ∧
      ((∀ i ∈ piece.completedBlocks, i < k) → s.InStep))
    (by
      intro s s1 n hp h hr
      obtain ⟨r1, _, _, _, r5, r6, _⟩ := updateWrittenLength_returns s s1 n h
      have hmod1 : (s.writtenLength + n) % 18446744073709551616 = s.writtenLength + n :=
        Nat.mod_eq_of_lt hr
      rw [hmod1] at r1
      refine ⟨prefixDone_update s s1 n hp.1 h hr, by rw [r6]; exact hp.2.1,
        by rw [r5]; exact hp.2.2.1, ?_⟩
      intro hpre
      exact inStep_update s s1 n (hp.2.2.2 hpre) hp.2.1 hp.1.2 hp.2.2.1 r1 h)
    ns _ seg1
    ⟨⟨hpd, hl⟩, hb, hL, by
      intro hpre
      refine ⟨Nat.le_of_lt hkb, ?_⟩
      intro i
      show i ∈ piece.completedBlocks ↔
        (i < k * piece.blockLength / piece.blockLength ∨
          (k * piece.blockLength = piece.length ∧ i = piece.countBlock - 1))
      rw [hdiv]
      constructor
      · intro hi
        exact Or.inl (hpre i hi)
      · rintro (hi | hi)
        · exact hall i hi
        · omega⟩
    hu hrep
  obtain ⟨⟨⟨g1, g2⟩, g3, _, g5⟩, _⟩ := hstep
  refine ⟨fun h => prefixDone_complete seg1 g1 g3 g2 h, ?_⟩
  intro hpre
  exact inStep_complete_iff seg1 (g5 hpre) g3 g2

theorem complete_agrees_with_writtenLength_from_prefix_witness :
    ((PiecedSegment.updateAll { pieceLength := 16, piece := resumedPiece, writtenLength := 4 }
        [2, 4]).2.writtenLength =
      (PiecedSegment.updateAll { pieceLength := 16, piece := resumedPiece, writtenLength := 4 }
        [2, 4]).2.piece.length →
      (PiecedSegment.updateAll { pieceLength := 16, piece := resumedPiece, writtenLength := 4 }
        [2, 4]).2.complete = true) ∧
    ((∀ i ∈ resumedPiece.completedBlocks, i < 1) →
      ((PiecedSegment.updateAll { pieceLength := 16, piece := resumedPiece, writtenLength := 4 }
          [2, 4]).2.complete = true ↔
        (PiecedSegment.updateAll { pieceLength := 16, piece := resumedPiece, writtenLength := 4 }
          [2, 4]).2.writtenLength =
        (PiecedSegment.updateAll { pieceLength := 16, piece := resumedPiece, writtenLength := 4 }
          [2, 4]).2.piece.length)) :=
  complete_agrees_with_writtenLength_from_prefix 16 resumedPiece 1 [2, 4]
    { pieceLength := 16, piece := resumedPiece, writtenLength := 4 }
    (PiecedSegment.updateAll { pieceLength := 16, piece := resumedPiece, writtenLength := 4 }
      [2, 4]).2
    (by decide) (by decide) (by decide) (by decide) (by decide)

/-- C26 fails over a piece with blocks complete after its first missing block:
over the 10-byte piece in blocks of 4 with blocks 1 and 2 complete, the segment
starts at `writtenLength = 0`, and after `updateWrittenLength(4)` `complete()` is
true while `writtenLength` is 4, not the piece length 10. -/
theorem complete_before_writtenLength_reaches_length :
    ∃ seg seg1, PiecedSegment.construct 16 holedPiece = .ok seg ∧
      seg.writtenLength = 0 ∧
      seg.updateWrittenLength 4 = (.ok (), seg1) ∧
      seg1.complete = true ∧ seg1.writtenLength = 4 ∧ seg1.piece.length = 10 ∧
      ¬ (seg1.complete = true ↔ seg1.writtenLength = seg1.piece.length) :=
  ⟨{ pieceLength := 16, piece := holedPiece, writtenLength := 0 },
    (PiecedSegment.updateWrittenLength
      { pieceLength := 16, piece := holedPiece, writtenLength := 0 } 4).2,
    by decide, rfl, by decide, by decide, by decide, by decide, by decide⟩

/-- C27, as the code has it, over a range whose file entries are all requested:
for the empty range `writeFilePath` writes `n/a`; otherwise it writes `n/a` when
the path of the first entry is empty, `[MEMORY]` and the basename of that path
when `memory` is true, and the path otherwise, and when the range holds more than
one file entry it appends a blank and `(Nmore)`, `N` being the number of entries
of the range minus 1. -/
theorem writeFilePath_of_requested_range (getBasename : String → String)
    (files : List FileEntry) (memory : Bool) (hall : ∀ e ∈ files, e.requested = true) :
    writeFilePath getBasename files memory =
      match files with
      | [] => "n/a"
      | e :: _ =>
        (if e.path = "" then "n/a"
          else if memory then "[MEMORY]" ++ getBasename e.path
          else e.path) ++
        (if files.length > 1 then " (" ++ toString (files.length - 1) ++ "more)" else "") := by
  have hcount : countRequestedFileEntry files = files.length := by
    unfold countRequestedFileEntry
    rw [countRequested_foldl files 0 hall]
    omega
  cases files with
  | nil => rfl
  | cons e rest =>
    have he : e.requested = true := hall e (List.mem_cons_self _ _)
    unfold writeFilePath
    rw [hcount]
    simp only [getFirstRequestedFileEntry, he, if_true]

theorem writeFilePath_of_requested_range_witness :
    writeFilePath basenameOf
      [{ path := "dir/a.iso", length := 10, offset := 0, requested := true },
        { path := "dir/b.iso", length := 5, offset := 10, requested := true },
        { path := "dir/c.iso", length := 5, offset := 15, requested := true }] true =
      "[MEMORY]a.iso (2more)" :=
  (writeFilePath_of_requested_range basenameOf
    [{ path := "dir/a.iso", length := 10, offset := 0, requested := true },
      { path := "dir/b.iso", length := 5, offset := 10, requested := true },
      { path := "dir/c.iso", length := 5, offset := 15, requested := true }] true
    (by decide)).trans (by decide)

/-- C27 fails where the code goes its own way by design: a range whose only file
entry has an empty path gets `n/a` and not the empty file name, with or without
`memory`, and the count is set off by a blank, `a (1more)`, not appended as
`a(1more)`. -/
theorem writeFilePath_empty_path_and_blank :
    writeFilePath basenameOf [{ path := "", length := 1, offset := 0, requested := true }]
      false = "n/a" ∧
    writeFilePathDoc basenameOf [{ path := "", length := 1, offset := 0, requested := true }]
      false = "" ∧
    writeFilePath basenameOf [{ path := "", length := 1, offset := 0, requested := true }]
      true = "n/a" ∧
    writeFilePathDoc basenameOf [{ path := "", length := 1, offset := 0, requested := true }]
      true = "[MEMORY]" ∧
    writeFilePath basenameOf
      [{ path := "a", length := 1, offset := 0, requested := true },
        { path := "b", length := 1, offset := 1, requested := true }] false = "a (1more)" ∧
    writeFilePathDoc basenameOf
      [{ path := "a", length := 1, offset := 0, requested := true },
        { path := "b", length := 1, offset := 1, requested := true }] false = "a(1more)" := by
  decide

/-- C28 fails on the code: with the single spent URI `http://host/file`, no
recorded result and `_numConcurrentCommand = 1`, one URI is reusable, and the
reuse block leaves `_uris` empty, because `ininum < _numConcurrentCommand` does
not hold; the same with two reusable URIs and `_numConcurrentCommand = 2`.  With
`_numConcurrentCommand = 3` the one URI is repeated three times. -/
theorem reuse_block_leaves_uris_empty :
    reusableURIs ["http://host/file"] [] = ["http://host/file"] ∧
    reuseUris true [] ["http://host/file"] [] 1 = [] ∧
    reusableURIs ["http://b/f", "http://a/f", "http://b/f", "http://c/f"] ["http://c/f"] =
      ["http://a/f", "http://b/f"] ∧
    reuseUris true [] ["http://b/f", "http://a/f", "http://b/f", "http://c/f"] ["http://c/f"] 2 =
      [] ∧
    reuseUris true [] ["http://host/file"] [] 3 =
      ["http://host/file", "http://host/file", "http://host/file"] := by
  decide

/-- C29 fails on the code: over one file with `maxOpenFiles = 1`, after
`openIfNot`, `closeFile` the entry is closed and still held in the cache; the
next `openIfNot` on it returns normally, whatever the randomizer yields, with the
entry closed: the open has been performed and the eviction has closed the entry
itself, the only one in the cache. -/
theorem reopened_entry_closed_by_own_eviction : ∀ r : Nat → Nat,
    (performCalls { oneFileCapOne with randomizer := r }
      [.openIfNot 0 .openFile, .closeFile]).openedDiskWriterEntries = [0] ∧
    isOpenAt (performCalls { oneFileCapOne with randomizer := r }
      [.openIfNot 0 .openFile, .closeFile]) 0 = false ∧
    (openIfNot (performCalls { oneFileCapOne with randomizer := r }
        [.openIfNot 0 .openFile, .closeFile]) 0 .openFile).1 = .ok () ∧
    isOpenAt (openIfNot (performCalls { oneFileCapOne with randomizer := r }
        [.openIfNot 0 .openFile, .closeFile]) 0 .openFile).2 0 = false ∧
    (openIfNot (performCalls { oneFileCapOne with randomizer := r }
        [.openIfNot 0 .openFile, .closeFile]) 0 .openFile).2.ioLog =
      [.opened 0, .closed 0, .opened 0, .closed 0] := by
  intro r
  simp [oneFileCapOne, exampleAdaptor, exampleEntry, performCalls, performCall, openIfNot,
    openIfNotOpen, openIfNotCache, closeFile, closeFileLoop, closeEntry, DiskWriterEntry.open,
    DiskWriterEntry.closeFile, getRandomNumber, isOpenAt, Nat.mod_one]

/-- C30: in every storage reached from the empty one by `getPeerAnnounceEntry`,
`addPeerAnnounce` and `handleTimeout` calls on 20-byte info hashes, `entries_` is
strictly ascending by `InfoHashLess`, so no two entries hold the same info hash;
`contains(h)` is true exactly when an entry for `h` is stored;
`getPeerAnnounceEntry(h)` returns a handle to an entry for `h`, leaves the
storage as it is when `h` was stored, and a second `getPeerAnnounceEntry(h)`
returns the same handle and leaves the list as the first call left it. -/
theorem entries_strictly_ascending_by_info_hash (s : DHTPeerAnnounceStorage)
    (hr : s.Reachable) :
    (∀ (i j : Nat) (a b : DHTPeerAnnounceEntry), i < j → s.entries[i]? = some a →
      s.entries[j]? = some b → InfoHashLess a b = true) ∧
    (∀ (i j : Nat) (a b : DHTPeerAnnounceEntry), s.entries[i]? = some a →
      s.entries[j]? = some b → a.infoHash = b.infoHash → i = j) ∧
    (∀ e ∈ s.entries, e.infoHash.length = DHT_ID_LENGTH) ∧
    (∀ h : List Byte, h.length = DHT_ID_LENGTH →
      (s.contains h = true ↔ ∃ e ∈ s.entries, e.infoHash = h)) ∧
    (∀ h : List Byte, h.length = DHT_ID_LENGTH →
      (∃ e, (s.getPeerAnnounceEntry h).2.entries[(s.getPeerAnnounceEntry h).1]? = some e ∧
        e.infoHash = h) ∧
      ((∃ e ∈ s.entries, e.infoHash = h) → (s.getPeerAnnounceEntry h).2 = s) ∧
      (s.getPeerAnnounceEntry h).2.getPeerAnnounceEntry h = s.getPeerAnnounceEntry h) := by
  have hs := reachable_ascending s hr
  have hirr : ∀ (i j : Nat) (a b : DHTPeerAnnounceEntry), i < j → s.entries[i]? = some a →
      s.entries[j]? = some b → a.infoHash ≠ b.infoHash := by
    intro i j a b hij ha hb heq
    have hlt := ascending_getElem s.entries hs i j a b hij ha hb
    rw [heq, memcmp_self] at hlt
    exact absurd hlt (by decide)
  refine ⟨?_, ?_, fun e he => ascending_length s.entries hs e he,
    fun h hl => contains_iff s hs h hl, ?_⟩
  · intro i j a b hij ha hb
    exact (infoHashLess_iff a b).2 (ascending_getElem s.entries hs i j a b hij ha hb)
  · intro i j a b ha hb heq
    by_contra hne
    rcases Nat.lt_or_gt_of_ne hne with hlt | hgt
    · exact hirr i j a b hlt ha hb heq
    · exact hirr j i b a hgt hb ha heq.symm
  · intro h hl
    obtain ⟨h1, ⟨e, he, heq⟩, h3⟩ := getPeerAnnounceEntry_spec s hs h hl
    refine ⟨⟨e, he, heq⟩, h3, ?_⟩
    have hc := create_infoHash h hl
    have hlb := lowerBound_of_entry (s.getPeerAnnounceEntry h).2.entries
      (DHTPeerAnnounceEntry.create h) h1 _ e he (by rw [hc]; exact heq)
    have hz : memcmp h e.infoHash DHT_ID_LENGTH = 0 := by
      rw [heq]
      exact memcmp_self _ _
    generalize s.getPeerAnnounceEntry h = r at he hlb ⊢
    unfold DHTPeerAnnounceStorage.getPeerAnnounceEntry
    simp only
    rw [hlb, he]
    simp only [hz, if_true]

theorem entries_strictly_ascending_by_info_hash_witness :
    threeAnnounces.Reachable ∧
    (threeAnnounces.contains (hashEnding 7) = true ↔
      ∃ e ∈ threeAnnounces.entries, e.infoHash = hashEnding 7) ∧
    (threeAnnounces.getPeerAnnounceEntry (hashEnding 7)).2 = threeAnnounces :=
  have hr : threeAnnounces.Reachable :=
    DHTPeerAnnounceStorage.Reachable.addPeerAnnounce _ (hashEnding 7) "10.0.0.3" 6881 2
      (DHTPeerAnnounceStorage.Reachable.addPeerAnnounce _ (hashEnding 3) "10.0.0.2" 6881 1
        (DHTPeerAnnounceStorage.Reachable.addPeerAnnounce _ (hashEnding 7) "10.0.0.1" 6881 0
          DHTPeerAnnounceStorage.Reachable.empty (by decide))
        (by decide))
      (by decide)
  ⟨hr, (entries_strictly_ascending_by_info_hash threeAnnounces hr).2.2.2.1 (hashEnding 7)
      (by decide),
    ((entries_strictly_ascending_by_info_hash threeAnnounces hr).2.2.2.2 (hashEnding 7)
      (by decide)).2.1
      ⟨threeAnnounces.entries.getD 1 (DHTPeerAnnounceEntry.create []), by decide, by decide⟩⟩

end aria2
